import Mathlib

/-!
# LogMMSE noise reduction (`dsp/utils/logmmse.h`, `dsp/utils/arrays.h`)

A shallow embedding of the streaming LogMMSE engine of SDR++.

* `float` values are modelled by an arbitrary linearly ordered field `α` (exact arithmetic);
  the definitions are computable and are run over `ℚ`, and they are read over `ℝ` with the
  genuine transcendental functions where a statement is about those.
* `int` values are `Int`, `size_t` values are `Nat`.
* `std::shared_ptr<std::vector<T>>` is a `List T`.  No vector that is mutated in place
  (`sums`, `noise_mu2`, the magnitude frame during zero repair) is aliased at the time of the
  mutation, so value semantics is faithful.
* Anything that ends the C++ program abnormally (`abort()`, the `std::out_of_range` of
  `vector::at`, an allocation of negative size, an integer division by zero, a raw access past
  the end of a buffer) is `none`.
* The functions of external libraries (FFTW, libm, the exponential integral behind
  `scipyspecialexpn`) are the fields of a `Backend`.
* Timing statistics and console output are not modelled.
-/

set_option autoImplicit false
set_option linter.unusedSectionVars false

namespace dsp

/-! ## `dsp::complex_t` -/

/-- Modelled from the spec: `dsp::complex_t` of `dsp/types.h`, which is not part of the sources at
hand; a pair of floats `re`, `im` with the usual sum and product. -/
@[ext]
structure complex_t (α : Type) where
  re : α
  im : α

namespace complex_t

variable {α : Type} [LinearOrderedField α]

/-- The complex number `0 + 0i`, written `dsp::complex_t{0.0f, 0.0f}` in the source. -/
def zero : complex_t α := ⟨0, 0⟩

/-- Modelled from the spec: `operator+` of `dsp::complex_t`, componentwise. -/
def add (a b : complex_t α) : complex_t α := ⟨a.re + b.re, a.im + b.im⟩

/-- Modelled from the spec: `operator*` of `dsp::complex_t`, the complex product. -/
def mul (a b : complex_t α) : complex_t α :=
  ⟨a.re * b.re - a.im * b.im, a.im * b.re + a.re * b.im⟩

/-- Modelled from the spec: `operator/` of `dsp::complex_t` by a float, componentwise. -/
def divf (a : complex_t α) (e : α) : complex_t α := ⟨a.re / e, a.im / e⟩

end complex_t

/-! ## External numeric routines -/

/-- The numeric routines that the engine takes from outside the repository sources:
`fftwf_execute` on a plan of the given direction (the transform size is the length of the plan's
input buffer), `complex_t::amplitude`, `dsp::math::expn` (the exponential integral `E1`), and the
libm functions `exp`, `cos`, `pow` with the constant `M_PI`. -/
structure Backend (α : Type) where
  fftwf_execute : Bool → List (complex_t α) → List (complex_t α)
  amplitude : complex_t α → α
  expn : α → α
  exp : α → α
  cos : α → α
  pi : α
  pow : α → α → α

/-- What every proof below may use about the external routines: a transform returns as many bins
as it was given and maps silence to silence, a magnitude is non-negative and the magnitude of zero
is zero, and `exp` is positive. -/
structure Backend.Lawful {α : Type} [LinearOrderedField α] (B : Backend α) : Prop where
  fft_length : ∀ (r : Bool) (v : List (complex_t α)), (B.fftwf_execute r v).length = v.length
  fft_zero : ∀ (r : Bool) (n : Nat),
    B.fftwf_execute r (List.replicate n complex_t.zero) = List.replicate n complex_t.zero
  amplitude_nonneg : ∀ z : complex_t α, 0 ≤ B.amplitude z
  amplitude_zero : B.amplitude complex_t.zero = 0
  exp_pos : ∀ x : α, 0 < B.exp x

namespace arrays

variable {α : Type} [LinearOrderedField α]

/-- Source `nphanning`: the Hann window of `len` points. -/
def nphanning (B : Backend α) (len : Int) : List α :=
  (List.range len.toNat).map
    (fun (i : Nat) => 1 / 2 - 1 / 2 * B.cos (2 * B.pi * ((i : Nat) : α) / (((len - 1 : Int) : α))))

/-- Source `npsum`. -/
def npsum (v : List α) : α := v.foldl (fun f d => f + d) 0

/-- Source `mul`: every entry times `e`. -/
def mul (v : List α) (e : α) : List α := v.map (fun d => d * e)

/-- Source `add`: every entry plus `e`. -/
def add (v : List α) (e : α) : List α := v.map (fun d => d + e)

/-- Source `addeach` on floats: `v->at(q) + w->at(q)` for `q < v->size()`. -/
def addeach (v w : List α) : Option (List α) :=
  if v.length ≤ w.length then some (List.zipWith (fun a b => a + b) v w) else none

/-- Source `addeach` on complex vectors. -/
def addeach_c (v w : List (complex_t α)) : Option (List (complex_t α)) :=
  if v.length ≤ w.length then some (List.zipWith complex_t.add v w) else none

/-- Modelled from the spec: `subeach`, used by `add_noise_history` and absent from `arrays.h`;
the elementwise difference, shaped like `addeach` ("`sums -= frame_evicted`",
"`dev = (frame − mean)²`"). -/
def subeach (v w : List α) : Option (List α) :=
  if v.length ≤ w.length then some (List.zipWith (fun a b => a - b) v w) else none

/-- The product of one pair of entries in source `muleach`, with its underflow guard. -/
def muleach_entry (vv ww : α) : α :=
  if vv * ww = 0 ∧ vv ≠ 0 ∧ ww ≠ 0 then 1175494351 / 10 ^ 46 else vv * ww

/-- Source `muleach` on floats. -/
def muleach (v w : List α) : Option (List α) :=
  if v.length ≤ w.length then some (List.zipWith muleach_entry v w) else none

/-- Source `muleach` of a float vector with a complex vector. -/
def muleach_c (v : List α) (w : List (complex_t α)) : Option (List (complex_t α)) :=
  if v.length ≤ w.length then
    some (List.zipWith (fun a b => complex_t.mul ⟨a, 0⟩ b) v w)
  else none

/-- Source `diveach`; a float division does not trap.  By a zero divisor the float quotient is
`inf` or NaN, which the field quotient `x / 0 = 0` does not represent: the value of a quotient by
a zero divisor stands for nothing in the program. -/
def diveach (v w : List α) : Option (List α) :=
  if v.length ≤ w.length then some (List.zipWith (fun a b => a / b) v w) else none

/-- Source `npall`: `true` exactly when no entry is zero. -/
def npall (v : List α) : Bool :=
  let countZeros : Nat := v.foldl (fun c d => if d = 0 then c + 1 else c) 0
  if countZeros ≠ 0 then false else true

/-- Source `div` of a float vector by a float. -/
def div (v : List α) (e : α) : List α := v.map (fun d => d / e)

/-- Source `div` of a complex vector by a float. -/
def div_c (v : List (complex_t α)) (val : α) : List (complex_t α) :=
  v.map (fun d => complex_t.divf d val)

/-- Source `npminimum`. -/
def npminimum (v : List α) (lim : α) : List α := v.map (fun d => if d < lim then d else lim)

/-- Source `npmaximum`. -/
def npmaximum (v : List α) (lim : α) : List α := v.map (fun d => if d > lim then d else lim)

/-- Modelled from the spec: `npminimum_`, used by `logmmse_all` and absent from `arrays.h`;
the entrywise minimum with a limit ("`γ[k] = min(σ[k]² / λ_d[k], 40)`"), as `npminimum`. -/
def npminimum_ (v : List α) (lim : α) : List α := npminimum v lim

/-- Modelled from the spec: `npmaximum_`, used by `logmmse_all` and absent from `arrays.h`;
the entrywise maximum with a limit ("`max(γ[k]−1, 0)`"), as `npmaximum`. -/
def npmaximum_ (v : List α) (lim : α) : List α := npmaximum v lim

/-- Source `nparange` on complex vectors: the entries `begin ≤ i < end`, read with `at`. -/
def nparange_c (v : List (complex_t α)) (b e : Int) : Option (List (complex_t α)) :=
  if e ≤ b then some []
  else if 0 ≤ b ∧ e ≤ (v.length : Int) then some ((v.drop b.toNat).take (e - b).toNat)
  else none

/-- Source `nparangeset` on complex vectors: `(*v)[begin + i] = part->at(i)`, unchecked. -/
def nparangeset_c (v : List (complex_t α)) (b : Int) (part : List (complex_t α)) :
    Option (List (complex_t α)) :=
  if part.length = 0 then some v
  else if 0 ≤ b ∧ b + (part.length : Int) ≤ (v.length : Int) then
    some (v.take b.toNat ++ part ++ v.drop (b.toNat + part.length))
  else none

/-- Source `npexp`. -/
def npexp (B : Backend α) (v : List α) : List α := v.map B.exp

/-- One round of the loop of source `npmavg`, at index `ix`, on the running sum, the running
count and the output built so far. -/
def npmavg_step (v : List α) (windowSize : Int) (st : α × Int × List α) (ix : Nat) :
    Option (α × Int × List α) :=
  let ws2 := windowSize.tdiv 2
  let sum := st.1
  let count := st.2.1
  let retval := st.2.2
  let sum1 := if ix < v.length then sum + v.getD ix 0 else sum
  let count1 := if ix < v.length then count + 1 else count
  let count2 := if (ix : Int) > windowSize then count1 - 1 else count1
  let idx : Int := (ix : Int) - count2
  if (ix : Int) > windowSize ∧ ¬ (0 ≤ idx ∧ idx < (v.length : Int)) then none
  else
    let sum2 := if (ix : Int) > windowSize then sum1 - v.getD idx.toNat 0 else sum1
    let retval1 := if (ix : Int) ≥ ws2 then retval ++ [sum2 / (count2 : α)] else retval
    some (sum2, count2, retval1)

/-- Source `npmavg` ("only even window sizes"): the moving average, `abort()` when the result
has another length than the input; in exact arithmetic (`npmavg_fl` rounds the running sum). -/
def npmavg (v : List α) (windowSize : Int) : Option (List α) :=
  ((List.range ((v.length : Int) + windowSize.tdiv 2).toNat).foldlM
      (npmavg_step v windowSize) ((0 : α), (0 : Int), ([] : List α))).bind
    (fun st => if st.2.2.length ≠ v.length then none else some st.2.2)

/-- Source `npzeros`. -/
def npzeros (size : Int) : List α := List.replicate size.toNat 0

/-- Source `npzeros_c`. -/
def npzeros_c (size : Int) : List (complex_t α) := List.replicate size.toNat complex_t.zero

/-- Source `resize`: cut or zero-pad to `nsize` entries. -/
def resize (inp : List (complex_t α)) (nsize : Int) : List (complex_t α) :=
  if (inp.length : Int) = nsize then inp
  else if nsize < 0 then inp
  else inp.take nsize.toNat ++ List.replicate (nsize.toNat - inp.length) complex_t.zero

/-- Source `scipyspecialexpn`. -/
def scipyspecialexpn (B : Backend α) (inp : List α) : List α := inp.map B.expn

/-- Source `npabsolute`. -/
def npabsolute (B : Backend α) (inp : List (complex_t α)) : List α := inp.map B.amplitude

/-- Source `fftwPlan`: the transform size and direction (the FFTW handle and the two buffers of
`nbuckets` entries are not kept). -/
structure fftwPlan where
  nbuckets : Int
  reverse : Bool

/-- Source `allocateFFTWPlan`; a negative size cannot be allocated. -/
def allocateFFTWPlan (backward : Bool) (buckets : Int) : Option fftwPlan :=
  if buckets < 0 then none else some ⟨buckets, backward⟩

/-- Source `npfftfft`: the transform of the input resized to the plan, normalised by the number
of buckets on a reverse plan. -/
def npfftfft (B : Backend α) (inp : List (complex_t α)) (plan : fftwPlan) :
    List (complex_t α) :=
  let in0 := resize inp plan.nbuckets
  let out0 := B.fftwf_execute plan.reverse in0
  if plan.reverse then div_c out0 ((plan.nbuckets : Int) : α) else out0

end arrays

/-! ## External vector kernels (VOLK, Highway) -/

namespace logmmse

open arrays

variable {α : Type} [LinearOrderedField α]

/-- The VOLK kernel `volk_32f_x2_add_32f(c, a, b, n)` called with `c = a`: the first `n` entries
of `a` become `a[i] + b[i]`; both buffers must hold `n` entries. -/
def volk_32f_x2_add_32f (a b : List α) (n : Int) : Option (List α) :=
  if 0 ≤ n ∧ n ≤ (a.length : Int) ∧ n ≤ (b.length : Int) then
    some (List.zipWith (fun x y => x + y) (a.take n.toNat) b ++ a.drop n.toNat)
  else none

/-- The VOLK kernel `volk_32f_x2_subtract_32f(c, a, b, n)` called with `c = a`. -/
def volk_32f_x2_subtract_32f (a b : List α) (n : Int) : Option (List α) :=
  if 0 ≤ n ∧ n ≤ (a.length : Int) ∧ n ≤ (b.length : Int) then
    some (List.zipWith (fun x y => x - y) (a.take n.toNat) b ++ a.drop n.toNat)
  else none

/-- The Highway call `hwy::Sorter()(data, n, hwy::SortAscending())`: the entries in ascending
order. -/
def hwy_sort_ascending (v : List α) : List α := v.insertionSort (fun a b => a ≤ b)

/-! ## `LogMMSE::SavedParamsC` -/

/-- Source `struct SavedParamsC`, the state of one noise-reduction session. -/
structure SavedParamsC (α : Type) where
  noise_history : List (List α)
  dev_history : List (List α)
  sums : List α
  devs : List α
  Xn_prev : List (complex_t α)
  noise_mu2 : List α
  Xk_prev : List α
  x_old : List (complex_t α)
  Slen : Int
  PERC : Int
  len1 : Int
  len2 : Int
  win : List α
  nFFT : Int
  forwardPlan : fftwPlan
  reversePlan : fftwPlan
  aa : α
  mu : α
  ksi_min : α
  hold : Bool
  generation : Int
  mindb : α
  maxdb : α
  stable : Bool

namespace SavedParamsC

/-- Source `noise_history_len`. -/
def noise_history_len (p : SavedParamsC α) : Int :=
  if p.nFFT < 1000 then 2000 else 200

/-- Source `reset`; a `shared_ptr` that was `reset()` is the empty vector here. -/
def reset (p : SavedParamsC α) : SavedParamsC α :=
  { p with Xk_prev := [], Xn_prev := [], noise_mu2 := [], x_old := [], generation := 0,
           stable := false }

/-- The two `while (history.size() > noise_history_len())` loops of `add_noise_history`: as long
as the history is longer than `H`, subtract its front frame from the running sum with `sub` and
erase that frame. -/
def evict_loop (sub : List α → List α → Option (List α)) (H : Int) :
    List (List α) → List α → Option (List (List α) × List α)
  | [], s => some ([], s)
  | f :: rest, s =>
    if ((f :: rest).length : Int) > H then (sub s f).bind (fun s1 => evict_loop sub H rest s1)
    else some (f :: rest, s)

/-- Source `add_noise_history`. -/
def add_noise_history (p : SavedParamsC α) (noise : List α) : Option (SavedParamsC α) :=
  if (noise.length : Int) ≠ p.nFFT then none
  else
    (volk_32f_x2_add_32f p.sums noise p.nFFT).bind fun sums1 =>
    (evict_loop (fun s f => volk_32f_x2_subtract_32f s f p.nFFT) p.noise_history_len
        (p.noise_history ++ [noise]) sums1).bind fun hs =>
    let noiseAvg := div hs.2 ((hs.1.length : Nat) : α)
    (subeach noise noiseAvg).bind fun diff0 =>
    (muleach diff0 diff0).bind fun diff =>
    (addeach p.devs diff).bind fun devs1 =>
    (evict_loop subeach p.noise_history_len (p.dev_history ++ [diff]) devs1).bind fun ds =>
    some { p with noise_history := hs.1, sums := hs.2, dev_history := ds.1, devs := ds.2 }

/-- The audio-regime candidate of `update_noise_mu2`: the per-bin mean of the last `nlower = 12`
frames, squared (the vector `lower`, then `tnm`). -/
def audio_candidate (p : SavedParamsC α) : Option (List α) :=
  if p.nFFT < 0 then none
  else
    (((p.noise_history.drop (p.noise_history.length - 12)).foldlM
      (fun (lower : List α) (nhFrame : List α) =>
        if p.nFFT ≤ (nhFrame.length : Int) then
          some (List.zipWith (fun l x => l + x) lower nhFrame)
        else none)
      (List.replicate p.nFFT.toNat (0 : α))).map
    (fun lower => lower.map (fun l => (l / 12) * (l / 12))))

/-- The gap filling of the wide regime: the bins strictly between `lastV` and `q` get the
running value `noise_mu2[lastV] + d + d + ...` with `d = (val - noise_mu2[lastV]) / (q - lastV)`. -/
def fill_gap (mu2 : List α) (lastV q : Int) (val : α) : List α :=
  let d := (val - mu2.getD lastV.toNat 0) / (((q - lastV : Int)) : α)
  ((List.range (q - lastV - 1).toNat).foldl
    (fun (st : α × List α) (i : Nat) =>
      let running := st.1 + d
      (running, st.2.set (lastV.toNat + 1 + i) running))
    (mu2.getD lastV.toNat 0, mu2)).2

/-- One round of the scan `for (int q = 0; q < nFFT; q++)` of the wide regime, on
`(firstV, lastV, countZeros, noise_mu2)`. -/
def scan_step (st : Int × Int × Int × List α) (q : Nat) : Int × Int × Int × List α :=
  let firstV := st.1
  let lastV := st.2.1
  let countZeros := st.2.2.1
  let mu2 := st.2.2.2
  let val := mu2.getD q 0
  let firstV1 := if firstV < 0 ∧ val ≠ 0 then (q : Int) else firstV
  if val ≠ 0 then
    let mu2a := if lastV ≠ -1 ∧ (q : Int) - lastV > 1 then fill_gap mu2 lastV q val else mu2
    (firstV1, (q : Int), countZeros, mu2a)
  else (firstV1, lastV, countZeros + 1, mu2)

/-- The two closing loops of the wide regime: the bins below `firstV` take the value at
`firstV`, the bins above `lastV` (up to `noise_mu2->size()`) take the value at `lastV`. -/
def extend_edges (mu2 : List α) (firstV lastV : Int) : List α :=
  let m1 := (List.range firstV.toNat).foldl
    (fun (m : List α) (i : Nat) => m.set (firstV.toNat - 1 - i) (m.getD firstV.toNat 0)) mu2
  (List.range (m1.length - (lastV.toNat + 1))).foldl
    (fun (m : List α) (i : Nat) => m.set (lastV.toNat + 1 + i) (m.getD lastV.toNat 0)) m1

/-- The wide-regime branch of `update_noise_mu2` (`nFFT >= 1200`).  The raw buffers `sums`,
`devs` and `noise_mu2` are read and written over `nFFT` entries. -/
def update_wide (p : SavedParamsC α) : Option (SavedParamsC α) :=
  if ¬ (0 ≤ p.nFFT ∧ p.nFFT ≤ (p.noise_mu2.length : Int) ∧ p.nFFT ≤ (p.sums.length : Int)
      ∧ p.nFFT ≤ (p.devs.length : Int)) then none
  else
    let nframes : Nat := p.noise_history.length
    let n : Nat := p.nFFT.toNat
    let noise_mu2_copy := p.noise_mu2
    let noiseAvg := mul p.sums (1 / (nframes : α))
    let hi := mul p.devs (1 / (nframes : α))
    (muleach hi hi).bind fun devSquare0 =>
    let devSquare := (List.range devSquare0.length).map (fun z =>
      if z < n ∧ |((z : Int) - p.nFFT.tdiv 2)| < (p.nFFT * 15).tdiv 100 then (1000000 : α)
      else devSquare0.getD z 0)
    let mu2zero := List.replicate n (0 : α) ++ p.noise_mu2.drop n
    let devs := devSquare.take n
    let sorted := hwy_sort_ascending devs
    let acceptible_stdev := sorted.getD (p.nFFT.tdiv 10).toNat 0 * (12 / 10)
    let mu2sel := (List.range n).foldl
      (fun (m : List α) (q : Nat) =>
        if devs.getD q 0 < acceptible_stdev then m.set q (noiseAvg.getD q 0 * noiseAvg.getD q 0)
        else m) mu2zero
    let st := (List.range n).foldl scan_step ((-1 : Int), (-1 : Int), (0 : Int), mu2sel)
    let firstV := st.1
    let lastV := st.2.1
    if firstV < 0 ∨ lastV < 0 then some { p with noise_mu2 := noise_mu2_copy }
    else some { p with noise_mu2 := extend_edges st.2.2.2 firstV lastV }

/-- The audio-regime branch of `update_noise_mu2` (`nFFT < 1200`). -/
def update_audio (p : SavedParamsC α) : Option (SavedParamsC α) :=
  (if p.generation > 0 then
    (audio_candidate p).bind fun tnm =>
    (npmavg tnm 6).bind fun tnoise_mu2 =>
    tnoise_mu2.min?.bind fun tmindb =>
    tnoise_mu2.max?.bind fun tmaxdb =>
    if tmindb + tmaxdb < p.mindb + p.maxdb then
      some { p with mindb := tmindb, maxdb := tmaxdb, noise_mu2 := tnm, stable := true }
    else some p
  else some p).bind fun p1 =>
  (if ¬ p1.stable then
    if p1.generation = 0 then
      (npmavg p1.noise_mu2 6).bind fun tnoise_mu2 =>
      tnoise_mu2.min?.bind fun mn =>
      tnoise_mu2.max?.bind fun mx =>
      some { p1 with mindb := mn, maxdb := mx }
    else some p1
  else some p1).bind fun p2 =>
  some { p2 with generation := p2.generation + 1 }

/-- Source `update_noise_mu2`. -/
def update_noise_mu2 (p : SavedParamsC α) : Option (SavedParamsC α) :=
  let nframes : Nat := p.noise_history.length
  let audioFrequency : Bool := decide (p.nFFT < 1200)
  if nframes > 100 ∧ ¬ p.hold then
    if audioFrequency then update_audio p else update_wide p
  else some p

end SavedParamsC

/-! ## `LogMMSE::logmmse_sample` and `LogMMSE::logmmse_all` -/

/-- One round of the bootstrap loop of `logmmse_sample`, for the block starting at
`j = i * Slen`, on the session and the running `noise_mean`. -/
def sample_frame (B : Backend α) (x : List (complex_t α)) (st : SavedParamsC α × List α)
    (i : Nat) : Option (SavedParamsC α × List α) :=
  let p := st.1
  let j : Int := (i : Int) * p.Slen
  (nparange_c x j (j + p.Slen)).bind fun seg =>
  (muleach_c p.win seg).bind fun ws =>
  let noise := npabsolute B (npfftfft B ws p.forwardPlan)
  (p.add_noise_history noise).bind fun p1 =>
  (addeach st.2 noise).bind fun noise_mean =>
  some (p1, noise_mean)

/-- The first half of `logmmse_sample`: the frame sizes, the window, the plans and the emptied
history, written into `params`.  `floor(0.02 * Srate)` is the integer quotient `Srate / 50`;
the (unused) frame count `floor(x->size() / len2) - ...` divides by the hop `len2`.  For
`Slen = 2` (`Srate = 50 .. 149`) the Hann window is all zeros and its normalisation divides zero
by zero, NaN in the program: the window values stand for the program for `Slen > 2`. -/
def sample_init (B : Backend α) (Srate : Int) (params : SavedParamsC α) :
    Option (SavedParamsC α) :=
  let Slen0 : Int := Srate / 50
  let Slen : Int := if Slen0.tmod 2 = 1 then Slen0 + 1 else Slen0
  let PERC : Int := 50
  let len1 : Int := (Slen * PERC).tdiv 100
  let len2 : Int := Slen - len1
  let audioFrequency : Bool := decide (Srate ≤ 24000)
  let win : List α :=
    if audioFrequency then
      let w := nphanning B Slen
      div (mul w ((len2 : Int) : α)) (npsum w)
    else List.replicate Slen.toNat 1
  let nFFT : Int := 2 * Slen
  (allocateFFTWPlan false nFFT).bind fun fwd =>
  (allocateFFTWPlan true nFFT).bind fun rev =>
  if len2 = 0 then none
  else
    some { params with Slen := Slen, PERC := PERC, len1 := len1, noise_history := [],
                       dev_history := [], len2 := len2, win := win, nFFT := nFFT,
                       forwardPlan := fwd, reversePlan := rev, sums := npzeros nFFT,
                       devs := npzeros nFFT }

/-- Source `logmmse_sample`: `sample_init`, then the bootstrap loop
`for (j = 0; j < Slen * noise_frames; j += Slen)`, which runs `noise_frames` rounds since `Slen`
is positive by then, then the noise floor and the zeroed gain memory. -/
def logmmse_sample (B : Backend α) (x : List (complex_t α)) (Srate : Int) (_eta : α)
    (params : SavedParamsC α) (noise_frames : Int) : Option (SavedParamsC α) :=
  (sample_init B Srate params).bind fun p0 =>
  ((List.range noise_frames.toNat).foldlM (sample_frame B x) (p0, npzeros p0.nFFT)).bind fun st =>
  let mean := div st.2 ((noise_frames : Int) : α)
  (if decide (Srate ≤ 24000) then some mean else npmavg mean 120).bind fun smooth =>
  (muleach smooth smooth).bind fun mu2 =>
  some { st.1 with noise_mu2 := mu2, Xk_prev := npzeros st.1.len1, Xn_prev := npzeros_c 0,
                   x_old := npzeros_c st.1.len1, ksi_min := B.pow 10 (-25 / 10) }

/-- The zero repair of `logmmse_all` from bin `z ≥ 1` on, `prev` being the repaired bin `z - 1`:
`if (sigD[z] == 0) sigD[z] = sigD[z - 1]`. -/
def zero_repair_from (prev : α) : List α → List α
  | [] => []
  | s :: rest =>
    let s1 := if s = 0 then prev else s
    s1 :: zero_repair_from s1 rest

/-- The zero repair loop `for (auto z = 1; z < sig->size(); z++)` of `logmmse_all`. -/
def zero_repair : List α → List α
  | [] => []
  | s0 :: rest => s0 :: zero_repair_from s0 rest

/-- The a-posteriori SNR of one frame in `logmmse_all`:
`gammak = npminimum_(diveach(sig2, noise_mu2), 40)` with `sig2 = muleach(sig, sig)`. -/
def frame_gammak (p : SavedParamsC α) (sig : List α) : Option (List α) :=
  (muleach sig sig).bind fun sig2 =>
  (diveach sig2 p.noise_mu2).bind fun g => some (npminimum_ g 40)

/-- The a-priori SNR `ksi` of one frame in `logmmse_all`, by the branch on `npall(Xk_prev)`. -/
def frame_ksi (p : SavedParamsC α) (gammak : List α) : Option (List α) :=
  if ¬ npall p.Xk_prev then
    some (add (mul (npmaximum_ (add gammak (-1)) 0) (1 - p.aa)) p.aa)
  else
    (diveach (mul p.Xk_prev p.aa) p.noise_mu2).bind fun d1 =>
    let m1 := mul (npmaximum_ (add gammak (-1)) 0) (1 - p.aa)
    (addeach d1 m1).bind fun ksi => some (npmaximum_ ksi p.ksi_min)

/-- The spectral gain `hw` of one frame in `logmmse_all`, from `ksi` and `gammak`:
`A = ksi / (ksi + 1)`, `vk = A * gammak`, `hw = A * exp(0.5 * expn(vk))`. -/
def frame_hw (B : Backend α) (ksi gammak : List α) : Option (List α) :=
  (diveach ksi (add ksi 1)).bind fun A =>
  (muleach A gammak).bind fun vk =>
  let ei_vk := mul (scipyspecialexpn B vk) (1 / 2)
  muleach A (npexp B ei_vk)

/-- The spectral gain of one frame in `logmmse_all` from the repaired magnitudes `sig`: the
chain `gammak`, `ksi`, `hw`. -/
def frame_gain (B : Backend α) (p : SavedParamsC α) (sig : List α) : Option (List α) :=
  (frame_gammak p sig).bind fun gammak =>
  (frame_ksi p gammak).bind fun ksi =>
  frame_hw B ksi gammak

/-- The analysis half of one round of the frame loop of `logmmse_all`, for the hop starting at
`k`: the spectrum `spec` of the windowed frame `x[k .. k + Slen)` and its magnitudes `sig` after
the zero repair. -/
def frame_analysis (B : Backend α) (x : List (complex_t α)) (p : SavedParamsC α) (k : Int) :
    Option (List (complex_t α) × List α) :=
  (nparange_c x k (k + p.Slen)).bind fun seg =>
  (muleach_c p.win seg).bind fun insign =>
  let spec := npfftfft B insign p.forwardPlan
  some (spec, zero_repair (npabsolute B spec))

/-- The synthesis half of one round of the frame loop of `logmmse_all`: the new `Xk_prev`, the
output hop `final = x_old + xi_w0[0 .. len1)` and the new overlap tail `xi_w0[len1 .. Slen)`. -/
def frame_synthesis (B : Backend α) (p : SavedParamsC α) (spec : List (complex_t α))
    (sig hw : List α) : Option (List α × List (complex_t α) × List (complex_t α)) :=
  (muleach sig hw).bind fun sigh =>
  (muleach sigh sigh).bind fun Xk =>
  (muleach_c hw spec).bind fun hwmulspec =>
  let xi_w0 := npfftfft B hwmulspec p.reversePlan
  (nparange_c xi_w0 0 p.len1).bind fun head =>
  (addeach_c p.x_old head).bind fun final =>
  (nparange_c xi_w0 p.len1 p.Slen).bind fun tail =>
  some (Xk, final, tail)

/-- One round of the frame loop of `logmmse_all`, for the hop starting at `k = i * len2`, on the
output vector `xfinal` and the session. -/
def logmmse_frame (B : Backend α) (x : List (complex_t α))
    (st : List (complex_t α) × SavedParamsC α) (i : Nat) :
    Option (List (complex_t α) × SavedParamsC α) :=
  let k : Int := (i : Int) * st.2.len2
  (frame_analysis B x st.2 k).bind fun a =>
  (st.2.add_noise_history a.2).bind fun p1 =>
  (frame_gain B p1 a.2).bind fun hw =>
  (frame_synthesis B p1 a.1 a.2 hw).bind fun r =>
  (nparangeset_c st.1 k r.2.1).bind fun xfinal1 =>
  some (xfinal1, { p1 with Xk_prev := r.1, x_old := r.2.2 })

/-- The frame count of `logmmse_all`:
`floor(x->size() / params->len2) - floor(params->Slen / params->len2)`, an unsigned quotient
minus a signed one, for a positive hop. -/
def Nframes (p : SavedParamsC α) (N : Nat) : Int :=
  ((N / p.len2.toNat : Nat) : Int) - p.Slen.tdiv p.len2

/-- Source `logmmse_all`.  The loop `for (k = 0; k < Nframes * len2; k += len2)` runs
`Nframes` rounds for a positive hop `len2`; a zero hop divides by zero, and a negative hop is
never produced by `logmmse_sample`. -/
def logmmse_all (B : Backend α) (x : List (complex_t α)) (_Srate : Int) (_eta : α)
    (params : SavedParamsC α) : Option (List (complex_t α) × SavedParamsC α) :=
  if params.len2 ≤ 0 then none
  else
    let nf := Nframes params x.length
    params.update_noise_mu2.bind fun p1 =>
    let xfinal : List (complex_t α) := npzeros_c (nf * p1.len2)
    (List.range nf.toNat).foldlM (logmmse_frame B x) (xfinal, p1)

end logmmse

end dsp

/-! ## Specification-side definitions -/

namespace dsp

namespace logmmse

open arrays

variable {α : Type} [LinearOrderedField α]

/-- The elementwise difference of two vectors. -/
def vsub (a b : List α) : List α := List.zipWith (fun x y => x - y) a b

/-- The elementwise sum of two vectors. -/
def vadd (a b : List α) : List α := List.zipWith (fun x y => x + y) a b

/-- The elementwise sum of a list of frames of `n` bins. -/
def vsum (n : Nat) (l : List (List α)) : List α := l.foldl vadd (List.replicate n 0)

/-- The deviation frame that `add_noise_history` appends for the pushed frame `noise`: the
square of `noise - sums / cnt`. -/
def dev_frame (sums : List α) (cnt : Nat) (noise : List α) : List α :=
  List.zipWith arrays.muleach_entry (vsub noise (arrays.div sums (cnt : α)))
    (vsub noise (arrays.div sums (cnt : α)))

/-- The session after a successful `add_noise_history`, in closed form. -/
def SavedParamsC.pushed (p : SavedParamsC α) (noise : List α) : SavedParamsC α :=
  let H := p.noise_history_len.toNat
  let l1 := p.noise_history ++ [noise]
  let hist := l1.drop (l1.length - H)
  let sums := (l1.take (l1.length - H)).foldl vsub (vadd p.sums noise)
  let diff := dev_frame sums hist.length noise
  let l2 := p.dev_history ++ [diff]
  { p with noise_history := hist, sums := sums, dev_history := l2.drop (l2.length - H),
           devs := (l2.take (l2.length - H)).foldl vsub (vadd p.devs diff) }

/-- The bookkeeping invariant of the noise history of a session with `n` bins, `pushed` being
every frame pushed since the history was empty. -/
structure SavedParamsC.HistInv (p : SavedParamsC α) (n : Nat) (pushed : List (List α)) :
    Prop where
  nFFT_eq : p.nFFT = n
  hist_len : ∀ f ∈ p.noise_history, f.length = n
  dev_len : ∀ f ∈ p.dev_history, f.length = n
  sums_eq : p.sums = vsum n p.noise_history
  devs_eq : p.devs = vsum n p.dev_history
  hist_eq : p.noise_history = pushed.drop (pushed.length - p.noise_history_len.toNat)
  dev_count : p.dev_history.length = p.noise_history.length

end logmmse

end dsp

namespace dsp

namespace logmmse

open arrays

variable {α : Type} [LinearOrderedField α]

/-- The shape of a live session: what `logmmse_sample` establishes and every `logmmse_all`
keeps.  The hop is positive, `len1 = len2 = Slen / 2`, `nFFT = 2 * Slen`, and every vector has
the length its role asks for; `Xk_prev` has `nFFT` entries unless it still holds a zero (the
`len1` zeros of the bootstrap). -/
structure SavedParamsC.WF (p : SavedParamsC α) : Prop where
  len2_pos : 0 < p.len2
  len1_eq : p.len1 = p.len2
  Slen_eq : p.Slen = 2 * p.len2
  nFFT_eq : p.nFFT = 2 * p.Slen
  win_len : (p.win.length : Int) = p.Slen
  fwd_size : p.forwardPlan.nbuckets = p.nFFT
  rev_size : p.reversePlan.nbuckets = p.nFFT
  mu2_len : (p.noise_mu2.length : Int) = p.nFFT
  sums_len : (p.sums.length : Int) = p.nFFT
  devs_len : (p.devs.length : Int) = p.nFFT
  x_old_len : (p.x_old.length : Int) = p.len1
  hist_len : ∀ f ∈ p.noise_history, (f.length : Int) = p.nFFT
  dev_len : ∀ f ∈ p.dev_history, (f.length : Int) = p.nFFT
  Xk_ok : (p.Xk_prev.length : Int) = p.nFFT ∨ npall p.Xk_prev = false

/-- The sessions that a program can hold: the result of a `logmmse_sample` on any prior
contents, then any number of `logmmse_all` calls, the caller being free to set the public
`hold` flag between calls. -/
inductive Reachable (B : Backend α) : SavedParamsC α → Prop
  | sample (x : List (complex_t α)) (Srate : Int) (eta : α) (params : SavedParamsC α)
      (noise_frames : Int) (p : SavedParamsC α) :
      logmmse_sample B x Srate eta params noise_frames = some p → Reachable B p
  | all (x : List (complex_t α)) (Srate : Int) (eta : α) (p : SavedParamsC α)
      (out : List (complex_t α)) (q : SavedParamsC α) :
      Reachable B p → logmmse_all B x Srate eta p = some (out, q) → Reachable B q
  | set_hold (p : SavedParamsC α) (h : Bool) :
      Reachable B p → Reachable B { p with hold := h }

/-- The sessions that a program reaches from the session `p0`: any number of `logmmse_all`
calls, the caller being free to set the public `hold` flag between calls. -/
inductive ReachableFrom (B : Backend α) (p0 : SavedParamsC α) : SavedParamsC α → Prop
  | start : ReachableFrom B p0 p0
  | all (x : List (complex_t α)) (Srate : Int) (eta : α) (p : SavedParamsC α)
      (out : List (complex_t α)) (q : SavedParamsC α) :
      ReachableFrom B p0 p → logmmse_all B x Srate eta p = some (out, q) → ReachableFrom B p0 q
  | set_hold (p : SavedParamsC α) (h : Bool) :
      ReachableFrom B p0 p → ReachableFrom B p0 { p with hold := h }

end logmmse

end dsp

namespace dsp

namespace logmmse

open arrays

variable {α : Type} [LinearOrderedField α]

/-- The noise floor and its tracking state: `noise_mu2`, `mindb`, `maxdb`, `generation`,
`stable` and `hold`. -/
def SavedParamsC.floor_part (p : SavedParamsC α) : List α × α × α × Int × Bool × Bool :=
  (p.noise_mu2, p.mindb, p.maxdb, p.generation, p.stable, p.hold)

/-- The configuration of a session, fixed by `logmmse_sample`: the frame sizes, the window, the
plans and the smoothing constants. -/
def SavedParamsC.config (p : SavedParamsC α) :
    Int × Int × Int × Int × List α × Int × fftwPlan × fftwPlan × α × α × α :=
  (p.Slen, p.PERC, p.len1, p.len2, p.win, p.nFFT, p.forwardPlan, p.reversePlan, p.aa, p.mu,
    p.ksi_min)

/-- One round of the frame loop of `logmmse_all` without the write into `xfinal`: the output
hop `final` of the frame that starts at `k`, and the session after the frame. -/
def frame_step (B : Backend α) (x : List (complex_t α)) (p : SavedParamsC α) (k : Int) :
    Option (List (complex_t α) × SavedParamsC α) :=
  (frame_analysis B x p k).bind fun a =>
  (p.add_noise_history a.2).bind fun p1 =>
  (frame_gain B p1 a.2).bind fun hw =>
  (frame_synthesis B p1 a.1 a.2 hw).bind fun r =>
  some (r.2.1, { p1 with Xk_prev := r.1, x_old := r.2.2 })

/-- The output hops of `m` consecutive frames from frame index `i0` on, concatenated, and the
session after them. -/
def run_frames (B : Backend α) (x : List (complex_t α)) :
    Nat → Nat → SavedParamsC α → Option (List (complex_t α) × SavedParamsC α)
  | _, 0, p => some ([], p)
  | i0, m + 1, p =>
    (frame_step B x p ((i0 : Int) * p.len2)).bind fun r =>
    (run_frames B x (i0 + 1) m r.2).bind fun rest =>
    some (r.1 ++ rest.1, rest.2)

end logmmse

end dsp

namespace dsp

namespace arrays

variable {α : Type} [LinearOrderedField α]

/-- The value `y` is the arithmetic mean of the entries of `v` at a non-empty set of distinct
indices. -/
def IsMeanOf (v : List α) (y : α) : Prop :=
  ∃ S : Finset ℕ, S.Nonempty ∧ (∀ i ∈ S, i < v.length) ∧
    y = (∑ i in S, v.getD i 0) / (S.card : α)

/-- The loop invariant of `npmavg` before round `t`: the running sum is the sum of the entries
at a set `S` of `count` distinct indices seen so far, which still holds every index from the next
one to be dropped on, and every value emitted so far is a mean of entries of `v`. -/
def MavgInv (v : List α) (W : Int) (t : Nat) (st : α × Int × List α) : Prop :=
  ∃ S : Finset ℕ, (∀ i ∈ S, i < v.length ∧ i < t) ∧ st.2.1 = (S.card : Int) ∧
    st.1 = ∑ i in S, v.getD i 0 ∧
    st.2.1 = min (t : Int) (v.length : Int) - max 0 ((t : Int) - (W + 1)) ∧
    (∀ i : ℕ, 2 * (t : Int) - W - min ((t : Int) + 1) (v.length : Int) ≤ (i : Int) →
      i < t → i < v.length → i ∈ S) ∧
    (st.2.2.length : Int) = max 0 ((t : Int) - W.tdiv 2) ∧ ∀ y ∈ st.2.2, IsMeanOf v y

end arrays

end dsp

namespace dsp

namespace logmmse

open arrays

variable {α : Type} [LinearOrderedField α]

/-- The part of the shape of a session that the bootstrap loop keeps while it fills the
history. -/
structure BootInv (p0 : SavedParamsC α) (n : Nat) (st : SavedParamsC α × List α) : Prop where
  config : st.1.config = p0.config
  floor : st.1.floor_part = p0.floor_part
  sums_len : st.1.sums.length = n
  devs_len : st.1.devs.length = n
  hist_len : ∀ f ∈ st.1.noise_history, f.length = n
  dev_len : ∀ f ∈ st.1.dev_history, f.length = n
  mean_len : st.2.length = n

end logmmse

end dsp

namespace dsp

namespace logmmse

open arrays

variable {α : Type} [LinearOrderedField α]

/-- The magnitude frame that the bootstrap loop of `logmmse_sample` pushes in round `i`:
`npabsolute(npfftfft(muleach(win, nparange(x, j, j + Slen))))` with `j = i * Slen`. -/
def boot_noise (B : Backend α) (x : List (complex_t α)) (p : SavedParamsC α) (i : Nat) :
    List α :=
  npabsolute B (npfftfft B
    (List.zipWith (fun a b => complex_t.mul ⟨a, 0⟩ b) p.win
      ((x.drop ((i : Int) * p.Slen).toNat).take p.Slen.toNat)) p.forwardPlan)

end logmmse

end dsp

/-! ## Two backends -/

namespace dsp

namespace math

/-- Modelled from the spec: `dsp::math::expn` at order 1 (file `dsp/utils/math.h`, not part of
the sources at hand), the exponential integral "`E1(v) = ∫_v^∞ e^{−t}/t dt`" for a positive real
argument.  At `v = 0` the integral diverges (the spec's `E1` is `+inf` there, "`−γ − ln v`");
the value of this definition at `v <= 0` stands for nothing in the program. -/
noncomputable def E1 (v : ℝ) : ℝ := ∫ t in Set.Ioi v, Real.exp (-t) / t

end math

/-- The twiddle factor `e^{∓2πi·m/n}` of a discrete Fourier transform, `-` forward and `+`
backward, as FFTW defines its two directions. -/
noncomputable def twiddle (rev : Bool) (m n : Nat) : complex_t ℝ :=
  ⟨Real.cos (2 * Real.pi * (m : ℝ) / (n : ℝ)),
    (if rev then 1 else -1) * Real.sin (2 * Real.pi * (m : ℝ) / (n : ℝ))⟩

/-- The unnormalised discrete Fourier transform that `fftwf_execute` computes:
`Y[k] = Σ_j X[j] · e^{∓2πi·jk/n}`. -/
noncomputable def dft (rev : Bool) (v : List (complex_t ℝ)) : List (complex_t ℝ) :=
  (List.range v.length).map fun k =>
    (List.range v.length).foldl
      (fun acc j => complex_t.add acc
        (complex_t.mul (v.getD j complex_t.zero) (twiddle rev (j * k) v.length)))
      complex_t.zero

/-- The external routines in exact real arithmetic: the discrete Fourier transform, the
Euclidean magnitude, the exponential integral, and the real `exp`, `cos`, `π` and power. -/
noncomputable def realBackend : Backend ℝ where
  fftwf_execute := dft
  amplitude := fun z => Real.sqrt (z.re * z.re + z.im * z.im)
  expn := math.E1
  exp := Real.exp
  cos := Real.cos
  pi := Real.pi
  pow := fun a b => a ^ b

/-- The exact discrete Fourier transform on one, two and four rational points, where the twiddle
factors are `±1` and `±i`; a vector of another length is returned as it is. -/
def qdft (rev : Bool) (v : List (complex_t ℚ)) : List (complex_t ℚ) :=
  match v with
  | [a, b] => [complex_t.add a b, ⟨a.re - b.re, a.im - b.im⟩]
  | [a, b, c, d] =>
    let s : ℚ := if rev then 1 else -1
    [⟨a.re + b.re + c.re + d.re, a.im + b.im + c.im + d.im⟩,
     ⟨a.re - s * b.im - c.re + s * d.im, a.im + s * b.re - c.im - s * d.re⟩,
     ⟨a.re - b.re + c.re - d.re, a.im - b.im + c.im - d.im⟩,
     ⟨a.re + s * b.im - c.re - s * d.im, a.im - s * b.re - c.im + s * d.re⟩]
  | w => w

/-- A computable backend over the rationals, to run the definitions on concrete inputs: the
exact transform on up to four points, the 1-norm for the magnitude (exact on real and on
imaginary numbers) and rational stand-ins for the transcendental functions. -/
def ratBackend : Backend ℚ where
  fftwf_execute := qdft
  amplitude := fun z => |z.re| + |z.im|
  expn := fun v => 1 / (1 + |v|)
  exp := fun x => if 0 ≤ x then 1 + x else 1 / (1 - x)
  cos := fun x => 1 - x * x / 2
  pi := 22 / 7
  pow := fun a _ => 1 / (a * a * a)

namespace logmmse

/-- A freshly constructed `SavedParamsC`, with the member initialisers of the source
(`aa = mu = 0.98`, `hold = false`, `generation = 0`, `mindb = maxdb = 0`, `stable = false`) and
empty vectors. -/
def fresh (α : Type) [LinearOrderedField α] : SavedParamsC α :=
  { noise_history := [], dev_history := [], sums := [], devs := [], Xn_prev := [],
    noise_mu2 := [], Xk_prev := [], x_old := [], Slen := 0, PERC := 0, len1 := 0, len2 := 0,
    win := [], nFFT := 0, forwardPlan := ⟨0, false⟩, reversePlan := ⟨0, true⟩, aa := 98 / 100,
    mu := 98 / 100, ksi_min := 0, hold := false, generation := 0, mindb := 0, maxdb := 0,
    stable := false }

end logmmse

end dsp

/-! ## Concrete inputs -/

namespace dsp

namespace logmmse

/-- A bootstrap segment of two samples, one block at `Srate = 100` (`Slen = 2`). -/
def boot_in : List (complex_t ℚ) := [⟨1, 0⟩, ⟨2, 0⟩]

/-- An input of five samples: three hops at `len2 = 1`, `Slen = 2`. -/
def sig_in : List (complex_t ℚ) := [⟨1, 0⟩, ⟨0, 1⟩, ⟨2, 0⟩, ⟨0, 0⟩, ⟨1, 1⟩]

end logmmse

end dsp

namespace dsp

namespace logmmse

/-- An empty history for frames of 1000 bins, as `logmmse_sample` leaves it before its first
push; at this size the history keeps 200 frames. -/
def hist_start : SavedParamsC ℚ :=
  { fresh ℚ with nFFT := 1000, sums := arrays.npzeros 1000, devs := arrays.npzeros 1000 }

/-- A live audio-regime session with `len2 = 1`, `Slen = 2`, `nFFT = 4` and 101 frames of
history, so that the floor update is due: the floor tracking has run once (`generation = 1`), a
candidate was accepted before (`stable`) and the recorded levels are `mindb = maxdb = 5`. -/
def stable_session : SavedParamsC ℚ :=
  { noise_history := List.replicate 101 [1, 1, 1, 1],
    dev_history := List.replicate 101 [0, 0, 0, 0],
    sums := [101, 101, 101, 101], devs := [0, 0, 0, 0], Xn_prev := [],
    noise_mu2 := [5, 5, 5, 5], Xk_prev := [0], x_old := [⟨0, 0⟩], Slen := 2, PERC := 50,
    len1 := 1, len2 := 1, win := [1, 1], nFFT := 4, forwardPlan := ⟨4, false⟩,
    reversePlan := ⟨4, true⟩, aa := 98 / 100, mu := 98 / 100, ksi_min := 1 / 316,
    hold := false, generation := 1, mindb := 5, maxdb := 5, stable := true }

/-- The session `stable_session` with the caller's `hold` flag set. -/
def held_session : SavedParamsC ℚ := { stable_session with hold := true }

end logmmse

end dsp

namespace dsp

namespace logmmse

/-- The first three samples of a six-sample input, at `len2 = 1`. -/
def part_a : List (complex_t ℚ) := [⟨1, 0⟩, ⟨0, 1⟩, ⟨2, 0⟩]

/-- The last three samples of a six-sample input, at `len2 = 1`. -/
def part_b : List (complex_t ℚ) := [⟨0, 0⟩, ⟨1, 1⟩, ⟨1, 0⟩]

/-- A bootstrap segment of six blocks at `Srate = 48000` (`Slen = 960`): 5760 samples `1 + 0i`. -/
noncomputable def noise_in : List (complex_t ℝ) := List.replicate 5760 ⟨1, 0⟩

/-- Three hops of input at `Srate = 48000` (`len2 = 480`): 1440 samples `1 + 0i`. -/
noncomputable def half_in : List (complex_t ℝ) := List.replicate 1440 ⟨1, 0⟩

end logmmse

end dsp

namespace dsp

namespace logmmse

/-- A silent bootstrap segment of six blocks at `Srate = 48000`: 5760 samples `0 + 0i`. -/
noncomputable def silence_in : List (complex_t ℝ) := List.replicate 5760 complex_t.zero

end logmmse

end dsp

namespace dsp

namespace logmmse

open arrays

variable {α : Type} [LinearOrderedField α]

/-- The time-domain frame `xi_w0` of `logmmse_all`: the normalised inverse transform of
`hw * spec`. -/
def frame_xi (B : Backend α) (p : SavedParamsC α) (spec : List (complex_t α)) (hw : List α) :
    List (complex_t α) :=
  npfftfft B (List.zipWith (fun a b => complex_t.mul ⟨a, 0⟩ b) hw spec) p.reversePlan

end logmmse

end dsp

namespace dsp

namespace logmmse

/-- Three hops of silence at `len2 = 480`: 1440 samples `0 + 0i`, one frame for `logmmse_all`. -/
noncomputable def silent_frame_in : List (complex_t ℝ) := List.replicate 1440 complex_t.zero

end logmmse

end dsp

namespace dsp

namespace logmmse

/-- A session on its first frame (`Xk_prev` still holds the zero that `logmmse_sample` leaves),
with four bins, the floor `1` in every bin and the constants of the source, `aa = 0.98` and
`ksi_min = 10^-2.5`. -/
noncomputable def quiet_session : SavedParamsC ℝ :=
  { fresh ℝ with
    Slen := 2, PERC := 50, len1 := 1, len2 := 1, nFFT := 4, win := [1, 1],
    forwardPlan := ⟨4, false⟩, reversePlan := ⟨4, true⟩,
    sums := [0, 0, 0, 0], devs := [0, 0, 0, 0], noise_mu2 := [1, 1, 1, 1],
    Xk_prev := [0], x_old := [complex_t.zero],
    ksi_min := realBackend.pow 10 (-25 / 10) }

/-- The magnitudes of a faint frame: `1 / 64` in each of four bins, 36 dB under the floor of
`quiet_session`. -/
noncomputable def faint_sig : List ℝ := [1 / 64, 1 / 64, 1 / 64, 1 / 64]

/-- The magnitudes of a frame of four bins over the rationals. -/
def loud_sig : List ℚ := [3, 0, 1, 2]

end logmmse

end dsp

namespace dsp

/-- A click: `a` samples of silence, one sample `1 + 0i`, then `b` samples of silence. -/
noncomputable def impulse (a b : Nat) : List (complex_t ℝ) :=
  List.replicate a complex_t.zero ++ ⟨1, 0⟩ :: List.replicate b complex_t.zero

namespace logmmse

/-- A bootstrap segment of one block at `Srate = 48000` (`Slen = 960`): a click in its first
sample. -/
noncomputable def click_boot : List (complex_t ℝ) := impulse 0 959

/-- Three hops of input at `len2 = 480`: a frame of 960 samples with a click in sample 480,
then a hop of silence. -/
noncomputable def click_in : List (complex_t ℝ) :=
  impulse 480 479 ++ List.replicate 480 complex_t.zero

/-- A bootstrap segment of 101 blocks at `Srate = 25000` (`Slen = 500`): a click in its first
sample, then silence. -/
noncomputable def muted_boot : List (complex_t ℝ) := impulse 0 50499

/-- One hop of silence at `len2 = 250`: too short for a frame. -/
noncomputable def short_hop : List (complex_t ℝ) := List.replicate 250 complex_t.zero

end logmmse

end dsp

namespace dsp

namespace logmmse

variable {α : Type} [LinearOrderedField α]

/-- The loop invariant of the scan of the wide regime before bin `q`, on
`(firstV, lastV, countZeros, noise_mu2)`: the vector keeps its `n` entries, none is negative, and
either no non-zero bin was met (`firstV = lastV = -1`) or `firstV <= lastV < q` and every bin
from `firstV` to `lastV` is strictly positive. -/
def ScanInv (n q : Nat) (st : Int × Int × Int × List α) : Prop :=
  st.2.2.2.length = n ∧ (∀ j, 0 ≤ st.2.2.2.getD j 0) ∧
    ((st.1 = -1 ∧ st.2.1 = -1) ∨
      ∃ a b : Nat, st.1 = (a : Int) ∧ st.2.1 = (b : Int) ∧ a ≤ b ∧ b < q ∧
        ∀ j, a ≤ j → j ≤ b → 0 < st.2.2.2.getD j 0)

end logmmse

end dsp

namespace dsp

namespace logmmse

variable {α : Type} [LinearOrderedField α]

/-- The frame sizes `(Slen, len1, len2, nFFT)` that `logmmse_sample` writes into the session,
the first assignments of its body: `Slen = floor(0.02 * Srate)`, made even, `PERC = 50`,
`len1 = floor(Slen * PERC / 100)`, `len2 = Slen - len1`, `nFFT = 2 * Slen`. -/
def sample_sizes (Srate : Int) : Int × Int × Int × Int :=
  let Slen0 : Int := Srate / 50
  let Slen : Int := if Slen0.tmod 2 = 1 then Slen0 + 1 else Slen0
  let PERC : Int := 50
  let len1 : Int := (Slen * PERC).tdiv 100
  let len2 : Int := Slen - len1
  (Slen, len1, len2, 2 * Slen)

/-- The number of hop positions `k = i * len2` in `{0, len2, 2 * len2, ...}` for which the full
analysis window `x[k .. k + Slen)` fits inside an input of `N` samples. -/
def fitting_hops (p : SavedParamsC α) (N : Nat) : Nat :=
  ((List.range (N + 1)).filter
    (fun i => decide (i * p.len2.toNat + p.Slen.toNat ≤ N))).length

/-- The session `stable_session` after a frame whose gain left a zero in the second bin of
`Xk_prev` and `4` in the others. -/
def mixed_session : SavedParamsC ℚ := { stable_session with Xk_prev := [4, 0, 4, 4] }

/-- The a-posteriori SNR of a frame of four bins over the rationals. -/
def loud_gamma : List ℚ := [3, 0, 1, 2]

end logmmse

end dsp

namespace dsp

namespace logmmse

variable {α : Type} [LinearOrderedField α]

/-- The first-frame rule for the a-priori SNR, in the words of the specification:
`ksi[k] = (1 - aa) * max(gamma[k] - 1, 0) + aa`. -/
def ksi_first (aa : α) (gammak : List α) : List α :=
  gammak.map (fun g => (1 - aa) * max (g - 1) 0 + aa)

/-- The decision-directed rule for the a-priori SNR, in the words of the specification:
`ksi[k] = max(aa * Xk_prev[k] / noise_mu2[k] + (1 - aa) * max(gamma[k] - 1, 0), ksi_min)`. -/
def ksi_dd (aa ksi_min : α) (Xk mu gammak : List α) : List α :=
  List.zipWith (fun (xm : α × α) g => max (aa * xm.1 / xm.2 + (1 - aa) * max (g - 1) 0) ksi_min)
    (List.zip Xk mu) gammak

end logmmse

end dsp

namespace dsp

namespace logmmse

/-- The session `stable_session` with a history whose 101 frames have the magnitudes
`[1, 2, 1, 2]`, so that the audio-regime candidate is not flat. -/
def uneven_session : SavedParamsC ℚ :=
  { stable_session with
    noise_history := List.replicate 101 [1, 2, 1, 2], sums := [101, 202, 101, 202] }

end logmmse

end dsp

namespace dsp

namespace logmmse

/-- Three samples of silence: one frame at `len2 = 1`, `Slen = 2`. -/
def short_silence : List (complex_t ℚ) := List.replicate 3 complex_t.zero

end logmmse

end dsp

namespace dsp

namespace logmmse

/-- A silent bootstrap segment of 201 blocks at `Srate = 48000`: 192960 samples `0 + 0i`. -/
noncomputable def long_silence : List (complex_t ℝ) := List.replicate 192960 complex_t.zero

end logmmse

end dsp

namespace dsp

namespace logmmse

variable {α : Type} [LinearOrderedField α]

/-- The a-posteriori SNR of one bin, in the words of the specification:
`gamma = min(sig^2 / noise_mu2, 40)`. -/
def gamma_bin (s mu : α) : α := min (s ^ 2 / mu) 40

/-- The decision-directed a-priori SNR of one bin, in the words of the specification:
`ksi = max(aa * Xk_prev / noise_mu2 + (1 - aa) * max(gamma - 1, 0), ksi_min)`. -/
def ksi_bin (aa ksi_min xk mu g : α) : α := max (aa * xk / mu + (1 - aa) * max (g - 1) 0) ksi_min

/-- The factor `A = ksi / (ksi + 1)` of one bin. -/
def A_bin (ksi : α) : α := ksi / (ksi + 1)

/-- The spectral gain of one bin, in the words of the specification:
`hw = A * exp(0.5 * E1(v))` with `v = A * gamma`. -/
def gain_bin (B : Backend α) (A g : α) : α := A * B.exp (1 / 2 * B.expn (A * g))

end logmmse

end dsp

namespace dsp

namespace logmmse

/-- The session `stable_session` after a frame that left no zero in `Xk_prev`. -/
def warm_session : SavedParamsC ℚ := { stable_session with Xk_prev := [4, 1, 4, 4] }

/-- A spectrum of four bins with the magnitudes `loud_sig` under the 1-norm. -/
def loud_spec : List (complex_t ℚ) := [⟨3, 0⟩, ⟨0, 0⟩, ⟨0, 1⟩, ⟨-2, 0⟩]

end logmmse

end dsp

namespace dsp

namespace arrays

variable {α : Type} [LinearOrderedField α]

/-- One round of the loop of source `npmavg` with the result of each float operation on the
running sum rounded by `fl`: `sum += v->at(ix)`, `sum -= v->at(ix - count)` and `sum / count`.
The count and the indices are small integers, which a float holds exactly.  With `fl` the
identity this is `npmavg_step`. -/
def npmavg_step_fl (fl : α → α) (v : List α) (windowSize : Int) (st : α × Int × List α)
    (ix : Nat) : Option (α × Int × List α) :=
  let ws2 := windowSize.tdiv 2
  let sum := st.1
  let count := st.2.1
  let retval := st.2.2
  let sum1 := if ix < v.length then fl (sum + v.getD ix 0) else sum
  let count1 := if ix < v.length then count + 1 else count
  let count2 := if (ix : Int) > windowSize then count1 - 1 else count1
  let idx : Int := (ix : Int) - count2
  if (ix : Int) > windowSize ∧ ¬ (0 ≤ idx ∧ idx < (v.length : Int)) then none
  else
    let sum2 := if (ix : Int) > windowSize then fl (sum1 - v.getD idx.toNat 0) else sum1
    let retval1 := if (ix : Int) ≥ ws2 then retval ++ [fl (sum2 / (count2 : α))] else retval
    some (sum2, count2, retval1)

/-- Source `npmavg` with the float operations on the running sum rounded by `fl`. -/
def npmavg_fl (fl : α → α) (v : List α) (windowSize : Int) : Option (List α) :=
  ((List.range ((v.length : Int) + windowSize.tdiv 2).toNat).foldlM
      (npmavg_step_fl fl v windowSize) ((0 : α), (0 : Int), ([] : List α))).bind
    (fun st => if st.2.2.length ≠ v.length then none else some st.2.2)

/-- The power `2 ^ z` of two with an integer exponent `z`, as a rational number. -/
def pow2 (z : Int) : ℚ :=
  if 0 ≤ z then ((2 ^ z.toNat : Nat) : ℚ) else 1 / ((2 ^ (-z).toNat : Nat) : ℚ)

/-- The binary logarithm `floor(log2 n)` of a natural number `n >= 1` below `2 ^ fuel`, by
halving. -/
def ilog2 : Nat → Nat → Nat
  | 0, _ => 0
  | fuel + 1, n => if n < 2 then 0 else ilog2 fuel (n / 2) + 1

/-- The positive rational `a` rounded to 24 significant bits, to nearest with ties to even:
`a` is written `m * 2 ^ (e - 23)` with `2 ^ 23 <= m < 2 ^ 24` and `m` is rounded to an
integer. -/
def round24 (a : ℚ) : ℚ :=
  let k : Int := (ilog2 300 a.num.natAbs : Int) - (ilog2 300 a.den : Int)
  let e : Int := if pow2 k ≤ a then k else k - 1
  let ulp : ℚ := pow2 (e - 23)
  let m : ℚ := a / ulp
  let f : Int := m.num / (m.den : Int)
  let r : ℚ := m - (f : ℚ)
  let n : Int :=
    if r < 1 / 2 then f else if 1 / 2 < r then f + 1 else if f % 2 = 0 then f else f + 1
  (n : ℚ) * ulp

/-- The binary32 value nearest to the rational `q` (round to nearest, ties to even), for `q`
in the normal range of binary32, where a float keeps 24 significant bits. -/
def round32 (q : ℚ) : ℚ :=
  if q = 0 then 0 else if q < 0 then -round24 (-q) else round24 q

end arrays

end dsp

namespace dsp

namespace logmmse

open arrays

variable {α : Type} [LinearOrderedField α]

/-- The value that the gap filling of the wide regime gives to bin `z` between the non-zero
bins `a < z < b` of the vector `X`: the running value `X[a] + d + ... + d` after `z - a`
additions of `d = (X[b] - X[a]) / (b - a)`. -/
def gap_value (X : List α) (a b z : Nat) : α :=
  X.getD a 0 + ((z - a : Nat) : α) * ((X.getD b 0 - X.getD a 0) / ((b - a : Nat) : α))

/-- The vector `noiseAvg` of the wide regime of `update_noise_mu2`: `mul(sums, 1 / nframes)`,
the mean magnitude of every bin over the history. -/
def SavedParamsC.wide_noiseAvg (p : SavedParamsC α) : List α :=
  mul p.sums (1 / ((p.noise_history.length : Nat) : α))

/-- The vector `devs` of the wide regime of `update_noise_mu2`: the first `nFFT` entries of
`devSquare = muleach(hi, hi)` with `hi = mul(devs, 1 / nframes)`, after the bins `z` with
`abs(z - nFFT / 2) < nFFT * 15 / 100` were overwritten with `1000000`. -/
def SavedParamsC.wide_devs (p : SavedParamsC α) : List α :=
  ((List.range (List.zipWith muleach_entry
        (mul p.devs (1 / ((p.noise_history.length : Nat) : α)))
        (mul p.devs (1 / ((p.noise_history.length : Nat) : α)))).length).map (fun z =>
      if z < p.nFFT.toNat ∧ |((z : Int) - p.nFFT.tdiv 2)| < (p.nFFT * 15).tdiv 100 then
        (1000000 : α)
      else (List.zipWith muleach_entry
        (mul p.devs (1 / ((p.noise_history.length : Nat) : α)))
        (mul p.devs (1 / ((p.noise_history.length : Nat) : α)))).getD z 0)).take p.nFFT.toNat

/-- The threshold `acceptible_stdev` of the wide regime: the entry at index `nFFT / 10` of the
sorted `devs`, times `1.2`. -/
def SavedParamsC.acceptible_stdev (p : SavedParamsC α) : α :=
  (hwy_sort_ascending p.wide_devs).getD (p.nFFT.tdiv 10).toNat 0 * (12 / 10)

/-- The floor of the wide regime after the selection loop: zeros, and `noiseAvg[q]^2` in the
bins `q` with `devs[q] < acceptible_stdev`. -/
def SavedParamsC.wide_select (p : SavedParamsC α) : List α :=
  (List.range p.nFFT.toNat).foldl
    (fun (m : List α) (q : Nat) =>
      if p.wide_devs.getD q 0 < p.acceptible_stdev then
        m.set q (p.wide_noiseAvg.getD q 0 * p.wide_noiseAvg.getD q 0)
      else m)
    (List.replicate p.nFFT.toNat (0 : α) ++ p.noise_mu2.drop p.nFFT.toNat)

/-- The state `(firstV, lastV, countZeros, noise_mu2)` of the wide regime after its scan. -/
def SavedParamsC.wide_scan (p : SavedParamsC α) : Int × Int × Int × List α :=
  (List.range p.nFFT.toNat).foldl SavedParamsC.scan_step
    ((-1 : Int), (-1 : Int), (0 : Int), p.wide_select)

/-- Bin `z` is selected as quiet by the wide regime: its masked squared deviation is below the
threshold and the square of its mean magnitude, written into the floor, is not zero. -/
def SavedParamsC.wide_selected (p : SavedParamsC α) (z : Nat) : Prop :=
  z < p.nFFT.toNat ∧ p.wide_devs.getD z 0 < p.acceptible_stdev ∧ p.wide_noiseAvg.getD z 0 ≠ 0

/-- The state of the scan of the wide regime before bin `q`, in terms of the vector `X` the scan
started from: the non-zero bins of `X`, the bins above `lastV` and the bins below `firstV` are as
in `X`; the zero bins between two neighbouring non-zero bins up to `lastV` hold the gap value;
`firstV` and `lastV` are the first and the last non-zero bin of `X` below `q`, or both `-1` when
there is none. -/
def ScanSpec (X : List α) (q : Nat) (st : Int × Int × Int × List α) : Prop :=
  st.2.2.2.length = X.length ∧
    (∀ j, X.getD j 0 ≠ 0 → st.2.2.2.getD j 0 = X.getD j 0) ∧
    (∀ j : Nat, st.2.1 < (j : Int) → st.2.2.2.getD j 0 = X.getD j 0) ∧
    (∀ j : Nat, (j : Int) < st.1 → st.2.2.2.getD j 0 = X.getD j 0) ∧
    (∀ a b z : Nat, a < z → z < b → (b : Int) ≤ st.2.1 → X.getD a 0 ≠ 0 → X.getD b 0 ≠ 0 →
      (∀ j, a < j → j < b → X.getD j 0 = 0) → st.2.2.2.getD z 0 = gap_value X a b z) ∧
    ((st.1 = -1 ∧ st.2.1 = -1 ∧ ∀ j, j < q → X.getD j 0 = 0) ∨
      ∃ a b : Nat, st.1 = (a : Int) ∧ st.2.1 = (b : Int) ∧ a ≤ b ∧ b < q ∧
        X.getD a 0 ≠ 0 ∧ X.getD b 0 ≠ 0 ∧ (∀ j, j < a → X.getD j 0 = 0) ∧
        ∀ j, b < j → j < q → X.getD j 0 = 0)

end logmmse

end dsp

namespace dsp

namespace logmmse

/-- A live wide-regime session at `Srate = 44100` (`Slen = 882`, `len2 = 441`, `nFFT = 1764`,
all-ones window) whose history holds 100 frames of silence and then one frame with the magnitude
`S` in every bin, with the running sums that `add_noise_history` keeps for this history: the mean
after the last push is `S / 101`, so its squared deviation is `(S - S / 101)^2` in every bin.
The floor before the update is `F` in every bin. -/
def flat_session (S F : ℚ) : SavedParamsC ℚ :=
  { fresh ℚ with
    Slen := 882, PERC := 50, len1 := 441, len2 := 441, nFFT := 1764,
    win := List.replicate 882 1, forwardPlan := ⟨1764, false⟩, reversePlan := ⟨1764, true⟩,
    noise_history := List.replicate 100 (List.replicate 1764 0) ++ [List.replicate 1764 S],
    dev_history := List.replicate 100 (List.replicate 1764 0)
      ++ [List.replicate 1764 ((S - S / 101) ^ 2)],
    sums := List.replicate 1764 S, devs := List.replicate 1764 ((S - S / 101) ^ 2),
    noise_mu2 := List.replicate 1764 F, Xk_prev := List.replicate 441 0,
    x_old := List.replicate 441 complex_t.zero, ksi_min := 1 / 316, hold := false }

/-- The session `flat_session` after a burst of magnitude `101` in every bin: mean magnitude
`1`, squared deviation `(10000 / 101)^2` outside the masked centre, floor `1` before the
update. -/
def burst_session : SavedParamsC ℚ := flat_session 101 1

/-- The session `flat_session` after a burst of magnitude `101000` in every bin: mean magnitude
`1000`, squared deviation `(10^10 / 101)^2` outside the masked centre. -/
def loud_session : SavedParamsC ℚ := flat_session 101000 1

/-- The session `flat_session` with a silent history and the floor `1` in every bin. -/
def idle_session : SavedParamsC ℚ := flat_session 0 1

/-- A silent bootstrap segment of 101 blocks at `Srate = 44100` (`Slen = 882`): 89082 samples
`0 + 0i`. -/
noncomputable def long_silence_in : List (complex_t ℝ) := List.replicate 89082 complex_t.zero

end logmmse

end dsp

/-! ## Elementwise operations and the noise history -/

namespace dsp

namespace logmmse

open arrays

variable {α : Type} [LinearOrderedField α]

theorem addeach_eq {v w : List α} (h : v.length ≤ w.length) :
    addeach v w = some (List.zipWith (fun a b => a + b) v w) := if_pos h

theorem subeach_eq {v w : List α} (h : v.length ≤ w.length) :
    subeach v w = some (List.zipWith (fun a b => a - b) v w) := if_pos h

theorem muleach_eq {v w : List α} (h : v.length ≤ w.length) :
    muleach v w = some (List.zipWith muleach_entry v w) := if_pos h

theorem diveach_eq {v w : List α} (h : v.length ≤ w.length) :
    diveach v w = some (List.zipWith (fun a b => a / b) v w) := if_pos h

theorem addeach_c_eq {v w : List (complex_t α)} (h : v.length ≤ w.length) :
    addeach_c v w = some (List.zipWith complex_t.add v w) := if_pos h

theorem muleach_c_eq {v : List α} {w : List (complex_t α)} (h : v.length ≤ w.length) :
    muleach_c v w = some (List.zipWith (fun a b => complex_t.mul ⟨a, 0⟩ b) v w) := if_pos h

theorem volk_add_eq {a b : List α} {n : Int} (ha : (a.length : Int) = n)
    (hb : (b.length : Int) = n) :
    volk_32f_x2_add_32f a b n = some (List.zipWith (fun x y => x + y) a b) := by
  have h : 0 ≤ n ∧ n ≤ (a.length : Int) ∧ n ≤ (b.length : Int) := by omega
  have hn : n.toNat = a.length := by omega
  simp [volk_32f_x2_add_32f, h, hn]

theorem volk_sub_eq {a b : List α} {n : Int} (ha : (a.length : Int) = n)
    (hb : (b.length : Int) = n) :
    volk_32f_x2_subtract_32f a b n = some (List.zipWith (fun x y => x - y) a b) := by
  have h : 0 ≤ n ∧ n ≤ (a.length : Int) ∧ n ≤ (b.length : Int) := by omega
  have hn : n.toNat = a.length := by omega
  simp [volk_32f_x2_subtract_32f, h, hn]

theorem evict_loop_spec (sub : List α → List α → Option (List α)) (n : Nat) (H : Nat)
    (hsub : ∀ s f : List α, s.length = n → f.length = n →
      sub s f = some (vsub s f)) :
    ∀ (l : List (List α)) (s : List α), s.length = n → (∀ f ∈ l, f.length = n) →
      SavedParamsC.evict_loop sub (H : Int) l s =
        some (l.drop (l.length - H), (l.take (l.length - H)).foldl vsub s) := by
  intro l
  induction l with
  | nil => intro s _ _; simp [SavedParamsC.evict_loop]
  | cons f rest ih =>
    intro s hs hl
    have hf : f.length = n := hl f (List.mem_cons_self _ _)
    have hrest : ∀ g ∈ rest, g.length = n := fun g hg => hl g (List.mem_cons_of_mem _ hg)
    by_cases hH : ((f :: rest).length : Int) > H
    · have hk : (f :: rest).length - H = (rest.length - H) + 1 := by
        simp only [List.length_cons] at hH ⊢; omega
      rw [SavedParamsC.evict_loop, if_pos hH, hsub s f hs hf, Option.some_bind,
        ih _ (by simp [vsub, hs, hf]) hrest, hk]
      simp
    · have hk : (f :: rest).length - H = 0 := by
        simp only [List.length_cons] at hH ⊢; omega
      rw [SavedParamsC.evict_loop, if_neg hH, hk]
      simp

theorem length_foldl_vadd (n : Nat) :
    ∀ (l : List (List α)) (a : List α), a.length = n → (∀ f ∈ l, f.length = n) →
      (l.foldl vadd a).length = n := by
  intro l
  induction l with
  | nil => intro a ha _; simpa using ha
  | cons f rest ih =>
    intro a ha hl
    have hf : f.length = n := hl f (List.mem_cons_self _ _)
    simp only [List.foldl_cons]
    exact ih _ (by simp [vadd, ha, hf]) (fun g hg => hl g (List.mem_cons_of_mem _ hg))

theorem length_vsum (n : Nat) (l : List (List α)) (hl : ∀ f ∈ l, f.length = n) :
    (vsum n l).length = n :=
  length_foldl_vadd n l _ (by simp) hl

theorem vadd_right_comm (n : Nat) (a f g : List α) (ha : a.length = n) (hf : f.length = n)
    (hg : g.length = n) : vadd (vadd a f) g = vadd (vadd a g) f := by
  apply List.ext_getElem
  · simp [vadd, ha, hf, hg]
  · intro i h1 h2
    simp only [vadd, List.getElem_zipWith]
    ring

theorem vsub_vadd_cancel (n : Nat) (a f : List α) (ha : a.length = n) (hf : f.length = n) :
    vsub (vadd a f) f = a := by
  apply List.ext_getElem
  · simp [vadd, vsub, ha, hf]
  · intro i h1 h2
    simp only [vadd, vsub, List.getElem_zipWith]
    ring

theorem vsub_foldl_vadd (n : Nat) (f : List α) (hf : f.length = n) :
    ∀ (l : List (List α)) (a : List α), a.length = n → (∀ g ∈ l, g.length = n) →
      vsub (l.foldl vadd (vadd a f)) f = l.foldl vadd a := by
  intro l
  induction l with
  | nil => intro a ha _; simpa using vsub_vadd_cancel n a f ha hf
  | cons g rest ih =>
    intro a ha hl
    have hg : g.length = n := hl g (List.mem_cons_self _ _)
    simp only [List.foldl_cons]
    rw [vadd_right_comm n a f g ha hf hg]
    exact ih _ (by simp [vadd, ha, hg]) (fun g hg => hl g (List.mem_cons_of_mem _ hg))

theorem vsub_vsum_cons (n : Nat) (f : List α) (l : List (List α)) (hf : f.length = n)
    (hl : ∀ g ∈ l, g.length = n) : vsub (vsum n (f :: l)) f = vsum n l := by
  simp only [vsum, List.foldl_cons]
  exact vsub_foldl_vadd n f hf l _ (by simp) hl

theorem foldl_vsub_vsum (n : Nat) :
    ∀ (k : Nat) (l : List (List α)), (∀ g ∈ l, g.length = n) →
      (l.take k).foldl vsub (vsum n l) = vsum n (l.drop k) := by
  intro k
  induction k with
  | zero => intro l _; simp
  | succ k ih =>
    intro l hl
    cases l with
    | nil => simp
    | cons f rest =>
      have hf : f.length = n := hl f (List.mem_cons_self _ _)
      have hrest : ∀ g ∈ rest, g.length = n := fun g hg => hl g (List.mem_cons_of_mem _ hg)
      simp only [List.take_succ_cons, List.foldl_cons, List.drop_succ_cons]
      rw [vsub_vsum_cons n f rest hf hrest]
      exact ih rest hrest

theorem vsum_append_singleton (n : Nat) (l : List (List α)) (f : List α) :
    vsum n (l ++ [f]) = vadd (vsum n l) f := by
  simp [vsum, List.foldl_append]

theorem noise_history_len_cast (p : SavedParamsC α) :
    ((p.noise_history_len.toNat : Nat) : Int) = p.noise_history_len := by
  unfold SavedParamsC.noise_history_len
  split <;> simp

theorem length_foldl_vsub (n : Nat) :
    ∀ (l : List (List α)) (a : List α), a.length = n → (∀ f ∈ l, f.length = n) →
      (l.foldl vsub a).length = n := by
  intro l
  induction l with
  | nil => intro a ha _; simpa using ha
  | cons f rest ih =>
    intro a ha hl
    have hf : f.length = n := hl f (List.mem_cons_self _ _)
    simp only [List.foldl_cons]
    exact ih _ (by simp [vsub, ha, hf]) (fun g hg => hl g (List.mem_cons_of_mem _ hg))

theorem length_dev_frame (n : Nat) (sums noise : List α) (cnt : Nat) (hs : sums.length = n)
    (hn : noise.length = n) : (dev_frame sums cnt noise).length = n := by
  simp [dev_frame, vsub, arrays.div, hs, hn]

theorem add_noise_history_eq (p : SavedParamsC α) (noise : List α) (n : Nat)
    (hn : p.nFFT = n) (hnoise : noise.length = n) (hs : p.sums.length = n)
    (hd : p.devs.length = n) (hh : ∀ f ∈ p.noise_history, f.length = n)
    (hdh : ∀ f ∈ p.dev_history, f.length = n) :
    p.add_noise_history noise = some (p.pushed noise) := by
  unfold SavedParamsC.pushed
  set H := p.noise_history_len.toNat with hH
  set l1 := p.noise_history ++ [noise] with hl1
  set sums2 := (l1.take (l1.length - H)).foldl vsub (vadd p.sums noise) with hsums2
  set hist := l1.drop (l1.length - H) with hhist
  set diff := dev_frame sums2 hist.length noise with hdiff
  set l2 := p.dev_history ++ [diff] with hl2
  have hl1n : ∀ f ∈ l1, f.length = n := by
    intro f hf
    rcases List.mem_append.1 hf with h | h
    · exact hh f h
    · simpa [List.mem_singleton.1 h] using hnoise
  have hsums1 : (vadd p.sums noise).length = n := by simp [vadd, hs, hnoise]
  have e1 : SavedParamsC.evict_loop (fun s f => volk_32f_x2_subtract_32f s f p.nFFT)
      p.noise_history_len l1 (vadd p.sums noise) = some (hist, sums2) := by
    rw [← noise_history_len_cast]
    exact evict_loop_spec _ n H
      (fun s f h1 h2 => volk_sub_eq (by rw [hn, h1]) (by rw [hn, h2])) l1 _ hsums1 hl1n
  have hsums2n : sums2.length = n :=
    length_foldl_vsub n _ _ hsums1 (fun f hf => hl1n f (List.mem_of_mem_take hf))
  have hdiffn : diff.length = n := length_dev_frame n _ noise _ hsums2n hnoise
  have hl2n : ∀ f ∈ l2, f.length = n := by
    intro f hf
    rcases List.mem_append.1 hf with h | h
    · exact hdh f h
    · rw [List.mem_singleton.1 h]; exact hdiffn
  have e2 : SavedParamsC.evict_loop arrays.subeach p.noise_history_len l2 (vadd p.devs diff)
      = some (l2.drop (l2.length - H), (l2.take (l2.length - H)).foldl vsub (vadd p.devs diff)) := by
    rw [← noise_history_len_cast]
    exact evict_loop_spec _ n H
      (fun s f h1 h2 => subeach_eq (by rw [h1, h2])) l2 _
      (by simp [vadd, hd, hdiffn]) hl2n
  have hne : ¬ ((noise.length : Int) ≠ p.nFFT) := by simp [hn, hnoise]
  have e3 : arrays.subeach noise (arrays.div sums2 ((hist.length : Nat) : α))
      = some (vsub noise (arrays.div sums2 ((hist.length : Nat) : α))) :=
    subeach_eq (by simp [arrays.div, hsums2n, hnoise])
  have e4 : arrays.muleach (vsub noise (arrays.div sums2 ((hist.length : Nat) : α)))
      (vsub noise (arrays.div sums2 ((hist.length : Nat) : α))) = some diff :=
    muleach_eq (le_refl _)
  have e5 : arrays.addeach p.devs diff = some (vadd p.devs diff) :=
    addeach_eq (by rw [hd, hdiffn])
  have e0 : volk_32f_x2_add_32f p.sums noise p.nFFT = some (vadd p.sums noise) :=
    volk_add_eq (by rw [hn, hs]) (by rw [hn, hnoise])
  unfold SavedParamsC.add_noise_history
  rw [if_neg hne, e0]
  simp only [Option.some_bind]
  rw [e1]
  simp only [Option.some_bind]
  rw [e3]
  simp only [Option.some_bind]
  rw [e4]
  simp only [Option.some_bind]
  rw [e5]
  simp only [Option.some_bind]
  rw [e2]
  simp only [Option.some_bind]

theorem noise_history_len_pos (p : SavedParamsC α) : 0 < p.noise_history_len.toNat := by
  unfold SavedParamsC.noise_history_len
  split <;> simp

theorem pushed_noise_history_len (p : SavedParamsC α) (noise : List α) :
    (p.pushed noise).noise_history_len = p.noise_history_len := rfl

theorem drop_push_drop {β : Type} (H : Nat) (hH : 0 < H) (all : List β) (x : β) :
    ((all.drop (all.length - H)) ++ [x]).drop (((all.drop (all.length - H)) ++ [x]).length - H)
      = (all ++ [x]).drop ((all ++ [x]).length - H) := by
  by_cases h : all.length < H
  · have h1 : all.length - H = 0 := by omega
    simp [h1]
  · have h1 : ((all.drop (all.length - H)) ++ [x]).length - H = 1 := by
      simp only [List.length_append, List.length_drop, List.length_singleton]; omega
    have h2 : (all ++ [x]).length - H = (all.length - H) + 1 := by
      simp only [List.length_append, List.length_singleton]; omega
    rw [h1, h2]
    have h3 : all.length - H + 1 ≤ all.length := by omega
    rw [List.drop_append_of_le_length (by simp; omega), List.drop_append_of_le_length h3]
    simp [List.drop_drop, Nat.add_comm]

theorem HistInv_pushed (p : SavedParamsC α) (n : Nat) (all : List (List α)) (noise : List α)
    (h : p.HistInv n all) (hnoise : noise.length = n) :
    (p.pushed noise).HistInv n (all ++ [noise]) := by
  have hl1n : ∀ f ∈ p.noise_history ++ [noise], f.length = n := by
    intro f hf
    rcases List.mem_append.1 hf with h1 | h1
    · exact h.hist_len f h1
    · simpa [List.mem_singleton.1 h1] using hnoise
  have hs : p.sums.length = n := by rw [h.sums_eq]; exact length_vsum n _ h.hist_len
  have hd : p.devs.length = n := by rw [h.devs_eq]; exact length_vsum n _ h.dev_len
  have hsums1 : (vadd p.sums noise).length = n := by simp [vadd, hs, hnoise]
  have hsums2n : (p.pushed noise).sums.length = n :=
    length_foldl_vsub n _ _ hsums1 (fun f hf => hl1n f (List.mem_of_mem_take hf))
  have hdiffn : (dev_frame (p.pushed noise).sums (p.pushed noise).noise_history.length
      noise).length = n := length_dev_frame n _ noise _ hsums2n hnoise
  have hl2n : ∀ f ∈ p.dev_history ++ [dev_frame (p.pushed noise).sums
      (p.pushed noise).noise_history.length noise], f.length = n := by
    intro f hf
    rcases List.mem_append.1 hf with h1 | h1
    · exact h.dev_len f h1
    · rw [List.mem_singleton.1 h1]; exact hdiffn
  refine ⟨h.nFFT_eq, ?_, ?_, ?_, ?_, ?_, ?_⟩
  · intro f hf
    exact hl1n f (List.mem_of_mem_drop hf)
  · intro f hf
    exact hl2n f (List.mem_of_mem_drop hf)
  · show List.foldl vsub (vadd p.sums noise) _ = vsum n (List.drop _ _)
    rw [h.sums_eq, ← vsum_append_singleton]
    exact foldl_vsub_vsum n _ _ hl1n
  · show List.foldl vsub (vadd p.devs _) _ = vsum n (List.drop _ _)
    rw [h.devs_eq, ← vsum_append_singleton]
    exact foldl_vsub_vsum n _ _ hl2n
  · show List.drop _ (p.noise_history ++ [noise]) = _
    rw [pushed_noise_history_len, h.hist_eq]
    exact drop_push_drop _ (noise_history_len_pos p) all noise
  · show (List.drop _ (p.dev_history ++ [_])).length
      = (List.drop _ (p.noise_history ++ [noise])).length
    simp only [List.length_drop, List.length_append, List.length_singleton, h.dev_count]

theorem foldlM_add_noise_history (n : Nat) :
    ∀ (frames : List (List α)) (p : SavedParamsC α) (all : List (List α)),
      p.HistInv n all → (∀ f ∈ frames, f.length = n) →
      ∃ q, frames.foldlM SavedParamsC.add_noise_history p = some q ∧
        q.HistInv n (all ++ frames) ∧ q.noise_history_len = p.noise_history_len := by
  intro frames
  induction frames with
  | nil => intro p all h _; exact ⟨p, rfl, by simpa using h, rfl⟩
  | cons f rest ih =>
    intro p all h hf
    have hfn : f.length = n := hf f (List.mem_cons_self _ _)
    have hs : p.sums.length = n := by rw [h.sums_eq]; exact length_vsum n _ h.hist_len
    have hd : p.devs.length = n := by rw [h.devs_eq]; exact length_vsum n _ h.dev_len
    obtain ⟨q, hq, hinv, hlen⟩ := ih (p.pushed f) (all ++ [f]) (HistInv_pushed p n all f h hfn)
      (fun g hg => hf g (List.mem_cons_of_mem _ hg))
    refine ⟨q, ?_, by simpa using hinv, by rw [hlen, pushed_noise_history_len]⟩
    rw [List.foldlM_cons, add_noise_history_eq p f n h.nFFT_eq hfn hs hd h.hist_len h.dev_len]
    exact hq

end logmmse

end dsp

/-! ## The moving average `npmavg` -/

namespace dsp

namespace arrays

variable {α : Type} [LinearOrderedField α]

theorem tdiv_two (W : Int) (hW : 0 ≤ W) : 0 ≤ W.tdiv 2 ∧ 2 * W.tdiv 2 ≤ W ∧ W < 2 * W.tdiv 2 + 2 := by
  rw [Int.tdiv_eq_ediv hW (by norm_num)]
  omega

theorem MavgInv_zero (v : List α) (W : Int) (hW : 0 ≤ W) :
    MavgInv v W 0 ((0 : α), (0 : Int), ([] : List α)) := by
  obtain ⟨h1, h2, h3⟩ := tdiv_two W hW
  refine ⟨∅, by simp, by simp, by simp, ?_, ?_, ?_, by simp⟩
  · simp only [Nat.cast_zero]; omega
  · intro i _ hi; omega
  · simp only [List.length_nil, Nat.cast_zero]; omega

theorem npmavg_step_ok (v : List α) (W : Int) (hW : 0 ≤ W) (t : Nat) (st : α × Int × List α)
    (ht : (t : Int) < (v.length : Int) + W.tdiv 2) (h : MavgInv v W t st) :
    ∃ st1, npmavg_step v W st t = some st1 ∧ MavgInv v W (t + 1) st1 := by
  obtain ⟨w1, w2, w3⟩ := tdiv_two W hW
  obtain ⟨S, hS, hcard, hsum, hcount, hcov, hlen, hmean⟩ := h
  obtain ⟨sum, count, retval⟩ := st
  dsimp only at hcard hsum hcount hlen hmean
  -- the set after the optional insertion
  have htS : t ∉ S := fun hmem => by have := (hS t hmem).2; omega
  set S1 : Finset ℕ := if t < v.length then insert t S else S with hS1
  have hS1card : (S1.card : Int) = if t < v.length then count + 1 else count := by
    rw [hS1]; split
    · rw [Finset.card_insert_of_not_mem htS]; push_cast; omega
    · omega
  have hS1sum : (∑ i in S1, v.getD i 0) = if t < v.length then sum + v.getD t 0 else sum := by
    rw [hS1]; split
    · rw [Finset.sum_insert htS, hsum]; ring
    · exact hsum.symm
  have hS1mem : ∀ i ∈ S1, i < v.length ∧ i < t + 1 := by
    intro i hi
    rw [hS1] at hi
    split at hi
    · rcases Finset.mem_insert.1 hi with rfl | h1
      · omega
      · have := hS i h1; omega
    · have := hS i hi; omega
  by_cases hgt : (t : Int) > W
  · -- a round that drops an entry
    have hc2 : (S1.card : Int) - 1
        = min ((t : Int) + 1) (v.length : Int) - ((t : Int) - W) := by
      rw [hS1card]; split <;> omega
    set idx : Int := (t : Int) - ((S1.card : Int) - 1) with hidx
    have hidx0 : 0 ≤ idx := by omega
    have hidxn : idx < (v.length : Int) := by omega
    have hidxmem : idx.toNat ∈ S1 := by
      by_cases hin : idx.toNat = t
      · rw [hin, hS1, if_pos (by omega)]
        exact Finset.mem_insert_self _ _
      · have hmem : idx.toNat ∈ S := hcov idx.toNat (by omega) (by omega) (by omega)
        rw [hS1]; split
        · exact Finset.mem_insert_of_mem hmem
        · exact hmem
    have hstep : npmavg_step v W (sum, count, retval) t
        = some (∑ i in S1.erase idx.toNat, v.getD i 0, (S1.card : Int) - 1,
            if (t : Int) ≥ W.tdiv 2 then
              retval ++ [(∑ i in S1.erase idx.toNat, v.getD i 0) / (((S1.card : Int) - 1 : Int) : α)]
            else retval) := by
      simp only [npmavg_step]
      rw [← hS1card, ← hS1sum]
      simp only [if_pos hgt]
      rw [← hidx, if_neg (fun hc => hc.2 ⟨hidx0, hidxn⟩), Finset.sum_erase_eq_sub hidxmem]
    refine ⟨_, hstep, S1.erase idx.toNat, ?_, ?_, rfl, ?_, ?_, ?_, ?_⟩
    · intro i hi
      exact hS1mem i (Finset.mem_of_mem_erase hi)
    · dsimp only
      rw [Finset.card_erase_of_mem hidxmem]
      have : 0 < S1.card := Finset.card_pos.2 ⟨_, hidxmem⟩
      omega
    · dsimp only
      push_cast
      omega
    · intro i h1 h2 h3
      push_cast at h1
      have hne : i ≠ idx.toNat := by omega
      refine Finset.mem_erase.2 ⟨hne, ?_⟩
      by_cases hit : i = t
      · rw [hit, hS1, if_pos (by omega)]
        exact Finset.mem_insert_self _ _
      · have hmem : i ∈ S := hcov i (by omega) (by omega) h3
        rw [hS1]; split
        · exact Finset.mem_insert_of_mem hmem
        · exact hmem
    · dsimp only
      split
      · simp only [List.length_append, List.length_singleton]; push_cast; omega
      · push_cast; omega
    · dsimp only
      intro y hy
      split at hy
      · rcases List.mem_append.1 hy with h1 | h1
        · exact hmean y h1
        · rw [List.mem_singleton.1 h1]
          have hcardpos : 0 < (S1.erase idx.toNat).card := by
            rw [Finset.card_erase_of_mem hidxmem]
            have : 0 < S1.card := Finset.card_pos.2 ⟨_, hidxmem⟩
            omega
          refine ⟨S1.erase idx.toNat, Finset.card_pos.1 hcardpos, ?_, ?_⟩
          · intro i hi
            exact (hS1mem i (Finset.mem_of_mem_erase hi)).1
          · congr 1
            rw [Finset.card_erase_of_mem hidxmem]
            have : 0 < S1.card := Finset.card_pos.2 ⟨_, hidxmem⟩
            push_cast
            rw [Nat.cast_sub this]
            simp
      · exact hmean y hy
  · -- a round that only adds
    have hstep : npmavg_step v W (sum, count, retval) t
        = some (∑ i in S1, v.getD i 0, (S1.card : Int),
            if (t : Int) ≥ W.tdiv 2 then
              retval ++ [(∑ i in S1, v.getD i 0) / (((S1.card : Int)) : α)]
            else retval) := by
      simp only [npmavg_step]
      rw [← hS1card, ← hS1sum]
      rw [if_neg (fun hc => hgt hc.1)]
      simp only [if_neg hgt]
    refine ⟨_, hstep, S1, hS1mem, rfl, rfl, ?_, ?_, ?_, ?_⟩
    · dsimp only
      rw [hS1card]; push_cast; split <;> omega
    · intro i h1 h2 h3
      push_cast at h1
      by_cases hit : i = t
      · rw [hit, hS1, if_pos (by omega)]
        exact Finset.mem_insert_self _ _
      · have hmem : i ∈ S := hcov i (by omega) (by omega) h3
        rw [hS1]; split
        · exact Finset.mem_insert_of_mem hmem
        · exact hmem
    · dsimp only
      split
      · simp only [List.length_append, List.length_singleton]; push_cast; omega
      · push_cast; omega
    · dsimp only
      intro y hy
      split at hy
      · rcases List.mem_append.1 hy with h1 | h1
        · exact hmean y h1
        · rw [List.mem_singleton.1 h1]
          have hcardpos : 0 < S1.card := by
            have : (S1.card : Int) = (if t < v.length then count + 1 else count) := hS1card
            split at this <;> omega
          refine ⟨S1, Finset.card_pos.1 hcardpos, fun i hi => (hS1mem i hi).1, ?_⟩
          congr 1
          simp
      · exact hmean y hy



theorem npmavg_fold_ok (v : List α) (W : Int) (hW : 0 ≤ W) :
    ∀ T : Nat, (T : Int) ≤ (v.length : Int) + W.tdiv 2 →
      ∃ st, (List.range T).foldlM (npmavg_step v W) ((0 : α), (0 : Int), ([] : List α)) = some st
        ∧ MavgInv v W T st := by
  intro T
  induction T with
  | zero => intro _; exact ⟨_, rfl, MavgInv_zero v W hW⟩
  | succ T ih =>
    intro hT
    obtain ⟨st, hst, hinv⟩ := ih (by push_cast at hT; omega)
    obtain ⟨st1, hst1, hinv1⟩ := npmavg_step_ok v W hW T st (by push_cast at hT; omega) hinv
    refine ⟨st1, ?_, hinv1⟩
    rw [List.range_succ, List.foldlM_append, hst]
    simp only [Option.some_bind, Option.bind_eq_bind, List.foldlM_cons, List.foldlM_nil, hst1]
    rfl

theorem npmavg_ok (v : List α) (W : Int) (hW : 0 ≤ W) :
    ∃ r, npmavg v W = some r ∧ r.length = v.length ∧ ∀ y ∈ r, IsMeanOf v y := by
  obtain ⟨w1, w2, w3⟩ := tdiv_two W hW
  obtain ⟨st, hst, S, _, _, _, _, _, hlen, hmean⟩ :=
    npmavg_fold_ok v W hW ((v.length : Int) + W.tdiv 2).toNat (by omega)
  have hl : st.2.2.length = v.length := by omega
  refine ⟨st.2.2, ?_, hl, hmean⟩
  unfold npmavg
  rw [hst]
  simp only [Option.some_bind]
  rw [if_neg (by simp [hl])]

theorem getD_mem (v : List α) (i : Nat) (h : i < v.length) : v.getD i 0 ∈ v := by
  rw [List.getD_eq_getElem _ _ h]
  exact List.getElem_mem h

theorem IsMeanOf_pos (v : List α) (y : α) (hv : ∀ x ∈ v, 0 < x) (h : IsMeanOf v y) : 0 < y := by
  obtain ⟨S, hne, hS, rfl⟩ := h
  apply div_pos
  · exact Finset.sum_pos (fun i hi => hv _ (getD_mem v i (hS i hi))) hne
  · exact_mod_cast Finset.card_pos.2 hne

theorem IsMeanOf_zero (v : List α) (y : α) (hv : ∀ x ∈ v, x = 0) (h : IsMeanOf v y) : y = 0 := by
  obtain ⟨S, _, hS, rfl⟩ := h
  rw [Finset.sum_eq_zero (fun i hi => hv _ (getD_mem v i (hS i hi)))]
  simp

theorem IsMeanOf_nonneg (v : List α) (y : α) (hv : ∀ x ∈ v, 0 ≤ x) (h : IsMeanOf v y) :
    0 ≤ y := by
  obtain ⟨S, _, hS, rfl⟩ := h
  apply div_nonneg
  · exact Finset.sum_nonneg (fun i hi => hv _ (getD_mem v i (hS i hi)))
  · exact Nat.cast_nonneg _

theorem npmavg_fl_id (v : List α) (W : Int) : npmavg_fl id v W = npmavg v W := rfl

theorem npmavg_step_fl_ok (fl : α → α) (v : List α) (W : Int) (hW : 0 ≤ W) (t : Nat)
    (st : α × Int × List α) (ht : (t : Int) < (v.length : Int) + W.tdiv 2)
    (hc : st.2.1 = min (t : Int) (v.length : Int) - max 0 ((t : Int) - (W + 1)))
    (hl : (st.2.2.length : Int) = max 0 ((t : Int) - W.tdiv 2)) :
    ∃ st1, npmavg_step_fl fl v W st t = some st1 ∧
      st1.2.1 = min ((t : Int) + 1) (v.length : Int) - max 0 ((t : Int) + 1 - (W + 1)) ∧
      (st1.2.2.length : Int) = max 0 ((t : Int) + 1 - W.tdiv 2) ∧
      (W.tdiv 2 ≤ (t : Int) → 1 ≤ st1.2.1) := by
  obtain ⟨w1, w2, w3⟩ := tdiv_two W hW
  obtain ⟨sum, count, retval⟩ := st
  dsimp only at hc hl
  have hcnt : (if (t : Int) > W then (if t < v.length then count + 1 else count) - 1
      else (if t < v.length then count + 1 else count))
      = min ((t : Int) + 1) (v.length : Int) - max 0 ((t : Int) + 1 - (W + 1)) := by
    split <;> split <;> omega
  have hidx : ¬ ((t : Int) > W ∧ ¬ (0 ≤ (t : Int)
      - (min ((t : Int) + 1) (v.length : Int) - max 0 ((t : Int) + 1 - (W + 1)))
      ∧ (t : Int) - (min ((t : Int) + 1) (v.length : Int) - max 0 ((t : Int) + 1 - (W + 1)))
        < (v.length : Int))) := by
    rintro ⟨h1, h2⟩
    apply h2
    omega
  simp only [npmavg_step_fl]
  rw [hcnt, if_neg hidx]
  refine ⟨_, rfl, rfl, ?_, ?_⟩
  · dsimp only
    split
    · simp only [List.length_append, List.length_singleton]; push_cast; omega
    · omega
  · intro h
    dsimp only
    omega

theorem npmavg_fl_fold_ok (fl : α → α) (v : List α) (W : Int) (hW : 0 ≤ W) :
    ∀ T : Nat, (T : Int) ≤ (v.length : Int) + W.tdiv 2 →
      ∃ st, (List.range T).foldlM (npmavg_step_fl fl v W) ((0 : α), (0 : Int), ([] : List α))
          = some st ∧
        st.2.1 = min (T : Int) (v.length : Int) - max 0 ((T : Int) - (W + 1)) ∧
        (st.2.2.length : Int) = max 0 ((T : Int) - W.tdiv 2) ∧
        (W.tdiv 2 < (T : Int) → 1 ≤ st.2.1) := by
  obtain ⟨w1, w2, w3⟩ := tdiv_two W hW
  intro T
  induction T with
  | zero =>
    intro _
    refine ⟨_, rfl, ?_, ?_, ?_⟩
    · simp only [Nat.cast_zero]; omega
    · simp only [List.length_nil, Nat.cast_zero]; omega
    · intro h; simp only [Nat.cast_zero] at h; omega
  | succ T ih =>
    intro hT
    obtain ⟨st, hst, hc, hl, _⟩ := ih (by push_cast at hT; omega)
    obtain ⟨st1, hst1, hc1, hl1, hp1⟩ :=
      npmavg_step_fl_ok fl v W hW T st (by push_cast at hT; omega) hc hl
    refine ⟨st1, ?_, by push_cast; exact hc1, by push_cast; exact hl1, ?_⟩
    · rw [List.range_succ, List.foldlM_append, hst]
      simp only [Option.some_bind, Option.bind_eq_bind, List.foldlM_cons, List.foldlM_nil, hst1]
      rfl
    · intro h
      push_cast at h
      exact hp1 (by omega)

theorem npmavg_fl_ok (fl : α → α) (v : List α) (W : Int) (hW : 0 ≤ W) :
    ∃ r, npmavg_fl fl v W = some r ∧ r.length = v.length := by
  obtain ⟨w1, w2, w3⟩ := tdiv_two W hW
  obtain ⟨st, hst, _, hlen, _⟩ :=
    npmavg_fl_fold_ok fl v W hW ((v.length : Int) + W.tdiv 2).toNat (by omega)
  have hl : st.2.2.length = v.length := by omega
  refine ⟨st.2.2, ?_, hl⟩
  unfold npmavg_fl
  rw [hst]
  simp only [Option.some_bind]
  rw [if_neg (by simp [hl])]

end arrays

end dsp

/-! ## The pieces of one frame -/

namespace dsp

namespace logmmse

open arrays

variable {α : Type} [LinearOrderedField α]

theorem length_resize (inp : List (complex_t α)) (n : Int) (hn : 0 ≤ n) :
    ((resize inp n).length : Int) = n := by
  unfold resize
  split
  · assumption
  · rw [if_neg (by omega)]
    simp only [List.length_append, List.length_take, List.length_replicate]
    omega

theorem length_npfftfft (B : Backend α) (hB : B.Lawful) (inp : List (complex_t α))
    (plan : fftwPlan) (hn : 0 ≤ plan.nbuckets) :
    ((npfftfft B inp plan).length : Int) = plan.nbuckets := by
  unfold npfftfft
  split
  · simp only [div_c, List.length_map, hB.fft_length]; exact length_resize _ _ hn
  · simp only [hB.fft_length]; exact length_resize _ _ hn

theorem length_zero_repair_from (prev : α) (l : List α) :
    (zero_repair_from prev l).length = l.length := by
  induction l generalizing prev with
  | nil => rfl
  | cons s rest ih => simp [zero_repair_from, ih]

theorem length_zero_repair (l : List α) : (zero_repair l).length = l.length := by
  cases l with
  | nil => rfl
  | cons s rest => simp [zero_repair, length_zero_repair_from]

theorem nparange_c_eq (v : List (complex_t α)) (b e : Int) (hb : 0 ≤ b) (hbe : b < e)
    (he : e ≤ (v.length : Int)) :
    nparange_c v b e = some ((v.drop b.toNat).take (e - b).toNat) := by
  unfold nparange_c
  rw [if_neg (by omega), if_pos ⟨hb, he⟩]

theorem length_drop_take (v : List (complex_t α)) (b e : Int) (hb : 0 ≤ b) (hbe : b < e)
    (he : e ≤ (v.length : Int)) :
    (((v.drop b.toNat).take (e - b).toNat).length : Int) = e - b := by
  simp only [List.length_take, List.length_drop]
  omega

theorem nparangeset_c_eq (v : List (complex_t α)) (b : Int) (part : List (complex_t α))
    (hb : 0 ≤ b) (he : b + (part.length : Int) ≤ (v.length : Int)) :
    ∃ r, nparangeset_c v b part = some r ∧ r.length = v.length := by
  unfold nparangeset_c
  split
  · exact ⟨v, rfl, rfl⟩
  · rw [if_pos ⟨hb, he⟩]
    refine ⟨_, rfl, ?_⟩
    simp only [List.length_append, List.length_take, List.length_drop]
    omega

theorem frame_gammak_eq (p : SavedParamsC α) (sig : List α)
    (h : sig.length ≤ p.noise_mu2.length) :
    frame_gammak p sig = some (npminimum_
      (List.zipWith (fun a b => a / b) (List.zipWith muleach_entry sig sig) p.noise_mu2) 40) := by
  unfold frame_gammak
  rw [muleach_eq (le_refl _)]
  simp only [Option.some_bind]
  rw [diveach_eq (by simpa using h)]
  simp only [Option.some_bind]

theorem frame_ksi_eq_first (p : SavedParamsC α) (gammak : List α) (h : npall p.Xk_prev = false) :
    frame_ksi p gammak
      = some (add (mul (npmaximum_ (add gammak (-1)) 0) (1 - p.aa)) p.aa) := by
  unfold frame_ksi
  rw [if_pos (by simp [h])]

theorem frame_ksi_eq_dd (p : SavedParamsC α) (gammak : List α) (h : npall p.Xk_prev = true)
    (h1 : p.Xk_prev.length ≤ p.noise_mu2.length) (h2 : p.Xk_prev.length ≤ gammak.length) :
    frame_ksi p gammak
      = some (npmaximum_ (List.zipWith (fun a b => a + b)
          (List.zipWith (fun a b => a / b) (mul p.Xk_prev p.aa) p.noise_mu2)
          (mul (npmaximum_ (add gammak (-1)) 0) (1 - p.aa))) p.ksi_min) := by
  unfold frame_ksi
  rw [if_neg (by simp [h]), diveach_eq (by simpa [mul] using h1)]
  simp only [Option.some_bind]
  rw [addeach_eq (by simp [mul, npmaximum_, npmaximum, add]; omega)]
  simp only [Option.some_bind]

theorem frame_hw_eq (B : Backend α) (ksi gammak : List α) (h : ksi.length ≤ gammak.length) :
    frame_hw B ksi gammak
      = some (List.zipWith muleach_entry (List.zipWith (fun a b => a / b) ksi (add ksi 1))
          (npexp B (mul (scipyspecialexpn B
            (List.zipWith muleach_entry (List.zipWith (fun a b => a / b) ksi (add ksi 1)) gammak))
            (1 / 2)))) := by
  unfold frame_hw
  rw [diveach_eq (by simp [add])]
  simp only [Option.some_bind]
  rw [muleach_eq (by simpa [add] using h)]
  simp only [Option.some_bind]
  rw [muleach_eq (by simp [add, npexp, mul, scipyspecialexpn]; omega)]

theorem frame_gain_ok (B : Backend α) (p : SavedParamsC α) (sig : List α) (n : Nat)
    (hsig : sig.length = n) (hmu : p.noise_mu2.length = n)
    (hXk : p.Xk_prev.length = n ∨ npall p.Xk_prev = false) :
    ∃ hw, frame_gain B p sig = some hw ∧ hw.length = n := by
  unfold frame_gain
  rw [frame_gammak_eq p sig (by omega)]
  simp only [Option.some_bind]
  by_cases hall : npall p.Xk_prev = false
  · rw [frame_ksi_eq_first p _ hall]
    simp only [Option.some_bind]
    rw [frame_hw_eq _ _ _ (by simp [add, mul, npmaximum_, npmaximum, npminimum_, npminimum])]
    refine ⟨_, rfl, ?_⟩
    simp [add, mul, npmaximum_, npmaximum, npminimum_, npminimum, npexp, scipyspecialexpn,
      hsig, hmu]
  · have hall1 : npall p.Xk_prev = true := by simpa using hall
    have hX : p.Xk_prev.length = n := by
      rcases hXk with h | h
      · exact h
      · exact absurd h hall
    rw [frame_ksi_eq_dd p _ hall1 (by omega)
      (by simp [npminimum_, npminimum, hsig, hmu, hX])]
    simp only [Option.some_bind]
    rw [frame_hw_eq _ _ _ (by simp [add, mul, npmaximum_, npmaximum, npminimum_, npminimum])]
    refine ⟨_, rfl, ?_⟩
    simp [add, mul, npmaximum_, npmaximum, npminimum_, npminimum, npexp, scipyspecialexpn,
      hsig, hmu, hX]

theorem logmmse_frame_eq (B : Backend α) (x xf : List (complex_t α)) (p : SavedParamsC α)
    (i : Nat) :
    logmmse_frame B x (xf, p) i
      = (frame_step B x p ((i : Int) * p.len2)).bind fun r =>
          (nparangeset_c xf ((i : Int) * p.len2) r.1).bind fun xf1 => some (xf1, r.2) := by
  unfold logmmse_frame frame_step
  dsimp only
  cases frame_analysis B x p ((i : Int) * p.len2) with
  | none => rfl
  | some a =>
    simp only [Option.some_bind]
    cases p.add_noise_history a.2 with
    | none => rfl
    | some p1 =>
      simp only [Option.some_bind]
      cases frame_gain B p1 a.2 with
      | none => rfl
      | some hw =>
        simp only [Option.some_bind]
        cases frame_synthesis B p1 a.1 a.2 hw with
        | none => rfl
        | some r => rfl

theorem add_noise_history_keeps (p q : SavedParamsC α) (noise : List α)
    (h : p.add_noise_history noise = some q) :
    q.floor_part = p.floor_part ∧ q.config = p.config ∧ q.Xk_prev = p.Xk_prev
      ∧ q.x_old = p.x_old := by
  unfold SavedParamsC.add_noise_history at h
  split at h
  · exact absurd h (by simp)
  · simp only [Option.bind_eq_some] at h
    obtain ⟨_, _, _, _, _, _, _, _, _, _, _, _, h⟩ := h
    have h1 := Option.some.inj h
    subst h1
    exact ⟨rfl, rfl, rfl, rfl⟩

theorem frame_step_keeps (B : Backend α) (x : List (complex_t α)) (p : SavedParamsC α)
    (k : Int) (r : List (complex_t α) × SavedParamsC α) (h : frame_step B x p k = some r) :
    r.2.floor_part = p.floor_part ∧ r.2.config = p.config := by
  unfold frame_step at h
  simp only [Option.bind_eq_some] at h
  obtain ⟨a, _, p1, hp1, hw, _, s, _, h⟩ := h
  have h1 := Option.some.inj h
  subst h1
  obtain ⟨hf, hc, _, _⟩ := add_noise_history_keeps p p1 a.2 hp1
  exact ⟨hf, hc⟩

theorem logmmse_frame_keeps (B : Backend α) (x : List (complex_t α))
    (st st1 : List (complex_t α) × SavedParamsC α) (i : Nat)
    (h : logmmse_frame B x st i = some st1) :
    st1.2.floor_part = st.2.floor_part ∧ st1.2.config = st.2.config := by
  obtain ⟨xf, p⟩ := st
  rw [logmmse_frame_eq] at h
  simp only [Option.bind_eq_some] at h
  obtain ⟨r, hr, xf1, _, h⟩ := h
  have h1 := Option.some.inj h
  subst h1
  exact frame_step_keeps B x p _ r hr

theorem foldlM_logmmse_frame_keeps (B : Backend α) (x : List (complex_t α)) :
    ∀ (l : List Nat) (st st1 : List (complex_t α) × SavedParamsC α),
      l.foldlM (logmmse_frame B x) st = some st1 →
      st1.2.floor_part = st.2.floor_part ∧ st1.2.config = st.2.config := by
  intro l
  induction l with
  | nil =>
    intro st st1 h
    have h1 : st = st1 := Option.some.inj h
    subst h1
    exact ⟨rfl, rfl⟩
  | cons i rest ih =>
    intro st st1 h
    rw [List.foldlM_cons] at h
    simp only [Option.bind_eq_bind, Option.bind_eq_some] at h
    obtain ⟨st2, h2, h3⟩ := h
    obtain ⟨a1, a2⟩ := logmmse_frame_keeps B x st st2 i h2
    obtain ⟨b1, b2⟩ := ih st2 st1 h3
    exact ⟨b1.trans a1, b2.trans a2⟩



theorem pushed_lengths (p : SavedParamsC α) (noise : List α) (n : Nat)
    (hnoise : noise.length = n) (hs : p.sums.length = n) (hd : p.devs.length = n)
    (hh : ∀ f ∈ p.noise_history, f.length = n) (hdh : ∀ f ∈ p.dev_history, f.length = n) :
    (p.pushed noise).sums.length = n ∧ (p.pushed noise).devs.length = n
      ∧ (∀ f ∈ (p.pushed noise).noise_history, f.length = n)
      ∧ (∀ f ∈ (p.pushed noise).dev_history, f.length = n) := by
  have hl1n : ∀ f ∈ p.noise_history ++ [noise], f.length = n := by
    intro f hf
    rcases List.mem_append.1 hf with h1 | h1
    · exact hh f h1
    · simpa [List.mem_singleton.1 h1] using hnoise
  have hsums1 : (vadd p.sums noise).length = n := by simp [vadd, hs, hnoise]
  have hsums2n : (p.pushed noise).sums.length = n :=
    length_foldl_vsub n _ _ hsums1 (fun f hf => hl1n f (List.mem_of_mem_take hf))
  have hdiffn : (dev_frame (p.pushed noise).sums (p.pushed noise).noise_history.length
      noise).length = n := length_dev_frame n _ noise _ hsums2n hnoise
  have hl2n : ∀ f ∈ p.dev_history ++ [dev_frame (p.pushed noise).sums
      (p.pushed noise).noise_history.length noise], f.length = n := by
    intro f hf
    rcases List.mem_append.1 hf with h1 | h1
    · exact hdh f h1
    · rw [List.mem_singleton.1 h1]; exact hdiffn
  have hv : (vadd p.devs (dev_frame (p.pushed noise).sums
      (p.pushed noise).noise_history.length noise)).length = n := by
    simp only [vadd, List.length_zipWith, hd, hdiffn, min_self]
  refine ⟨hsums2n, ?_, ?_, ?_⟩
  · exact length_foldl_vsub n _ _ hv (fun f hf => hl2n f (List.mem_of_mem_take hf))
  · intro f hf
    exact hl1n f (List.mem_of_mem_drop hf)
  · intro f hf
    exact hl2n f (List.mem_of_mem_drop hf)



theorem frame_analysis_ok (B : Backend α) (hB : B.Lawful) (x : List (complex_t α))
    (p : SavedParamsC α) (k : Int) (h : p.WF) (hk : 0 ≤ k)
    (hx : k + p.Slen ≤ (x.length : Int)) :
    ∃ a, frame_analysis B x p k = some a ∧ (a.1.length : Int) = p.nFFT
      ∧ (a.2.length : Int) = p.nFFT
      ∧ a.2 = zero_repair (npabsolute B a.1)
      ∧ a.1 = npfftfft B (List.zipWith (fun a b => complex_t.mul ⟨a, 0⟩ b) p.win
          ((x.drop k.toNat).take p.Slen.toNat)) p.forwardPlan := by
  have hS : 0 < p.Slen := by have := h.Slen_eq; have := h.len2_pos; omega
  have hn : 0 ≤ p.forwardPlan.nbuckets := by
    rw [h.fwd_size, h.nFFT_eq]; omega
  have e1 := nparange_c_eq x k (k + p.Slen) hk (by omega) hx
  have l1 := length_drop_take x k (k + p.Slen) hk (by omega) hx
  have hsub : k + p.Slen - k = p.Slen := by omega
  rw [hsub] at e1 l1
  have e2 : muleach_c p.win ((x.drop k.toNat).take p.Slen.toNat)
      = some (List.zipWith (fun a b => complex_t.mul ⟨a, 0⟩ b) p.win
          ((x.drop k.toNat).take p.Slen.toNat)) :=
    muleach_c_eq (by have := h.win_len; omega)
  unfold frame_analysis
  rw [e1]
  simp only [Option.some_bind]
  rw [e2]
  simp only [Option.some_bind]
  refine ⟨_, rfl, ?_, ?_, rfl, rfl⟩
  · rw [length_npfftfft B hB _ _ hn, h.fwd_size]
  · rw [length_zero_repair]
    simp only [npabsolute, List.length_map]
    rw [length_npfftfft B hB _ _ hn, h.fwd_size]

theorem frame_synthesis_ok (B : Backend α) (hB : B.Lawful) (p : SavedParamsC α)
    (spec : List (complex_t α)) (sig hw : List α) (h : p.WF)
    (hspec : (spec.length : Int) = p.nFFT) (hsig : (sig.length : Int) = p.nFFT)
    (hhw : (hw.length : Int) = p.nFFT) :
    ∃ r, frame_synthesis B p spec sig hw = some r ∧ (r.1.length : Int) = p.nFFT
      ∧ (r.2.1.length : Int) = p.len2 ∧ (r.2.2.length : Int) = p.len1 := by
  have h1 := h.Slen_eq
  have h2 := h.len2_pos
  have h3 := h.len1_eq
  have h4 := h.nFFT_eq
  have hn : 0 ≤ p.reversePlan.nbuckets := by rw [h.rev_size]; omega
  have hxi : ∀ v, ((npfftfft B v p.reversePlan).length : Int) = p.nFFT := by
    intro v; rw [length_npfftfft B hB _ _ hn, h.rev_size]
  unfold frame_synthesis
  rw [muleach_eq (by omega)]
  simp only [Option.some_bind]
  rw [muleach_eq (le_refl _)]
  simp only [Option.some_bind]
  rw [muleach_c_eq (by omega)]
  simp only [Option.some_bind]
  rw [nparange_c_eq _ 0 p.len1 (le_refl _) (by omega) (by rw [hxi]; omega)]
  simp only [Option.some_bind]
  have lh := length_drop_take (npfftfft B (List.zipWith (fun a b => complex_t.mul ⟨a, 0⟩ b) hw
    spec) p.reversePlan) 0 p.len1 (le_refl _) (by omega) (by rw [hxi]; omega)
  rw [addeach_c_eq (by have := h.x_old_len; omega)]
  simp only [Option.some_bind]
  rw [nparange_c_eq _ p.len1 p.Slen (by omega) (by omega) (by rw [hxi]; omega)]
  simp only [Option.some_bind]
  have lt := length_drop_take (npfftfft B (List.zipWith (fun a b => complex_t.mul ⟨a, 0⟩ b) hw
    spec) p.reversePlan) p.len1 p.Slen (by omega) (by omega) (by rw [hxi]; omega)
  refine ⟨_, rfl, ?_, ?_, ?_⟩
  · simp only [List.length_zipWith]; omega
  · have := h.x_old_len
    simp only [List.length_zipWith]
    omega
  · dsimp only
    omega

theorem WF_of_pushed (p : SavedParamsC α) (noise : List α) (h : p.WF)
    (hnoise : (noise.length : Int) = p.nFFT) : (p.pushed noise).WF := by
  have h1 := h.Slen_eq
  have h2 := h.len2_pos
  have h4 := h.nFFT_eq
  obtain ⟨a, b, c, d⟩ := pushed_lengths p noise p.nFFT.toNat (by omega)
    (by have := h.sums_len; omega) (by have := h.devs_len; omega)
    (fun f hf => by have := h.hist_len f hf; omega)
    (fun f hf => by have := h.dev_len f hf; omega)
  exact
    { len2_pos := h.len2_pos, len1_eq := h.len1_eq, Slen_eq := h.Slen_eq, nFFT_eq := h.nFFT_eq,
      win_len := h.win_len, fwd_size := h.fwd_size, rev_size := h.rev_size,
      mu2_len := h.mu2_len,
      sums_len := by show ((p.pushed noise).sums.length : Int) = p.nFFT; omega,
      devs_len := by show ((p.pushed noise).devs.length : Int) = p.nFFT; omega,
      x_old_len := h.x_old_len,
      hist_len := fun f hf => by
        have := c f hf
        show (f.length : Int) = p.nFFT
        omega,
      dev_len := fun f hf => by
        have := d f hf
        show (f.length : Int) = p.nFFT
        omega,
      Xk_ok := h.Xk_ok }

theorem add_noise_history_of_WF (p : SavedParamsC α) (noise : List α) (h : p.WF)
    (hnoise : (noise.length : Int) = p.nFFT) :
    p.add_noise_history noise = some (p.pushed noise) := by
  have h1 := h.Slen_eq
  have h2 := h.len2_pos
  have h4 := h.nFFT_eq
  exact add_noise_history_eq p noise p.nFFT.toNat (by omega) (by omega)
    (by have := h.sums_len; omega) (by have := h.devs_len; omega)
    (fun f hf => by have := h.hist_len f hf; omega)
    (fun f hf => by have := h.dev_len f hf; omega)

theorem frame_step_ok (B : Backend α) (hB : B.Lawful) (x : List (complex_t α))
    (p : SavedParamsC α) (k : Int) (h : p.WF) (hk : 0 ≤ k)
    (hx : k + p.Slen ≤ (x.length : Int)) :
    ∃ hop q, frame_step B x p k = some (hop, q) ∧ (hop.length : Int) = p.len2 ∧ q.WF := by
  obtain ⟨a, ha, hspec, hsig, _, _⟩ := frame_analysis_ok B hB x p k h hk hx
  have hp1 := add_noise_history_of_WF p a.2 h hsig
  have hWF1 := WF_of_pushed p a.2 h hsig
  have h1 := h.Slen_eq
  have h2 := h.len2_pos
  have h4 := h.nFFT_eq
  obtain ⟨hw, hhw, hwlen⟩ := frame_gain_ok B (p.pushed a.2) a.2 p.nFFT.toNat (by omega)
    (by have := hWF1.mu2_len; show (p.pushed a.2).noise_mu2.length = _
        have e : (p.pushed a.2).nFFT = p.nFFT := rfl
        omega)
    (by
      rcases h.Xk_ok with hh | hh
      · left; show p.Xk_prev.length = _; omega
      · right; exact hh)
  obtain ⟨r, hr, r1, r2, r3⟩ := frame_synthesis_ok B hB (p.pushed a.2) a.1 a.2 hw hWF1 hspec hsig
    (by show (hw.length : Int) = p.nFFT; omega)
  refine ⟨r.2.1, { p.pushed a.2 with Xk_prev := r.1, x_old := r.2.2 }, ?_, r2, ?_⟩
  · unfold frame_step
    rw [ha]
    simp only [Option.some_bind]
    rw [hp1]
    simp only [Option.some_bind]
    rw [hhw]
    simp only [Option.some_bind]
    rw [hr]
    simp only [Option.some_bind]
  · exact
      { len2_pos := hWF1.len2_pos, len1_eq := hWF1.len1_eq, Slen_eq := hWF1.Slen_eq,
        nFFT_eq := hWF1.nFFT_eq, win_len := hWF1.win_len, fwd_size := hWF1.fwd_size,
        rev_size := hWF1.rev_size, mu2_len := hWF1.mu2_len, sums_len := hWF1.sums_len,
        devs_len := hWF1.devs_len, x_old_len := r3, hist_len := hWF1.hist_len,
        dev_len := hWF1.dev_len, Xk_ok := Or.inl r1 }

theorem config_fields (p q : SavedParamsC α) (h : q.config = p.config) :
    q.Slen = p.Slen ∧ q.len1 = p.len1 ∧ q.len2 = p.len2 ∧ q.nFFT = p.nFFT ∧ q.win = p.win
      ∧ q.forwardPlan = p.forwardPlan ∧ q.reversePlan = p.reversePlan ∧ q.aa = p.aa
      ∧ q.ksi_min = p.ksi_min := by
  simp only [SavedParamsC.config, Prod.mk.injEq] at h
  tauto

theorem floor_fields (p q : SavedParamsC α) (h : q.floor_part = p.floor_part) :
    q.noise_mu2 = p.noise_mu2 ∧ q.mindb = p.mindb ∧ q.maxdb = p.maxdb
      ∧ q.generation = p.generation ∧ q.stable = p.stable ∧ q.hold = p.hold := by
  simp only [SavedParamsC.floor_part, Prod.mk.injEq] at h
  tauto

theorem nparangeset_c_hop (xf hop : List (complex_t α)) (k L : Nat) (hL : 0 < L)
    (hhop : hop.length = L) (hk : k + L ≤ xf.length) :
    nparangeset_c xf (k : Int) hop = some (xf.take k ++ hop ++ xf.drop (k + L)) := by
  unfold nparangeset_c
  rw [if_neg (by omega), if_pos ⟨by omega, by omega⟩]
  simp [hhop]

theorem run_frames_ok (B : Backend α) (hB : B.Lawful) (x : List (complex_t α)) (L : Nat)
    (hL : 0 < L) :
    ∀ (m i0 : Nat) (p : SavedParamsC α) (xf : List (complex_t α)), p.WF → p.len2 = (L : Int) →
      (∀ i, i0 ≤ i → i < i0 + m → ((i : Int) * p.len2 + p.Slen ≤ (x.length : Int))) →
      (i0 + m) * L ≤ xf.length →
      ∃ hops q, run_frames B x i0 m p = some (hops, q) ∧ hops.length = m * L ∧ q.WF
        ∧ q.floor_part = p.floor_part ∧ q.config = p.config
        ∧ (List.range' i0 m).foldlM (logmmse_frame B x) (xf, p)
            = some (xf.take (i0 * L) ++ hops ++ xf.drop ((i0 + m) * L), q) := by
  intro m
  induction m with
  | zero =>
    intro i0 p xf h _ _ _
    refine ⟨[], p, rfl, by simp, h, rfl, rfl, ?_⟩
    simp
  | succ m ih =>
    intro i0 p xf h hpL hfit hxf
    have hk : ((i0 : Int) * p.len2) = ((i0 * L : Nat) : Int) := by rw [hpL]; push_cast; rfl
    obtain ⟨hop, q1, hstep, hhop, hq1⟩ := frame_step_ok B hB x p ((i0 : Int) * p.len2) h
      (by rw [hk]; exact Int.natCast_nonneg _) (hfit i0 (le_refl _) (by omega))
    obtain ⟨kf, kc⟩ := frame_step_keeps B x p _ _ hstep
    dsimp only at kf kc
    obtain ⟨cS, _, cl2, _⟩ := config_fields p q1 kc
    have hhopL : hop.length = L := by omega
    have hxf1 : (i0 + 1 + m) * L ≤ (xf.take (i0 * L) ++ hop ++ xf.drop (i0 * L + L)).length := by
      have e1 : (i0 + 1 + m) * L = (i0 + (m + 1)) * L := by ring
      have e2 : i0 * L + L ≤ xf.length := by
        have : (i0 + 1) * L ≤ (i0 + (m + 1)) * L := Nat.mul_le_mul_right _ (by omega)
        have e3 : (i0 + 1) * L = i0 * L + L := by ring
        omega
      simp only [List.length_append, List.length_take, List.length_drop]
      omega
    obtain ⟨hops, q, hrun, hlen, hq, hf, hc, hfold⟩ := ih (i0 + 1) q1
      (xf.take (i0 * L) ++ hop ++ xf.drop (i0 * L + L)) hq1 (by rw [cl2, hpL])
      (fun i hi1 hi2 => by rw [cl2, cS]; exact hfit i (by omega) (by omega)) hxf1
    have e2 : i0 * L + L ≤ xf.length := by
      have : (i0 + 1) * L ≤ (i0 + (m + 1)) * L := Nat.mul_le_mul_right _ (by omega)
      have e3 : (i0 + 1) * L = i0 * L + L := by ring
      omega
    refine ⟨hop ++ hops, q, ?_, ?_, hq, hf.trans kf, hc.trans kc, ?_⟩
    · rw [run_frames, hstep]
      simp only [Option.some_bind]
      rw [hrun]
      simp only [Option.some_bind]
    · simp only [List.length_append, hlen, hhopL]; ring
    · rw [List.range'_succ, List.foldlM_cons, logmmse_frame_eq, hstep]
      simp only [Option.some_bind, Option.bind_eq_bind]
      rw [hk, nparangeset_c_hop xf hop (i0 * L) L hL hhopL e2]
      simp only [Option.some_bind]
      rw [hfold]
      congr 2
      have t1 : (xf.take (i0 * L) ++ hop ++ xf.drop (i0 * L + L)).take ((i0 + 1) * L)
          = xf.take (i0 * L) ++ hop := by
        have e3 : (i0 + 1) * L = (xf.take (i0 * L) ++ hop).length := by
          simp only [List.length_append, List.length_take, hhopL]
          have : (i0 + 1) * L = i0 * L + L := by ring
          omega
        rw [e3, List.take_left']
        rfl
      have t2 : (xf.take (i0 * L) ++ hop ++ xf.drop (i0 * L + L)).drop ((i0 + 1 + m) * L)
          = xf.drop ((i0 + (m + 1)) * L) := by
        have e3 : (i0 + 1 + m) * L = (xf.take (i0 * L) ++ hop).length + m * L := by
          simp only [List.length_append, List.length_take, hhopL]
          have : (i0 + 1 + m) * L = i0 * L + L + m * L := by ring
          omega
        rw [e3, List.drop_append, List.drop_drop]
        congr 1
        ring
      rw [t1, t2]
      simp [List.append_assoc]

theorem mem_zipWith_elim {β γ δ : Type} (f : β → γ → δ) (l1 : List β) (l2 : List γ) (v : δ)
    (h : v ∈ List.zipWith f l1 l2) : ∃ a ∈ l1, ∃ b ∈ l2, v = f a b := by
  induction l1 generalizing l2 with
  | nil => simp at h
  | cons a rest ih =>
    cases l2 with
    | nil => simp at h
    | cons b rest2 =>
      rw [List.zipWith_cons_cons, List.mem_cons] at h
      rcases h with h | h
      · exact ⟨a, List.mem_cons_self _ _, b, List.mem_cons_self _ _, h⟩
      · obtain ⟨a1, ha1, b1, hb1, hv⟩ := ih rest2 h
        exact ⟨a1, List.mem_cons_of_mem _ ha1, b1, List.mem_cons_of_mem _ hb1, hv⟩

theorem muleach_entry_pos (a b : α) (ha : 0 < a) (hb : 0 < b) : 0 < muleach_entry a b := by
  unfold muleach_entry
  split
  · positivity
  · exact mul_pos ha hb

theorem frame_ksi_pos (p : SavedParamsC α) (gammak ksi : List α) (ha0 : 0 < p.aa)
    (ha1 : p.aa ≤ 1) (hk : 0 < p.ksi_min) (h : frame_ksi p gammak = some ksi) :
    ∀ x ∈ ksi, 0 < x := by
  unfold frame_ksi at h
  split at h
  · have e := Option.some.inj h
    subst e
    intro x hx
    simp only [add, mul, npmaximum_, npmaximum, List.mem_map, List.map_map] at hx
    obtain ⟨g, _, rfl⟩ := hx
    simp only [Function.comp]
    have h1 : (0 : α) ≤ (if g + -1 > 0 then g + -1 else 0) := by
      split
      · exact le_of_lt (by assumption)
      · exact le_refl _
    have h2 : (0 : α) ≤ 1 - p.aa := by linarith
    have := mul_nonneg h1 h2
    linarith
  · cases hd : diveach (mul p.Xk_prev p.aa) p.noise_mu2 with
    | none => rw [hd] at h; exact absurd h (by simp)
    | some d1 =>
      rw [hd] at h
      simp only [Option.some_bind] at h
      cases hs : addeach d1 (mul (npmaximum_ (add gammak (-1)) 0) (1 - p.aa)) with
      | none => rw [hs] at h; exact absurd h (by simp)
      | some k0 =>
        rw [hs] at h
        simp only [Option.some_bind] at h
        have e := Option.some.inj h
        subst e
        intro x hx
        simp only [npmaximum_, npmaximum, List.mem_map] at hx
        obtain ⟨g, _, rfl⟩ := hx
        split
        · exact lt_trans hk (by assumption)
        · exact hk

theorem frame_hw_pos (B : Backend α) (hB : B.Lawful) (ksi gammak hw : List α)
    (hk : ∀ x ∈ ksi, 0 < x) (h : frame_hw B ksi gammak = some hw) : ∀ g ∈ hw, 0 < g := by
  unfold frame_hw at h
  rw [diveach_eq (by simp [add])] at h
  simp only [Option.some_bind] at h
  have hA : ∀ a ∈ List.zipWith (fun a b => a / b) ksi (add ksi 1), 0 < a := by
    intro a ha
    obtain ⟨x, hx, y, hy, rfl⟩ := mem_zipWith_elim _ _ _ _ ha
    simp only [add, List.mem_map] at hy
    obtain ⟨z, hz, rfl⟩ := hy
    exact div_pos (hk x hx) (by have := hk z hz; linarith)
  cases hv : muleach (List.zipWith (fun a b => a / b) ksi (add ksi 1)) gammak with
  | none => rw [hv] at h; exact absurd h (by simp)
  | some vk =>
    rw [hv] at h
    simp only [Option.some_bind] at h
    unfold muleach at h
    split at h
    · have e := Option.some.inj h
      subst e
      intro g hg
      obtain ⟨a, ha, b, hb, rfl⟩ := mem_zipWith_elim _ _ _ _ hg
      simp only [npexp, List.mem_map] at hb
      obtain ⟨z, _, rfl⟩ := hb
      exact muleach_entry_pos _ _ (hA a ha) (hB.exp_pos z)
    · exact absurd h (by simp)

theorem frame_gain_pos (B : Backend α) (hB : B.Lawful) (p : SavedParamsC α) (sig hw : List α)
    (ha0 : 0 < p.aa) (ha1 : p.aa ≤ 1) (hk : 0 < p.ksi_min)
    (h : frame_gain B p sig = some hw) : ∀ g ∈ hw, 0 < g := by
  unfold frame_gain at h
  cases hg : frame_gammak p sig with
  | none => rw [hg] at h; exact absurd h (by simp)
  | some gammak =>
    rw [hg] at h
    simp only [Option.some_bind] at h
    cases hs : frame_ksi p gammak with
    | none => rw [hs] at h; exact absurd h (by simp)
    | some ksi =>
      rw [hs] at h
      simp only [Option.some_bind] at h
      exact frame_hw_pos B hB ksi gammak hw (frame_ksi_pos p gammak ksi ha0 ha1 hk hs) h

theorem ite_pos_eq_max (g : α) : (if g + -1 > 0 then g + -1 else 0) = max (g - 1) 0 := by
  rw [← sub_eq_add_neg]
  split
  · rw [max_eq_left (le_of_lt (by assumption))]
  · rw [max_eq_right (not_lt.1 (by assumption))]

theorem ite_max_eq_max (x k : α) : (if x > k then x else k) = max x k := by
  split
  · rw [max_eq_left (le_of_lt (by assumption))]
  · rw [max_eq_right (not_lt.1 (by assumption))]

theorem first_rule_eq (aa : α) (gammak : List α) :
    add (mul (npmaximum_ (add gammak (-1)) 0) (1 - aa)) aa = ksi_first aa gammak := by
  unfold add mul npmaximum_ npmaximum ksi_first
  rw [List.map_map, List.map_map, List.map_map]
  apply List.map_congr_left
  intro g _
  simp only [Function.comp]
  rw [ite_pos_eq_max]
  ring

theorem dd_rule_eq (aa ksi_min : α) :
    ∀ (Xk mu gammak : List α),
      npmaximum_ (List.zipWith (fun a b => a + b)
          (List.zipWith (fun a b => a / b) (mul Xk aa) mu)
          (mul (npmaximum_ (add gammak (-1)) 0) (1 - aa))) ksi_min
        = ksi_dd aa ksi_min Xk mu gammak := by
  intro Xk
  induction Xk with
  | nil => intro mu gammak; simp [ksi_dd, mul, npmaximum_, npmaximum]
  | cons x rest ih =>
    intro mu gammak
    cases mu with
    | nil => simp [ksi_dd, mul, npmaximum_, npmaximum]
    | cons m mrest =>
      cases gammak with
      | nil => simp [ksi_dd, mul, npmaximum_, npmaximum, add]
      | cons g grest =>
        have ih1 := ih mrest grest
        unfold ksi_dd at ih1 ⊢
        unfold npmaximum_ npmaximum mul add at ih1 ⊢
        simp only [List.map_cons, List.zipWith_cons_cons, List.zip_cons_cons] at ih1 ⊢
        rw [ih1, ite_max_eq_max, ite_pos_eq_max]
        congr 2
        ring

theorem muleach_entry_eq (a b : α) : muleach_entry a b = a * b := by
  unfold muleach_entry
  rw [if_neg]
  rintro ⟨h1, h2, h3⟩
  exact (mul_ne_zero h2 h3) h1

theorem getD_zipWith_of_lt {β γ δ : Type} (f : β → γ → δ) (l1 : List β) (l2 : List γ) (k : Nat)
    (h1 : k < l1.length) (h2 : k < l2.length) (d1 : β) (d2 : γ) (d : δ) :
    (List.zipWith f l1 l2).getD k d = f (l1.getD k d1) (l2.getD k d2) := by
  rw [List.getD_eq_getElem?_getD, List.getD_eq_getElem?_getD, List.getD_eq_getElem?_getD,
    List.getElem?_zipWith, List.getElem?_eq_getElem h1, List.getElem?_eq_getElem h2]
  rfl

theorem getD_map_of_lt {β γ : Type} (f : β → γ) (l : List β) (k : Nat) (h : k < l.length)
    (d1 : β) (d : γ) : (l.map f).getD k d = f (l.getD k d1) := by
  rw [List.getD_eq_getElem?_getD, List.getD_eq_getElem?_getD, List.getElem?_map,
    List.getElem?_eq_getElem h]
  rfl

theorem ite_lt_eq_min (d lim : α) : (if d < lim then d else lim) = min d lim := by
  split
  · rw [min_eq_left (le_of_lt (by assumption))]
  · rw [min_eq_right (not_lt.1 (by assumption))]

/-- The gain chain of one bin: the bounds that follow from `mu > 0`, `0 < ksi_min`,
`0 <= aa <= 1`. -/
theorem gain_chain_bounds (s mu xk aa ksi_min : α) (hmu : 0 < mu) (hk : 0 < ksi_min) :
    0 ≤ min (s * s / mu) 40 ∧ min (s * s / mu) 40 ≤ 40
      ∧ ksi_min ≤ max (aa * xk / mu + (1 - aa) * max (min (s * s / mu) 40 - 1) 0) ksi_min
      ∧ 0 < max (aa * xk / mu + (1 - aa) * max (min (s * s / mu) 40 - 1) 0) ksi_min
          / (max (aa * xk / mu + (1 - aa) * max (min (s * s / mu) 40 - 1) 0) ksi_min + 1)
      ∧ max (aa * xk / mu + (1 - aa) * max (min (s * s / mu) 40 - 1) 0) ksi_min
          / (max (aa * xk / mu + (1 - aa) * max (min (s * s / mu) 40 - 1) 0) ksi_min + 1) < 1
      ∧ 0 ≤ max (aa * xk / mu + (1 - aa) * max (min (s * s / mu) 40 - 1) 0) ksi_min
          / (max (aa * xk / mu + (1 - aa) * max (min (s * s / mu) 40 - 1) 0) ksi_min + 1)
          * min (s * s / mu) 40
      ∧ max (aa * xk / mu + (1 - aa) * max (min (s * s / mu) 40 - 1) 0) ksi_min
          / (max (aa * xk / mu + (1 - aa) * max (min (s * s / mu) 40 - 1) 0) ksi_min + 1)
          * min (s * s / mu) 40 < 40 := by
  set g := min (s * s / mu) 40 with hg
  set ksi := max (aa * xk / mu + (1 - aa) * max (g - 1) 0) ksi_min with hksi
  have hg0 : 0 ≤ g := le_min (div_nonneg (mul_self_nonneg s) hmu.le) (by norm_num)
  have hg40 : g ≤ 40 := min_le_right _ _
  have hkk : ksi_min ≤ ksi := le_max_right _ _
  have hk0 : 0 < ksi := lt_of_lt_of_le hk hkk
  have hA0 : 0 < ksi / (ksi + 1) := div_pos hk0 (by linarith)
  have hA1 : ksi / (ksi + 1) < 1 := by
    rw [div_lt_one (by linarith)]
    linarith
  refine ⟨hg0, hg40, hkk, hA0, hA1, mul_nonneg hA0.le hg0, ?_⟩
  rcases eq_or_lt_of_le hg0 with h0 | h0
  · rw [← h0, mul_zero]
    norm_num
  · calc ksi / (ksi + 1) * g < 1 * g := mul_lt_mul_of_pos_right hA1 h0
      _ = g := one_mul g
      _ ≤ 40 := hg40

end logmmse

end dsp

/-! ## The noise-floor update -/

namespace dsp

namespace logmmse

open arrays

variable {α : Type} [LinearOrderedField α]

theorem length_fill_gap (mu2 : List α) (lastV q : Int) (val : α) :
    (SavedParamsC.fill_gap mu2 lastV q val).length = mu2.length := by
  unfold SavedParamsC.fill_gap
  generalize (List.range (q - lastV - 1).toNat) = l
  generalize mu2.getD lastV.toNat 0 = r0
  suffices h : ∀ (l : List Nat) (r : α) (m : List α),
      (l.foldl (fun (st : α × List α) (i : Nat) =>
        (st.1 + (val - r0) / (((q - lastV : Int)) : α),
          st.2.set (lastV.toNat + 1 + i) (st.1 + (val - r0) / (((q - lastV : Int)) : α))))
        (r, m)).2.length = m.length from h l r0 mu2
  intro l
  induction l with
  | nil => intro r m; rfl
  | cons i rest ih =>
    intro r m
    simp only [List.foldl_cons]
    rw [ih]
    simp

theorem length_scan_step (st : Int × Int × Int × List α) (q : Nat) :
    (SavedParamsC.scan_step st q).2.2.2.length = st.2.2.2.length := by
  unfold SavedParamsC.scan_step
  dsimp only
  split
  · dsimp only
    split
    · exact length_fill_gap _ _ _ _
    · rfl
  · rfl

theorem length_foldl_scan_step (l : List Nat) (st : Int × Int × Int × List α) :
    (l.foldl SavedParamsC.scan_step st).2.2.2.length = st.2.2.2.length := by
  induction l generalizing st with
  | nil => rfl
  | cons q rest ih =>
    simp only [List.foldl_cons]
    rw [ih, length_scan_step]

theorem length_foldl_set (l : List Nat) (m : List α)
    (f : List α → Nat → Nat) (g : List α → Nat → α) :
    (l.foldl (fun (m : List α) (i : Nat) => m.set (f m i) (g m i)) m).length = m.length := by
  induction l generalizing m with
  | nil => rfl
  | cons q rest ih =>
    simp only [List.foldl_cons]
    rw [ih]
    simp

theorem length_extend_edges (mu2 : List α) (firstV lastV : Int) :
    (SavedParamsC.extend_edges mu2 firstV lastV).length = mu2.length := by
  unfold SavedParamsC.extend_edges
  dsimp only
  rw [length_foldl_set _ _ (fun _ i => lastV.toNat + 1 + i)
    (fun m _ => m.getD lastV.toNat 0)]
  exact length_foldl_set _ _ (fun _ i => firstV.toNat - 1 - i)
    (fun m _ => m.getD firstV.toNat 0)

theorem length_foldl_select (l : List Nat) (m devs noiseAvg : List α) (t : α) :
    (l.foldl (fun (m : List α) (q : Nat) =>
        if devs.getD q 0 < t then m.set q (noiseAvg.getD q 0 * noiseAvg.getD q 0) else m)
      m).length = m.length := by
  induction l generalizing m with
  | nil => rfl
  | cons q rest ih =>
    simp only [List.foldl_cons]
    rw [ih]
    split <;> simp

theorem update_wide_ok (p : SavedParamsC α) (h0 : 0 ≤ p.nFFT)
    (h1 : p.nFFT ≤ (p.noise_mu2.length : Int)) (h2 : p.nFFT ≤ (p.sums.length : Int))
    (h3 : p.nFFT ≤ (p.devs.length : Int)) :
    ∃ m, p.update_wide = some { p with noise_mu2 := m } ∧ m.length = p.noise_mu2.length := by
  unfold SavedParamsC.update_wide
  rw [if_neg (by simp only [not_not]; exact ⟨h0, h1, h2, h3⟩)]
  dsimp only
  rw [muleach_eq (le_refl _)]
  simp only [Option.some_bind]
  split
  · exact ⟨p.noise_mu2, rfl, rfl⟩
  · refine ⟨_, rfl, ?_⟩
    rw [length_extend_edges, length_foldl_scan_step]
    dsimp only
    rw [length_foldl_select]
    simp only [List.length_append, List.length_replicate, List.length_drop]
    omega



theorem min?_isSome_of_length_pos (l : List α) (h : 0 < l.length) : ∃ a, l.min? = some a := by
  cases l with
  | nil => simp at h
  | cons a as => exact ⟨_, rfl⟩

theorem max?_isSome_of_length_pos (l : List α) (h : 0 < l.length) : ∃ a, l.max? = some a := by
  cases l with
  | nil => simp at h
  | cons a as => exact ⟨_, rfl⟩

theorem audio_fold_ok (N : Int) (n : Nat) (hN : N = n) :
    ∀ (l : List (List α)) (lower : List α), lower.length = n → (∀ f ∈ l, f.length = n) →
      ∃ r, l.foldlM (fun (lower : List α) (nhFrame : List α) =>
          if N ≤ (nhFrame.length : Int) then
            some (List.zipWith (fun l x => l + x) lower nhFrame)
          else none) lower = some r ∧ r.length = n := by
  intro l
  induction l with
  | nil => intro lower hl _; exact ⟨lower, rfl, hl⟩
  | cons f rest ih =>
    intro lower hl hf
    have hfn : f.length = n := hf f (List.mem_cons_self _ _)
    obtain ⟨r, hr, hrl⟩ := ih (List.zipWith (fun l x => l + x) lower f)
      (by simp [hl, hfn]) (fun g hg => hf g (List.mem_cons_of_mem _ hg))
    refine ⟨r, ?_, hrl⟩
    rw [List.foldlM_cons, if_pos (by omega)]
    exact hr

theorem audio_candidate_ok (p : SavedParamsC α) (h0 : 0 ≤ p.nFFT)
    (hh : ∀ f ∈ p.noise_history, (f.length : Int) = p.nFFT) :
    ∃ tnm, p.audio_candidate = some tnm ∧ (tnm.length : Int) = p.nFFT := by
  obtain ⟨r, hr, hrl⟩ := audio_fold_ok p.nFFT p.nFFT.toNat (by omega)
    (p.noise_history.drop (p.noise_history.length - 12))
    (List.replicate p.nFFT.toNat (0 : α)) (by simp)
    (fun f hf => by have := hh f (List.mem_of_mem_drop hf); omega)
  refine ⟨r.map (fun l => (l / 12) * (l / 12)), ?_, by simp only [List.length_map]; omega⟩
  unfold SavedParamsC.audio_candidate
  rw [if_neg (by omega), hr]
  rfl

theorem update_audio_ok (p : SavedParamsC α) (h0 : 0 < p.nFFT)
    (hm : (p.noise_mu2.length : Int) = p.nFFT)
    (hh : ∀ f ∈ p.noise_history, (f.length : Int) = p.nFFT) :
    ∃ m mn mx g s, p.update_audio
        = some { p with noise_mu2 := m, mindb := mn, maxdb := mx, generation := g, stable := s }
      ∧ (m.length : Int) = p.nFFT := by
  obtain ⟨tnm, htnm, hl⟩ := audio_candidate_ok p (le_of_lt h0) hh
  obtain ⟨tn, htn, htnl, _⟩ := npmavg_ok tnm 6 (by norm_num)
  obtain ⟨tmin, htmin⟩ := min?_isSome_of_length_pos tn (by omega)
  obtain ⟨tmax, htmax⟩ := max?_isSome_of_length_pos tn (by omega)
  obtain ⟨t0, ht0, ht0l, _⟩ := npmavg_ok p.noise_mu2 6 (by norm_num)
  obtain ⟨mn0, hmn0⟩ := min?_isSome_of_length_pos t0 (by omega)
  obtain ⟨mx0, hmx0⟩ := max?_isSome_of_length_pos t0 (by omega)
  unfold SavedParamsC.update_audio
  by_cases hg : p.generation > 0
  · rw [if_pos hg, htnm]
    simp only [Option.some_bind]
    rw [htn]
    simp only [Option.some_bind]
    rw [htmin]
    simp only [Option.some_bind]
    rw [htmax]
    simp only [Option.some_bind]
    by_cases hacc : tmin + tmax < p.mindb + p.maxdb
    · rw [if_pos hacc]
      simp only [Option.some_bind]
      rw [if_neg (by simp)]
      simp only [Option.some_bind]
      exact ⟨tnm, tmin, tmax, p.generation + 1, true, rfl, hl⟩
    · rw [if_neg hacc]
      simp only [Option.some_bind]
      by_cases hs : p.stable = true
      · rw [if_neg (by simp [hs])]
        simp only [Option.some_bind]
        exact ⟨p.noise_mu2, p.mindb, p.maxdb, p.generation + 1, p.stable, rfl, hm⟩
      · rw [if_pos hs, if_neg (by omega)]
        simp only [Option.some_bind]
        exact ⟨p.noise_mu2, p.mindb, p.maxdb, p.generation + 1, p.stable, rfl, hm⟩
  · rw [if_neg hg]
    simp only [Option.some_bind]
    by_cases hs : p.stable = true
    · rw [if_neg (by simp [hs])]
      simp only [Option.some_bind]
      exact ⟨p.noise_mu2, p.mindb, p.maxdb, p.generation + 1, p.stable, rfl, hm⟩
    · rw [if_pos hs]
      by_cases hg0 : p.generation = 0
      · rw [if_pos hg0, ht0]
        simp only [Option.some_bind]
        rw [hmn0]
        simp only [Option.some_bind]
        rw [hmx0]
        simp only [Option.some_bind]
        exact ⟨p.noise_mu2, mn0, mx0, p.generation + 1, p.stable, rfl, hm⟩
      · rw [if_neg hg0]
        simp only [Option.some_bind]
        exact ⟨p.noise_mu2, p.mindb, p.maxdb, p.generation + 1, p.stable, rfl, hm⟩

theorem update_noise_mu2_ok (p : SavedParamsC α) (h : p.WF) :
    ∃ m mn mx g s, p.update_noise_mu2
        = some { p with noise_mu2 := m, mindb := mn, maxdb := mx, generation := g, stable := s }
      ∧ (m.length : Int) = p.nFFT := by
  have h1 := h.Slen_eq
  have h2 := h.len2_pos
  have h4 := h.nFFT_eq
  unfold SavedParamsC.update_noise_mu2
  dsimp only
  split
  · split
    · exact update_audio_ok p (by omega) h.mu2_len h.hist_len
    · obtain ⟨m, hm, hml⟩ := update_wide_ok p (by omega) (le_of_eq h.mu2_len.symm)
        (le_of_eq h.sums_len.symm) (le_of_eq h.devs_len.symm)
      exact ⟨m, p.mindb, p.maxdb, p.generation, p.stable, hm, by have := h.mu2_len; omega⟩
  · exact ⟨p.noise_mu2, p.mindb, p.maxdb, p.generation, p.stable, rfl, h.mu2_len⟩

theorem WF_of_floor_update (p : SavedParamsC α) (h : p.WF) (m : List α) (mn mx : α) (g : Int)
    (s : Bool) (hm : (m.length : Int) = p.nFFT) :
    ({ p with noise_mu2 := m, mindb := mn, maxdb := mx, generation := g, stable := s } :
      SavedParamsC α).WF :=
  { len2_pos := h.len2_pos, len1_eq := h.len1_eq, Slen_eq := h.Slen_eq, nFFT_eq := h.nFFT_eq,
    win_len := h.win_len, fwd_size := h.fwd_size, rev_size := h.rev_size, mu2_len := hm,
    sums_len := h.sums_len, devs_len := h.devs_len, x_old_len := h.x_old_len,
    hist_len := h.hist_len, dev_len := h.dev_len, Xk_ok := h.Xk_ok }

theorem IsMeanOf_ge (v : List α) (y a : α) (hv : ∀ x ∈ v, a ≤ x) (h : IsMeanOf v y) :
    a ≤ y := by
  obtain ⟨S, hne, hS, rfl⟩ := h
  have hc : (0 : α) < (S.card : α) := by exact_mod_cast Finset.card_pos.2 hne
  rw [le_div_iff₀ hc]
  have := Finset.card_nsmul_le_sum S (fun i => v.getD i 0) a
    (fun i hi => hv _ (getD_mem v i (hS i hi)))
  rw [nsmul_eq_mul] at this
  linarith

theorem IsMeanOf_le (v : List α) (y a : α) (hv : ∀ x ∈ v, x ≤ a) (h : IsMeanOf v y) :
    y ≤ a := by
  obtain ⟨S, hne, hS, rfl⟩ := h
  have hc : (0 : α) < (S.card : α) := by exact_mod_cast Finset.card_pos.2 hne
  rw [div_le_iff₀ hc]
  have := Finset.sum_le_card_nsmul S (fun i => v.getD i 0) a
    (fun i hi => hv _ (getD_mem v i (hS i hi)))
  rw [nsmul_eq_mul] at this
  linarith

theorem min?_spec (l : List α) (m : α) (h : l.min? = some m) : m ∈ l ∧ ∀ x ∈ l, m ≤ x :=
  ⟨List.min?_mem (fun a b => min_choice a b) h,
    (List.le_min?_iff (fun _ _ _ => le_min_iff) h).1 (le_refl m)⟩

theorem max?_spec (l : List α) (m : α) (h : l.max? = some m) : m ∈ l ∧ ∀ x ∈ l, x ≤ m :=
  ⟨List.max?_mem (fun a b => max_choice a b) h,
    (List.max?_le_iff (fun _ _ _ => max_le_iff) h).1 (le_refl m)⟩

theorem update_due_audio (p : SavedParamsC α) (hn : 100 < p.noise_history.length)
    (hh : p.hold = false) (ha : p.nFFT < 1200) : p.update_noise_mu2 = p.update_audio := by
  unfold SavedParamsC.update_noise_mu2
  dsimp only
  rw [if_pos ⟨hn, by simp [hh]⟩, if_pos (by simpa using ha)]

theorem update_due_wide (p : SavedParamsC α) (hn : 100 < p.noise_history.length)
    (hh : p.hold = false) (ha : 1200 ≤ p.nFFT) : p.update_noise_mu2 = p.update_wide := by
  unfold SavedParamsC.update_noise_mu2
  dsimp only
  rw [if_pos ⟨hn, by simp [hh]⟩, if_neg (by simp; omega)]

theorem update_audio_gen_pos (p : SavedParamsC α) (hg : 0 < p.generation)
    (tnm ts : List α) (tmin tmax : α) (h1 : p.audio_candidate = some tnm)
    (h2 : npmavg tnm 6 = some ts) (h3 : ts.min? = some tmin) (h4 : ts.max? = some tmax) :
    (tmin + tmax < p.mindb + p.maxdb →
      p.update_audio = some { p with mindb := tmin, maxdb := tmax, noise_mu2 := tnm,
                                     stable := true, generation := p.generation + 1 }) ∧
      (¬ tmin + tmax < p.mindb + p.maxdb →
        p.update_audio = some { p with generation := p.generation + 1 }) := by
  constructor
  · intro hacc
    unfold SavedParamsC.update_audio
    rw [if_pos hg, h1]
    simp only [Option.some_bind]
    rw [h2]
    simp only [Option.some_bind]
    rw [h3]
    simp only [Option.some_bind]
    rw [h4]
    simp only [Option.some_bind]
    rw [if_pos hacc]
    simp only [Option.some_bind]
    rw [if_neg (by simp)]
    simp only [Option.some_bind]
  · intro hacc
    unfold SavedParamsC.update_audio
    rw [if_pos hg, h1]
    simp only [Option.some_bind]
    rw [h2]
    simp only [Option.some_bind]
    rw [h3]
    simp only [Option.some_bind]
    rw [h4]
    simp only [Option.some_bind]
    rw [if_neg hacc]
    simp only [Option.some_bind]
    by_cases hs : p.stable = true
    · rw [if_neg (by simp [hs])]
      simp only [Option.some_bind]
    · rw [if_pos hs, if_neg (by omega)]
      simp only [Option.some_bind]

theorem audio_candidate_parts (p : SavedParamsC α) (h : p.WF) :
    ∃ tnm ts tmin tmax, p.audio_candidate = some tnm ∧ (tnm.length : Int) = p.nFFT
      ∧ npmavg tnm 6 = some ts ∧ ts.length = tnm.length ∧ (∀ y ∈ ts, IsMeanOf tnm y)
      ∧ ts.min? = some tmin ∧ ts.max? = some tmax := by
  have hpos : 0 < p.nFFT := by
    have := h.len2_pos
    have := h.Slen_eq
    have := h.nFFT_eq
    omega
  obtain ⟨tnm, htnm, hl⟩ := audio_candidate_ok p (le_of_lt hpos) h.hist_len
  obtain ⟨ts, hts, htsl, hmean⟩ := npmavg_ok tnm 6 (by norm_num)
  obtain ⟨tmin, htmin⟩ := min?_isSome_of_length_pos ts (by omega)
  obtain ⟨tmax, htmax⟩ := max?_isSome_of_length_pos ts (by omega)
  exact ⟨tnm, ts, tmin, tmax, htnm, hl, hts, htsl, hmean, htmin, htmax⟩

end logmmse

end dsp

/-! ## The wide-regime update keeps the floor positive -/

namespace dsp

namespace logmmse

open arrays

variable {α : Type} [LinearOrderedField α]

theorem getD_set (m : List α) (i j : Nat) (a : α) :
    (m.set i a).getD j 0 = if i = j ∧ i < m.length then a else m.getD j 0 := by
  rw [List.getD_eq_getElem?_getD, List.getD_eq_getElem?_getD, List.getElem?_set]
  by_cases h : i = j
  · subst h
    by_cases h2 : i < m.length
    · simp [h2]
    · simp [h2, List.getElem?_eq_none (not_lt.1 h2)]
  · simp [h]

theorem getD_pos_lt (m : List α) (j : Nat) (h : 0 < m.getD j 0) : j < m.length := by
  by_contra hj
  rw [List.getD_eq_getElem?_getD, List.getElem?_eq_none (not_lt.1 hj)] at h
  exact lt_irrefl _ h

theorem all_pos_of_getD (m : List α) (h : ∀ j, j < m.length → 0 < m.getD j 0) :
    ∀ v ∈ m, 0 < v := by
  intro v hv
  obtain ⟨j, hj, rfl⟩ := List.getElem_of_mem hv
  have := h j hj
  rwa [List.getD_eq_getElem?_getD, List.getElem?_eq_getElem hj] at this

theorem getD_pos_of_all_pos (m : List α) (h : ∀ v ∈ m, 0 < v) (j : Nat) (hj : j < m.length) :
    0 < m.getD j 0 := by
  rw [List.getD_eq_getElem?_getD, List.getElem?_eq_getElem hj]
  exact h _ (List.getElem_mem _)

theorem getD_nonneg_of_all_nonneg (m : List α) (h : ∀ v ∈ m, 0 ≤ v) (j : Nat) :
    0 ≤ m.getD j 0 := by
  rw [List.getD_eq_getElem?_getD]
  cases hj : m[j]? with
  | none => exact le_refl _
  | some v => exact h v (List.getElem?_mem hj)

/-- The closed form of the running fill of `fill_gap`: after `k` rounds from the value `v0` at
bin `L`, the running value is `v0 + k * d` and the bins `L + 1 .. L + k` hold
`v0 + (j - L) * d`. -/
theorem fill_fold (d v0 : α) (L : Nat) (m : List α) (k : Nat) :
    ((List.range k).foldl
        (fun (st : α × List α) (i : Nat) => (st.1 + d, st.2.set (L + 1 + i) (st.1 + d)))
        (v0, m)).1 = v0 + (k : α) * d
      ∧ ((List.range k).foldl
        (fun (st : α × List α) (i : Nat) => (st.1 + d, st.2.set (L + 1 + i) (st.1 + d)))
        (v0, m)).2.length = m.length
      ∧ ∀ j, ((List.range k).foldl
          (fun (st : α × List α) (i : Nat) => (st.1 + d, st.2.set (L + 1 + i) (st.1 + d)))
          (v0, m)).2.getD j 0
        = if L < j ∧ j ≤ L + k ∧ j < m.length then v0 + ((j - L : Nat) : α) * d
          else m.getD j 0 := by
  induction k with
  | zero =>
    refine ⟨by simp, rfl, fun j => ?_⟩
    rw [if_neg (by omega)]
    rfl
  | succ k ih =>
    obtain ⟨ih1, ih2, ih3⟩ := ih
    rw [List.range_succ, List.foldl_append, List.foldl_cons, List.foldl_nil]
    refine ⟨?_, ?_, fun j => ?_⟩
    · show _ + d = _
      rw [ih1]
      push_cast
      ring
    · show (List.set _ (L + 1 + k) (_ + d)).length = _
      rw [List.length_set, ih2]
    · show (List.set _ (L + 1 + k) (_ + d)).getD j 0 = _
      rw [getD_set, ih1, ih2, ih3 j]
      by_cases h1 : L + 1 + k = j
      · subst h1
        by_cases h2 : L + 1 + k < m.length
        · rw [if_pos ⟨rfl, h2⟩, if_pos ⟨by omega, by omega, h2⟩]
          have : L + 1 + k - L = k + 1 := by omega
          rw [this]
          push_cast
          ring
        · rw [if_neg (by omega), if_neg (by omega), if_neg (by omega)]
      · rw [if_neg (by omega)]
        by_cases h3 : L < j ∧ j ≤ L + k ∧ j < m.length
        · rw [if_pos h3, if_pos ⟨h3.1, by omega, h3.2.2⟩]
        · rw [if_neg h3, if_neg (by omega)]

theorem getD_fill_gap (m : List α) (L q : Nat) (val : α) (hq : L < q) (j : Nat) :
    (SavedParamsC.fill_gap m (L : Int) (q : Int) val).getD j 0
      = if L < j ∧ j < q ∧ j < m.length then
          m.getD L 0 + ((j - L : Nat) : α) * ((val - m.getD L 0) / ((q - L : Nat) : α))
        else m.getD j 0 := by
  unfold SavedParamsC.fill_gap
  dsimp only
  have e1 : ((L : Int)).toNat = L := Int.toNat_ofNat L
  have e2 : ((q : Int) - (L : Int) - 1).toNat = q - L - 1 := by omega
  have e3 : (((q : Int) - (L : Int) : Int) : α) = ((q - L : Nat) : α) := by
    rw [Nat.cast_sub (le_of_lt hq)]
    push_cast
    rfl
  rw [e1, e2, e3, (fill_fold _ _ L m (q - L - 1)).2.2 j]
  by_cases h : L < j ∧ j < q ∧ j < m.length
  · rw [if_pos h, if_pos ⟨h.1, by omega, h.2.2⟩]
  · rw [if_neg h, if_neg (by omega)]

theorem fill_value_pos (v0 val : α) (L q j : Nat) (h0 : 0 < v0) (hv : 0 < val) (h1 : L < j)
    (h2 : j < q) : 0 < v0 + ((j - L : Nat) : α) * ((val - v0) / ((q - L : Nat) : α)) := by
  have hg : (0 : α) < ((q - L : Nat) : α) := by exact_mod_cast (by omega : 0 < q - L)
  have ha : (0 : α) < ((j - L : Nat) : α) := by exact_mod_cast (by omega : 0 < j - L)
  have hb : (0 : α) < ((q - j : Nat) : α) := by exact_mod_cast (by omega : 0 < q - j)
  have hsum : ((q - L : Nat) : α) = ((j - L : Nat) : α) + ((q - j : Nat) : α) := by
    exact_mod_cast (by omega : q - L = (j - L) + (q - j))
  have e : v0 + ((j - L : Nat) : α) * ((val - v0) / ((q - L : Nat) : α))
      = (((q - j : Nat) : α) * v0 + ((j - L : Nat) : α) * val) / ((q - L : Nat) : α) := by
    field_simp
    rw [hsum]
    ring
  rw [e]
  exact div_pos (by positivity) hg

theorem scan_step_inv (n q : Nat) (hq : q < n) (st : Int × Int × Int × List α)
    (h : ScanInv n q st) : ScanInv n (q + 1) (SavedParamsC.scan_step st q) := by
  obtain ⟨fV, lV, cz, m⟩ := st
  obtain ⟨hlen, hnn, hcase⟩ := h
  dsimp only at hlen hnn hcase
  unfold SavedParamsC.scan_step
  dsimp only
  by_cases hval : m.getD q 0 ≠ 0
  · have hvpos : 0 < m.getD q 0 := lt_of_le_of_ne (hnn q) (Ne.symm hval)
    rw [if_pos hval]
    rcases hcase with ⟨h1, h2⟩ | ⟨a, b, h1, h2, hab, hbq, hpos⟩
    · subst h1
      subst h2
      rw [if_pos ⟨by decide, hval⟩, if_neg (by simp)]
      refine ⟨hlen, hnn, Or.inr ⟨q, q, rfl, rfl, le_refl _, by omega, ?_⟩⟩
      intro j hj1 hj2
      have : j = q := by omega
      rw [this]
      exact hvpos
    · subst h1
      subst h2
      rw [if_neg (by omega)]
      by_cases hgap : ((b : Int) ≠ -1 ∧ (q : Int) - (b : Int) > 1)
      · rw [if_pos hgap]
        have hbq2 : b < q := hbq
        refine ⟨?_, ?_, Or.inr ⟨a, q, rfl, rfl, by omega, by omega, ?_⟩⟩
        · show (SavedParamsC.fill_gap m (b : Int) (q : Int) (m.getD q 0)).length = n
          rw [length_fill_gap, hlen]
        · intro j
          show 0 ≤ (SavedParamsC.fill_gap m (b : Int) (q : Int) (m.getD q 0)).getD j 0
          rw [getD_fill_gap m b q _ hbq2 j]
          split
          · rename_i hj
            exact le_of_lt (fill_value_pos _ _ b q j (hpos b hab (le_refl _)) hvpos hj.1 hj.2.1)
          · exact hnn j
        · intro j hj1 hj2
          show 0 < (SavedParamsC.fill_gap m (b : Int) (q : Int) (m.getD q 0)).getD j 0
          rw [getD_fill_gap m b q _ hbq2 j]
          by_cases hj : b < j ∧ j < q ∧ j < m.length
          · rw [if_pos hj]
            exact fill_value_pos _ _ b q j (hpos b hab (le_refl _)) hvpos hj.1 hj.2.1
          · rw [if_neg hj]
            by_cases hjb : j ≤ b
            · exact hpos j hj1 hjb
            · have : j = q := by omega
              rw [this]
              exact hvpos
      · rw [if_neg hgap]
        refine ⟨hlen, hnn, Or.inr ⟨a, q, rfl, rfl, by omega, by omega, ?_⟩⟩
        intro j hj1 hj2
        by_cases hjb : j ≤ b
        · exact hpos j hj1 hjb
        · have : j = q := by omega
          rw [this]
          exact hvpos
  · rw [if_neg hval]
    have hfv : (if fV < 0 ∧ m.getD q 0 ≠ 0 then (q : Int) else fV) = fV := by
      rw [if_neg (fun h => hval h.2)]
    rw [hfv]
    refine ⟨hlen, hnn, ?_⟩
    rcases hcase with h1 | ⟨a, b, h1, h2, hab, hbq, hpos⟩
    · exact Or.inl h1
    · exact Or.inr ⟨a, b, h1, h2, hab, by omega, hpos⟩

theorem scan_fold_inv (n : Nat) (st0 : Int × Int × Int × List α) (h0 : ScanInv n 0 st0) :
    ∀ k, k ≤ n → ScanInv n k ((List.range k).foldl SavedParamsC.scan_step st0) := by
  intro k
  induction k with
  | zero => intro _; exact h0
  | succ k ih =>
    intro hk
    rw [List.range_succ, List.foldl_append, List.foldl_cons, List.foldl_nil]
    exact scan_step_inv n k (by omega) _ (ih (by omega))

theorem select_nonneg (l : List Nat) (m devs noiseAvg : List α) (t : α)
    (hm : ∀ j, 0 ≤ m.getD j 0) :
    ∀ j, 0 ≤ (l.foldl (fun (m : List α) (q : Nat) =>
        if devs.getD q 0 < t then m.set q (noiseAvg.getD q 0 * noiseAvg.getD q 0) else m)
      m).getD j 0 := by
  induction l generalizing m with
  | nil => exact hm
  | cons q rest ih =>
    simp only [List.foldl_cons]
    apply ih
    intro j
    split
    · rw [getD_set]
      split
      · exact mul_self_nonneg _
      · exact hm j
    · exact hm j

theorem extend_low (a b : Nat) (m : List α) (hab : a ≤ b)
    (hpos : ∀ j, a ≤ j → j ≤ b → 0 < m.getD j 0) :
    ∀ t, t ≤ a →
      ∀ j, a - t ≤ j → j ≤ b →
        0 < ((List.range t).foldl
          (fun (m : List α) (i : Nat) => m.set (a - 1 - i) (m.getD a 0)) m).getD j 0 := by
  intro t
  induction t with
  | zero =>
    intro _ j hj1 hj2
    exact hpos j (by omega) hj2
  | succ t ih =>
    intro ht j hj1 hj2
    rw [List.range_succ, List.foldl_append, List.foldl_cons, List.foldl_nil, getD_set]
    split
    · exact ih (by omega) a (by omega) hab
    · rename_i hne
      have hlen : a - 1 - t < ((List.range t).foldl
          (fun (m : List α) (i : Nat) => m.set (a - 1 - i) (m.getD a 0)) m).length :=
        lt_of_lt_of_le (by omega : a - 1 - t < a + 1)
          (Nat.succ_le_of_lt (getD_pos_lt _ a (ih (by omega) a (by omega) hab)))
      exact ih (by omega) j (by
        by_contra hc
        exact hne ⟨by omega, hlen⟩) hj2

theorem extend_high (b : Nat) (m : List α) (hb : b < m.length)
    (hpos : ∀ j, j ≤ b → 0 < m.getD j 0) :
    ∀ t, ((List.range t).foldl
          (fun (m : List α) (i : Nat) => m.set (b + 1 + i) (m.getD b 0)) m).length = m.length
      ∧ ∀ j, j ≤ b + t → j < m.length →
        0 < ((List.range t).foldl
          (fun (m : List α) (i : Nat) => m.set (b + 1 + i) (m.getD b 0)) m).getD j 0 := by
  intro t
  induction t with
  | zero =>
    refine ⟨rfl, ?_⟩
    intro j hj1 _
    exact hpos j (by omega)
  | succ t ih =>
    obtain ⟨ih1, ih2⟩ := ih
    rw [List.range_succ, List.foldl_append, List.foldl_cons, List.foldl_nil]
    refine ⟨by rw [List.length_set, ih1], ?_⟩
    intro j hj1 hj2
    rw [getD_set]
    split
    · exact ih2 b (by omega) hb
    · rename_i hne
      exact ih2 j (by
        by_contra hc
        exact hne ⟨by omega, by rw [ih1]; omega⟩) hj2

theorem extend_edges_pos (a b : Nat) (m : List α) (hab : a ≤ b) (hb : b < m.length)
    (hpos : ∀ j, a ≤ j → j ≤ b → 0 < m.getD j 0) :
    ∀ v ∈ SavedParamsC.extend_edges m (a : Int) (b : Int), 0 < v := by
  unfold SavedParamsC.extend_edges
  dsimp only
  rw [Int.toNat_ofNat, Int.toNat_ofNat]
  have hlen1 : ((List.range a).foldl
      (fun (m : List α) (i : Nat) => m.set (a - 1 - i) (m.getD a 0)) m).length = m.length :=
    length_foldl_set _ _ (fun _ i => a - 1 - i) (fun m _ => m.getD a 0)
  have h1 := extend_low a b m hab hpos a (le_refl _)
  have h2 := extend_high b _ (by rw [hlen1]; exact hb) (fun j hj => h1 j (by omega) hj)
    (((List.range a).foldl
      (fun (m : List α) (i : Nat) => m.set (a - 1 - i) (m.getD a 0)) m).length - (b + 1))
  apply all_pos_of_getD
  intro j hj
  rw [h2.1] at hj
  exact h2.2 j (by omega) hj

theorem wide_scan_pos (X : List α) (n : Nat) (hlen : X.length = n)
    (hnn : ∀ j, 0 ≤ X.getD j 0)
    (hfl : ¬ (((List.range n).foldl SavedParamsC.scan_step
        ((-1 : Int), (-1 : Int), (0 : Int), X)).1 < 0
      ∨ ((List.range n).foldl SavedParamsC.scan_step
        ((-1 : Int), (-1 : Int), (0 : Int), X)).2.1 < 0)) :
    ∀ v ∈ SavedParamsC.extend_edges
        ((List.range n).foldl SavedParamsC.scan_step
          ((-1 : Int), (-1 : Int), (0 : Int), X)).2.2.2
        ((List.range n).foldl SavedParamsC.scan_step
          ((-1 : Int), (-1 : Int), (0 : Int), X)).1
        ((List.range n).foldl SavedParamsC.scan_step
          ((-1 : Int), (-1 : Int), (0 : Int), X)).2.1, 0 < v := by
  have hinv := scan_fold_inv n ((-1 : Int), (-1 : Int), (0 : Int), X)
    ⟨hlen, hnn, Or.inl ⟨rfl, rfl⟩⟩ n (le_refl _)
  obtain ⟨hl, _, hcase⟩ := hinv
  rcases hcase with ⟨c1, c2⟩ | ⟨a, b, c1, c2, hab, hbn, hp⟩
  · exact absurd (Or.inl (by rw [c1]; decide)) hfl
  · rw [c1, c2]
    exact extend_edges_pos a b _ hab (by rw [hl]; exact hbn) hp

theorem update_wide_pos (p q : SavedParamsC α) (h0 : 0 ≤ p.nFFT)
    (h1 : (p.noise_mu2.length : Int) = p.nFFT) (hpos : ∀ v ∈ p.noise_mu2, 0 < v)
    (h : p.update_wide = some q) : ∀ v ∈ q.noise_mu2, 0 < v := by
  unfold SavedParamsC.update_wide at h
  split at h
  · exact absurd h (by simp)
  dsimp only at h
  rw [muleach_eq (le_refl _)] at h
  simp only [Option.some_bind] at h
  split at h
  · rw [← Option.some.inj h]
    exact hpos
  · rename_i hfl
    rw [← Option.some.inj h]
    refine wide_scan_pos _ _ ?_ ?_ hfl
    · rw [length_foldl_select]
      simp only [List.length_append, List.length_replicate, List.length_drop]
      omega
    · apply select_nonneg
      intro j
      apply getD_nonneg_of_all_nonneg
      intro v hv
      rcases List.mem_append.1 hv with hv | hv
      · rw [List.eq_of_mem_replicate hv]
      · exact le_of_lt (hpos v (List.mem_of_mem_drop hv))

end logmmse

end dsp

/-! ## The wide-regime update in closed form -/

namespace dsp

namespace logmmse

open arrays

variable {α : Type} [LinearOrderedField α]

theorem getD_ne_zero_lt (m : List α) (j : Nat) (h : m.getD j 0 ≠ 0) : j < m.length := by
  by_contra hj
  exact h (List.getD_eq_default _ _ (not_lt.1 hj))

theorem scan_step_spec (X : List α) (q : Nat) (st : Int × Int × Int × List α)
    (h : ScanSpec X q st) : ScanSpec X (q + 1) (SavedParamsC.scan_step st q) := by
  obtain ⟨fV, lV, cz, m⟩ := st
  obtain ⟨hlen, hsel, habove, hbelow, hgap, hcase⟩ := h
  dsimp only at hlen hsel habove hbelow hgap hcase
  have hlq : lV < (q : Int) := by
    rcases hcase with ⟨_, h2, _⟩ | ⟨a, b, _, h2, _, hbq, _⟩
    · omega
    · omega
  have hval : m.getD q 0 = X.getD q 0 := habove q hlq
  unfold SavedParamsC.scan_step
  dsimp only
  rw [hval]
  by_cases hne : X.getD q 0 ≠ 0
  · rw [if_pos hne]
    have hqlen : q < m.length := by rw [hlen]; exact getD_ne_zero_lt X q hne
    rcases hcase with ⟨h1, h2, hz⟩ | ⟨a, b, h1, h2, hab, hbq, hXa, hXb, hza, hzb⟩
    · subst h1
      subst h2
      rw [if_pos ⟨by decide, hne⟩, if_neg (by simp)]
      refine ⟨hlen, hsel, ?_, ?_, ?_, Or.inr ⟨q, q, rfl, rfl, le_refl _, by omega, hne, hne, hz,
        fun j h3 h4 => by omega⟩⟩
      · intro j hj
        exact habove j (by omega)
      · intro j hj
        exact habove j (by omega)
      · intro a b z haz hzb hbq hXa hXb hzero
        dsimp only at hbq
        have hb : b ≤ q := by omega
        rcases Nat.lt_or_ge b q with hb1 | hb1
        · exact absurd (hz b hb1) hXb
        · exact absurd (hz a (by omega)) hXa
    · subst h1
      subst h2
      rw [if_neg (by omega)]
      have hmb : m.getD b 0 = X.getD b 0 := hsel b hXb
      have key : ∀ j, (if ((b : Int) ≠ -1 ∧ (q : Int) - (b : Int) > 1) then
            SavedParamsC.fill_gap m (b : Int) (q : Int) (X.getD q 0) else m).getD j 0
          = if b < j ∧ j < q then gap_value X b q j else m.getD j 0 := by
        intro j
        by_cases hg : ((b : Int) ≠ -1 ∧ (q : Int) - (b : Int) > 1)
        · rw [if_pos hg, getD_fill_gap m b q _ hbq j, hmb]
          by_cases hj : b < j ∧ j < q
          · rw [if_pos hj, if_pos ⟨hj.1, hj.2, by omega⟩]
            rfl
          · rw [if_neg hj, if_neg (fun hc => hj ⟨hc.1, hc.2.1⟩)]
        · rw [if_neg hg, if_neg (by omega)]
      have hlen2 : (if ((b : Int) ≠ -1 ∧ (q : Int) - (b : Int) > 1) then
            SavedParamsC.fill_gap m (b : Int) (q : Int) (X.getD q 0) else m).length
          = X.length := by
        split
        · rw [length_fill_gap, hlen]
        · exact hlen
      refine ⟨hlen2, ?_, ?_, ?_, ?_, Or.inr ⟨a, q, rfl, rfl, by omega, by omega, hXa, hne, hza,
        fun j h3 h4 => by omega⟩⟩
      · intro j hj
        show (if _ then _ else m).getD j 0 = _
        rw [key j]
        by_cases hjb : b < j ∧ j < q
        · exact absurd (hzb j hjb.1 hjb.2) hj
        · rw [if_neg hjb]
          exact hsel j hj
      · intro j hj
        show (if _ then _ else m).getD j 0 = _
        dsimp only at hj
        rw [key j, if_neg (by omega)]
        exact habove j (by omega)
      · intro j hj
        show (if _ then _ else m).getD j 0 = _
        dsimp only at hj
        rw [key j, if_neg (by omega)]
        exact hbelow j hj
      · intro a1 b1 z haz hzb1 hbq1 hXa1 hXb1 hzero
        show (if _ then _ else m).getD z 0 = _
        dsimp only at hbq1
        rw [key z]
        rcases Nat.lt_or_ge b1 q with hb1 | hb1
        · have hb1b : b1 ≤ b := by
            by_contra hc
            exact hXb1 (hzb b1 (by omega) hb1)
          rw [if_neg (by omega)]
          exact hgap a1 b1 z haz hzb1 (by omega) hXa1 hXb1 hzero
        · have hb1q : b1 = q := by omega
          subst hb1q
          have ha1 : a1 = b := by
            rcases Nat.lt_trichotomy a1 b with hlt | heq | hgt
            · exact absurd (hzero b hlt (by omega)) hXb
            · exact heq
            · exact absurd (hzb a1 hgt (by omega)) hXa1
          subst ha1
          rw [if_pos ⟨haz, hzb1⟩]
  · rw [if_neg hne]
    have hfv : (if fV < 0 ∧ X.getD q 0 ≠ 0 then (q : Int) else fV) = fV := by
      rw [if_neg (fun h => hne h.2)]
    rw [hfv]
    have hq0 : X.getD q 0 = 0 := not_not.1 hne
    refine ⟨hlen, hsel, habove, hbelow, hgap, ?_⟩
    rcases hcase with ⟨h1, h2, hz⟩ | ⟨a, b, h1, h2, hab, hbq, hXa, hXb, hza, hzb⟩
    · refine Or.inl ⟨h1, h2, ?_⟩
      intro j hj
      rcases Nat.lt_or_ge j q with h3 | h3
      · exact hz j h3
      · have : j = q := by omega
        rw [this]; exact hq0
    · refine Or.inr ⟨a, b, h1, h2, hab, by omega, hXa, hXb, hza, ?_⟩
      intro j h3 h4
      rcases Nat.lt_or_ge j q with h5 | h5
      · exact hzb j h3 h5
      · have : j = q := by omega
        rw [this]; exact hq0

theorem scan_fold_spec (X : List α) :
    ∀ k, ScanSpec X k ((List.range k).foldl SavedParamsC.scan_step
      ((-1 : Int), (-1 : Int), (0 : Int), X)) := by
  intro k
  induction k with
  | zero =>
    refine ⟨rfl, fun _ _ => rfl, fun _ _ => rfl, fun _ _ => rfl, ?_, Or.inl ⟨rfl, rfl, ?_⟩⟩
    · intro a b z _ _ hb
      have hb1 : (b : Int) ≤ -1 := hb
      omega
    · intro j hj
      omega
  | succ k ih =>
    rw [List.range_succ, List.foldl_append, List.foldl_cons, List.foldl_nil]
    exact scan_step_spec X k _ ih

theorem getD_extend_low (a : Nat) (m : List α) (ha : a < m.length) :
    ∀ t, t ≤ a →
      ((List.range t).foldl
          (fun (m : List α) (i : Nat) => m.set (a - 1 - i) (m.getD a 0)) m).length = m.length
      ∧ ∀ j, ((List.range t).foldl
          (fun (m : List α) (i : Nat) => m.set (a - 1 - i) (m.getD a 0)) m).getD j 0
        = if a - t ≤ j ∧ j < a then m.getD a 0 else m.getD j 0 := by
  intro t
  induction t with
  | zero =>
    intro _
    refine ⟨rfl, fun j => ?_⟩
    rw [if_neg (by omega)]
    rfl
  | succ t ih =>
    intro ht
    obtain ⟨ih1, ih2⟩ := ih (by omega)
    rw [List.range_succ, List.foldl_append, List.foldl_cons, List.foldl_nil]
    refine ⟨by rw [List.length_set, ih1], fun j => ?_⟩
    have hva : ((List.range t).foldl
        (fun (m : List α) (i : Nat) => m.set (a - 1 - i) (m.getD a 0)) m).getD a 0
        = m.getD a 0 := by rw [ih2 a, if_neg (by omega)]
    rw [getD_set, ih1, hva, ih2 j]
    by_cases h1 : a - 1 - t = j
    · rw [if_pos ⟨h1, by omega⟩, if_pos (by omega)]
    · rw [if_neg (fun hc => h1 hc.1)]
      by_cases h2 : a - t ≤ j ∧ j < a
      · rw [if_pos h2, if_pos (by omega)]
      · rw [if_neg h2, if_neg (by omega)]

theorem getD_extend_high (b : Nat) (m : List α) :
    ∀ t, ((List.range t).foldl
          (fun (m : List α) (i : Nat) => m.set (b + 1 + i) (m.getD b 0)) m).length = m.length
      ∧ ∀ j, ((List.range t).foldl
          (fun (m : List α) (i : Nat) => m.set (b + 1 + i) (m.getD b 0)) m).getD j 0
        = if b < j ∧ j ≤ b + t ∧ j < m.length then m.getD b 0 else m.getD j 0 := by
  intro t
  induction t with
  | zero =>
    refine ⟨rfl, fun j => ?_⟩
    rw [if_neg (by omega)]
    rfl
  | succ t ih =>
    obtain ⟨ih1, ih2⟩ := ih
    rw [List.range_succ, List.foldl_append, List.foldl_cons, List.foldl_nil]
    refine ⟨by rw [List.length_set, ih1], fun j => ?_⟩
    have hvb : ((List.range t).foldl
        (fun (m : List α) (i : Nat) => m.set (b + 1 + i) (m.getD b 0)) m).getD b 0
        = m.getD b 0 := by rw [ih2 b, if_neg (by omega)]
    rw [getD_set, ih1, hvb, ih2 j]
    by_cases h1 : b + 1 + t = j
    · by_cases h2 : j < m.length
      · rw [if_pos ⟨h1, by omega⟩, if_pos ⟨by omega, by omega, h2⟩]
      · rw [if_neg (by omega), if_neg (by omega), if_neg (by omega)]
    · rw [if_neg (fun hc => h1 hc.1)]
      by_cases h2 : b < j ∧ j ≤ b + t ∧ j < m.length
      · rw [if_pos h2, if_pos ⟨h2.1, by omega, h2.2.2⟩]
      · rw [if_neg h2, if_neg (by omega)]

theorem getD_extend_edges (m : List α) (a b : Nat) (hab : a ≤ b) (hb : b < m.length) (j : Nat) :
    (SavedParamsC.extend_edges m (a : Int) (b : Int)).getD j 0
      = if j < a then m.getD a 0
        else if b < j ∧ j < m.length then m.getD b 0 else m.getD j 0 := by
  unfold SavedParamsC.extend_edges
  dsimp only
  rw [Int.toNat_ofNat, Int.toNat_ofNat]
  obtain ⟨l1, g1⟩ := getD_extend_low a m (by omega) a (le_refl _)
  obtain ⟨_, g2⟩ := getD_extend_high b ((List.range a).foldl
      (fun (m : List α) (i : Nat) => m.set (a - 1 - i) (m.getD a 0)) m)
    (((List.range a).foldl
      (fun (m : List α) (i : Nat) => m.set (a - 1 - i) (m.getD a 0)) m).length - (b + 1))
  have hvb : ((List.range a).foldl
      (fun (m : List α) (i : Nat) => m.set (a - 1 - i) (m.getD a 0)) m).getD b 0
      = m.getD b 0 := by rw [g1 b, if_neg (by omega)]
  rw [l1] at g2 ⊢
  rw [g2 j, hvb, g1 j]
  split_ifs <;> first | rfl | (exfalso; omega)

theorem getD_foldl_select (devs noiseAvg m : List α) (t : α) :
    ∀ k z, ((List.range k).foldl (fun (m : List α) (q : Nat) =>
        if devs.getD q 0 < t then m.set q (noiseAvg.getD q 0 * noiseAvg.getD q 0) else m)
      m).getD z 0
      = if z < k ∧ z < m.length ∧ devs.getD z 0 < t then noiseAvg.getD z 0 * noiseAvg.getD z 0
        else m.getD z 0 := by
  intro k
  induction k with
  | zero =>
    intro z
    rw [if_neg (by omega)]
    rfl
  | succ k ih =>
    intro z
    rw [List.range_succ, List.foldl_append, List.foldl_cons, List.foldl_nil]
    by_cases hd : devs.getD k 0 < t
    · rw [if_pos hd, getD_set, length_foldl_select, ih z]
      by_cases h1 : k = z
      · subst h1
        by_cases h2 : k < m.length
        · rw [if_pos ⟨rfl, h2⟩, if_pos ⟨by omega, h2, hd⟩]
        · rw [if_neg (fun hc => h2 hc.2), if_neg (by omega), if_neg (fun hc => h2 hc.2.1)]
      · rw [if_neg (fun hc => h1 hc.1)]
        by_cases h3 : z < k ∧ z < m.length ∧ devs.getD z 0 < t
        · rw [if_pos h3, if_pos ⟨by omega, h3.2⟩]
        · rw [if_neg h3, if_neg (by
            intro hc
            exact h3 ⟨by omega, hc.2⟩)]
    · rw [if_neg hd, ih z]
      by_cases h3 : z < k ∧ z < m.length ∧ devs.getD z 0 < t
      · rw [if_pos h3, if_pos ⟨by omega, h3.2⟩]
      · rw [if_neg h3, if_neg (by
          intro hc
          rcases Nat.lt_or_ge z k with h4 | h4
          · exact h3 ⟨h4, hc.2⟩
          · have : z = k := by omega
            rw [this] at hc
            exact hd hc.2.2)]

/-- The result of the scan and of the edge extension of the wide regime on a vector `X` with a
non-zero bin: `a` and `b` are the first and the last non-zero bin; the non-zero bins keep their
value, the bins below `a` take `X[a]`, the bins above `b` take `X[b]` and a zero bin between two
neighbouring non-zero bins takes the gap value. -/
theorem wide_scan_final (X : List α) (st : Int × Int × Int × List α)
    (hst : st = (List.range X.length).foldl SavedParamsC.scan_step
      ((-1 : Int), (-1 : Int), (0 : Int), X)) :
    ((∀ j, X.getD j 0 = 0) → st.1 < 0 ∨ st.2.1 < 0) ∧
      ((∃ j, X.getD j 0 ≠ 0) → ¬ (st.1 < 0 ∨ st.2.1 < 0) ∧
        ∃ a b : Nat, a ≤ b ∧ b < X.length ∧ X.getD a 0 ≠ 0 ∧ X.getD b 0 ≠ 0 ∧
          (∀ j, j < a → X.getD j 0 = 0) ∧ (∀ j, b < j → X.getD j 0 = 0) ∧
          (SavedParamsC.extend_edges st.2.2.2 st.1 st.2.1).length = X.length ∧
          (∀ j, X.getD j 0 ≠ 0 →
            (SavedParamsC.extend_edges st.2.2.2 st.1 st.2.1).getD j 0 = X.getD j 0) ∧
          (∀ j, j < a →
            (SavedParamsC.extend_edges st.2.2.2 st.1 st.2.1).getD j 0 = X.getD a 0) ∧
          (∀ j, b < j → j < X.length →
            (SavedParamsC.extend_edges st.2.2.2 st.1 st.2.1).getD j 0 = X.getD b 0) ∧
          ∀ a1 b1 z : Nat, a1 < z → z < b1 → X.getD a1 0 ≠ 0 → X.getD b1 0 ≠ 0 →
            (∀ j, a1 < j → j < b1 → X.getD j 0 = 0) →
            (SavedParamsC.extend_edges st.2.2.2 st.1 st.2.1).getD z 0 = gap_value X a1 b1 z) := by
  have hspec := scan_fold_spec X X.length
  rw [← hst] at hspec
  obtain ⟨hlen, hsel, habove, hbelow, hgap, hcase⟩ := hspec
  constructor
  · intro hz
    rcases hcase with ⟨h1, _, _⟩ | ⟨a, b, _, _, _, _, hXa, _⟩
    · exact Or.inl (by rw [h1]; decide)
    · exact absurd (hz a) hXa
  · rintro ⟨j0, hj0⟩
    rcases hcase with ⟨_, _, hz⟩ | ⟨a, b, h1, h2, hab, hbq, hXa, hXb, hza, hzb⟩
    · exact absurd (hz j0 (getD_ne_zero_lt X j0 hj0)) hj0
    · have hzb2 : ∀ j, b < j → X.getD j 0 = 0 := by
        intro j hj
        rcases Nat.lt_or_ge j X.length with h3 | h3
        · exact hzb j hj h3
        · exact List.getD_eq_default _ _ h3
      have hrange : ∀ j, X.getD j 0 ≠ 0 → a ≤ j ∧ j ≤ b := by
        intro j hj
        constructor
        · by_contra hc
          exact hj (hza j (by omega))
        · by_contra hc
          exact hj (hzb2 j (by omega))
      have hbm : b < st.2.2.2.length := by rw [hlen]; exact hbq
      have hma : st.2.2.2.getD a 0 = X.getD a 0 := hsel a hXa
      have hmb : st.2.2.2.getD b 0 = X.getD b 0 := hsel b hXb
      refine ⟨by rw [h1, h2]; omega, a, b, hab, hbq, hXa, hXb, hza, hzb2, ?_, ?_, ?_, ?_, ?_⟩
      · rw [length_extend_edges, hlen]
      · intro j hj
        obtain ⟨r1, r2⟩ := hrange j hj
        rw [h1, h2, getD_extend_edges _ a b hab hbm j, if_neg (by omega), if_neg (by omega)]
        exact hsel j hj
      · intro j hj
        rw [h1, h2, getD_extend_edges _ a b hab hbm j, if_pos hj, hma]
      · intro j hj1 hj2
        rw [h1, h2, getD_extend_edges _ a b hab hbm j, if_neg (by omega),
          if_pos ⟨hj1, by rw [hlen]; exact hj2⟩, hmb]
      · intro a1 b1 z haz hzb1 hXa1 hXb1 hzero
        obtain ⟨r1, _⟩ := hrange a1 hXa1
        obtain ⟨_, r4⟩ := hrange b1 hXb1
        rw [h1, h2, getD_extend_edges _ a b hab hbm z, if_neg (by omega), if_neg (by omega)]
        exact hgap a1 b1 z haz hzb1 (by rw [h2]; exact_mod_cast r4) hXa1 hXb1 hzero

theorem update_wide_eq (p : SavedParamsC α) (h0 : 0 ≤ p.nFFT)
    (h1 : p.nFFT ≤ (p.noise_mu2.length : Int)) (h2 : p.nFFT ≤ (p.sums.length : Int))
    (h3 : p.nFFT ≤ (p.devs.length : Int)) :
    p.update_wide = some { p with noise_mu2 :=
      if p.wide_scan.1 < 0 ∨ p.wide_scan.2.1 < 0 then p.noise_mu2
      else SavedParamsC.extend_edges p.wide_scan.2.2.2 p.wide_scan.1 p.wide_scan.2.1 } := by
  unfold SavedParamsC.update_wide
  rw [if_neg (not_not.2 ⟨h0, h1, h2, h3⟩)]
  dsimp only
  rw [muleach_eq (le_refl _)]
  simp only [Option.some_bind]
  by_cases hc : p.wide_scan.1 < 0 ∨ p.wide_scan.2.1 < 0
  · rw [if_pos hc]
    exact if_pos hc
  · rw [if_neg hc]
    exact if_neg hc

theorem getD_mul (v : List α) (e : α) (z : Nat) : (arrays.mul v e).getD z 0 = v.getD z 0 * e := by
  unfold arrays.mul
  rcases Nat.lt_or_ge z v.length with h | h
  · exact getD_map_of_lt _ v z h 0 0
  · rw [List.getD_eq_default _ _ (by rw [List.length_map]; exact h),
      List.getD_eq_default _ _ h, zero_mul]

theorem getD_wide_noiseAvg (p : SavedParamsC α) (z : Nat) :
    p.wide_noiseAvg.getD z 0 = p.sums.getD z 0 / ((p.noise_history.length : Nat) : α) := by
  unfold SavedParamsC.wide_noiseAvg
  rw [getD_mul, mul_one_div]

theorem length_wide_devs (p : SavedParamsC α) (h0 : 0 ≤ p.nFFT)
    (h3 : p.nFFT ≤ (p.devs.length : Int)) : p.wide_devs.length = p.nFFT.toNat := by
  unfold SavedParamsC.wide_devs
  rw [List.length_take, List.length_map, List.length_range, List.length_zipWith,
    min_self]
  unfold arrays.mul
  rw [List.length_map]
  omega

theorem getD_wide_devs (p : SavedParamsC α) (h0 : 0 ≤ p.nFFT)
    (h3 : p.nFFT ≤ (p.devs.length : Int)) (z : Nat) (hz : z < p.nFFT.toNat) :
    p.wide_devs.getD z 0
      = if |((z : Int) - p.nFFT.tdiv 2)| < (p.nFFT * 15).tdiv 100 then (1000000 : α)
        else (p.devs.getD z 0 / ((p.noise_history.length : Nat) : α)) ^ 2 := by
  have hl : (List.zipWith muleach_entry
        (arrays.mul p.devs (1 / ((p.noise_history.length : Nat) : α)))
        (arrays.mul p.devs (1 / ((p.noise_history.length : Nat) : α)))).length
      = p.devs.length := by
    rw [List.length_zipWith, min_self]
    unfold arrays.mul
    rw [List.length_map]
  have hzd : z < p.devs.length := by omega
  unfold SavedParamsC.wide_devs
  rw [List.getD_eq_getElem?_getD, List.getElem?_take, if_pos hz, ← List.getD_eq_getElem?_getD,
    getD_map_of_lt _ _ z (by rw [List.length_range, hl]; exact hzd) 0,
    List.getD_eq_getElem _ _ (by rw [List.length_range, hl]; exact hzd), List.getElem_range]
  by_cases hm : |((z : Int) - p.nFFT.tdiv 2)| < (p.nFFT * 15).tdiv 100
  · rw [if_pos ⟨hz, hm⟩, if_pos hm]
  · rw [if_neg (fun hc => hm hc.2), if_neg hm,
      getD_zipWith_of_lt muleach_entry _ _ z
        (by unfold arrays.mul; rw [List.length_map]; exact hzd)
        (by unfold arrays.mul; rw [List.length_map]; exact hzd) 0 0 0,
      getD_mul, muleach_entry_eq, mul_one_div]
    ring

theorem length_wide_select (p : SavedParamsC α) (h0 : 0 ≤ p.nFFT)
    (h1 : (p.noise_mu2.length : Int) = p.nFFT) : p.wide_select.length = p.nFFT.toNat := by
  unfold SavedParamsC.wide_select
  rw [length_foldl_select, List.length_append, List.length_replicate, List.length_drop]
  omega

theorem getD_wide_select (p : SavedParamsC α) (h0 : 0 ≤ p.nFFT)
    (h1 : (p.noise_mu2.length : Int) = p.nFFT) (z : Nat) :
    p.wide_select.getD z 0
      = if z < p.nFFT.toNat ∧ p.wide_devs.getD z 0 < p.acceptible_stdev then
          p.wide_noiseAvg.getD z 0 * p.wide_noiseAvg.getD z 0
        else 0 := by
  have hdrop : p.noise_mu2.drop p.nFFT.toNat = [] :=
    List.drop_eq_nil_of_le (by omega)
  have hzero : (List.replicate p.nFFT.toNat (0 : α) ++ p.noise_mu2.drop p.nFFT.toNat).getD z 0
      = 0 := by
    rw [hdrop, List.append_nil]
    rcases Nat.lt_or_ge z p.nFFT.toNat with h | h
    · rw [List.getD_eq_getElem _ _ (by rw [List.length_replicate]; exact h),
        List.getElem_replicate]
    · exact List.getD_eq_default _ _ (by rw [List.length_replicate]; exact h)
  have hlen : (List.replicate p.nFFT.toNat (0 : α) ++ p.noise_mu2.drop p.nFFT.toNat).length
      = p.nFFT.toNat := by
    rw [hdrop, List.append_nil, List.length_replicate]
  unfold SavedParamsC.wide_select
  rw [getD_foldl_select, hzero, hlen]
  by_cases hc : z < p.nFFT.toNat ∧ p.wide_devs.getD z 0 < p.acceptible_stdev
  · rw [if_pos ⟨hc.1, hc.1, hc.2⟩, if_pos hc]
  · rw [if_neg (fun h => hc ⟨h.1, h.2.2⟩), if_neg hc]

theorem wide_selected_iff (p : SavedParamsC α) (h0 : 0 ≤ p.nFFT)
    (h1 : (p.noise_mu2.length : Int) = p.nFFT) (z : Nat) :
    p.wide_select.getD z 0 ≠ 0 ↔ p.wide_selected z := by
  rw [getD_wide_select p h0 h1 z]
  unfold SavedParamsC.wide_selected
  constructor
  · intro h
    by_cases hc : z < p.nFFT.toNat ∧ p.wide_devs.getD z 0 < p.acceptible_stdev
    · rw [if_pos hc] at h
      exact ⟨hc.1, hc.2, fun h0 => h (by rw [h0, mul_zero])⟩
    · rw [if_neg hc] at h
      exact absurd rfl h
  · rintro ⟨a, b, c⟩
    rw [if_pos ⟨a, b⟩]
    exact mul_ne_zero c c

theorem wide_select_of_selected (p : SavedParamsC α) (h0 : 0 ≤ p.nFFT)
    (h1 : (p.noise_mu2.length : Int) = p.nFFT) (z : Nat) (hz : p.wide_selected z) :
    p.wide_select.getD z 0 = p.wide_noiseAvg.getD z 0 ^ 2 := by
  rw [getD_wide_select p h0 h1 z, if_pos ⟨hz.1, hz.2.1⟩, sq]

theorem wide_select_of_not_selected (p : SavedParamsC α) (h0 : 0 ≤ p.nFFT)
    (h1 : (p.noise_mu2.length : Int) = p.nFFT) (z : Nat) (hz : ¬ p.wide_selected z) :
    p.wide_select.getD z 0 = 0 :=
  not_not.1 (fun h => hz ((wide_selected_iff p h0 h1 z).1 h))

/-- The wide-regime update in closed form.  Without a selected bin the floor is the floor before
the call; otherwise, with `a` and `b` the first and the last selected bin, every selected bin
holds the square of its mean magnitude, the bins below `a` hold the value of bin `a`, the bins
above `b` the value of bin `b`, and an unselected bin between two neighbouring selected bins
`a1 < z < b1` holds the gap value. -/
theorem update_wide_spec (p : SavedParamsC α) (h0 : 0 ≤ p.nFFT)
    (h1 : (p.noise_mu2.length : Int) = p.nFFT) (h2 : p.nFFT ≤ (p.sums.length : Int))
    (h3 : p.nFFT ≤ (p.devs.length : Int)) :
    ∃ m, p.update_wide = some { p with noise_mu2 := m } ∧ m.length = p.nFFT.toNat ∧
      ((∀ z, ¬ p.wide_selected z) → m = p.noise_mu2) ∧
      ((∃ z, p.wide_selected z) →
        ∃ a b : Nat, a ≤ b ∧ b < p.nFFT.toNat ∧ p.wide_selected a ∧ p.wide_selected b ∧
          (∀ j, j < a → ¬ p.wide_selected j) ∧ (∀ j, b < j → ¬ p.wide_selected j) ∧
          (∀ j, p.wide_selected j → m.getD j 0 = p.wide_noiseAvg.getD j 0 ^ 2) ∧
          (∀ j, j < a → m.getD j 0 = m.getD a 0) ∧
          (∀ j, b < j → j < p.nFFT.toNat → m.getD j 0 = m.getD b 0) ∧
          ∀ a1 b1 z : Nat, a1 < z → z < b1 → p.wide_selected a1 → p.wide_selected b1 →
            (∀ j, a1 < j → j < b1 → ¬ p.wide_selected j) →
            m.getD z 0 = m.getD a1 0
              + ((z : α) - (a1 : α)) * (m.getD b1 0 - m.getD a1 0) / ((b1 : α) - (a1 : α))) := by
  have hXl := length_wide_select p h0 h1
  have hst : p.wide_scan = (List.range p.wide_select.length).foldl SavedParamsC.scan_step
      ((-1 : Int), (-1 : Int), (0 : Int), p.wide_select) := by
    rw [hXl]; rfl
  obtain ⟨hno, hyes⟩ := wide_scan_final p.wide_select p.wide_scan hst
  refine ⟨_, update_wide_eq p h0 (le_of_eq h1.symm) h2 h3, ?_, ?_, ?_⟩
  · split
    · omega
    · rw [length_extend_edges, hst, length_foldl_scan_step, hXl]
  · intro hz
    rw [if_pos (hno (fun j => wide_select_of_not_selected p h0 h1 j (hz j)))]
  · rintro ⟨z0, hz0⟩
    obtain ⟨hnf, a, b, hab, hb, hXa, hXb, hza, hzb, _, hsel, hlow, hhigh, hgap⟩ :=
      hyes ⟨z0, (wide_selected_iff p h0 h1 z0).2 hz0⟩
    have hSa := (wide_selected_iff p h0 h1 a).1 hXa
    have hSb := (wide_selected_iff p h0 h1 b).1 hXb
    rw [if_neg hnf]
    have hval : ∀ j, p.wide_selected j →
        (SavedParamsC.extend_edges p.wide_scan.2.2.2 p.wide_scan.1 p.wide_scan.2.1).getD j 0
          = p.wide_noiseAvg.getD j 0 ^ 2 := by
      intro j hj
      rw [hsel j ((wide_selected_iff p h0 h1 j).2 hj), wide_select_of_selected p h0 h1 j hj]
    have hvalX : ∀ j, p.wide_selected j →
        (SavedParamsC.extend_edges p.wide_scan.2.2.2 p.wide_scan.1 p.wide_scan.2.1).getD j 0
          = p.wide_select.getD j 0 := by
      intro j hj
      exact hsel j ((wide_selected_iff p h0 h1 j).2 hj)
    refine ⟨a, b, hab, by rw [← hXl]; exact hb, hSa, hSb, ?_, ?_, hval, ?_, ?_, ?_⟩
    · intro j hj hs
      exact (wide_selected_iff p h0 h1 j).2 hs (hza j hj)
    · intro j hj hs
      exact (wide_selected_iff p h0 h1 j).2 hs (hzb j hj)
    · intro j hj
      rw [hlow j hj, hvalX a hSa]
    · intro j hj1 hj2
      rw [hhigh j hj1 (by rw [hXl]; exact hj2), hvalX b hSb]
    · intro a1 b1 z haz hzb1 hS1 hS2 hbetween
      rw [hgap a1 b1 z haz hzb1 ((wide_selected_iff p h0 h1 a1).2 hS1)
        ((wide_selected_iff p h0 h1 b1).2 hS2)
        (fun j h5 h6 => wide_select_of_not_selected p h0 h1 j (hbetween j h5 h6)),
        hvalX a1 hS1, hvalX b1 hS2]
      unfold gap_value
      rw [Nat.cast_sub (le_of_lt haz), Nat.cast_sub (by omega : a1 ≤ b1), mul_div_assoc]

theorem nearest_below (P : Nat → Prop) (z : Nat) (h : ∃ a, a < z ∧ P a) :
    ∃ a1, a1 < z ∧ P a1 ∧ ∀ j, a1 < j → j < z → ¬ P j := by
  induction z with
  | zero =>
    obtain ⟨a, ha, _⟩ := h
    exact absurd ha (Nat.not_lt_zero _)
  | succ z ih =>
    by_cases hz : P z
    · exact ⟨z, Nat.lt_succ_self z, hz, fun j h1 h2 => by omega⟩
    · obtain ⟨a, ha, hPa⟩ := h
      have haz : a < z := by
        rcases Nat.lt_or_ge a z with h1 | h1
        · exact h1
        · have : a = z := by omega
          rw [this] at hPa
          exact absurd hPa hz
      obtain ⟨a1, h1, h2, h3⟩ := ih ⟨a, haz, hPa⟩
      refine ⟨a1, by omega, h2, ?_⟩
      intro j h4 h5
      rcases Nat.lt_or_ge j z with h6 | h6
      · exact h3 j h4 h6
      · have : j = z := by omega
        rw [this]
        exact hz

theorem nearest_above (P : Nat → Prop) (z : Nat) :
    ∀ d b, b ≤ z + d → z < b → P b → ∃ b1, z < b1 ∧ P b1 ∧ ∀ j, z < j → j < b1 → ¬ P j := by
  intro d
  induction d with
  | zero => intro b h1 h2 _; omega
  | succ d ih =>
    intro b h1 h2 hPb
    by_cases hex : ∃ c, c ≤ z + d ∧ z < c ∧ P c
    · obtain ⟨c, c1, c2, c3⟩ := hex
      exact ih c c1 c2 c3
    · refine ⟨b, h2, hPb, ?_⟩
      intro j h3 h4 hPj
      exact hex ⟨j, by omega, h3, hPj⟩

/-- The mask of the wide regime in terms of the floor quotients: for a non-negative `nFFT`,
the truncating quotients of the source are the floor quotients. -/
theorem mask_tdiv (n : Int) (h0 : 0 ≤ n) (z : Nat) :
    (|((z : Int) - n.tdiv 2)| < (n * 15).tdiv 100) ↔ (|((z : Int) - n / 2)| < n * 15 / 100) := by
  rw [Int.tdiv_eq_ediv h0 (by norm_num), Int.tdiv_eq_ediv (by omega) (by norm_num)]

theorem wide_masked_value (p : SavedParamsC α) (h0 : 0 ≤ p.nFFT)
    (h3 : p.nFFT ≤ (p.devs.length : Int)) (z : Nat) (hz : z < p.nFFT.toNat)
    (hm : |((z : Int) - p.nFFT / 2)| < p.nFFT * 15 / 100) :
    p.wide_devs.getD z 0 = 1000000 := by
  rw [getD_wide_devs p h0 h3 z hz, if_pos ((mask_tdiv p.nFFT h0 z).2 hm)]

end logmmse

end dsp

/-! ## `logmmse_all` returns -/

namespace dsp

namespace logmmse

open arrays

variable {α : Type} [LinearOrderedField α]

theorem toNat_mul_natCast (a : Int) (L : Nat) : (a * (L : Int)).toNat = a.toNat * L := by
  rcases Int.le_total 0 a with h | h
  · obtain ⟨k, rfl⟩ := Int.eq_ofNat_of_zero_le h
    rw [← Int.natCast_mul, Int.toNat_natCast, Int.toNat_natCast]
  · have h1 : a * (L : Int) ≤ 0 := Int.mul_nonpos_of_nonpos_of_nonneg h (Int.natCast_nonneg _)
    rw [Int.toNat_eq_zero.2 h1, Int.toNat_eq_zero.2 h, zero_mul]

theorem Slen_tdiv_len2 (p : SavedParamsC α) (h : p.WF) : p.Slen.tdiv p.len2 = 2 := by
  have h1 := h.Slen_eq
  have h2 := h.len2_pos
  rw [Int.tdiv_eq_ediv (by omega) (by omega), h1]
  exact Int.mul_ediv_cancel 2 (by omega)

theorem Nframes_eq (p : SavedParamsC α) (h : p.WF) (N : Nat) :
    Nframes p N = (N : Int) / p.len2 - p.Slen / p.len2 := by
  have h1 := h.Slen_eq
  have h2 := h.len2_pos
  unfold Nframes
  rw [Slen_tdiv_len2 p h, h1, Int.mul_ediv_cancel 2 (by omega)]
  congr 1
  have : p.len2 = ((p.len2.toNat : Nat) : Int) := by omega
  rw [this, Int.toNat_natCast]
  exact Int.natCast_ediv N _

theorem logmmse_all_ok (B : Backend α) (hB : B.Lawful) (x : List (complex_t α)) (Srate : Int)
    (eta : α) (p : SavedParamsC α) (h : p.WF) :
    ∃ p1 hops q, p.update_noise_mu2 = some p1
      ∧ run_frames B x 0 (Nframes p x.length).toNat p1 = some (hops, q)
      ∧ logmmse_all B x Srate eta p = some (hops, q)
      ∧ hops.length = (Nframes p x.length).toNat * p.len2.toNat
      ∧ p1.WF ∧ p1.config = p.config ∧ q.WF ∧ q.config = p.config
      ∧ q.floor_part = p1.floor_part := by
  have h1 := h.Slen_eq
  have h2 := h.len2_pos
  obtain ⟨m, mn, mx, g, s, hup, hml⟩ := update_noise_mu2_ok p h
  have hWF1 := WF_of_floor_update p h m mn mx g s hml
  set p1 : SavedParamsC α :=
    { p with noise_mu2 := m, mindb := mn, maxdb := mx, generation := g, stable := s } with hp1
  set nf := Nframes p x.length with hnf
  have hnfeq := Nframes_eq p h x.length
  have hL : p1.len2 = ((p.len2.toNat : Nat) : Int) := by
    show p.len2 = _; omega
  have hfit : ∀ i, 0 ≤ i → i < 0 + nf.toNat →
      ((i : Int) * p1.len2 + p1.Slen ≤ (x.length : Int)) := by
    intro i _ hi
    show (i : Int) * p.len2 + p.Slen ≤ (x.length : Int)
    have hq : (x.length : Int) / p.len2 * p.len2 ≤ (x.length : Int) :=
      Int.ediv_mul_le _ (by omega)
    have hS : p.Slen / p.len2 = 2 := by rw [h1]; exact Int.mul_ediv_cancel 2 (by omega)
    have hi2 : (i : Int) + 1 ≤ nf := by omega
    have hi3 : (i : Int) + 3 ≤ (x.length : Int) / p.len2 := by omega
    have hmul : ((i : Int) + 3) * p.len2 ≤ (x.length : Int) / p.len2 * p.len2 :=
      Int.mul_le_mul_of_nonneg_right hi3 (by omega)
    rw [h1]
    linarith
  have hxl : (npzeros_c (nf * p1.len2) : List (complex_t α)).length
      = nf.toNat * p.len2.toNat := by
    simp only [npzeros_c, List.length_replicate]
    rw [hL]
    exact toNat_mul_natCast nf p.len2.toNat
  have hxf : (0 + nf.toNat) * p.len2.toNat
      ≤ (npzeros_c (nf * p1.len2) : List (complex_t α)).length := by
    rw [hxl, zero_add]
  obtain ⟨hops, q, hrun, hlen, hq, hf, hc, hfold⟩ := run_frames_ok B hB x p.len2.toNat
    (by omega) nf.toNat 0 p1 (npzeros_c (nf * p1.len2)) hWF1 hL hfit hxf
  refine ⟨p1, hops, q, hup, hrun, ?_, hlen, hWF1, rfl, hq, hc, hf⟩
  unfold logmmse_all
  rw [if_neg (by omega), hup]
  simp only [Option.some_bind]
  rw [← hnf, List.range_eq_range', hfold]
  simp only [zero_mul, List.take_zero, List.nil_append, zero_add]
  rw [List.drop_of_length_le (le_of_eq hxl)]
  simp

theorem run_frames_append (B : Backend α) (x : List (complex_t α)) :
    ∀ (m1 m2 i0 : Nat) (p : SavedParamsC α),
      run_frames B x i0 (m1 + m2) p
        = (run_frames B x i0 m1 p).bind fun r1 =>
            (run_frames B x (i0 + m1) m2 r1.2).bind fun r2 => some (r1.1 ++ r2.1, r2.2) := by
  intro m1
  induction m1 with
  | zero =>
    intro m2 i0 p
    simp only [Nat.zero_add, run_frames, Option.some_bind, Nat.add_zero, List.nil_append]
    cases run_frames B x i0 m2 p <;> rfl
  | succ m1 ih =>
    intro m2 i0 p
    have e : m1 + 1 + m2 = (m1 + m2) + 1 := by omega
    rw [e, run_frames, run_frames]
    cases frame_step B x p ((i0 : Int) * p.len2) with
    | none => rfl
    | some r =>
      simp only [Option.some_bind]
      rw [ih]
      have e2 : i0 + 1 + m1 = i0 + (m1 + 1) := by omega
      rw [e2]
      cases run_frames B x (i0 + 1) m1 r.2 with
      | none => rfl
      | some r1 =>
        simp only [Option.some_bind]
        cases run_frames B x (i0 + (m1 + 1)) m2 r1.2 with
        | none => rfl
        | some r2 => simp only [Option.some_bind, List.append_assoc]

theorem frame_step_congr (B : Backend α) (a b : List (complex_t α)) (p : SavedParamsC α)
    (k : Int) (hk : 0 ≤ k) (hS : 0 < p.Slen) (hfit : k + p.Slen ≤ (a.length : Int)) :
    frame_step B (a ++ b) p k = frame_step B a p k := by
  have e1 := nparange_c_eq (a ++ b) k (k + p.Slen) hk (by omega)
    (by simp only [List.length_append]; push_cast; omega)
  have e2 := nparange_c_eq a k (k + p.Slen) hk (by omega) hfit
  have e3 : ((a ++ b).drop k.toNat).take (k + p.Slen - k).toNat
      = (a.drop k.toNat).take (k + p.Slen - k).toNat := by
    rw [List.drop_append_of_le_length (by omega), List.take_append_of_le_length]
    simp only [List.length_drop]
    omega
  unfold frame_step frame_analysis
  rw [e1, e2, e3]

theorem run_frames_congr (B : Backend α) (a b : List (complex_t α)) :
    ∀ (m i0 : Nat) (p : SavedParamsC α), 0 < p.len2 → 0 < p.Slen →
      (∀ i, i0 ≤ i → i < i0 + m → ((i : Int) * p.len2 + p.Slen ≤ (a.length : Int))) →
      run_frames B (a ++ b) i0 m p = run_frames B a i0 m p := by
  intro m
  induction m with
  | zero => intro i0 p _ _ _; rfl
  | succ m ih =>
    intro i0 p hl hS hfit
    rw [run_frames, run_frames, frame_step_congr B a b p _
      (Int.mul_nonneg (Int.natCast_nonneg _) (le_of_lt hl)) hS (hfit i0 (le_refl _) (by omega))]
    cases hstep : frame_step B a p ((i0 : Int) * p.len2) with
    | none => rfl
    | some r =>
      simp only [Option.some_bind]
      obtain ⟨_, kc⟩ := frame_step_keeps B a p _ r hstep
      obtain ⟨cS, _, cl2, _⟩ := config_fields p r.2 kc
      rw [ih (i0 + 1) r.2 (by rw [cl2]; exact hl) (by rw [cS]; exact hS)
        (fun i h1 h2 => by rw [cl2, cS]; exact hfit i (by omega) (by omega))]

theorem Nframes_mono (p : SavedParamsC α) (h : p.WF) (n1 n2 : Nat) (h12 : n1 ≤ n2) :
    Nframes p n1 ≤ Nframes p n2 := by
  rw [Nframes_eq p h, Nframes_eq p h]
  have : (n1 : Int) / p.len2 ≤ (n2 : Int) / p.len2 :=
    Int.ediv_le_ediv h.len2_pos (by omega)
  omega

theorem Nframes_fit (p : SavedParamsC α) (h : p.WF) (N : Nat) (i : Nat)
    (hi : (i : Int) < Nframes p N) : (i : Int) * p.len2 + p.Slen ≤ (N : Int) := by
  have h1 := h.Slen_eq
  have h2 := h.len2_pos
  rw [Nframes_eq p h, h1, Int.mul_ediv_cancel 2 (by omega)] at hi
  have hq : (N : Int) / p.len2 * p.len2 ≤ (N : Int) := Int.ediv_mul_le _ (by omega)
  have hi3 : (i : Int) + 3 ≤ (N : Int) / p.len2 := by omega
  have hmul : ((i : Int) + 3) * p.len2 ≤ (N : Int) / p.len2 * p.len2 :=
    Int.mul_le_mul_of_nonneg_right hi3 (by omega)
  rw [h1]
  linarith

theorem Nframes_split (p : SavedParamsC α) (h : p.WF) (n1 n2 : Nat) :
    max 0 (Nframes p n1) + max 0 (Nframes p n2) ≤ max 0 (Nframes p (n1 + n2)) := by
  have h1 := h.Slen_eq
  have h2 := h.len2_pos
  rw [Nframes_eq p h, Nframes_eq p h, Nframes_eq p h, h1, Int.mul_ediv_cancel 2 (by omega)]
  have e1 : (n1 : Int) / p.len2 * p.len2 ≤ (n1 : Int) := Int.ediv_mul_le _ (by omega)
  have e2 : (n2 : Int) / p.len2 * p.len2 ≤ (n2 : Int) := Int.ediv_mul_le _ (by omega)
  have e3 : ((n1 : Int) / p.len2 + (n2 : Int) / p.len2) * p.len2 ≤ ((n1 + n2 : Nat) : Int) := by
    push_cast; linarith
  have e4 : (n1 : Int) / p.len2 + (n2 : Int) / p.len2 ≤ ((n1 + n2 : Nat) : Int) / p.len2 :=
    (Int.le_ediv_iff_mul_le h2).2 e3
  have e5 : 0 ≤ (n1 : Int) / p.len2 := Int.ediv_nonneg (by omega) (by omega)
  have e6 : 0 ≤ (n2 : Int) / p.len2 := Int.ediv_nonneg (by omega) (by omega)
  omega

end logmmse

end dsp

/-! ## The bootstrap `logmmse_sample` -/

namespace dsp

namespace logmmse

open arrays

variable {α : Type} [LinearOrderedField α]

theorem countZeros_eq_zero_iff (v : List α) (c : Nat) :
    v.foldl (fun c d => if d = 0 then c + 1 else c) c = 0 ↔ c = 0 ∧ ∀ x ∈ v, x ≠ 0 := by
  induction v generalizing c with
  | nil => simp
  | cons a rest ih =>
    simp only [List.foldl_cons, List.mem_cons, forall_eq_or_imp]
    rw [ih]
    by_cases ha : a = 0
    · simp [ha]
    · simp [ha]

theorem npall_eq_true_iff (v : List α) : npall v = true ↔ ∀ x ∈ v, x ≠ 0 := by
  unfold npall
  dsimp only
  have := countZeros_eq_zero_iff v 0
  by_cases h : v.foldl (fun c d => if d = 0 then c + 1 else c) 0 = 0
  · simp only [h, ne_eq, not_true_eq_false, if_false, true_iff]
    exact (this.1 h).2
  · simp only [ne_eq, h, not_false_eq_true, if_true, Bool.false_eq_true, false_iff]
    intro hall
    exact h (this.2 ⟨rfl, hall⟩)

theorem npall_npzeros (n : Int) (hn : 0 < n) : npall (npzeros n : List α) = false := by
  rw [← Bool.not_eq_true, npall_eq_true_iff]
  intro hall
  have : (0 : α) ∈ (npzeros n : List α) := by
    unfold npzeros
    rw [List.mem_replicate]
    exact ⟨by omega, rfl⟩
  exact hall 0 this rfl

theorem npmavg_length (v r : List α) (W : Int) (h : npmavg v W = some r) :
    r.length = v.length := by
  unfold npmavg at h
  simp only [Option.bind_eq_some] at h
  obtain ⟨st, _, h2⟩ := h
  split at h2
  · exact absurd h2 (by simp)
  · rename_i hne
    have := Option.some.inj h2
    rw [← this]
    simpa using hne

theorem foldlM_invariant {σ ι : Type} (f : σ → ι → Option σ) (I : σ → Prop)
    (hstep : ∀ s i s1, I s → f s i = some s1 → I s1) :
    ∀ (l : List ι) (s s1 : σ), I s → l.foldlM f s = some s1 → I s1 := by
  intro l
  induction l with
  | nil =>
    intro s s1 hs h
    have := Option.some.inj h
    exact this ▸ hs
  | cons i rest ih =>
    intro s s1 hs h
    rw [List.foldlM_cons] at h
    simp only [Option.bind_eq_bind, Option.bind_eq_some] at h
    obtain ⟨s2, h2, h3⟩ := h
    exact ih s2 s1 (hstep s i s2 hs h2) h3

theorem sample_frame_inv (B : Backend α) (x : List (complex_t α)) (p0 : SavedParamsC α)
    (n : Nat) (hn : p0.nFFT = n) (st : SavedParamsC α × List α) (i : Nat)
    (st1 : SavedParamsC α × List α) (hI : BootInv p0 n st)
    (h : sample_frame B x st i = some st1) : BootInv p0 n st1 := by
  unfold sample_frame at h
  simp only [Option.bind_eq_some] at h
  obtain ⟨seg, _, ws, _, p1, hp1, nm, hnm, h⟩ := h
  have h1 := Option.some.inj h
  subst h1
  obtain ⟨cS, _, cl2, cn, _⟩ := config_fields p0 st.1 hI.config
  have hnoise : (npabsolute B (npfftfft B ws st.1.forwardPlan)).length = n := by
    unfold SavedParamsC.add_noise_history at hp1
    split at hp1
    · exact absurd hp1 (by simp)
    · rename_i hne
      have : ((npabsolute B (npfftfft B ws st.1.forwardPlan)).length : Int) = st.1.nFFT := by
        simpa using hne
      omega
  have hpush := add_noise_history_eq st.1 _ n (by rw [cn, hn]) hnoise hI.sums_len hI.devs_len
    hI.hist_len hI.dev_len
  rw [hpush] at hp1
  have hp1e := Option.some.inj hp1
  subst hp1e
  obtain ⟨a, b, c, d⟩ := pushed_lengths st.1 _ n hnoise hI.sums_len hI.devs_len hI.hist_len
    hI.dev_len
  refine ⟨hI.config, hI.floor, a, b, c, d, ?_⟩
  unfold addeach at hnm
  split at hnm
  · have := Option.some.inj hnm
    rw [← this]
    simp only [List.length_zipWith]
    have := hI.mean_len
    omega
  · exact absurd hnm (by simp)

theorem tmod_two_nonpos (a : Int) (h : a < 0) : a.tmod 2 ≤ 0 := by
  cases a with
  | ofNat k => exact absurd h (by simp)
  | negSucc m =>
    show -((((m + 1) % 2 : Nat)) : Int) ≤ 0
    omega

theorem even_half (S0 : Int) (h : 0 ≤ (if S0.tmod 2 = 1 then S0 + 1 else S0)) :
    ((if S0.tmod 2 = 1 then S0 + 1 else S0) * 50).tdiv 100 * 2
      = (if S0.tmod 2 = 1 then S0 + 1 else S0) := by
  have h0 : 0 ≤ S0 := by
    split at h
    · rename_i h1
      by_contra hneg
      have : S0.tmod 2 ≤ 0 := tmod_two_nonpos S0 (by omega)
      omega
    · exact h
  rw [Int.tmod_eq_emod h0 (by norm_num)]
  rw [Int.tdiv_eq_ediv (by split <;> omega) (by norm_num)]
  split <;> omega

theorem sample_init_spec (B : Backend α) (Srate : Int) (params p0 : SavedParamsC α)
    (h : sample_init B Srate params = some p0) :
    0 < p0.len2 ∧ p0.len1 = p0.len2 ∧ p0.Slen = 2 * p0.len2 ∧ p0.nFFT = 2 * p0.Slen
      ∧ (p0.win.length : Int) = p0.Slen ∧ p0.forwardPlan = ⟨p0.nFFT, false⟩
      ∧ p0.reversePlan = ⟨p0.nFFT, true⟩ ∧ p0.noise_history = [] ∧ p0.dev_history = []
      ∧ p0.sums = npzeros p0.nFFT ∧ p0.devs = npzeros p0.nFFT
      ∧ p0.floor_part = params.floor_part
      ∧ p0.Slen = (if (Srate / 50).tmod 2 = 1 then Srate / 50 + 1 else Srate / 50)
      ∧ p0.win = (if decide (Srate ≤ 24000) then
          div (mul (nphanning B p0.Slen) ((p0.len2 : Int) : α)) (npsum (nphanning B p0.Slen))
        else List.replicate p0.Slen.toNat 1)
      ∧ p0.aa = params.aa := by
  unfold sample_init at h
  dsimp only at h
  generalize hS : (if (Srate / 50).tmod 2 = 1 then Srate / 50 + 1 else Srate / 50) = S at h
  unfold allocateFFTWPlan at h
  split at h
  · exact absurd h (by simp)
  rename_i hn
  simp only [Option.some_bind] at h
  split at h
  · exact absurd h (by simp)
  rename_i hl2
  have hS0 : 0 ≤ S := by omega
  have hhalf : (S * 50).tdiv 100 * 2 = S := by
    rw [← hS]; apply even_half; rw [hS]; exact hS0
  have h1 := Option.some.inj h
  subst h1
  dsimp only
  refine ⟨by omega, by omega, by omega, rfl, ?_, rfl, rfl, rfl, rfl, rfl, rfl, rfl, rfl, rfl,
    rfl⟩
  split
  · simp only [arrays.div, arrays.mul, nphanning, List.length_map, List.length_range]
    omega
  · simp only [List.length_replicate]; omega

theorem length_npzeros (n : Int) : ((npzeros n : List α).length : Int) = max 0 n := by
  simp only [npzeros, List.length_replicate]; omega

theorem length_npzeros_c (n : Int) :
    ((npzeros_c n : List (complex_t α)).length : Int) = max 0 n := by
  simp only [npzeros_c, List.length_replicate]; omega

theorem logmmse_sample_spec (B : Backend α) (x : List (complex_t α)) (Srate : Int) (eta : α)
    (params : SavedParamsC α) (noise_frames : Int) (p : SavedParamsC α)
    (h : logmmse_sample B x Srate eta params noise_frames = some p) :
    p.WF ∧ p.Slen = (if (Srate / 50).tmod 2 = 1 then Srate / 50 + 1 else Srate / 50)
      ∧ p.x_old = npzeros_c p.len1 ∧ p.Xk_prev = npzeros p.len1
      ∧ p.ksi_min = B.pow 10 (-25 / 10) ∧ p.aa = params.aa ∧ p.hold = params.hold
      ∧ p.generation = params.generation ∧ p.stable = params.stable
      ∧ p.mindb = params.mindb ∧ p.maxdb = params.maxdb := by
  unfold logmmse_sample at h
  simp only [Option.bind_eq_some] at h
  obtain ⟨p0, hp0, st, hfold, smooth, hsmooth, mu2, hmu2, h⟩ := h
  obtain ⟨i1, i2, i3, i4, i5, i6, i7, i8, i9, i10, i11, i12, i13, _, haa⟩ :=
    sample_init_spec B Srate params p0 hp0
  have hn : p0.nFFT = (p0.nFFT.toNat : Int) := by omega
  have hI0 : BootInv p0 p0.nFFT.toNat (p0, npzeros p0.nFFT) :=
    { config := rfl, floor := rfl,
      sums_len := by rw [i10]; simp [npzeros],
      devs_len := by rw [i11]; simp [npzeros],
      hist_len := by rw [i8]; simp,
      dev_len := by rw [i9]; simp,
      mean_len := by simp [npzeros] }
  have hI := foldlM_invariant (sample_frame B x) (BootInv p0 p0.nFFT.toNat)
    (fun s i s1 hs hstep => sample_frame_inv B x p0 _ hn s i s1 hs hstep) _ _ _ hI0 hfold
  obtain ⟨cS, cl1, cl2, cn, cw, cf, cr, _⟩ := config_fields p0 st.1 hI.config
  have hsm : smooth.length = p0.nFFT.toNat := by
    split at hsmooth
    · have := Option.some.inj hsmooth
      rw [← this]
      simp only [div, List.length_map]
      exact hI.mean_len
    · have := npmavg_length _ _ _ hsmooth
      rw [this]
      simp only [div, List.length_map]
      exact hI.mean_len
  have hmu : mu2.length = p0.nFFT.toNat := by
    unfold muleach at hmu2
    rw [if_pos (le_refl _)] at hmu2
    have := Option.some.inj hmu2
    rw [← this]
    simp [hsm]
  have h1 := Option.some.inj h
  subst h1
  obtain ⟨_, _, _, cg, cs, ch⟩ := floor_fields p0 st.1 hI.floor
  obtain ⟨_, fmn, fmx, fg, fs, fh⟩ := floor_fields params p0 i12
  obtain ⟨_, _, _, _, _, _, _, caa, _⟩ := config_fields p0 st.1 hI.config
  refine ⟨?_, by show st.1.Slen = _; rw [cS]; exact i13, rfl, rfl, rfl,
    by show st.1.aa = _; rw [caa, haa],
    by show st.1.hold = _; rw [ch, fh],
    by show st.1.generation = _; rw [cg, fg],
    by show st.1.stable = _; rw [cs, fs],
    by show st.1.mindb = _; rw [(floor_fields p0 st.1 hI.floor).2.1, fmn],
    by show st.1.maxdb = _; rw [(floor_fields p0 st.1 hI.floor).2.2.1, fmx]⟩
  exact
    { len2_pos := by show 0 < st.1.len2; omega,
      len1_eq := by show st.1.len1 = st.1.len2; omega,
      Slen_eq := by show st.1.Slen = 2 * st.1.len2; omega,
      nFFT_eq := by show st.1.nFFT = 2 * st.1.Slen; omega,
      win_len := by show (st.1.win.length : Int) = st.1.Slen; rw [cw, cS]; exact i5,
      fwd_size := by show st.1.forwardPlan.nbuckets = st.1.nFFT; rw [cf, cn, i6],
      rev_size := by show st.1.reversePlan.nbuckets = st.1.nFFT; rw [cr, cn, i7],
      mu2_len := by show (mu2.length : Int) = st.1.nFFT; omega,
      sums_len := by have := hI.sums_len; show (st.1.sums.length : Int) = st.1.nFFT; omega,
      devs_len := by have := hI.devs_len; show (st.1.devs.length : Int) = st.1.nFFT; omega,
      x_old_len := by
        show ((npzeros_c st.1.len1 : List (complex_t α)).length : Int) = st.1.len1
        rw [length_npzeros_c]; omega,
      hist_len := fun f hf => by
        have := hI.hist_len f hf
        show (f.length : Int) = st.1.nFFT
        omega,
      dev_len := fun f hf => by
        have := hI.dev_len f hf
        show (f.length : Int) = st.1.nFFT
        omega,
      Xk_ok := Or.inr (npall_npzeros _ (by omega)) }

theorem logmmse_sample_WF (B : Backend α) (x : List (complex_t α)) (Srate : Int) (eta : α)
    (params : SavedParamsC α) (noise_frames : Int) (p : SavedParamsC α)
    (h : logmmse_sample B x Srate eta params noise_frames = some p) : p.WF :=
  (logmmse_sample_spec B x Srate eta params noise_frames p h).1

theorem WF_of_Reachable (B : Backend α) (hB : B.Lawful) (p : SavedParamsC α)
    (h : Reachable B p) : p.WF := by
  induction h with
  | sample x Srate eta params noise_frames p hs =>
    exact logmmse_sample_WF B x Srate eta params noise_frames p hs
  | all x Srate eta p out q _ hall ih =>
    obtain ⟨p1, hops, q1, _, _, hall1, _, _, _, hq, _, _⟩ := logmmse_all_ok B hB x Srate eta p ih
    rw [hall1] at hall
    have := Option.some.inj hall
    have e : q1 = q := congrArg Prod.snd this
    exact e ▸ hq
  | set_hold p hold _ ih =>
    exact
      { len2_pos := ih.len2_pos, len1_eq := ih.len1_eq, Slen_eq := ih.Slen_eq,
        nFFT_eq := ih.nFFT_eq, win_len := ih.win_len, fwd_size := ih.fwd_size,
        rev_size := ih.rev_size, mu2_len := ih.mu2_len, sums_len := ih.sums_len,
        devs_len := ih.devs_len, x_old_len := ih.x_old_len, hist_len := ih.hist_len,
        dev_len := ih.dev_len, Xk_ok := ih.Xk_ok }

theorem sample_init_ok (B : Backend α) (Srate : Int) (params : SavedParamsC α)
    (hS : 50 ≤ Srate) : ∃ p0, sample_init B Srate params = some p0 := by
  have h1 : 1 ≤ Srate / 50 := by omega
  have hS0 : 0 ≤ (if (Srate / 50).tmod 2 = 1 then Srate / 50 + 1 else Srate / 50) := by
    split <;> omega
  have hpos : 1 ≤ (if (Srate / 50).tmod 2 = 1 then Srate / 50 + 1 else Srate / 50) := by
    split <;> omega
  have hhalf := even_half (Srate / 50) hS0
  unfold sample_init
  dsimp only
  generalize (if (Srate / 50).tmod 2 = 1 then Srate / 50 + 1 else Srate / 50) = S at hS0 hpos hhalf
  unfold allocateFFTWPlan
  rw [if_neg (by omega)]
  simp only [Option.some_bind]
  rw [if_neg (by omega)]
  simp only [Option.some_bind]
  rw [if_neg (by omega)]
  exact ⟨_, rfl⟩

theorem sample_frame_ok (B : Backend α) (hB : B.Lawful) (x : List (complex_t α))
    (p0 : SavedParamsC α) (n : Nat) (hn : p0.nFFT = n) (hSpos : 0 < p0.Slen)
    (hwin : (p0.win.length : Int) = p0.Slen) (hfwd : p0.forwardPlan.nbuckets = p0.nFFT)
    (st : SavedParamsC α × List α) (i : Nat) (hI : BootInv p0 n st)
    (hfit : (i : Int) * p0.Slen + p0.Slen ≤ (x.length : Int)) :
    sample_frame B x st i
      = some (st.1.pushed (boot_noise B x p0 i), vadd st.2 (boot_noise B x p0 i))
      ∧ (boot_noise B x p0 i).length = n := by
  obtain ⟨cS, _, cl2, cn, cw, cf, _⟩ := config_fields p0 st.1 hI.config
  have hk : 0 ≤ (i : Int) * p0.Slen := Int.mul_nonneg (Int.natCast_nonneg _) (le_of_lt hSpos)
  have e1 := nparange_c_eq x ((i : Int) * p0.Slen) ((i : Int) * p0.Slen + p0.Slen) hk
    (by omega) hfit
  have l1 := length_drop_take x ((i : Int) * p0.Slen) ((i : Int) * p0.Slen + p0.Slen) hk
    (by omega) hfit
  have hsub : (i : Int) * p0.Slen + p0.Slen - (i : Int) * p0.Slen = p0.Slen := by omega
  rw [hsub] at e1 l1
  have e2 : muleach_c p0.win ((x.drop ((i : Int) * p0.Slen).toNat).take p0.Slen.toNat)
      = some (List.zipWith (fun a b => complex_t.mul ⟨a, 0⟩ b) p0.win
          ((x.drop ((i : Int) * p0.Slen).toNat).take p0.Slen.toNat)) :=
    muleach_c_eq (by omega)
  have hnoise : (boot_noise B x p0 i).length = n := by
    unfold boot_noise
    simp only [npabsolute, List.length_map]
    have := length_npfftfft B hB
      (List.zipWith (fun a b => complex_t.mul ⟨a, 0⟩ b) p0.win
        ((x.drop ((i : Int) * p0.Slen).toNat).take p0.Slen.toNat)) p0.forwardPlan (by omega)
    omega
  refine ⟨?_, hnoise⟩
  unfold sample_frame
  dsimp only
  rw [cS, cw, cf, e1]
  simp only [Option.some_bind]
  rw [e2]
  simp only [Option.some_bind]
  have hpush := add_noise_history_eq st.1 (boot_noise B x p0 i) n (by rw [cn, hn]) hnoise
    hI.sums_len hI.devs_len hI.hist_len hI.dev_len
  unfold boot_noise at hpush ⊢
  rw [hpush]
  simp only [Option.some_bind]
  rw [addeach_eq (by
    have := hI.mean_len
    unfold boot_noise at hnoise
    omega)]
  rfl

theorem BootInv_pushed (p0 : SavedParamsC α) (n : Nat) (st : SavedParamsC α × List α)
    (noise : List α) (hI : BootInv p0 n st) (hnoise : noise.length = n) :
    BootInv p0 n (st.1.pushed noise, vadd st.2 noise) := by
  obtain ⟨a, b, c, d⟩ := pushed_lengths st.1 noise n hnoise hI.sums_len hI.devs_len hI.hist_len
    hI.dev_len
  exact ⟨hI.config, hI.floor, a, b, c, d, by simp [vadd, hI.mean_len, hnoise]⟩

theorem sample_fold_ok (B : Backend α) (hB : B.Lawful) (x : List (complex_t α))
    (p0 : SavedParamsC α) (n : Nat) (hn : p0.nFFT = n) (hSpos : 0 < p0.Slen)
    (hwin : (p0.win.length : Int) = p0.Slen) (hfwd : p0.forwardPlan.nbuckets = p0.nFFT)
    (hinit : p0.HistInv n []) :
    ∀ N : Nat, (N : Int) * p0.Slen ≤ (x.length : Int) →
      ∃ st, (List.range N).foldlM (sample_frame B x) (p0, npzeros p0.nFFT) = some st
        ∧ BootInv p0 n st
        ∧ st.1.HistInv n ((List.range N).map (boot_noise B x p0))
        ∧ st.2 = vsum n ((List.range N).map (boot_noise B x p0))
        ∧ st.1.Xk_prev = p0.Xk_prev ∧ st.1.x_old = p0.x_old := by
  intro N
  induction N with
  | zero =>
    intro _
    refine ⟨_, rfl, ?_, by simpa using hinit, ?_, rfl, rfl⟩
    · exact
        { config := rfl, floor := rfl,
          sums_len := by rw [hinit.sums_eq]; exact length_vsum n _ hinit.hist_len,
          devs_len := by rw [hinit.devs_eq]; exact length_vsum n _ hinit.dev_len,
          hist_len := hinit.hist_len, dev_len := hinit.dev_len,
          mean_len := by simp [npzeros, hn] }
    · simp [vsum, npzeros, hn]
  | succ N ih =>
    intro hN
    have hN1 : (N : Int) * p0.Slen + p0.Slen ≤ (x.length : Int) := by
      push_cast at hN; linarith
    obtain ⟨st, hst, hI, hH, hmean, hXk, hxo⟩ := ih (by linarith)
    obtain ⟨hstep, hnoise⟩ := sample_frame_ok B hB x p0 n hn hSpos hwin hfwd st N hI hN1
    refine ⟨_, ?_, BootInv_pushed p0 n st _ hI hnoise, ?_, ?_, hXk, hxo⟩
    · rw [List.range_succ, List.foldlM_append, hst]
      simp only [Option.some_bind, Option.bind_eq_bind, List.foldlM_cons, List.foldlM_nil, hstep]
      rfl
    · rw [List.range_succ, List.map_append]
      exact HistInv_pushed st.1 n _ _ hH hnoise
    · rw [List.range_succ, List.map_append]
      show vadd st.2 _ = _
      rw [hmean]
      exact (vsum_append_singleton n _ _).symm



theorem HistInv_init (p0 : SavedParamsC α) (n : Nat) (hn : p0.nFFT = n)
    (h1 : p0.noise_history = []) (h2 : p0.dev_history = []) (h3 : p0.sums = npzeros p0.nFFT)
    (h4 : p0.devs = npzeros p0.nFFT) : p0.HistInv n [] :=
  { nFFT_eq := hn,
    hist_len := by rw [h1]; simp,
    dev_len := by rw [h2]; simp,
    sums_eq := by rw [h3, h1, hn]; simp [vsum, npzeros],
    devs_eq := by rw [h4, h2, hn]; simp [vsum, npzeros],
    hist_eq := by rw [h1]; simp,
    dev_count := by rw [h1, h2] }

theorem logmmse_sample_ok (B : Backend α) (hB : B.Lawful) (x : List (complex_t α))
    (Srate : Int) (eta : α) (params : SavedParamsC α) (noise_frames : Int)
    (p0 : SavedParamsC α) (hp0 : sample_init B Srate params = some p0)
    (hx : (noise_frames.toNat : Int) * p0.Slen ≤ (x.length : Int)) :
    ∃ (st : SavedParamsC α) (smooth : List α),
      (if decide (Srate ≤ 24000) then
          some (div (vsum p0.nFFT.toNat
            ((List.range noise_frames.toNat).map (boot_noise B x p0))) ((noise_frames : Int) : α))
        else npmavg (div (vsum p0.nFFT.toNat
            ((List.range noise_frames.toNat).map (boot_noise B x p0))) ((noise_frames : Int) : α))
            120) = some smooth
      ∧ logmmse_sample B x Srate eta params noise_frames
        = some { st with noise_mu2 := List.zipWith muleach_entry smooth smooth,
                         Xk_prev := npzeros p0.len1, Xn_prev := npzeros_c 0,
                         x_old := npzeros_c p0.len1, ksi_min := B.pow 10 (-25 / 10) }
      ∧ st.HistInv p0.nFFT.toNat ((List.range noise_frames.toNat).map (boot_noise B x p0))
      ∧ st.config = p0.config ∧ st.floor_part = p0.floor_part := by
  obtain ⟨i1, i2, i3, i4, i5, i6, i7, i8, i9, i10, i11, _, _, _⟩ :=
    sample_init_spec B Srate params p0 hp0
  have hn : p0.nFFT = (p0.nFFT.toNat : Int) := by omega
  obtain ⟨st, hfold, hI, hH, hmean, _, _⟩ := sample_fold_ok B hB x p0 p0.nFFT.toNat hn
    (by omega) i5 (by rw [i6]) (HistInv_init p0 _ hn i8 i9 i10 i11) noise_frames.toNat hx
  obtain ⟨_, cl1, _⟩ := config_fields p0 st.1 hI.config
  have hsm : ∃ smooth, (if decide (Srate ≤ 24000) then
          some (div (vsum p0.nFFT.toNat
            ((List.range noise_frames.toNat).map (boot_noise B x p0))) ((noise_frames : Int) : α))
        else npmavg (div (vsum p0.nFFT.toNat
            ((List.range noise_frames.toNat).map (boot_noise B x p0))) ((noise_frames : Int) : α))
            120) = some smooth := by
    split
    · exact ⟨_, rfl⟩
    · obtain ⟨r, hr, _⟩ := npmavg_ok (div (vsum p0.nFFT.toNat
        ((List.range noise_frames.toNat).map (boot_noise B x p0)))
        ((noise_frames : Int) : α)) 120 (by norm_num)
      exact ⟨r, hr⟩
  obtain ⟨smooth, hsmooth⟩ := hsm
  refine ⟨st.1, smooth, hsmooth, ?_, hH, hI.config, hI.floor⟩
  unfold logmmse_sample
  rw [hp0]
  simp only [Option.some_bind]
  rw [hfold]
  simp only [Option.some_bind]
  rw [hmean, hsmooth]
  simp only [Option.some_bind]
  rw [muleach_eq (le_refl _)]
  simp only [Option.some_bind]
  rw [cl1]

theorem zipWith_mul_zero (w : List α) (n : Nat) :
    List.zipWith (fun a b => complex_t.mul ⟨a, 0⟩ b) w
        (List.replicate n (complex_t.zero : complex_t α))
      = List.replicate (min w.length n) complex_t.zero := by
  induction w generalizing n with
  | nil => simp
  | cons a rest ih =>
    cases n with
    | zero => simp
    | succ n =>
      rw [List.replicate_succ, List.zipWith_cons_cons, ih]
      simp only [List.length_cons, Nat.succ_min_succ, List.replicate_succ, complex_t.mul,
        complex_t.zero, mul_zero, sub_zero, zero_mul, add_zero]

theorem resize_zero (m : Nat) (n : Int) (hn : 0 ≤ n) :
    resize (List.replicate m (complex_t.zero : complex_t α)) n
      = List.replicate n.toNat complex_t.zero := by
  unfold resize
  split
  · rename_i h
    simp only [List.length_replicate] at h
    rw [← h, Int.toNat_natCast]
  · rw [if_neg (by omega)]
    simp only [List.take_replicate, List.length_replicate, ← List.replicate_add]
    congr 1
    omega

theorem npfftfft_zero (B : Backend α) (hB : B.Lawful) (m : Nat) (plan : fftwPlan)
    (hn : 0 ≤ plan.nbuckets) :
    npfftfft B (List.replicate m (complex_t.zero : complex_t α)) plan
      = List.replicate plan.nbuckets.toNat complex_t.zero := by
  unfold npfftfft
  dsimp only
  rw [resize_zero m _ hn, hB.fft_zero]
  split
  · simp [div_c, complex_t.divf, complex_t.zero]
  · rfl

theorem boot_noise_zero (B : Backend α) (hB : B.Lawful) (M : Nat) (p0 : SavedParamsC α)
    (hn : 0 ≤ p0.forwardPlan.nbuckets) (i : Nat) :
    boot_noise B (List.replicate M (complex_t.zero : complex_t α)) p0 i
      = List.replicate p0.forwardPlan.nbuckets.toNat 0 := by
  unfold boot_noise
  rw [List.drop_replicate, List.take_replicate, zipWith_mul_zero, npfftfft_zero B hB _ _ hn]
  simp [npabsolute, hB.amplitude_zero]

theorem vsum_zero (n : Nat) (l : List (List α)) (h : ∀ f ∈ l, f = List.replicate n 0) :
    vsum n l = List.replicate n 0 := by
  unfold vsum
  induction l with
  | nil => rfl
  | cons f rest ih =>
    rw [List.foldl_cons, h f (List.mem_cons_self _ _)]
    have : vadd (List.replicate n (0 : α)) (List.replicate n 0) = List.replicate n 0 := by
      simp [vadd]
    rw [this]
    exact ih (fun g hg => h g (List.mem_cons_of_mem _ hg))

theorem muleach_entry_zero : muleach_entry (0 : α) 0 = 0 := by
  simp [muleach_entry]

theorem logmmse_sample_zero (B : Backend α) (hB : B.Lawful) (M : Nat) (Srate : Int)
    (eta : α) (params : SavedParamsC α) (noise_frames : Int)
    (p0 : SavedParamsC α) (hp0 : sample_init B Srate params = some p0)
    (hx : (noise_frames.toNat : Int) * p0.Slen ≤ (M : Int)) :
    ∃ p, logmmse_sample B (List.replicate M complex_t.zero) Srate eta params noise_frames
        = some p ∧ p.noise_mu2 = List.replicate p0.nFFT.toNat 0 ∧ p.nFFT = p0.nFFT := by
  obtain ⟨i1, i2, i3, i4, i5, i6, i7, i8, i9, i10, i11, _, _, _⟩ :=
    sample_init_spec B Srate params p0 hp0
  obtain ⟨st, smooth, hsmooth, hs, _, hc, _⟩ := logmmse_sample_ok B hB
    (List.replicate M complex_t.zero) Srate eta params noise_frames p0 hp0
    (by simpa using hx)
  obtain ⟨_, _, _, cn, _⟩ := config_fields p0 st hc
  have hfr : ∀ f ∈ (List.range noise_frames.toNat).map
      (boot_noise B (List.replicate M complex_t.zero) p0), f = List.replicate p0.nFFT.toNat 0 := by
    intro f hf
    obtain ⟨i, _, rfl⟩ := List.mem_map.1 hf
    have hnb : p0.forwardPlan.nbuckets = p0.nFFT := by rw [i6]
    rw [boot_noise_zero B hB M p0 (by rw [hnb]; omega) i, hnb]
  rw [vsum_zero _ _ hfr] at hsmooth
  have hdiv : div (List.replicate p0.nFFT.toNat (0 : α)) ((noise_frames : Int) : α)
      = List.replicate p0.nFFT.toNat 0 := by
    simp [div]
  rw [hdiv] at hsmooth
  have hsm : smooth = List.replicate p0.nFFT.toNat 0 := by
    split at hsmooth
    · exact (Option.some.inj hsmooth).symm
    · obtain ⟨r, hr, hrl, hmean⟩ := npmavg_ok (List.replicate p0.nFFT.toNat (0 : α)) 120
        (by norm_num)
      rw [hr] at hsmooth
      have e := Option.some.inj hsmooth
      subst e
      rw [List.eq_replicate_iff]
      refine ⟨by simpa using hrl, fun y hy => ?_⟩
      exact IsMeanOf_zero _ y (fun z hz => List.eq_of_mem_replicate hz) (hmean y hy)
  refine ⟨_, hs, ?_, cn⟩
  show List.zipWith muleach_entry smooth smooth = _
  rw [hsm]
  simp [muleach_entry_zero]

theorem muleach_entry_self_nonneg (a : α) : 0 ≤ muleach_entry a a := by
  unfold muleach_entry
  split
  · positivity
  · exact mul_self_nonneg a

theorem muleach_entry_self_pos (a : α) (ha : a ≠ 0) : 0 < muleach_entry a a := by
  unfold muleach_entry
  split
  · positivity
  · exact mul_self_pos.2 ha

theorem mem_zipWith_self {β γ : Type} (f : β → β → γ) (l : List β) (v : γ)
    (h : v ∈ List.zipWith f l l) : ∃ a ∈ l, v = f a a := by
  induction l with
  | nil => simp at h
  | cons b rest ih =>
    rw [List.zipWith_cons_cons, List.mem_cons] at h
    rcases h with h | h
    · exact ⟨b, List.mem_cons_self _ _, h⟩
    · obtain ⟨a, ha, hv⟩ := ih h
      exact ⟨a, List.mem_cons_of_mem _ ha, hv⟩

theorem getD_vadd (a f : List α) (k : Nat) (hk : k < a.length) (hf : a.length = f.length) :
    (vadd a f).getD k 0 = a.getD k 0 + f.getD k 0 := by
  have hl : (vadd a f).length = a.length := by
    simp only [vadd, List.length_zipWith]; omega
  rw [List.getD_eq_getElem _ _ hk, List.getD_eq_getElem _ _ (by omega : k < f.length),
    List.getD_eq_getElem _ _ (by omega : k < (vadd a f).length)]
  simp only [vadd, List.getElem_zipWith]

theorem getD_foldl_vadd_mono (n k : Nat) (hk : k < n) :
    ∀ (l : List (List α)) (acc : List α), acc.length = n → (∀ f ∈ l, f.length = n) →
      (∀ f ∈ l, ∀ v ∈ f, (0 : α) ≤ v) →
      acc.getD k 0 ≤ (l.foldl vadd acc).getD k 0
        ∧ ((∃ f ∈ l, f.getD k 0 ≠ 0) → acc.getD k 0 < (l.foldl vadd acc).getD k 0) := by
  intro l
  induction l with
  | nil =>
    intro acc _ _ _
    exact ⟨le_refl _, fun ⟨f, hf, _⟩ => absurd hf (List.not_mem_nil _)⟩
  | cons f rest ih =>
    intro acc hacc hlen hnn
    have hfl : f.length = n := hlen f (List.mem_cons_self _ _)
    have hfk : 0 ≤ f.getD k 0 := hnn f (List.mem_cons_self _ _) _ (getD_mem f k (by omega))
    have hadd := getD_vadd acc f k (by omega) (by omega)
    obtain ⟨h1, h2⟩ := ih (vadd acc f) (by simp [vadd, hacc, hfl])
      (fun g hg => hlen g (List.mem_cons_of_mem _ hg))
      (fun g hg => hnn g (List.mem_cons_of_mem _ hg))
    rw [List.foldl_cons]
    refine ⟨by linarith, ?_⟩
    rintro ⟨g, hg, hgk⟩
    rcases List.mem_cons.1 hg with rfl | hg
    · have : 0 < g.getD k 0 := lt_of_le_of_ne hfk (Ne.symm hgk)
      linarith
    · have := h2 ⟨g, hg, hgk⟩
      linarith

theorem vsum_pos (n : Nat) (l : List (List α)) (hlen : ∀ f ∈ l, f.length = n)
    (hnn : ∀ f ∈ l, ∀ v ∈ f, (0 : α) ≤ v)
    (hne : ∀ k, k < n → ∃ f ∈ l, f.getD k 0 ≠ 0) : ∀ v ∈ vsum n l, 0 < v := by
  intro v hv
  obtain ⟨k, hk, rfl⟩ := List.getElem_of_mem hv
  have hkn : k < n := by rw [length_vsum n l hlen] at hk; exact hk
  have h := (getD_foldl_vadd_mono n k hkn l (List.replicate n 0) (by simp) hlen hnn).2
    (hne k hkn)
  have h0 : (List.replicate n (0 : α)).getD k 0 = 0 := by
    rw [List.getD_eq_getElem _ _ (by simpa using hkn)]
    simp
  rw [h0] at h
  have e : (vsum n l).getD k 0 = (vsum n l)[k] := List.getD_eq_getElem _ _ hk
  rw [← e]
  exact h

theorem boot_noise_nonneg (B : Backend α) (hB : B.Lawful) (x : List (complex_t α))
    (p : SavedParamsC α) (i : Nat) : ∀ v ∈ boot_noise B x p i, 0 ≤ v := by
  intro v hv
  unfold boot_noise npabsolute at hv
  obtain ⟨z, _, rfl⟩ := List.mem_map.1 hv
  exact hB.amplitude_nonneg z

theorem bootstrap_floor (B : Backend α) (hB : B.Lawful) (x : List (complex_t α)) (Srate : Int)
    (eta : α) (params : SavedParamsC α) (noise_frames : Int) (p : SavedParamsC α)
    (hN : 1 ≤ noise_frames)
    (hx : noise_frames * p.Slen ≤ (x.length : Int))
    (h : logmmse_sample B x Srate eta params noise_frames = some p) :
    (∀ v ∈ p.noise_mu2, 0 ≤ v) ∧
      ((∀ k, k < p.nFFT.toNat → ∃ f ∈ p.noise_history, f.getD k 0 ≠ 0) →
        ∀ v ∈ p.noise_mu2, 0 < v) := by
  obtain ⟨p0, hp0⟩ : ∃ p0, sample_init B Srate params = some p0 := by
    unfold logmmse_sample at h
    simp only [Option.bind_eq_some] at h
    obtain ⟨p0, hp0, _⟩ := h
    exact ⟨p0, hp0⟩
  obtain ⟨_, _, _, _, _, _, _, _, _, _, _, _, hSl0, _⟩ := sample_init_spec B Srate params p0 hp0
  obtain ⟨_, hSl, _⟩ := logmmse_sample_spec B x Srate eta params noise_frames p h
  have hS : p.Slen = p0.Slen := by rw [hSl, hSl0]
  have hx1 : (noise_frames.toNat : Int) * p0.Slen ≤ (x.length : Int) := by
    rw [Int.toNat_of_nonneg (by omega), ← hS]; exact hx
  obtain ⟨st, smooth, hsmooth, hs, hH, hc, _⟩ := logmmse_sample_ok B hB x Srate eta params
    noise_frames p0 hp0 hx1
  rw [h] at hs
  have hp := Option.some.inj hs
  obtain ⟨_, _, _, cn, _⟩ := config_fields p0 st hc
  have hmu : p.noise_mu2 = List.zipWith muleach_entry smooth smooth := by rw [hp]
  have hhist : p.noise_history = st.noise_history := by rw [hp]
  have hnF : p.nFFT = p0.nFFT := by rw [hp]; exact cn
  refine ⟨?_, ?_⟩
  · intro v hv
    rw [hmu] at hv
    obtain ⟨a, _, rfl⟩ := mem_zipWith_self _ _ _ hv
    exact muleach_entry_self_nonneg a
  · intro hne v hv
    rw [hmu] at hv
    obtain ⟨a, ha, rfl⟩ := mem_zipWith_self _ _ _ hv
    apply muleach_entry_self_pos
    have hframes_len : ∀ f ∈ (List.range noise_frames.toNat).map (boot_noise B x p0),
        f.length = p0.nFFT.toNat := by
      intro f hf
      have hsub : ∀ g ∈ st.noise_history, g.length = p0.nFFT.toNat := hH.hist_len
      obtain ⟨i, hi, rfl⟩ := List.mem_map.1 hf
      have : (0 : Int) ≤ p0.nFFT := by
        have := (sample_init_spec B Srate params p0 hp0).1
        have := (sample_init_spec B Srate params p0 hp0).2.2.1
        have := (sample_init_spec B Srate params p0 hp0).2.2.2.1
        omega
      unfold boot_noise
      simp only [npabsolute, List.length_map]
      have hfw : p0.forwardPlan.nbuckets = p0.nFFT := by
        rw [(sample_init_spec B Srate params p0 hp0).2.2.2.2.2.1]
      have := length_npfftfft B hB
        (List.zipWith (fun a b => complex_t.mul ⟨a, 0⟩ b) p0.win
          ((x.drop ((i : Int) * p0.Slen).toNat).take p0.Slen.toNat)) p0.forwardPlan
        (by rw [hfw]; exact this)
      omega
    have hmean_pos : ∀ w ∈ vsum p0.nFFT.toNat
        ((List.range noise_frames.toNat).map (boot_noise B x p0)), 0 < w := by
      apply vsum_pos _ _ hframes_len
      · intro f hf
        obtain ⟨i, _, rfl⟩ := List.mem_map.1 hf
        exact boot_noise_nonneg B hB x p0 i
      · intro k hk
        obtain ⟨f, hf, hfk⟩ := hne k (by rw [hnF]; exact hk)
        rw [hhist, hH.hist_eq] at hf
        exact ⟨f, List.mem_of_mem_drop hf, hfk⟩
    have hdiv_pos : ∀ w ∈ div (vsum p0.nFFT.toNat
        ((List.range noise_frames.toNat).map (boot_noise B x p0)))
        ((noise_frames : Int) : α), 0 < w := by
      intro w hw
      unfold div at hw
      obtain ⟨u, hu, rfl⟩ := List.mem_map.1 hw
      exact div_pos (hmean_pos u hu) (by exact_mod_cast (by omega : (0 : Int) < noise_frames))
    have hsm_pos : 0 < a := by
      split at hsmooth
      · have e := Option.some.inj hsmooth
        rw [← e] at ha
        exact hdiv_pos a ha
      · obtain ⟨r, hr, _, hmean⟩ := npmavg_ok (div (vsum p0.nFFT.toNat
          ((List.range noise_frames.toNat).map (boot_noise B x p0)))
          ((noise_frames : Int) : α)) 120 (by norm_num)
        rw [hr] at hsmooth
        have e := Option.some.inj hsmooth
        rw [← e] at ha
        exact IsMeanOf_pos _ a hdiv_pos (hmean a ha)
    exact ne_of_gt hsm_pos

theorem sample_sizes_spec (Srate : Int) (hS : 0 ≤ Srate) :
    (sample_sizes Srate).1 = 2 * ((Srate / 50 + 1) / 2)
      ∧ (sample_sizes Srate).1 % 2 = 0
      ∧ Srate / 50 ≤ (sample_sizes Srate).1 ∧ (sample_sizes Srate).1 ≤ Srate / 50 + 1
      ∧ (sample_sizes Srate).2.1 = (sample_sizes Srate).1 / 2
      ∧ (sample_sizes Srate).2.2.1 = (sample_sizes Srate).1 / 2
      ∧ (sample_sizes Srate).2.1 + (sample_sizes Srate).2.2.1 = (sample_sizes Srate).1
      ∧ (sample_sizes Srate).2.2.2 = 2 * (sample_sizes Srate).1 := by
  have h0 : 0 ≤ Srate / 50 := Int.ediv_nonneg hS (by decide)
  have hm : (Srate / 50).tmod 2 = (Srate / 50) % 2 := Int.tmod_eq_emod h0 (by decide)
  unfold sample_sizes
  dsimp only
  generalize hS1 : (if (Srate / 50).tmod 2 = 1 then Srate / 50 + 1 else Srate / 50) = S
  have hS2 : S = 2 * ((Srate / 50 + 1) / 2) := by
    rw [← hS1, hm]
    split <;> omega
  have hS0 : 0 ≤ S := by omega
  have hd : (S * 50).tdiv 100 = S / 2 := by
    rw [Int.tdiv_eq_ediv (by omega) (by decide)]
    omega
  rw [hd]
  refine ⟨hS2, ?_, ?_, ?_, rfl, ?_, ?_, rfl⟩ <;> omega

theorem sample_init_sizes (B : Backend α) (Srate : Int) (params p0 : SavedParamsC α)
    (h : sample_init B Srate params = some p0) :
    (p0.Slen, p0.len1, p0.len2, p0.nFFT) = sample_sizes Srate := by
  have hsz : sample_sizes Srate
      = ((if (Srate / 50).tmod 2 = 1 then Srate / 50 + 1 else Srate / 50),
        ((if (Srate / 50).tmod 2 = 1 then Srate / 50 + 1 else Srate / 50) * 50).tdiv 100,
        (if (Srate / 50).tmod 2 = 1 then Srate / 50 + 1 else Srate / 50)
          - ((if (Srate / 50).tmod 2 = 1 then Srate / 50 + 1 else Srate / 50) * 50).tdiv 100,
        2 * (if (Srate / 50).tmod 2 = 1 then Srate / 50 + 1 else Srate / 50)) := rfl
  rw [hsz]
  unfold sample_init at h
  dsimp only at h
  generalize (if (Srate / 50).tmod 2 = 1 then Srate / 50 + 1 else Srate / 50) = S at h ⊢
  unfold allocateFFTWPlan at h
  split at h
  · exact absurd h (by simp)
  simp only [Option.some_bind] at h
  split at h
  · exact absurd h (by simp)
  have e := Option.some.inj h
  subst e
  rfl

end logmmse

end dsp

/-! ## One frame in closed form, and silence -/

namespace dsp

namespace logmmse

open arrays

variable {α : Type} [LinearOrderedField α]

theorem frame_synthesis_eq (B : Backend α) (hB : B.Lawful) (p : SavedParamsC α)
    (spec : List (complex_t α)) (sig hw : List α) (h : p.WF)
    (hspec : (spec.length : Int) = p.nFFT) (hsig : (sig.length : Int) = p.nFFT)
    (hhw : (hw.length : Int) = p.nFFT) :
    frame_synthesis B p spec sig hw
      = some (List.zipWith muleach_entry (List.zipWith muleach_entry sig hw)
            (List.zipWith muleach_entry sig hw),
          List.zipWith complex_t.add p.x_old ((frame_xi B p spec hw).take p.len1.toNat),
          ((frame_xi B p spec hw).drop p.len1.toNat).take (p.Slen - p.len1).toNat) := by
  have h1 := h.Slen_eq
  have h2 := h.len2_pos
  have h3 := h.len1_eq
  have h4 := h.nFFT_eq
  have hn : 0 ≤ p.reversePlan.nbuckets := by rw [h.rev_size]; omega
  have hxi : ∀ v, ((npfftfft B v p.reversePlan).length : Int) = p.nFFT := by
    intro v; rw [length_npfftfft B hB _ _ hn, h.rev_size]
  unfold frame_synthesis frame_xi
  rw [muleach_eq (by omega)]
  simp only [Option.some_bind]
  rw [muleach_eq (le_refl _)]
  simp only [Option.some_bind]
  rw [muleach_c_eq (by omega)]
  simp only [Option.some_bind]
  rw [nparange_c_eq _ 0 p.len1 (le_refl _) (by omega) (by rw [hxi]; omega)]
  simp only [Option.some_bind]
  have lh := length_drop_take (npfftfft B (List.zipWith (fun a b => complex_t.mul ⟨a, 0⟩ b) hw
    spec) p.reversePlan) 0 p.len1 (le_refl _) (by omega) (by rw [hxi]; omega)
  rw [addeach_c_eq (by have := h.x_old_len; omega)]
  simp only [Option.some_bind]
  rw [nparange_c_eq _ p.len1 p.Slen (by omega) (by omega) (by rw [hxi]; omega)]
  simp only [Option.some_bind, Int.toNat_zero, List.drop_zero, sub_zero]

theorem frame_step_eq (B : Backend α) (hB : B.Lawful) (x : List (complex_t α))
    (p : SavedParamsC α) (k : Int) (h : p.WF) (hk : 0 ≤ k)
    (hx : k + p.Slen ≤ (x.length : Int)) :
    ∃ (spec : List (complex_t α)) (sig hw : List α),
      frame_analysis B x p k = some (spec, sig)
      ∧ spec = npfftfft B (List.zipWith (fun a b => complex_t.mul ⟨a, 0⟩ b) p.win
          ((x.drop k.toNat).take p.Slen.toNat)) p.forwardPlan
      ∧ sig = zero_repair (npabsolute B spec)
      ∧ frame_gain B (p.pushed sig) sig = some hw
      ∧ (spec.length : Int) = p.nFFT ∧ (sig.length : Int) = p.nFFT
      ∧ (hw.length : Int) = p.nFFT
      ∧ frame_step B x p k
        = some (List.zipWith complex_t.add p.x_old ((frame_xi B p spec hw).take p.len1.toNat),
            { p.pushed sig with
                Xk_prev := List.zipWith muleach_entry (List.zipWith muleach_entry sig hw)
                  (List.zipWith muleach_entry sig hw),
                x_old := ((frame_xi B p spec hw).drop p.len1.toNat).take
                  (p.Slen - p.len1).toNat }) := by
  obtain ⟨a, ha, hspec, hsig, hsigeq, hspeceq⟩ := frame_analysis_ok B hB x p k h hk hx
  have hp1 := add_noise_history_of_WF p a.2 h hsig
  have hWF1 := WF_of_pushed p a.2 h hsig
  have h1 := h.Slen_eq
  have h2 := h.len2_pos
  have h4 := h.nFFT_eq
  obtain ⟨hw, hhw, hwlen⟩ := frame_gain_ok B (p.pushed a.2) a.2 p.nFFT.toNat (by omega)
    (by have := hWF1.mu2_len; show (p.pushed a.2).noise_mu2.length = _
        have e : (p.pushed a.2).nFFT = p.nFFT := rfl
        omega)
    (by
      rcases h.Xk_ok with hh | hh
      · left; show p.Xk_prev.length = _; omega
      · right; exact hh)
  have hhwl : (hw.length : Int) = p.nFFT := by omega
  have hsyn := frame_synthesis_eq B hB (p.pushed a.2) a.1 a.2 hw hWF1 hspec hsig hhwl
  refine ⟨a.1, a.2, hw, ha, hspeceq, hsigeq, hhw, hspec, hsig, hhwl, ?_⟩
  unfold frame_step
  rw [ha]
  simp only [Option.some_bind]
  rw [hp1]
  simp only [Option.some_bind]
  rw [hhw]
  simp only [Option.some_bind]
  rw [hsyn]
  rfl

theorem zero_repair_from_zero (n : Nat) :
    zero_repair_from (0 : α) (List.replicate n 0) = List.replicate n 0 := by
  induction n with
  | zero => rfl
  | succ n ih => simp [List.replicate_succ, zero_repair_from, ih]

theorem zero_repair_zero (n : Nat) :
    zero_repair (List.replicate n (0 : α)) = List.replicate n 0 := by
  cases n with
  | zero => rfl
  | succ n => simp [List.replicate_succ, zero_repair, zero_repair_from_zero]

theorem update_not_due (p : SavedParamsC α)
    (h : p.hold = true ∨ p.noise_history.length ≤ 100) : p.update_noise_mu2 = some p := by
  unfold SavedParamsC.update_noise_mu2
  dsimp only
  rw [if_neg]
  rintro ⟨h1, h2⟩
  rcases h with h | h
  · exact h2 h
  · omega

theorem run_frames_keeps (B : Backend α) (x : List (complex_t α)) :
    ∀ (m i0 : Nat) (p : SavedParamsC α) (r : List (complex_t α) × SavedParamsC α),
      run_frames B x i0 m p = some r → r.2.floor_part = p.floor_part := by
  intro m
  induction m with
  | zero =>
    intro i0 p r h
    simp only [run_frames] at h
    rw [← Option.some.inj h]
  | succ m ih =>
    intro i0 p r h
    simp only [run_frames] at h
    cases h1 : frame_step B x p ((i0 : Int) * p.len2) with
    | none => rw [h1] at h; exact absurd h (by simp)
    | some r1 =>
      rw [h1] at h
      simp only [Option.some_bind] at h
      cases h2 : run_frames B x (i0 + 1) m r1.2 with
      | none => rw [h2] at h; exact absurd h (by simp)
      | some r2 =>
        rw [h2] at h
        simp only [Option.some_bind] at h
        rw [← Option.some.inj h]
        show r2.2.floor_part = p.floor_part
        rw [ih (i0 + 1) r1.2 r2 h2]
        exact (frame_step_keeps B x p _ r1 h1).1

theorem logmmse_sample_hist (B : Backend α) (hB : B.Lawful) (x : List (complex_t α))
    (Srate : Int) (eta : α) (params : SavedParamsC α) (noise_frames : Int)
    (p0 p : SavedParamsC α) (hp0 : sample_init B Srate params = some p0)
    (hx : (noise_frames.toNat : Int) * p0.Slen ≤ (x.length : Int))
    (h : logmmse_sample B x Srate eta params noise_frames = some p) :
    p.noise_history.length ≤ noise_frames.toNat
      ∧ ∀ f ∈ p.noise_history, ∃ i, f = boot_noise B x p0 i := by
  obtain ⟨st, smooth, _, hs, hH, _, _⟩ :=
    logmmse_sample_ok B hB x Srate eta params noise_frames p0 hp0 hx
  rw [hs] at h
  have e := Option.some.inj h
  subst e
  show st.noise_history.length ≤ _ ∧ ∀ f ∈ st.noise_history, _
  rw [hH.hist_eq]
  refine ⟨?_, ?_⟩
  · rw [List.length_drop, List.length_map, List.length_range]
    omega
  · intro f hf
    obtain ⟨i, _, rfl⟩ := List.mem_map.1 (List.mem_of_mem_drop hf)
    exact ⟨i, rfl⟩

theorem update_wide_keeps (p q : SavedParamsC α) (h : p.update_wide = some q) :
    q.stable = p.stable ∧ q.mindb = p.mindb ∧ q.maxdb = p.maxdb
      ∧ q.generation = p.generation ∧ q.noise_history = p.noise_history := by
  unfold SavedParamsC.update_wide at h
  split at h
  · exact absurd h (by simp)
  dsimp only at h
  rw [muleach_eq (le_refl _)] at h
  simp only [Option.some_bind] at h
  split at h
  · rw [← Option.some.inj h]
    exact ⟨rfl, rfl, rfl, rfl, rfl⟩
  · rw [← Option.some.inj h]
    exact ⟨rfl, rfl, rfl, rfl, rfl⟩

theorem stable_set_by_acceptance (p q : SavedParamsC α) (h : p.update_noise_mu2 = some q)
    (hs0 : p.stable = false) (hs : q.stable = true) :
    p.nFFT < 1200 ∧ 100 < p.noise_history.length ∧ p.hold = false ∧ 0 < p.generation ∧
      ∃ tnm ts tmin tmax, p.audio_candidate = some tnm ∧ npmavg tnm 6 = some ts
        ∧ ts.min? = some tmin ∧ ts.max? = some tmax ∧ tmin + tmax < p.mindb + p.maxdb
        ∧ q.noise_mu2 = tnm ∧ q.mindb = tmin ∧ q.maxdb = tmax := by
  by_cases hdue : 100 < p.noise_history.length ∧ p.hold = false
  swap
  · have : p.update_noise_mu2 = some p := by
      apply update_not_due
      by_cases hh : p.hold = true
      · exact Or.inl hh
      · right
        by_contra hc
        exact hdue ⟨by omega, by simpa using hh⟩
    rw [this] at h
    rw [← Option.some.inj h, hs0] at hs
    exact absurd hs (by simp)
  obtain ⟨hn, hh⟩ := hdue
  by_cases ha : p.nFFT < 1200
  swap
  · rw [update_due_wide p hn hh (by omega)] at h
    rw [(update_wide_keeps p q h).1, hs0] at hs
    exact absurd hs (by simp)
  rw [update_due_audio p hn hh ha] at h
  by_cases hg : 0 < p.generation
  swap
  · unfold SavedParamsC.update_audio at h
    rw [if_neg (by omega)] at h
    simp only [Option.some_bind] at h
    rw [if_pos (by simp [hs0])] at h
    split at h
    · cases h1 : npmavg p.noise_mu2 6 with
      | none => rw [h1] at h; exact absurd h (by simp)
      | some t0 =>
        rw [h1] at h
        simp only [Option.some_bind] at h
        cases h2 : t0.min? with
        | none => rw [h2] at h; exact absurd h (by simp)
        | some mn =>
          rw [h2] at h
          simp only [Option.some_bind] at h
          cases h3 : t0.max? with
          | none => rw [h3] at h; exact absurd h (by simp)
          | some mx =>
            rw [h3] at h
            simp only [Option.some_bind] at h
            rw [← Option.some.inj h] at hs
            have : p.stable = true := hs
            rw [hs0] at this
            exact absurd this (by simp)
    · simp only [Option.some_bind] at h
      rw [← Option.some.inj h] at hs
      have : p.stable = true := hs
      rw [hs0] at this
      exact absurd this (by simp)
  cases h1 : p.audio_candidate with
  | none =>
    unfold SavedParamsC.update_audio at h
    rw [if_pos hg, h1] at h
    exact absurd h (by simp)
  | some tnm =>
    cases h2 : npmavg tnm 6 with
    | none =>
      unfold SavedParamsC.update_audio at h
      rw [if_pos hg, h1] at h
      simp only [Option.some_bind] at h
      rw [h2] at h
      exact absurd h (by simp)
    | some ts =>
      cases h3 : ts.min? with
      | none =>
        unfold SavedParamsC.update_audio at h
        rw [if_pos hg, h1] at h
        simp only [Option.some_bind] at h
        rw [h2] at h
        simp only [Option.some_bind] at h
        rw [h3] at h
        exact absurd h (by simp)
      | some tmin =>
        cases h4 : ts.max? with
        | none =>
          unfold SavedParamsC.update_audio at h
          rw [if_pos hg, h1] at h
          simp only [Option.some_bind] at h
          rw [h2] at h
          simp only [Option.some_bind] at h
          rw [h3] at h
          simp only [Option.some_bind] at h
          rw [h4] at h
          exact absurd h (by simp)
        | some tmax =>
          obtain ⟨hacc, hrej⟩ := update_audio_gen_pos p hg tnm ts tmin tmax h1 h2 h3 h4
          by_cases hc : tmin + tmax < p.mindb + p.maxdb
          · rw [hacc hc] at h
            rw [← Option.some.inj h]
            exact ⟨ha, hn, hh, hg, tnm, ts, tmin, tmax, rfl, h2, h3, h4, hc, rfl, rfl, rfl⟩
          · rw [hrej hc] at h
            rw [← Option.some.inj h] at hs
            have : p.stable = true := hs
            rw [hs0] at this
            exact absurd this (by simp)

end logmmse

end dsp

/-! ## The two backends are lawful -/

namespace dsp

theorem dft_fold_zero (rev : Bool) (n k : Nat) (l : List Nat) :
    l.foldl (fun acc j => complex_t.add acc
        (complex_t.mul ((List.replicate n (complex_t.zero : complex_t ℝ)).getD j complex_t.zero)
          (twiddle rev (j * k) (List.replicate n (complex_t.zero : complex_t ℝ)).length)))
      complex_t.zero = complex_t.zero := by
  induction l with
  | nil => rfl
  | cons j rest ih =>
    rw [List.foldl_cons]
    have h0 : (List.replicate n (complex_t.zero : complex_t ℝ)).getD j complex_t.zero
        = complex_t.zero := by
      rw [List.getD_eq_getElem?_getD]
      by_cases hj : j < n
      · simp [List.getElem?_replicate, hj]
      · simp [List.getElem?_replicate, hj]
    rw [h0]
    have h1 : complex_t.add (complex_t.zero : complex_t ℝ)
        (complex_t.mul complex_t.zero
          (twiddle rev (j * k) (List.replicate n (complex_t.zero : complex_t ℝ)).length))
        = complex_t.zero := by
      simp [complex_t.add, complex_t.mul, complex_t.zero]
    rw [h1]
    exact ih

theorem realBackend_lawful : realBackend.Lawful where
  fft_length := by
    intro r v
    simp [realBackend, dft]
  fft_zero := by
    intro r n
    show dft r _ = _
    unfold dft
    rw [List.eq_replicate_iff]
    refine ⟨by simp, ?_⟩
    intro z hz
    obtain ⟨k, _, rfl⟩ := List.mem_map.1 hz
    exact dft_fold_zero r n k _
  amplitude_nonneg := fun z => Real.sqrt_nonneg _
  amplitude_zero := by simp [realBackend, complex_t.zero]
  exp_pos := fun x => Real.exp_pos x

theorem qdft_length (r : Bool) (v : List (complex_t ℚ)) : (qdft r v).length = v.length := by
  unfold qdft
  split <;> rfl

theorem qdft_zero (r : Bool) (n : Nat) :
    qdft r (List.replicate n complex_t.zero) = List.replicate n complex_t.zero := by
  match n with
  | 0 => rfl
  | 1 => rfl
  | 2 => simp [qdft, complex_t.zero, complex_t.add, List.replicate]
  | 3 => rfl
  | 4 => simp [qdft, complex_t.zero, List.replicate]
  | n + 5 => rfl

theorem ratBackend_lawful : ratBackend.Lawful where
  fft_length := qdft_length
  fft_zero := qdft_zero
  amplitude_nonneg := fun z => add_nonneg (abs_nonneg _) (abs_nonneg _)
  amplitude_zero := by simp [ratBackend, complex_t.zero]
  exp_pos := by
    intro x
    show 0 < (if 0 ≤ x then 1 + x else 1 / (1 - x))
    split
    · linarith
    · apply div_pos one_pos; linarith

end dsp

/-! ## The transform of a click -/

namespace dsp

namespace logmmse

open arrays

variable {α : Type} [LinearOrderedField α]

theorem cfold_re (f : Nat → complex_t ℝ) (n : Nat) :
    ((List.range n).foldl (fun acc j => complex_t.add acc (f j)) complex_t.zero).re
      = ∑ j in Finset.range n, (f j).re := by
  induction n with
  | zero => rfl
  | succ n ih =>
    rw [List.range_succ, List.foldl_append, List.foldl_cons, List.foldl_nil,
      Finset.sum_range_succ, ← ih]
    rfl

theorem cfold_im (f : Nat → complex_t ℝ) (n : Nat) :
    ((List.range n).foldl (fun acc j => complex_t.add acc (f j)) complex_t.zero).im
      = ∑ j in Finset.range n, (f j).im := by
  induction n with
  | zero => rfl
  | succ n ih =>
    rw [List.range_succ, List.foldl_append, List.foldl_cons, List.foldl_nil,
      Finset.sum_range_succ, ← ih]
    rfl

theorem dft_getD (rev : Bool) (v : List (complex_t ℝ)) (k : Nat) (hk : k < v.length) :
    (dft rev v).getD k complex_t.zero
      = (List.range v.length).foldl
          (fun acc j => complex_t.add acc
            (complex_t.mul (v.getD j complex_t.zero) (twiddle rev (j * k) v.length)))
          complex_t.zero := by
  unfold dft
  rw [List.getD_eq_getElem?_getD, List.getElem?_map, List.getElem?_range hk]
  rfl

theorem getD_impulse (a b j : Nat) :
    (impulse a b).getD j complex_t.zero = if j = a then ⟨1, 0⟩ else complex_t.zero := by
  unfold impulse
  rw [List.getD_eq_getElem?_getD]
  by_cases h1 : j < a
  · rw [List.getElem?_append_left (by simpa using h1), if_neg (by omega)]
    simp [List.getElem?_replicate, h1]
  · rw [List.getElem?_append_right (by simpa using h1), List.length_replicate]
    by_cases h2 : j = a
    · subst h2
      simp
    · rw [if_neg h2]
      obtain ⟨m, hm⟩ : ∃ m, j - a = m + 1 := ⟨j - a - 1, by omega⟩
      rw [hm, List.getElem?_cons_succ]
      by_cases h3 : m < b
      · simp [List.getElem?_replicate, h3]
      · simp [List.getElem?_replicate, h3]

theorem length_impulse (a b : Nat) : (impulse a b).length = a + b + 1 := by
  simp [impulse]
  omega

theorem impulse_append (a b c : Nat) :
    impulse a b ++ List.replicate c complex_t.zero = impulse a (b + c) := by
  unfold impulse
  rw [List.append_assoc, List.cons_append, ← List.replicate_add]

theorem dft_impulse (rev : Bool) (a b k : Nat) (hk : k < a + b + 1) :
    (dft rev (impulse a b)).getD k complex_t.zero = twiddle rev (a * k) (a + b + 1) := by
  rw [dft_getD rev _ k (by rw [length_impulse]; exact hk), length_impulse]
  have hterm : ∀ j, complex_t.mul ((impulse a b).getD j complex_t.zero)
        (twiddle rev (j * k) (a + b + 1))
      = if j = a then twiddle rev (a * k) (a + b + 1) else complex_t.zero := by
    intro j
    rw [getD_impulse]
    by_cases h : j = a
    · subst h
      simp [complex_t.mul]
    · simp [h, complex_t.mul, complex_t.zero]
  simp only [hterm]
  apply complex_t.ext
  · rw [cfold_re, Finset.sum_eq_single a]
    · simp
    · intro j _ hj
      simp [hj, complex_t.zero]
    · intro h
      exact absurd (Finset.mem_range.2 (by omega)) h
  · rw [cfold_im, Finset.sum_eq_single a]
    · simp
    · intro j _ hj
      simp [hj, complex_t.zero]
    · intro h
      exact absurd (Finset.mem_range.2 (by omega)) h

theorem amplitude_twiddle (rev : Bool) (m n : Nat) :
    realBackend.amplitude (twiddle rev m n) = 1 := by
  show Real.sqrt _ = 1
  have h : (twiddle rev m n).re * (twiddle rev m n).re
      + (twiddle rev m n).im * (twiddle rev m n).im = 1 := by
    unfold twiddle
    cases rev
    · simp only [Bool.false_eq_true, if_false]
      nlinarith [Real.cos_sq_add_sin_sq (2 * Real.pi * (m : ℝ) / (n : ℝ))]
    · simp only [if_true]
      nlinarith [Real.cos_sq_add_sin_sq (2 * Real.pi * (m : ℝ) / (n : ℝ))]
  rw [h, Real.sqrt_one]

theorem twiddle_pair_re (h : ℝ) (m n : Nat) :
    (complex_t.mul (complex_t.mul ⟨h, 0⟩ (twiddle false m n)) (twiddle true m n)).re = h := by
  unfold twiddle complex_t.mul
  simp only [Bool.false_eq_true, if_false, if_true]
  have e := Real.cos_sq_add_sin_sq (2 * Real.pi * (m : ℝ) / (n : ℝ))
  calc _ = h * (Real.cos (2 * Real.pi * (m : ℝ) / (n : ℝ)) ^ 2
        + Real.sin (2 * Real.pi * (m : ℝ) / (n : ℝ)) ^ 2) := by ring
    _ = h := by rw [e, mul_one]

theorem zipWith_one_mul (n : Nat) (l : List (complex_t α)) (h : l.length ≤ n) :
    List.zipWith (fun a b => complex_t.mul ⟨a, 0⟩ b) (List.replicate n (1 : α)) l = l := by
  induction l generalizing n with
  | nil => simp
  | cons z rest ih =>
    cases n with
    | zero => simp at h
    | succ n =>
      rw [List.replicate_succ, List.zipWith_cons_cons, ih n (by simpa using h)]
      congr 1
      apply complex_t.ext <;> simp [complex_t.mul]

theorem logmmse_sample_fields (B : Backend α) (hB : B.Lawful) (x : List (complex_t α))
    (Srate : Int) (eta : α) (params : SavedParamsC α) (noise_frames : Int)
    (p0 p : SavedParamsC α) (hp0 : sample_init B Srate params = some p0)
    (hx : (noise_frames.toNat : Int) * p0.Slen ≤ (x.length : Int))
    (h : logmmse_sample B x Srate eta params noise_frames = some p) :
    p.win = p0.win ∧ p.forwardPlan = p0.forwardPlan ∧ p.reversePlan = p0.reversePlan
      ∧ p.nFFT = p0.nFFT ∧ p.Slen = p0.Slen
      ∧ p.noise_history = ((List.range noise_frames.toNat).map (boot_noise B x p0)).drop
          (noise_frames.toNat - p0.noise_history_len.toNat) := by
  obtain ⟨st, smooth, _, hs, hH, hc, _⟩ :=
    logmmse_sample_ok B hB x Srate eta params noise_frames p0 hp0 hx
  rw [hs] at h
  have e := Option.some.inj h
  subst e
  obtain ⟨c1, _, _, c4, c5, c6, c7, _, _⟩ := config_fields p0 st hc
  refine ⟨c5, c6, c7, c4, c1, ?_⟩
  show st.noise_history = _
  rw [hH.hist_eq, List.length_map, List.length_range]
  have : st.noise_history_len = p0.noise_history_len := by
    unfold SavedParamsC.noise_history_len
    rw [c4]
  rw [this]

theorem length_dft (rev : Bool) (v : List (complex_t ℝ)) : (dft rev v).length = v.length := by
  unfold dft
  rw [List.length_map, List.length_range]

theorem getD_div_c (l : List (complex_t ℝ)) (e : ℝ) (a : Nat) :
    (div_c l e).getD a complex_t.zero = complex_t.divf (l.getD a complex_t.zero) e := by
  unfold div_c
  rw [List.getD_eq_getElem?_getD, List.getD_eq_getElem?_getD, List.getElem?_map]
  cases l[a]? <;> simp [complex_t.divf, complex_t.zero]

theorem click_frame_spec (N a b : Nat) (hab : a + b + 1 ≤ N) :
    npfftfft realBackend
        (List.zipWith (fun w z => complex_t.mul ⟨w, 0⟩ z) (List.replicate (a + b + 1) (1 : ℝ))
          (impulse a b)) ⟨(N : Int), false⟩
      = dft false (impulse a (N - a - 1)) := by
  rw [zipWith_one_mul _ _ (by rw [length_impulse])]
  unfold npfftfft
  simp only [Bool.false_eq_true, if_false]
  show dft false _ = _
  congr 1
  unfold resize
  by_cases h : ((impulse a b).length : Int) = (N : Int)
  · rw [if_pos h]
    rw [length_impulse] at h
    have : b = N - a - 1 := by omega
    rw [this]
  · rw [if_neg h, if_neg (by omega), Int.toNat_ofNat,
      List.take_of_length_le (by rw [length_impulse]; exact hab), impulse_append,
      length_impulse]
    congr 1
    omega

theorem getD_zipWith_gain (hw : List ℝ) (spec : List (complex_t ℝ)) (j : Nat)
    (hj1 : j < hw.length) (hj2 : j < spec.length) :
    (List.zipWith (fun w z => complex_t.mul ⟨w, 0⟩ z) hw spec).getD j complex_t.zero
      = complex_t.mul ⟨hw.getD j 0, 0⟩ (spec.getD j complex_t.zero) := by
  rw [List.getD_eq_getElem?_getD, List.getD_eq_getElem?_getD, List.getD_eq_getElem?_getD,
    List.getElem?_zipWith, List.getElem?_eq_getElem hj1, List.getElem?_eq_getElem hj2]
  rfl

theorem xi_click_re (N a : Nat) (ha : a < N) (hw : List ℝ) (hl : hw.length = N)
    (hpos : ∀ g ∈ hw, 0 < g) :
    0 < ((npfftfft realBackend
        (List.zipWith (fun w z => complex_t.mul ⟨w, 0⟩ z) hw (dft false (impulse a (N - a - 1))))
        ⟨(N : Int), true⟩).getD a complex_t.zero).re := by
  have hsl : (dft false (impulse a (N - a - 1))).length = N := by
    rw [length_dft, length_impulse]
    omega
  have hzl : (List.zipWith (fun w z => complex_t.mul ⟨w, 0⟩ z) hw
      (dft false (impulse a (N - a - 1)))).length = N := by
    rw [List.length_zipWith, hl, hsl, min_self]
  unfold npfftfft
  simp only [if_true]
  unfold resize
  rw [if_pos (by rw [hzl])]
  show 0 < ((div_c (dft true _) _).getD a complex_t.zero).re
  rw [getD_div_c, dft_getD true _ a (by rw [hzl]; exact ha)]
  simp only [complex_t.divf]
  rw [cfold_re, hzl]
  have hsum : ∑ j in Finset.range N,
      (complex_t.mul ((List.zipWith (fun w z => complex_t.mul ⟨w, 0⟩ z) hw
          (dft false (impulse a (N - a - 1)))).getD j complex_t.zero)
        (twiddle true (j * a) N)).re = ∑ j in Finset.range N, hw.getD j 0 := by
    apply Finset.sum_congr rfl
    intro j hj
    have hjN : j < N := Finset.mem_range.1 hj
    rw [getD_zipWith_gain hw _ j (by omega) (by omega),
      dft_impulse false a (N - a - 1) j (by omega)]
    have e : a + (N - a - 1) + 1 = N := by omega
    rw [e, Nat.mul_comm a j]
    exact twiddle_pair_re _ _ _
  rw [hsum]
  apply div_pos
  · apply Finset.sum_pos
    · intro j hj
      have hjN : j < N := Finset.mem_range.1 hj
      apply hpos
      rw [List.getD_eq_getElem?_getD, List.getElem?_eq_getElem (by omega)]
      exact List.getElem_mem _
    · exact ⟨0, Finset.mem_range.2 (by omega)⟩
  · have : (0 : ℝ) < (N : ℝ) := by exact_mod_cast (by omega : 0 < N)
    exact_mod_cast this

theorem getD_npabsolute (B : Backend α) (l : List (complex_t α)) (k : Nat) (hk : k < l.length) :
    (npabsolute B l).getD k 0 = B.amplitude (l.getD k complex_t.zero) := by
  unfold npabsolute
  rw [List.getD_eq_getElem?_getD, List.getD_eq_getElem?_getD, List.getElem?_map,
    List.getElem?_eq_getElem hk]
  rfl

theorem getD_zero_of_all_zero (l : List (complex_t α)) (k : Nat)
    (h : ∀ z ∈ l, z = complex_t.zero) : l.getD k complex_t.zero = complex_t.zero := by
  rw [List.getD_eq_getElem?_getD]
  cases hk : l[k]? with
  | none => rfl
  | some z => exact h z (List.getElem?_mem hk)

/-- The session that `logmmse_sample` makes of `click_boot` at `Srate = 48000`: its shape, its
one frame of history with magnitude `1` in every bin, and its strictly positive floor. -/
theorem click_boot_session :
    ∃ p, logmmse_sample realBackend click_boot 48000 1 (fresh ℝ) 1 = some p ∧ p.WF ∧
      p.Slen = 960 ∧ p.len2 = 480 ∧ p.len1 = 480 ∧ p.nFFT = 1920 ∧
      p.win = List.replicate 960 1 ∧
      p.forwardPlan = ⟨1920, false⟩ ∧ p.reversePlan = ⟨1920, true⟩ ∧ p.aa = 98 / 100 ∧
      p.ksi_min = (10 : ℝ) ^ (-25 / 10 : ℝ) ∧ p.hold = false ∧
      p.noise_history.length = 1 ∧ (∀ v ∈ p.noise_mu2, 0 < v) ∧
      p.noise_history = [npabsolute realBackend (dft false (impulse 0 1919))] := by
  obtain ⟨p0, hp0⟩ := sample_init_ok realBackend 48000 (fresh ℝ) (by decide)
  obtain ⟨_, _, _, i4, _, i6, i7, _, _, _, _, _, hSl0, hwin0, _⟩ :=
    sample_init_spec realBackend 48000 (fresh ℝ) p0 hp0
  have hS0 : p0.Slen = 960 := by rw [hSl0]; decide
  have hn0 : p0.nFFT = 1920 := by omega
  have hlen : click_boot.length = 960 := by rw [click_boot, length_impulse]
  have hx0 : (((1 : Int).toNat : Nat) : Int) * p0.Slen ≤ (click_boot.length : Int) := by
    rw [hS0, hlen]; decide
  obtain ⟨st, smooth, _, hs0, _, _, _⟩ := logmmse_sample_ok realBackend realBackend_lawful
    click_boot 48000 1 (fresh ℝ) 1 p0 hp0 hx0
  obtain ⟨p, hs⟩ : ∃ p, logmmse_sample realBackend click_boot 48000 1 (fresh ℝ) 1 = some p :=
    ⟨_, hs0⟩
  obtain ⟨f1, f2, f3, f4, f5, f6⟩ := logmmse_sample_fields realBackend realBackend_lawful
    click_boot 48000 1 (fresh ℝ) 1 p0 p hp0 hx0 hs
  obtain ⟨hWF, _, _, _, hk, haa, hhold, _⟩ :=
    logmmse_sample_spec realBackend click_boot 48000 1 (fresh ℝ) 1 p hs
  have hw0 : p0.win = List.replicate 960 1 := by
    rw [hwin0, if_neg (by decide), hS0]
    rfl
  have hH : p0.noise_history_len.toNat = 200 := by
    unfold SavedParamsC.noise_history_len
    rw [hn0, if_neg (by decide)]
    rfl
  have hbn : boot_noise realBackend click_boot p0 0
      = npabsolute realBackend (dft false (impulse 0 1919)) := by
    unfold boot_noise
    rw [hw0, hS0, i6, hn0]
    have e1 : (((0 : Nat) : Int) * 960).toNat = 0 := by decide
    have e2 : (960 : Int).toNat = 960 := by decide
    rw [e1, e2, List.drop_zero, List.take_of_length_le (by rw [hlen]), click_boot]
    exact congrArg (npabsolute realBackend) (click_frame_spec 1920 0 959 (by norm_num))
  have hhist : p.noise_history = [npabsolute realBackend (dft false (impulse 0 1919))] := by
    rw [f6, hH, ← hbn]
    rfl
  refine ⟨p, hs, hWF, by rw [f5, hS0], ?_, ?_, by rw [f4, hn0], by rw [f1, hw0],
    by rw [f2, i6, hn0], by rw [f3, i7, hn0], by rw [haa]; rfl, hk, by rw [hhold]; rfl,
    by rw [hhist]; rfl, ?_, hhist⟩
  · have := hWF.Slen_eq
    rw [f5, hS0] at this
    omega
  · have h1 := hWF.Slen_eq
    have h2 := hWF.len1_eq
    rw [f5, hS0] at h1
    omega
  · refine (bootstrap_floor realBackend realBackend_lawful click_boot 48000 1 (fresh ℝ) 1 _
      (le_refl _) ?_ hs).2 ?_
    · rw [f5, hS0, hlen]; decide
    · intro k hk
      rw [f4, hn0] at hk
      have hk1 : k < 1920 := hk
      refine ⟨_, by rw [hhist]; exact List.mem_singleton_self _, ?_⟩
      rw [getD_npabsolute _ _ _ (by rw [length_dft, length_impulse]; omega),
        dft_impulse false 0 1919 k (by omega), amplitude_twiddle]
      exact one_ne_zero

theorem click_session :
    ∃ p, logmmse_sample realBackend click_boot 48000 1 (fresh ℝ) 1 = some p ∧ p.WF ∧
      p.Slen = 960 ∧ p.len2 = 480 ∧ p.len1 = 480 ∧ p.nFFT = 1920 ∧
      p.win = List.replicate 960 1 ∧
      p.forwardPlan = ⟨1920, false⟩ ∧ p.reversePlan = ⟨1920, true⟩ ∧ p.aa = 98 / 100 ∧
      p.ksi_min = (10 : ℝ) ^ (-25 / 10 : ℝ) ∧ p.hold = false ∧
      p.noise_history.length = 1 ∧ ∀ v ∈ p.noise_mu2, 0 < v := by
  obtain ⟨p, h1, h2, h3, h4, h5, h6, h7, h8, h9, h10, h11, h12, h13, h14, _⟩ :=
    click_boot_session
  exact ⟨p, h1, h2, h3, h4, h5, h6, h7, h8, h9, h10, h11, h12, h13, h14⟩

theorem logmmse_sample_win (B : Backend α) (x : List (complex_t α)) (Srate : Int) (eta : α)
    (params : SavedParamsC α) (noise_frames : Int) (p : SavedParamsC α)
    (h : logmmse_sample B x Srate eta params noise_frames = some p) :
    ∃ p0, sample_init B Srate params = some p0 ∧ p.win = p0.win ∧ p.Slen = p0.Slen
      ∧ p.len2 = p0.len2 := by
  unfold logmmse_sample at h
  simp only [Option.bind_eq_some] at h
  obtain ⟨p0, hp0, st, hfold, smooth, hsmooth, mu2, hmu2, h⟩ := h
  obtain ⟨i1, i2, i3, i4, i5, i6, i7, i8, i9, i10, i11, i12, i13, _, haa⟩ :=
    sample_init_spec B Srate params p0 hp0
  have hn : p0.nFFT = (p0.nFFT.toNat : Int) := by omega
  have hI0 : BootInv p0 p0.nFFT.toNat (p0, npzeros p0.nFFT) :=
    { config := rfl, floor := rfl,
      sums_len := by rw [i10]; simp [npzeros],
      devs_len := by rw [i11]; simp [npzeros],
      hist_len := by rw [i8]; simp,
      dev_len := by rw [i9]; simp,
      mean_len := by simp [npzeros] }
  have hI := foldlM_invariant (sample_frame B x) (BootInv p0 p0.nFFT.toNat)
    (fun s i s1 hs hstep => sample_frame_inv B x p0 _ hn s i s1 hs hstep) _ _ _ hI0 hfold
  obtain ⟨cS, _, cl2, _, cw, _⟩ := config_fields p0 st.1 hI.config
  have h1 := Option.some.inj h
  subst h1
  exact ⟨p0, hp0, cw, cS, cl2⟩

theorem npsum_map_range (f : Nat → α) (n : Nat) :
    npsum ((List.range n).map f) = ∑ i in Finset.range n, f i := by
  unfold npsum
  induction n with
  | zero => rfl
  | succ n ih =>
    rw [List.range_succ, List.map_append, List.foldl_append, ih, Finset.sum_range_succ]
    rfl

theorem sum_cos_roots (M : Nat) (hM : 2 ≤ M) :
    ∑ i in Finset.range M, Real.cos (2 * Real.pi * (i : ℝ) / (M : ℝ)) = 0 := by
  have hM0 : M ≠ 0 := by omega
  have hprim := Complex.isPrimitiveRoot_exp M hM0
  have hsum := hprim.geom_sum_eq_zero (by omega : 1 < M)
  have hre := congrArg Complex.re hsum
  rw [Complex.re_sum, Complex.zero_re] at hre
  rw [← hre]
  apply Finset.sum_congr rfl
  intro i _
  rw [← Complex.exp_nat_mul]
  have e : (i : ℂ) * (2 * (Real.pi : ℂ) * Complex.I / (M : ℂ))
      = ((2 * Real.pi * (i : ℝ) / (M : ℝ) : ℝ) : ℂ) * Complex.I := by
    push_cast
    ring
  rw [e, Complex.exp_ofReal_mul_I_re]

theorem hann_sum (N : Nat) (hN : 3 ≤ N) :
    ∑ i in Finset.range N,
        ((1 : ℝ) / 2 - 1 / 2 * Real.cos (2 * Real.pi * (i : ℝ) / (((N : Int) - 1 : Int) : ℝ)))
      = ((N : ℝ) - 1) / 2 := by
  obtain ⟨M, rfl⟩ : ∃ M, N = M + 1 := ⟨N - 1, by omega⟩
  have hc : ((((M + 1 : Nat) : Int) - 1 : Int) : ℝ) = (M : ℝ) := by
    push_cast
    ring
  have hM0 : (M : ℝ) ≠ 0 := by
    have : 0 < M := by omega
    exact_mod_cast this.ne'
  have h2 : 2 * Real.pi * (M : ℝ) / (M : ℝ) = 2 * Real.pi := by field_simp
  have hcos : ∑ i in Finset.range (M + 1), Real.cos (2 * Real.pi * (i : ℝ) / (M : ℝ)) = 1 := by
    rw [Finset.sum_range_succ, sum_cos_roots M (by omega), h2, Real.cos_two_pi, zero_add]
  rw [hc, Finset.sum_sub_distrib, ← Finset.mul_sum, hcos]
  simp only [Finset.sum_const, Finset.card_range, nsmul_eq_mul]
  push_cast
  ring

end logmmse

end dsp

/-! ## A lower bound on the exponential integral -/

namespace dsp

open MeasureTheory Set

theorem E1_integrableOn (v : ℝ) (hv : 0 < v) :
    IntegrableOn (fun t : ℝ => Real.exp (-t) / t) (Set.Ioi v) := by
  have h1 : IntegrableOn (fun t : ℝ => Real.exp (-t) / v) (Set.Ioi v) := by
    have := (exp_neg_integrableOn_Ioi v (b := 1) one_pos).div_const v
    simpa using this
  refine Integrable.mono' h1 ?_ ?_
  · apply Measurable.aestronglyMeasurable
    exact (Real.measurable_exp.comp measurable_neg).div measurable_id
  · rw [ae_restrict_iff' measurableSet_Ioi]
    refine ae_of_all _ (fun t ht => ?_)
    have ht0 : 0 < t := lt_trans hv ht
    rw [Real.norm_eq_abs, abs_of_pos (div_pos (Real.exp_pos _) ht0)]
    exact div_le_div_of_nonneg_left (Real.exp_pos _).le hv (le_of_lt ht)

theorem E1_lower (v : ℝ) (hv : 0 < v) (hv1 : v ≤ 1) :
    Real.exp (-1) * Real.log (1 / v) ≤ math.E1 v := by
  have hint := E1_integrableOn v hv
  have h1 : (∫ t in Set.Ioc v 1, Real.exp (-t) / t) ≤ math.E1 v := by
    unfold math.E1
    apply setIntegral_mono_set hint
    · rw [Filter.EventuallyLE, ae_restrict_iff' measurableSet_Ioi]
      refine ae_of_all _ (fun t ht => ?_)
      exact (div_pos (Real.exp_pos _) (lt_trans hv ht)).le
    · exact Filter.Eventually.of_forall (fun t ht => ht.1)
  have h2 : (∫ t in v..1, Real.exp (-1) * (1 / t)) ≤ ∫ t in v..1, Real.exp (-t) / t := by
    apply intervalIntegral.integral_mono_on hv1
    · apply ContinuousOn.intervalIntegrable
      apply ContinuousOn.mul continuousOn_const
      apply ContinuousOn.div continuousOn_const continuousOn_id
      intro t ht
      rw [Set.uIcc_of_le hv1] at ht
      exact (lt_of_lt_of_le hv ht.1).ne'
    · apply ContinuousOn.intervalIntegrable
      apply ContinuousOn.div (Real.continuous_exp.comp continuous_neg).continuousOn continuousOn_id
      intro t ht
      rw [Set.uIcc_of_le hv1] at ht
      exact (lt_of_lt_of_le hv ht.1).ne'
    · intro t ht
      have ht0 : 0 < t := lt_of_lt_of_le hv ht.1
      rw [mul_one_div]
      apply div_le_div_of_nonneg_right _ ht0.le
      exact Real.exp_le_exp.2 (by linarith [ht.2])
  rw [intervalIntegral.integral_const_mul, integral_one_div_of_pos hv one_pos] at h2
  rw [intervalIntegral.integral_of_le hv1] at h2
  exact le_trans h2 h1

end dsp

/-! ## Concrete wide-regime sessions -/

namespace dsp

namespace logmmse

open arrays

variable {α : Type} [LinearOrderedField α]

theorem sorted_getD_ge (l : List α) (c : α) (k : Nat) (hk : k < l.length)
    (h : ∀ x ∈ l, c ≤ x) : c ≤ (hwy_sort_ascending l).getD k 0 := by
  unfold hwy_sort_ascending
  have hlen : (l.insertionSort (fun a b => a ≤ b)).length = l.length :=
    List.length_insertionSort _ _
  rw [List.getD_eq_getElem _ _ (by rw [hlen]; exact hk)]
  exact h _ ((List.perm_insertionSort _ l).subset (List.getElem_mem _))

theorem sorted_getD_le (l : List α) (c : α) (k : Nat)
    (h : k < (l.filter (fun x => decide (x ≤ c))).length) :
    (hwy_sort_ascending l).getD k 0 ≤ c := by
  unfold hwy_sort_ascending
  have hperm := List.perm_insertionSort (fun a b : α => a ≤ b) l
  have hsorted := List.sorted_insertionSort (fun a b : α => a ≤ b) l
  generalize l.insertionSort (fun a b => a ≤ b) = s at hperm hsorted
  have hflen : (s.filter (fun x => decide (x ≤ c))).length
      = (l.filter (fun x => decide (x ≤ c))).length := (hperm.filter _).length_eq
  have hks : k < s.length := by
    have := List.length_filter_le (fun x => decide (x ≤ c)) s
    omega
  rw [List.getD_eq_getElem _ _ hks]
  by_contra hc
  have hgt : c < s[k] := not_le.1 hc
  have hdrop : ∀ x ∈ s.drop k, ¬ x ≤ c := by
    intro x hx
    have hd : (s.drop k).Pairwise (fun a b => a ≤ b) :=
      List.Pairwise.sublist (List.drop_sublist k s) hsorted
    rw [List.drop_eq_getElem_cons hks] at hx hd
    rcases List.mem_cons.1 hx with rfl | hx
    · exact not_le.2 hgt
    · exact not_le.2 (lt_of_lt_of_le hgt ((List.pairwise_cons.1 hd).1 x hx))
  have hsplit : s.filter (fun x => decide (x ≤ c))
      = (s.take k).filter (fun x => decide (x ≤ c))
        ++ (s.drop k).filter (fun x => decide (x ≤ c)) := by
    rw [← List.filter_append, List.take_append_drop]
  have hnil : (s.drop k).filter (fun x => decide (x ≤ c)) = [] :=
    List.filter_eq_nil_iff.2 (fun x hx => by simpa using hdrop x hx)
  have h1 := List.length_filter_le (fun x => decide (x ≤ c)) (s.take k)
  have h2 : (s.take k).length ≤ k := by rw [List.length_take]; omega
  rw [hsplit, hnil, List.append_nil] at hflen
  omega

theorem sorted_getD_le_of_prefix (l : List α) (c : α) (k : Nat) (hk : k < l.length)
    (h : ∀ i, i ≤ k → l.getD i 0 ≤ c) : (hwy_sort_ascending l).getD k 0 ≤ c := by
  apply sorted_getD_le
  have hall : (l.take (k + 1)).filter (fun x => decide (x ≤ c)) = l.take (k + 1) := by
    rw [List.filter_eq_self]
    intro x hx
    obtain ⟨i, hi, rfl⟩ := List.getElem_of_mem hx
    rw [List.length_take] at hi
    have := h i (by omega)
    rw [List.getD_eq_getElem _ _ (by omega)] at this
    rw [List.getElem_take]
    simpa using this
  have hsub : ((l.take (k + 1)).filter (fun x => decide (x ≤ c))).length
      ≤ (l.filter (fun x => decide (x ≤ c))).length :=
    ((List.take_sublist (k + 1) l).filter _).length_le
  rw [hall, List.length_take] at hsub
  omega

theorem getD_replicate_lt (n : Nat) (c : α) (z : Nat) (hz : z < n) :
    (List.replicate n c).getD z 0 = c := by
  rw [List.getD_eq_getElem _ _ (by rw [List.length_replicate]; exact hz), List.getElem_replicate]

theorem flat_session_WF (S F : ℚ) : (flat_session S F).WF :=
  { len2_pos := by show (0 : Int) < 441; decide,
    len1_eq := rfl, Slen_eq := rfl, nFFT_eq := rfl,
    win_len := by show ((List.replicate 882 (1 : ℚ)).length : Int) = 882; rw [List.length_replicate]; rfl,
    fwd_size := rfl, rev_size := rfl,
    mu2_len := by show ((List.replicate 1764 F).length : Int) = 1764; rw [List.length_replicate]; rfl,
    sums_len := by show ((List.replicate 1764 S).length : Int) = 1764; rw [List.length_replicate]; rfl,
    devs_len := by
      show ((List.replicate 1764 ((S - S / 101) ^ 2)).length : Int) = 1764
      rw [List.length_replicate]; rfl,
    x_old_len := by
      show ((List.replicate 441 (complex_t.zero : complex_t ℚ)).length : Int) = 441
      rw [List.length_replicate]; rfl,
    hist_len := by
      intro f hf
      show (f.length : Int) = 1764
      have hf1 : f ∈ List.replicate 100 (List.replicate 1764 (0 : ℚ)) ++ [List.replicate 1764 S] := hf
      rcases List.mem_append.1 hf1 with h | h
      · rw [List.eq_of_mem_replicate h, List.length_replicate]; rfl
      · rw [List.mem_singleton.1 h, List.length_replicate]; rfl,
    dev_len := by
      intro f hf
      show (f.length : Int) = 1764
      have hf1 : f ∈ List.replicate 100 (List.replicate 1764 (0 : ℚ))
          ++ [List.replicate 1764 ((S - S / 101) ^ 2)] := hf
      rcases List.mem_append.1 hf1 with h | h
      · rw [List.eq_of_mem_replicate h, List.length_replicate]; rfl
      · rw [List.mem_singleton.1 h, List.length_replicate]; rfl,
    Xk_ok := Or.inr (by
      rw [← Bool.not_eq_true, npall_eq_true_iff]
      intro h
      exact h 0 (List.mem_replicate.2 ⟨by decide, rfl⟩) rfl) }

theorem flat_session_due (S F : ℚ) :
    (1200 : Int) ≤ (flat_session S F).nFFT ∧ 100 < (flat_session S F).noise_history.length
      ∧ (flat_session S F).hold = false := by
  refine ⟨by show (1200 : Int) ≤ 1764; decide, ?_, rfl⟩
  show 100 < (List.replicate 100 (List.replicate 1764 (0 : ℚ)) ++ [List.replicate 1764 S]).length
  rw [List.length_append, List.length_replicate, List.length_singleton]
  decide

theorem flat_session_frames (S F : ℚ) :
    (((flat_session S F).noise_history.length : Nat) : ℚ) = 101 := by
  show (((List.replicate 100 (List.replicate 1764 (0 : ℚ)) ++ [List.replicate 1764 S]).length
    : Nat) : ℚ) = 101
  rw [List.length_append, List.length_replicate, List.length_singleton]
  norm_num

theorem flat_noiseAvg (S F : ℚ) (z : Nat) (hz : z < 1764) :
    (flat_session S F).wide_noiseAvg.getD z 0 = S / 101 := by
  rw [getD_wide_noiseAvg, flat_session_frames]
  show (List.replicate 1764 S).getD z 0 / 101 = S / 101
  rw [getD_replicate_lt 1764 S z hz]

theorem flat_mask (z : Nat) :
    (|((z : Int) - (1764 : Int).tdiv 2)| < ((1764 : Int) * 15).tdiv 100) ↔ (619 ≤ z ∧ z ≤ 1145) := by
  have e1 : (1764 : Int).tdiv 2 = 882 := by decide
  have e2 : ((1764 : Int) * 15).tdiv 100 = 264 := by decide
  rw [e1, e2, abs_lt]
  omega

theorem flat_devs (S F : ℚ) (z : Nat) (hz : z < 1764) :
    (flat_session S F).wide_devs.getD z 0
      = if 619 ≤ z ∧ z ≤ 1145 then 1000000 else ((S - S / 101) ^ 2 / 101) ^ 2 := by
  have h := flat_session_WF S F
  have hn : (flat_session S F).nFFT.toNat = 1764 := rfl
  rw [getD_wide_devs _ (by show (0 : Int) ≤ 1764; decide) (le_of_eq h.devs_len.symm) z
    (by rw [hn]; exact hz), flat_session_frames]
  have hd : (flat_session S F).devs.getD z 0 = (S - S / 101) ^ 2 :=
    getD_replicate_lt 1764 _ z hz
  have hN : (flat_session S F).nFFT = 1764 := rfl
  rw [hd, hN]
  by_cases hm : 619 ≤ z ∧ z ≤ 1145
  · rw [if_pos hm, if_pos ((flat_mask z).2 hm)]
  · rw [if_neg hm, if_neg (fun hc => hm ((flat_mask z).1 hc))]

theorem flat_theta (S F : ℚ) (hD : ((S - S / 101) ^ 2 / 101) ^ 2 ≤ 1000000) :
    (flat_session S F).acceptible_stdev = ((S - S / 101) ^ 2 / 101) ^ 2 * (12 / 10) := by
  have h := flat_session_WF S F
  have hn : (flat_session S F).nFFT.toNat = 1764 := rfl
  have hlen : (flat_session S F).wide_devs.length = 1764 := by
    rw [length_wide_devs _ (by show (0 : Int) ≤ 1764; decide) (le_of_eq h.devs_len.symm), hn]
  have hk : ((flat_session S F).nFFT.tdiv 10).toNat = 176 := by
    show ((1764 : Int).tdiv 10).toNat = 176
    decide
  unfold SavedParamsC.acceptible_stdev
  rw [hk]
  suffices key : (hwy_sort_ascending (flat_session S F).wide_devs).getD 176 0
      = ((S - S / 101) ^ 2 / 101) ^ 2 by rw [key]
  apply le_antisymm
  · apply sorted_getD_le_of_prefix _ _ _ (by rw [hlen]; decide)
    intro i hi
    rw [flat_devs S F i (by omega), if_neg (by omega)]
  · apply sorted_getD_ge _ _ _ (by rw [hlen]; decide)
    intro x hx
    obtain ⟨i, hi, rfl⟩ := List.getElem_of_mem hx
    rw [hlen] at hi
    have := flat_devs S F i hi
    rw [List.getD_eq_getElem _ _ (by rw [hlen]; exact hi)] at this
    rw [this]
    split
    · exact hD
    · exact le_refl _

theorem flat_selected (S F : ℚ) (hS : S ≠ 0)
    (hD : ((S - S / 101) ^ 2 / 101) ^ 2 * (12 / 10) ≤ 1000000) (z : Nat) :
    (flat_session S F).wide_selected z ↔ z < 1764 ∧ ¬ (619 ≤ z ∧ z ≤ 1145) := by
  have hpos : 0 < ((S - S / 101) ^ 2 / 101) ^ 2 := by
    have : S - S / 101 ≠ 0 := by
      intro hc
      apply hS
      linarith
    positivity
  have hth := flat_theta S F (by linarith)
  unfold SavedParamsC.wide_selected
  rw [hth]
  constructor
  · rintro ⟨h1, h2, _⟩
    have h1b : z < 1764 := h1
    refine ⟨h1b, fun hm => ?_⟩
    rw [flat_devs S F z h1b, if_pos hm] at h2
    linarith
  · rintro ⟨h1, h2⟩
    refine ⟨h1, ?_, ?_⟩
    · rw [flat_devs S F z h1, if_neg h2]
      linarith
    · rw [flat_noiseAvg S F z h1]
      exact div_ne_zero hS (by norm_num)

theorem flat_silent_not_selected (F : ℚ) (z : Nat) : ¬ (flat_session 0 F).wide_selected z := by
  rintro ⟨h1, _, h3⟩
  apply h3
  rw [flat_noiseAvg 0 F z h1]
  norm_num

theorem flat_theta_loud (S F : ℚ) (hD : 1000000 ≤ ((S - S / 101) ^ 2 / 101) ^ 2) :
    1200000 ≤ (flat_session S F).acceptible_stdev := by
  have h := flat_session_WF S F
  have hn : (flat_session S F).nFFT.toNat = 1764 := rfl
  have hlen : (flat_session S F).wide_devs.length = 1764 := by
    rw [length_wide_devs _ (by show (0 : Int) ≤ 1764; decide) (le_of_eq h.devs_len.symm), hn]
  have hk : ((flat_session S F).nFFT.tdiv 10).toNat = 176 := by
    show ((1764 : Int).tdiv 10).toNat = 176
    decide
  unfold SavedParamsC.acceptible_stdev
  rw [hk]
  have hge : (1000000 : ℚ) ≤ (hwy_sort_ascending (flat_session S F).wide_devs).getD 176 0 := by
    apply sorted_getD_ge _ _ _ (by rw [hlen]; decide)
    intro x hx
    obtain ⟨i, hi, rfl⟩ := List.getElem_of_mem hx
    rw [hlen] at hi
    have := flat_devs S F i hi
    rw [List.getD_eq_getElem _ _ (by rw [hlen]; exact hi)] at this
    rw [this]
    split
    · exact le_refl _
    · exact hD
  linarith

/-- The triggered wide-regime update of a live session, in closed form (see
`update_wide_spec`). -/
theorem wide_update_spec (p : SavedParamsC α) (h : p.WF) (ha : 1200 ≤ p.nFFT)
    (hn : 100 < p.noise_history.length) (hh : p.hold = false) :
    ∃ q, p.update_noise_mu2 = some q ∧ q = { p with noise_mu2 := q.noise_mu2 } ∧
      q.noise_mu2.length = p.nFFT.toNat ∧
      ((∀ z, ¬ p.wide_selected z) → q.noise_mu2 = p.noise_mu2) ∧
      ((∃ z, p.wide_selected z) →
        ∃ a b : Nat, a ≤ b ∧ b < p.nFFT.toNat ∧ p.wide_selected a ∧ p.wide_selected b ∧
          (∀ j, j < a → ¬ p.wide_selected j) ∧ (∀ j, b < j → ¬ p.wide_selected j) ∧
          (∀ j, p.wide_selected j → q.noise_mu2.getD j 0 = p.wide_noiseAvg.getD j 0 ^ 2) ∧
          (∀ j, j < a → q.noise_mu2.getD j 0 = q.noise_mu2.getD a 0) ∧
          (∀ j, b < j → j < p.nFFT.toNat → q.noise_mu2.getD j 0 = q.noise_mu2.getD b 0) ∧
          ∀ a1 b1 z : Nat, a1 < z → z < b1 → p.wide_selected a1 → p.wide_selected b1 →
            (∀ j, a1 < j → j < b1 → ¬ p.wide_selected j) →
            q.noise_mu2.getD z 0 = q.noise_mu2.getD a1 0
              + ((z : α) - (a1 : α)) * (q.noise_mu2.getD b1 0 - q.noise_mu2.getD a1 0)
                / ((b1 : α) - (a1 : α))) := by
  have h0 : 0 ≤ p.nFFT := by omega
  obtain ⟨m, hm, hl, hno, hyes⟩ := update_wide_spec p h0 h.mu2_len (le_of_eq h.sums_len.symm)
    (le_of_eq h.devs_len.symm)
  obtain ⟨q, hq⟩ : ∃ q, p.update_wide = some q := ⟨_, hm⟩
  have hqm : q.noise_mu2 = m := by
    rw [hm] at hq
    rw [← Option.some.inj hq]
  have hqp : q = { p with noise_mu2 := q.noise_mu2 } := by
    rw [hm] at hq
    rw [← Option.some.inj hq]
  rw [← hqm] at hl hno hyes
  exact ⟨q, by rw [update_due_wide p hn hh ha]; exact hq, hqp, hl, hno, hyes⟩

/-- The session that the bootstrap on silence leaves when the history can hold all its frames:
an all-zero floor, `noise_frames` frames of history and all-zero running sums. -/
theorem silent_bootstrap_state (B : Backend α) (hB : B.Lawful) (M : Nat) (Srate : Int)
    (eta : α) (params : SavedParamsC α) (noise_frames : Int)
    (p0 : SavedParamsC α) (hp0 : sample_init B Srate params = some p0)
    (hx : (noise_frames.toNat : Int) * p0.Slen ≤ (M : Int))
    (hcap : noise_frames.toNat ≤ p0.noise_history_len.toNat) :
    ∃ p, logmmse_sample B (List.replicate M complex_t.zero) Srate eta params noise_frames
        = some p ∧ p.noise_mu2 = List.replicate p0.nFFT.toNat 0 ∧ p.nFFT = p0.nFFT
      ∧ p.noise_history.length = noise_frames.toNat
      ∧ p.sums = List.replicate p0.nFFT.toNat 0 ∧ p.hold = params.hold := by
  obtain ⟨i1, i2, i3, i4, i5, i6, i7, i8, i9, i10, i11, i12, _, _⟩ :=
    sample_init_spec B Srate params p0 hp0
  obtain ⟨p, hp, hmu, hnf⟩ := logmmse_sample_zero B hB M Srate eta params noise_frames p0 hp0 hx
  obtain ⟨st, smooth, _, hs, hH, hc, hfl⟩ := logmmse_sample_ok B hB
    (List.replicate M complex_t.zero) Srate eta params noise_frames p0 hp0
    (by simpa using hx)
  obtain ⟨_, _, _, cn, _⟩ := config_fields p0 st hc
  obtain ⟨_, _, _, _, _, fh⟩ := floor_fields p0 st hfl
  obtain ⟨_, _, _, _, _, fh0⟩ := floor_fields params p0 i12
  have hfr : ∀ f ∈ (List.range noise_frames.toNat).map
      (boot_noise B (List.replicate M complex_t.zero) p0), f = List.replicate p0.nFFT.toNat 0 := by
    intro f hf
    obtain ⟨i, _, rfl⟩ := List.mem_map.1 hf
    have hnb : p0.forwardPlan.nbuckets = p0.nFFT := by rw [i6]
    rw [boot_noise_zero B hB M p0 (by rw [hnb]; omega) i, hnb]
  have hlen : st.noise_history_len = p0.noise_history_len := by
    unfold SavedParamsC.noise_history_len
    rw [cn]
  have hhist : st.noise_history = (List.range noise_frames.toNat).map
      (boot_noise B (List.replicate M complex_t.zero) p0) := by
    have := hH.hist_eq
    rw [List.length_map, List.length_range, hlen, Nat.sub_eq_zero_of_le hcap,
      List.drop_zero] at this
    exact this
  have hsums : st.sums = List.replicate p0.nFFT.toNat 0 := by
    rw [hH.sums_eq, hhist]
    exact vsum_zero _ _ hfr
  rw [hs] at hp
  have e := Option.some.inj hp
  refine ⟨p, by rw [hs, e], hmu, hnf, ?_, ?_, ?_⟩
  · rw [← e]
    show st.noise_history.length = _
    rw [hhist, List.length_map, List.length_range]
  · rw [← e]
    exact hsums
  · rw [← e]
    show st.hold = _
    rw [fh, fh0]

end logmmse

end dsp

/-! ## Sessions reached from a bootstrap, and frames of silence -/

namespace dsp

namespace logmmse

open arrays

variable {α : Type} [LinearOrderedField α]

theorem audio_fold_getD_zero (N : Int) (k : Nat) :
    ∀ (l : List (List α)) (lower r : List α),
      l.foldlM (fun (lower : List α) (nhFrame : List α) =>
          if N ≤ (nhFrame.length : Int) then
            some (List.zipWith (fun l x => l + x) lower nhFrame)
          else none) lower = some r →
      lower.getD k 0 = 0 → (∀ f ∈ l, f.getD k 0 = 0) → r.getD k 0 = 0 := by
  intro l
  induction l with
  | nil =>
    intro lower r h h0 _
    rw [List.foldlM_nil] at h
    rw [← Option.some.inj h]
    exact h0
  | cons f rest ih =>
    intro lower r h h0 hf
    rw [List.foldlM_cons] at h
    by_cases hc : N ≤ (f.length : Int)
    · rw [if_pos hc] at h
      refine ih _ r h ?_ (fun g hg => hf g (List.mem_cons_of_mem _ hg))
      have hfk := hf f (List.mem_cons_self _ _)
      rw [List.getD_eq_getElem?_getD] at h0 hfk ⊢
      rw [List.getElem?_zipWith]
      cases h1 : lower[k]? with
      | none => rfl
      | some a =>
        cases h2 : f[k]? with
        | none => rfl
        | some b =>
          rw [h1] at h0
          rw [h2] at hfk
          simp only [Option.getD_some] at h0 hfk
          simp [h0, hfk]
    · rw [if_neg hc] at h
      exact absurd h (by simp)

/-- A bin of the audio-regime candidate is zero when the last 12 history frames are zero in
that bin. -/
theorem audio_candidate_zero_bin (p : SavedParamsC α) (tnm : List α)
    (h : p.audio_candidate = some tnm) (k : Nat)
    (hz : ∀ f ∈ p.noise_history.drop (p.noise_history.length - 12), f.getD k 0 = 0) :
    tnm.getD k 0 = 0 := by
  unfold SavedParamsC.audio_candidate at h
  split at h
  · exact absurd h (by simp)
  · rw [Option.map_eq_some'] at h
    obtain ⟨lower, hl, rfl⟩ := h
    have h0 := audio_fold_getD_zero p.nFFT k _ _ lower hl
      (by
        rw [List.getD_eq_getElem?_getD, List.getElem?_replicate]
        split <;> rfl) hz
    rw [List.getD_eq_getElem?_getD, List.getElem?_map]
    rw [List.getD_eq_getElem?_getD] at h0
    cases h1 : lower[k]? with
    | none => rfl
    | some a =>
      rw [h1] at h0
      simp only [Option.getD_some] at h0
      simp [h0]

/-- What a due audio-regime update returns: the session with new levels and the next
generation, and either the floor and `stable` as before, or the candidate as the floor and
`stable` set. -/
theorem update_audio_cases (p : SavedParamsC α) (h0 : 0 < p.nFFT)
    (hm : (p.noise_mu2.length : Int) = p.nFFT)
    (hh : ∀ f ∈ p.noise_history, (f.length : Int) = p.nFFT) :
    ∃ tnm mn mx, p.audio_candidate = some tnm ∧
      (p.update_audio
          = some { p with mindb := mn, maxdb := mx, generation := p.generation + 1 } ∨
        (0 < p.generation ∧ p.update_audio
          = some { p with mindb := mn, maxdb := mx, noise_mu2 := tnm, stable := true,
                          generation := p.generation + 1 })) := by
  obtain ⟨tnm, htnm, hl⟩ := audio_candidate_ok p (le_of_lt h0) hh
  obtain ⟨tn, htn, htnl, _⟩ := npmavg_ok tnm 6 (by norm_num)
  obtain ⟨tmin, htmin⟩ := min?_isSome_of_length_pos tn (by omega)
  obtain ⟨tmax, htmax⟩ := max?_isSome_of_length_pos tn (by omega)
  obtain ⟨t0, ht0, ht0l, _⟩ := npmavg_ok p.noise_mu2 6 (by norm_num)
  obtain ⟨mn0, hmn0⟩ := min?_isSome_of_length_pos t0 (by omega)
  obtain ⟨mx0, hmx0⟩ := max?_isSome_of_length_pos t0 (by omega)
  by_cases hg : p.generation > 0
  · obtain ⟨hyes, hno⟩ := update_audio_gen_pos p hg tnm tn tmin tmax htnm htn htmin htmax
    by_cases hacc : tmin + tmax < p.mindb + p.maxdb
    · exact ⟨tnm, tmin, tmax, htnm, Or.inr ⟨hg, hyes hacc⟩⟩
    · exact ⟨tnm, p.mindb, p.maxdb, htnm, Or.inl (hno hacc)⟩
  · refine ⟨tnm, ?_⟩
    unfold SavedParamsC.update_audio
    rw [if_neg hg]
    simp only [Option.some_bind]
    by_cases hs : p.stable = true
    · rw [if_neg (by simp [hs])]
      simp only [Option.some_bind]
      exact ⟨p.mindb, p.maxdb, htnm, Or.inl rfl⟩
    · rw [if_pos hs]
      by_cases hg0 : p.generation = 0
      · rw [if_pos hg0, ht0]
        simp only [Option.some_bind]
        rw [hmn0]
        simp only [Option.some_bind]
        rw [hmx0]
        simp only [Option.some_bind]
        exact ⟨mn0, mx0, htnm, Or.inl rfl⟩
      · rw [if_neg hg0]
        simp only [Option.some_bind]
        exact ⟨p.mindb, p.maxdb, htnm, Or.inl rfl⟩

/-- The floor after `update_noise_mu2` in the audio regime: as before with `stable` as before,
or the candidate with `stable` set. -/
theorem update_floor_audio (p p1 : SavedParamsC α) (h : p.WF) (ha : p.nFFT < 1200)
    (hup : p.update_noise_mu2 = some p1) :
    (p1.noise_mu2 = p.noise_mu2 ∧ p1.stable = p.stable) ∨
      (p1.stable = true ∧ ∃ tnm, p.audio_candidate = some tnm ∧ p1.noise_mu2 = tnm) := by
  by_cases hdue : 100 < p.noise_history.length ∧ p.hold = false
  · have hpos : 0 < p.nFFT := by
      have := h.len2_pos
      have := h.Slen_eq
      have := h.nFFT_eq
      omega
    rw [update_due_audio p hdue.1 hdue.2 ha] at hup
    obtain ⟨tnm, mn, mx, htnm, hc | ⟨_, hc⟩⟩ := update_audio_cases p hpos h.mu2_len h.hist_len
    · rw [hc] at hup
      rw [← Option.some.inj hup]
      exact Or.inl ⟨rfl, rfl⟩
    · rw [hc] at hup
      rw [← Option.some.inj hup]
      exact Or.inr ⟨rfl, tnm, htnm, rfl⟩
  · have : p.update_noise_mu2 = some p := by
      apply update_not_due
      by_cases hh : p.hold = true
      · exact Or.inl hh
      · right
        by_contra hc
        exact hdue ⟨by omega, by simpa using hh⟩
    rw [this] at hup
    rw [← Option.some.inj hup]
    exact Or.inl ⟨rfl, rfl⟩

/-- The floor after `update_noise_mu2` in the wide regime is strictly positive when it was
before. -/
theorem update_floor_wide (p p1 : SavedParamsC α) (h : p.WF) (ha : 1200 ≤ p.nFFT)
    (hpos : ∀ v ∈ p.noise_mu2, 0 < v) (hup : p.update_noise_mu2 = some p1) :
    ∀ v ∈ p1.noise_mu2, 0 < v := by
  by_cases hdue : 100 < p.noise_history.length ∧ p.hold = false
  · rw [update_due_wide p hdue.1 hdue.2 ha] at hup
    exact update_wide_pos p p1 (by omega) h.mu2_len hpos hup
  · have : p.update_noise_mu2 = some p := by
      apply update_not_due
      by_cases hh : p.hold = true
      · exact Or.inl hh
      · right
        by_contra hc
        exact hdue ⟨by omega, by simpa using hh⟩
    rw [this] at hup
    rw [← Option.some.inj hup]
    exact hpos

/-- What every session reached from `p0` keeps: its shape and the frame sizes of `p0`; in the
wide regime a strictly positive floor; in the audio regime the floor of `p0` for as long as no
candidate has been accepted (`stable` still false). -/
theorem reachable_floor_inv (B : Backend α) (hB : B.Lawful) (p0 p : SavedParamsC α)
    (h0 : p0.WF) (hp : ReachableFrom B p0 p) :
    p.WF ∧ p.nFFT = p0.nFFT ∧
      ((∀ v ∈ p0.noise_mu2, 0 < v) → 1200 ≤ p0.nFFT → ∀ v ∈ p.noise_mu2, 0 < v) ∧
      (p0.nFFT < 1200 → p.stable = false → p.noise_mu2 = p0.noise_mu2) := by
  induction hp with
  | start => exact ⟨h0, rfl, fun h _ => h, fun _ _ => rfl⟩
  | all x Srate eta p out q _ hall ih =>
    obtain ⟨hWF, hn, hw, ha⟩ := ih
    obtain ⟨p1, hops, q1, hup, _, hall1, _, _, _, hq, hc, hf⟩ :=
      logmmse_all_ok B hB x Srate eta p hWF
    rw [hall1] at hall
    have e : q1 = q := congrArg Prod.snd (Option.some.inj hall)
    subst e
    obtain ⟨_, _, _, cn, _⟩ := config_fields p q1 hc
    have hfl := floor_fields p1 q1 hf
    refine ⟨hq, by rw [cn, hn], ?_, ?_⟩
    · intro hpos hwide
      rw [hfl.1]
      exact update_floor_wide p p1 hWF (by rw [hn]; exact hwide) (hw hpos hwide) hup
    · intro haud hst
      rw [hfl.1]
      rcases update_floor_audio p p1 hWF (by rw [hn]; exact haud) hup with ⟨e1, e2⟩ | ⟨e1, _⟩
      · rw [e1]
        refine ha haud ?_
        rw [← e2, ← hfl.2.2.2.2.1]
        exact hst
      · rw [hfl.2.2.2.2.1, e1] at hst
        exact absurd hst (by simp)
  | set_hold p hold _ ih =>
    obtain ⟨hWF, hn, hw, ha⟩ := ih
    refine ⟨?_, hn, hw, ha⟩
    exact
      { len2_pos := hWF.len2_pos, len1_eq := hWF.len1_eq, Slen_eq := hWF.Slen_eq,
        nFFT_eq := hWF.nFFT_eq, win_len := hWF.win_len, fwd_size := hWF.fwd_size,
        rev_size := hWF.rev_size, mu2_len := hWF.mu2_len, sums_len := hWF.sums_len,
        devs_len := hWF.devs_len, x_old_len := hWF.x_old_len, hist_len := hWF.hist_len,
        dev_len := hWF.dev_len, Xk_ok := hWF.Xk_ok }

theorem eq_replicate_of_getD_zero (l : List α) (n : Nat) (hl : l.length = n)
    (h : ∀ k, l.getD k 0 = 0) : l = List.replicate n 0 := by
  rw [List.eq_replicate_iff]
  refine ⟨hl, ?_⟩
  intro b hb
  obtain ⟨k, hk, rfl⟩ := List.mem_iff_getElem.1 hb
  rw [← List.getD_eq_getElem l 0 hk]
  exact h k

theorem update_audio_first (p : SavedParamsC α) (hg : p.generation = 0)
    (hs : p.stable = false) (ts : List α) (mn mx : α) (h1 : npmavg p.noise_mu2 6 = some ts)
    (h2 : ts.min? = some mn) (h3 : ts.max? = some mx) :
    p.update_audio
      = some { p with mindb := mn, maxdb := mx, generation := p.generation + 1 } := by
  unfold SavedParamsC.update_audio
  rw [if_neg (by omega)]
  simp only [Option.some_bind]
  rw [if_pos (by simp [hs]), if_pos hg, h1]
  simp only [Option.some_bind]
  rw [h2]
  simp only [Option.some_bind]
  rw [h3]
  simp only [Option.some_bind]

theorem boot_noise_silent_block (B : Backend α) (hB : B.Lawful) (b : Nat) (z : complex_t α)
    (p0 : SavedParamsC α) (hn : 0 ≤ p0.forwardPlan.nbuckets) (i : Nat)
    (hi : 0 < ((i : Int) * p0.Slen).toNat) :
    boot_noise B (z :: List.replicate b complex_t.zero) p0 i
      = List.replicate p0.forwardPlan.nbuckets.toNat 0 := by
  unfold boot_noise
  obtain ⟨m, hm⟩ : ∃ m, ((i : Int) * p0.Slen).toNat = m + 1 :=
    ⟨((i : Int) * p0.Slen).toNat - 1, by omega⟩
  rw [hm, List.drop_succ_cons, List.drop_replicate, List.take_replicate, zipWith_mul_zero,
    npfftfft_zero B hB _ _ hn]
  simp [npabsolute, hB.amplitude_zero]

/-- The session that `logmmse_sample` makes of `muted_boot` at `Srate = 25000` with 101 noise
frames: an audio-regime session (`nFFT = 1000`) with 101 frames of history, of which all but
the first are silent, and a strictly positive floor. -/
theorem muted_session :
    ∃ p, logmmse_sample realBackend muted_boot 25000 1 (fresh ℝ) 101 = some p ∧ p.WF ∧
      p.Slen = 500 ∧ p.len2 = 250 ∧ p.nFFT = 1000 ∧ p.hold = false ∧ p.generation = 0 ∧
      p.stable = false ∧ p.noise_history.length = 101 ∧ (∀ v ∈ p.noise_mu2, 0 < v) ∧
      ∀ f ∈ p.noise_history.drop (p.noise_history.length - 12),
        f = List.replicate 1000 0 := by
  obtain ⟨p0, hp0⟩ := sample_init_ok realBackend 25000 (fresh ℝ) (by decide)
  obtain ⟨_, _, _, i4, _, i6, i7, _, _, _, _, _, hSl0, hwin0, _⟩ :=
    sample_init_spec realBackend 25000 (fresh ℝ) p0 hp0
  have hS0 : p0.Slen = 500 := by rw [hSl0]; decide
  have hn0 : p0.nFFT = 1000 := by omega
  have hlen : muted_boot.length = 50500 := by rw [muted_boot, length_impulse]
  have hx0 : (((101 : Int).toNat : Nat) : Int) * p0.Slen ≤ (muted_boot.length : Int) := by
    rw [hS0, hlen]; decide
  obtain ⟨st, smooth, _, hs0, _, _, _⟩ := logmmse_sample_ok realBackend realBackend_lawful
    muted_boot 25000 1 (fresh ℝ) 101 p0 hp0 hx0
  obtain ⟨p, hs⟩ : ∃ p, logmmse_sample realBackend muted_boot 25000 1 (fresh ℝ) 101 = some p :=
    ⟨_, hs0⟩
  obtain ⟨f1, f2, f3, f4, f5, f6⟩ := logmmse_sample_fields realBackend realBackend_lawful
    muted_boot 25000 1 (fresh ℝ) 101 p0 p hp0 hx0 hs
  obtain ⟨hWF, _, _, _, _, _, hhold, hgen, hstable, _⟩ :=
    logmmse_sample_spec realBackend muted_boot 25000 1 (fresh ℝ) 101 p hs
  have hw0 : p0.win = List.replicate 500 1 := by
    rw [hwin0, if_neg (by decide), hS0]
    rfl
  have hH : p0.noise_history_len.toNat = 200 := by
    unfold SavedParamsC.noise_history_len
    rw [hn0, if_neg (by decide)]
    rfl
  have hbn : boot_noise realBackend muted_boot p0 0
      = npabsolute realBackend (dft false (impulse 0 999)) := by
    unfold boot_noise
    rw [hw0, hS0, i6, hn0]
    have e1 : (((0 : Nat) : Int) * 500).toNat = 0 := by decide
    have e2 : (500 : Int).toNat = 500 := by decide
    have e3 : List.take 500 muted_boot = impulse 0 499 := by
      have : muted_boot = impulse 0 499 ++ List.replicate 50000 complex_t.zero := by
        rw [impulse_append]; rfl
      rw [this, List.take_left' (by rw [length_impulse])]
    rw [e1, e2, List.drop_zero, e3]
    exact congrArg (npabsolute realBackend) (click_frame_spec 1000 0 499 (by norm_num))
  have hbz : ∀ i, 1 ≤ i → boot_noise realBackend muted_boot p0 i = List.replicate 1000 0 := by
    intro i hi
    have hm : muted_boot = (⟨1, 0⟩ : complex_t ℝ) :: List.replicate 50499 complex_t.zero := by
      unfold muted_boot impulse
      rw [List.replicate_zero, List.nil_append]
    rw [hm, boot_noise_silent_block realBackend realBackend_lawful 50499 _ p0
      (by rw [i6, hn0]; decide) i (by rw [hS0]; omega), i6, hn0]
    rfl
  have hhist : p.noise_history = (List.range 101).map (boot_noise realBackend muted_boot p0) := by
    rw [f6, hH]
    rfl
  have hhl : p.noise_history.length = 101 := by
    rw [hhist, List.length_map, List.length_range]
  refine ⟨p, hs, hWF, by rw [f5, hS0], ?_, by rw [f4, hn0], by rw [hhold]; rfl,
    by rw [hgen]; rfl, by rw [hstable]; rfl, hhl, ?_, ?_⟩
  · have := hWF.Slen_eq
    rw [f5, hS0] at this
    omega
  · refine (bootstrap_floor realBackend realBackend_lawful muted_boot 25000 1 (fresh ℝ) 101 _
      (by decide) ?_ hs).2 ?_
    · rw [f5, hS0, hlen]; decide
    · intro k hk
      rw [f4, hn0] at hk
      have hk1 : k < 1000 := hk
      refine ⟨boot_noise realBackend muted_boot p0 0, ?_, ?_⟩
      · rw [hhist]
        exact List.mem_map.2 ⟨0, List.mem_range.2 (by decide), rfl⟩
      · rw [hbn, getD_npabsolute _ _ _ (by rw [length_dft, length_impulse]; omega),
          dft_impulse false 0 999 k (by omega), amplitude_twiddle]
        exact one_ne_zero
  · intro f hf
    rw [hhl, hhist] at hf
    obtain ⟨j, hj, rfl⟩ := List.mem_iff_getElem.1 hf
    rw [List.getElem_drop, List.getElem_map, List.getElem_range]
    exact hbz _ (by omega)

/-- After the bootstrap on `muted_boot` at `Srate = 25000` (`Slen = 500`, audio regime, a
strictly positive floor), the call on `short_hop` (no frame; the update is due and records the
levels of the floor) and then the update of the next call accept the candidate of the last 12
history frames, which are silent: the floor becomes 1000 zeros. -/
theorem muted_session_accepts_zero :
    ∃ p0 out1 q1 p3, logmmse_sample realBackend muted_boot 25000 1 (fresh ℝ) 101 = some p0 ∧
      (2 : Int) < p0.Slen ∧ p0.nFFT = 1000 ∧ (∀ v ∈ p0.noise_mu2, 0 < v) ∧
      logmmse_all realBackend short_hop 25000 1 p0 = some (out1, q1) ∧ q1.WF ∧
      q1.len2 = 250 ∧ q1.Slen = 500 ∧
      (∀ v ∈ q1.noise_mu2, 0 < v) ∧ q1.update_noise_mu2 = some p3 ∧
      p3.noise_mu2 = List.replicate 1000 0 := by
  obtain ⟨p0, hs, hWF, hS, hl2, hn, hhold, hgen, hst, hlen, hpos, hlast⟩ := muted_session
  have ha : p0.nFFT < 1200 := by rw [hn]; decide
  -- the first call: no frame, the update records the levels
  obtain ⟨p1, hops1, q1, hup1, hrun1, hall1, _, hWF1, _, _, _, _⟩ :=
    logmmse_all_ok realBackend realBackend_lawful short_hop 25000 1 p0 hWF
  have hN1 : (Nframes p0 short_hop.length).toNat = 0 := by
    rw [Nframes_eq p0 hWF, hS, hl2, short_hop, List.length_replicate]
    decide
  rw [hN1] at hrun1
  simp only [run_frames] at hrun1
  have e1 : p1 = q1 := congrArg Prod.snd (Option.some.inj hrun1)
  subst e1
  obtain ⟨ts0, hts0, _, hmean0⟩ := npmavg_ok p0.noise_mu2 6 (by norm_num)
  have hmu : 0 < p0.noise_mu2.length := by
    have := hWF.mu2_len
    omega
  obtain ⟨mn, hmn⟩ := min?_isSome_of_length_pos ts0 (by
    have := npmavg_length _ _ _ hts0
    omega)
  obtain ⟨mx, hmx⟩ := max?_isSome_of_length_pos ts0 (by
    have := npmavg_length _ _ _ hts0
    omega)
  have hmnpos : 0 < mn := IsMeanOf_pos _ _ hpos (hmean0 _ (min?_spec ts0 mn hmn).1)
  have hmxpos : 0 < mx := IsMeanOf_pos _ _ hpos (hmean0 _ (max?_spec ts0 mx hmx).1)
  have hp1 : p1 = { p0 with mindb := mn, maxdb := mx, generation := p0.generation + 1 } := by
    rw [update_due_audio p0 (by omega) hhold ha,
      update_audio_first p0 hgen hst ts0 mn mx hts0 hmn hmx] at hup1
    exact (Option.some.inj hup1).symm
  have hh1 : p1.noise_history = p0.noise_history := by rw [hp1]
  have hm1 : p1.noise_mu2 = p0.noise_mu2 := by rw [hp1]
  have hg1 : p1.generation = 1 := by rw [hp1]; show p0.generation + 1 = 1; omega
  have hmd1 : p1.mindb = mn := by rw [hp1]
  have hxd1 : p1.maxdb = mx := by rw [hp1]
  have hn1 : p1.nFFT = 1000 := by rw [hp1]; exact hn
  have hho1 : p1.hold = false := by rw [hp1]; exact hhold
  -- the update of the second call: the candidate is zero and is accepted
  obtain ⟨tnm, ts, tmin, tmax, c1, cl, c2, _, cmean, c3, c4⟩ := audio_candidate_parts p1 hWF1
  have htnm : tnm = List.replicate 1000 0 := by
    refine eq_replicate_of_getD_zero tnm 1000 (by omega) ?_
    intro k
    refine audio_candidate_zero_bin p1 tnm c1 k ?_
    intro f hf
    rw [hh1] at hf
    rw [hlast f hf, List.getD_eq_getElem?_getD, List.getElem?_replicate]
    split <;> rfl
  have hz : ∀ x ∈ tnm, x = 0 := by
    intro x hx
    rw [htnm] at hx
    exact List.eq_of_mem_replicate hx
  have htmin : tmin = 0 := IsMeanOf_zero tnm tmin hz (cmean _ (min?_spec ts tmin c3).1)
  have htmax : tmax = 0 := IsMeanOf_zero tnm tmax hz (cmean _ (max?_spec ts tmax c4).1)
  obtain ⟨hyes, _⟩ := update_audio_gen_pos p1 (by omega) tnm ts tmin tmax c1 c2 c3 c4
  have hacc := hyes (by rw [htmin, htmax, hmd1, hxd1]; linarith)
  rw [← update_due_audio p1 (by rw [hh1]; omega) hho1 (by rw [hn1]; decide)] at hacc
  refine ⟨p0, hops1, p1, _, hs, by rw [hS]; decide, hn, hpos, hall1, hWF1, ?_, ?_, ?_, hacc,
    htnm⟩
  · rw [hp1]; exact hl2
  · rw [hp1]; exact hS
  · rw [hm1]; exact hpos

theorem frame_analysis_silence (B : Backend α) (hB : B.Lawful) (M : Nat) (p : SavedParamsC α)
    (k : Int) (h : p.WF) (hk : 0 ≤ k) (hx : k + p.Slen ≤ (M : Int)) :
    frame_analysis B (List.replicate M complex_t.zero) p k
      = some (List.replicate p.nFFT.toNat complex_t.zero, List.replicate p.nFFT.toNat 0) := by
  have h1 := h.Slen_eq
  have h2 := h.len2_pos
  have h4 := h.nFFT_eq
  obtain ⟨spec, sig, hw, ha, hspec, hsig, _⟩ :=
    frame_step_eq B hB (List.replicate M complex_t.zero) p k h hk (by simpa using hx)
  have hspec0 : spec = List.replicate p.nFFT.toNat complex_t.zero := by
    rw [hspec, List.drop_replicate, List.take_replicate, zipWith_mul_zero,
      npfftfft_zero B hB _ _ (by rw [h.fwd_size]; omega), h.fwd_size]
  have hsig0 : sig = List.replicate p.nFFT.toNat 0 := by
    rw [hsig, hspec0]
    simp only [npabsolute, List.map_replicate, hB.amplitude_zero]
    exact zero_repair_zero _
  rw [ha, hspec0, hsig0]

theorem zipWith_muleach_zero_right (A : List α) (n : Nat) (h : A.length = n) :
    List.zipWith muleach_entry A (List.replicate n (0 : α)) = List.replicate n 0 := by
  induction A generalizing n with
  | nil => simp at h; rw [← h]; rfl
  | cons a rest ih =>
    cases n with
    | zero => simp at h
    | succ n =>
      rw [List.replicate_succ, List.zipWith_cons_cons, ih n (by simpa using h)]
      simp [muleach_entry]

/-- The gain chain of `logmmse_all` on a frame of silence: the a-posteriori SNR `gammak` is
zero in every bin, `ksi` is strictly positive, and the vector `vk = A * gammak` that
`scipyspecialexpn` is applied to is zero in every bin, so that the exponential integral is taken
at the argument `0`. -/
theorem silent_gain_argument (p : SavedParamsC α) (n : Nat)
    (hmu : p.noise_mu2.length = n)
    (hXk : p.Xk_prev.length = n ∨ npall p.Xk_prev = false)
    (ha0 : 0 < p.aa) (ha1 : p.aa ≤ 1) (hk : 0 < p.ksi_min) :
    ∃ ksi A, frame_gammak p (List.replicate n 0) = some (List.replicate n 0) ∧
      frame_ksi p (List.replicate n 0) = some ksi ∧ (∀ x ∈ ksi, 0 < x) ∧
      diveach ksi (add ksi 1) = some A ∧
      muleach A (List.replicate n 0) = some (List.replicate n 0) := by
  have hg : frame_gammak p (List.replicate n 0) = some (List.replicate n 0) := by
    rw [frame_gammak_eq p _ (by rw [List.length_replicate, hmu])]
    congr 1
    rw [List.eq_replicate_iff]
    constructor
    · simp [npminimum_, npminimum, hmu]
    · intro g hgm
      simp only [npminimum_, npminimum, List.mem_map] at hgm
      obtain ⟨d, hd, rfl⟩ := hgm
      obtain ⟨a, ha, b, _, rfl⟩ := mem_zipWith_elim _ _ _ _ hd
      obtain ⟨u, hu, w, hw, rfl⟩ := mem_zipWith_elim _ _ _ _ ha
      rw [List.eq_of_mem_replicate hu, List.eq_of_mem_replicate hw, muleach_entry_zero,
        zero_div, if_pos (by norm_num)]
  have hks : ∃ ksi, frame_ksi p (List.replicate n 0) = some ksi ∧ ksi.length = n := by
    by_cases hall : npall p.Xk_prev = false
    · refine ⟨_, frame_ksi_eq_first p _ hall, ?_⟩
      simp [add, mul, npmaximum_, npmaximum]
    · have hall1 : npall p.Xk_prev = true := by simpa using hall
      have hX : p.Xk_prev.length = n := by
        rcases hXk with h | h
        · exact h
        · exact absurd h hall
      refine ⟨_, frame_ksi_eq_dd p _ hall1 (by omega) (by simp [hX]), ?_⟩
      simp [add, mul, npmaximum_, npmaximum, hX, hmu]
  obtain ⟨ksi, hksi, hkl⟩ := hks
  have hkp := frame_ksi_pos p _ ksi ha0 ha1 hk hksi
  refine ⟨ksi, _, hg, hksi, hkp, diveach_eq (by simp [add]), ?_⟩
  rw [muleach_eq (by simp [add, hkl])]
  congr 1
  exact zipWith_muleach_zero_right _ n (by simp [add, hkl])

end logmmse

end dsp

/-! ## The contract of `logmmse_all`, the history and the floor (C1 - C10) -/

namespace dsp

namespace logmmse

open arrays

variable {α : Type} [LinearOrderedField α]

theorem sample_exists (B : Backend α) (hB : B.Lawful) (x : List (complex_t α)) (Srate : Int)
    (eta : α) (params : SavedParamsC α) (noise_frames : Int) (hS : 50 ≤ Srate)
    (hx : (noise_frames.toNat : Int)
      * (if (Srate / 50).tmod 2 = 1 then Srate / 50 + 1 else Srate / 50) ≤ (x.length : Int)) :
    ∃ p, logmmse_sample B x Srate eta params noise_frames = some p := by
  obtain ⟨p0, hp0⟩ := sample_init_ok B Srate params hS
  obtain ⟨_, _, _, _, _, _, _, _, _, _, _, _, hSl, _⟩ := sample_init_spec B Srate params p0 hp0
  have hx1 : (noise_frames.toNat : Int) * p0.Slen ≤ (x.length : Int) := by rw [hSl]; exact hx
  obtain ⟨st, smooth, _, hs, _⟩ := logmmse_sample_ok B hB x Srate eta params noise_frames p0
    hp0 hx1
  exact ⟨_, hs⟩

/-- C1: for every session that `logmmse_sample` initialised (its hop `len2` is then positive),
also after any number of `logmmse_all` calls, and for every input `x` of length `N`,
`logmmse_all` returns a vector of exactly `max(0, floor(N / len2) - floor(Slen / len2)) * len2`
samples, which is empty when that frame count is not positive. -/
theorem logmmse_all_output_length (B : Backend α) (hB : B.Lawful) (p : SavedParamsC α)
    (hp : Reachable B p) (x : List (complex_t α)) (Srate : Int) (eta : α) :
    0 < p.len2 ∧ ∃ out q, logmmse_all B x Srate eta p = some (out, q) ∧
      (out.length : Int) = max 0 ((x.length : Int) / p.len2 - p.Slen / p.len2) * p.len2 := by
  have h := WF_of_Reachable B hB p hp
  obtain ⟨p1, hops, q, _, _, hall, hlen, _⟩ := logmmse_all_ok B hB x Srate eta p h
  refine ⟨h.len2_pos, hops, q, hall, ?_⟩
  rw [hlen, ← Nframes_eq p h x.length]
  have h2 := h.len2_pos
  push_cast
  rw [Int.toNat_of_nonneg (le_of_lt h2)]
  congr 1
  omega

/-- The statement of C1 on the session bootstrapped from `boot_in` at `Srate = 100` and the
five-sample input `sig_in`. -/
theorem logmmse_all_output_length_witness :
    ∃ p, logmmse_sample ratBackend boot_in 100 1 (fresh ℚ) 1 = some p ∧ 0 < p.len2 ∧
      ∃ out q, logmmse_all ratBackend sig_in 100 1 p = some (out, q) ∧
        (out.length : Int)
          = max 0 ((sig_in.length : Int) / p.len2 - p.Slen / p.len2) * p.len2 := by
  obtain ⟨p, hp⟩ := sample_exists ratBackend ratBackend_lawful boot_in 100 1 (fresh ℚ) 1
    (by decide) (by decide)
  exact ⟨p, hp, logmmse_all_output_length ratBackend ratBackend_lawful p
    (Reachable.sample boot_in 100 1 (fresh ℚ) 1 p hp) sig_in 100 1⟩

theorem noise_history_len_toNat (p : SavedParamsC α) :
    p.noise_history_len.toNat = if p.nFFT < 1000 then 2000 else 200 := by
  unfold SavedParamsC.noise_history_len
  split <;> rfl

theorem history_run (p0 : SavedParamsC α) (frames : List (List α))
    (hnh : p0.noise_history = []) (hdh : p0.dev_history = [])
    (hs : p0.sums = npzeros p0.nFFT) (hd : p0.devs = npzeros p0.nFFT)
    (hf : ∀ f ∈ frames, (f.length : Int) = p0.nFFT) :
    ∃ p, frames.foldlM SavedParamsC.add_noise_history p0 = some p ∧
      p.sums = vsum p0.nFFT.toNat p.noise_history ∧
      p.devs = vsum p0.nFFT.toNat p.dev_history ∧
      p.noise_history = frames.drop (frames.length - p0.noise_history_len.toNat) ∧
      p.dev_history.length = p.noise_history.length := by
  by_cases hn : 0 ≤ p0.nFFT
  · have hn1 : p0.nFFT = (p0.nFFT.toNat : Int) := by omega
    have h0 := HistInv_init p0 p0.nFFT.toNat hn1 hnh hdh hs hd
    obtain ⟨q, hq, hinv, hlen⟩ := foldlM_add_noise_history p0.nFFT.toNat frames p0 [] h0
      (fun f hf1 => by have := hf f hf1; omega)
    rw [List.nil_append] at hinv
    exact ⟨q, hq, hinv.sums_eq, hinv.devs_eq, by rw [← hlen]; exact hinv.hist_eq,
      hinv.dev_count⟩
  · have hfr : frames = [] := by
      cases frames with
      | nil => rfl
      | cons f rest =>
        have := hf f (List.mem_cons_self _ _)
        omega
    subst hfr
    have hz : p0.nFFT.toNat = 0 := by omega
    refine ⟨p0, rfl, ?_, ?_, ?_, ?_⟩
    · rw [hs, hnh, hz]; simp [vsum, npzeros, hz]
    · rw [hd, hdh, hz]; simp [vsum, npzeros, hz]
    · rw [hnh]; simp
    · rw [hnh, hdh]

/-- C8: starting from the empty history with zero `sums` and `devs` that `logmmse_sample`
creates, after any sequence of `add_noise_history` calls with frames of `nFFT` bins (every such
call returns), `sums` is the elementwise sum of exactly the frames retained in `noise_history`
and `devs` is the elementwise sum of exactly the frames retained in `dev_history`, also after
evictions, in exact arithmetic. -/
theorem sums_devs_track_retained_frames (p0 : SavedParamsC α) (frames : List (List α))
    (hnh : p0.noise_history = []) (hdh : p0.dev_history = [])
    (hs : p0.sums = npzeros p0.nFFT) (hd : p0.devs = npzeros p0.nFFT)
    (hf : ∀ f ∈ frames, (f.length : Int) = p0.nFFT) :
    ∃ p, frames.foldlM SavedParamsC.add_noise_history p0 = some p ∧
      p.sums = vsum p0.nFFT.toNat p.noise_history ∧
      p.devs = vsum p0.nFFT.toNat p.dev_history := by
  obtain ⟨p, h1, h2, h3, _, _⟩ := history_run p0 frames hnh hdh hs hd hf
  exact ⟨p, h1, h2, h3⟩

/-- The statement of C8 after 201 pushes into a history that keeps 200 frames of 1000 bins: one
frame has been evicted. -/
theorem sums_devs_track_retained_frames_witness :
    ∃ p, (List.replicate 201 (List.replicate 1000 (1 : ℚ))).foldlM
        SavedParamsC.add_noise_history hist_start = some p ∧
      p.sums = vsum hist_start.nFFT.toNat p.noise_history ∧
      p.devs = vsum hist_start.nFFT.toNat p.dev_history :=
  sums_devs_track_retained_frames hist_start (List.replicate 201 (List.replicate 1000 (1 : ℚ)))
    rfl rfl rfl rfl
    (fun f hf => by rw [List.eq_of_mem_replicate hf, List.length_replicate]; rfl)

/-- C9: the noise history is a FIFO ring of capacity `H`, `H = 2000` if `nFFT < 1000` and
`H = 200` otherwise: after `n` pushes into the empty history, `noise_history` holds exactly the
last `min(n, H)` pushed frames in insertion order, and `dev_history` is as long as
`noise_history`. -/
theorem noise_history_is_fifo_ring (p0 : SavedParamsC α) (frames : List (List α))
    (hnh : p0.noise_history = []) (hdh : p0.dev_history = [])
    (hs : p0.sums = npzeros p0.nFFT) (hd : p0.devs = npzeros p0.nFFT)
    (hf : ∀ f ∈ frames, (f.length : Int) = p0.nFFT) :
    ∃ p, frames.foldlM SavedParamsC.add_noise_history p0 = some p ∧
      p.noise_history
        = frames.drop (frames.length - min frames.length (if p0.nFFT < 1000 then 2000 else 200)) ∧
      p.noise_history.length = min frames.length (if p0.nFFT < 1000 then 2000 else 200) ∧
      p.dev_history.length = p.noise_history.length := by
  obtain ⟨p, h1, _, _, h4, h5⟩ := history_run p0 frames hnh hdh hs hd hf
  rw [noise_history_len_toNat] at h4
  have e : frames.length - min frames.length (if p0.nFFT < 1000 then 2000 else 200)
      = frames.length - (if p0.nFFT < 1000 then 2000 else 200) := by omega
  refine ⟨p, h1, by rw [e]; exact h4, ?_, h5⟩
  rw [h4, List.length_drop]
  omega

/-- The statement of C9 after 201 pushes of frames of 1000 bins, where `H = 200`. -/
theorem noise_history_is_fifo_ring_witness :
    ∃ p, (List.replicate 201 (List.replicate 1000 (1 : ℚ))).foldlM
        SavedParamsC.add_noise_history hist_start = some p ∧
      p.noise_history = (List.replicate 201 (List.replicate 1000 (1 : ℚ))).drop
        ((List.replicate 201 (List.replicate 1000 (1 : ℚ))).length
          - min (List.replicate 201 (List.replicate 1000 (1 : ℚ))).length
              (if hist_start.nFFT < 1000 then 2000 else 200)) ∧
      p.noise_history.length = min (List.replicate 201 (List.replicate 1000 (1 : ℚ))).length
        (if hist_start.nFFT < 1000 then 2000 else 200) ∧
      p.dev_history.length = p.noise_history.length :=
  noise_history_is_fifo_ring hist_start (List.replicate 201 (List.replicate 1000 (1 : ℚ)))
    rfl rfl rfl rfl
    (fun f hf => by rw [List.eq_of_mem_replicate hf, List.length_replicate]; rfl)

theorem stable_session_WF : stable_session.WF :=
  { len2_pos := by decide, len1_eq := rfl, Slen_eq := rfl, nFFT_eq := rfl, win_len := rfl,
    fwd_size := rfl, rev_size := rfl, mu2_len := rfl, sums_len := rfl, devs_len := rfl,
    x_old_len := rfl,
    hist_len := fun f hf => by
      have : f = [1, 1, 1, 1] := List.eq_of_mem_replicate hf
      rw [this]; rfl,
    dev_len := fun f hf => by
      have : f = [0, 0, 0, 0] := List.eq_of_mem_replicate hf
      rw [this]; rfl,
    Xk_ok := Or.inr (by
      rw [← Bool.not_eq_true, npall_eq_true_iff]
      intro h
      exact h 0 (List.mem_singleton.2 rfl) rfl) }

theorem held_session_WF : held_session.WF :=
  { len2_pos := stable_session_WF.len2_pos, len1_eq := stable_session_WF.len1_eq,
    Slen_eq := stable_session_WF.Slen_eq, nFFT_eq := stable_session_WF.nFFT_eq,
    win_len := stable_session_WF.win_len, fwd_size := stable_session_WF.fwd_size,
    rev_size := stable_session_WF.rev_size, mu2_len := stable_session_WF.mu2_len,
    sums_len := stable_session_WF.sums_len, devs_len := stable_session_WF.devs_len,
    x_old_len := stable_session_WF.x_old_len, hist_len := stable_session_WF.hist_len,
    dev_len := stable_session_WF.dev_len, Xk_ok := stable_session_WF.Xk_ok }

/-- C4: while `hold` is true, `update_noise_mu2` changes nothing, and `logmmse_all` leaves
`noise_mu2`, `mindb`, `maxdb`, `generation` and `stable` as they were, for every input and any
number of processed frames, in the audio and in the wide regime. -/
theorem hold_freezes_floor (B : Backend α) (p : SavedParamsC α) (hh : p.hold = true) :
    p.update_noise_mu2 = some p ∧
      ∀ (x : List (complex_t α)) (Srate : Int) (eta : α) (out : List (complex_t α))
        (q : SavedParamsC α), logmmse_all B x Srate eta p = some (out, q) →
        q.noise_mu2 = p.noise_mu2 ∧ q.mindb = p.mindb ∧ q.maxdb = p.maxdb
          ∧ q.generation = p.generation ∧ q.stable = p.stable ∧ q.hold = true := by
  have hup : p.update_noise_mu2 = some p := by
    unfold SavedParamsC.update_noise_mu2
    dsimp only
    rw [if_neg (by simp [hh])]
  refine ⟨hup, ?_⟩
  intro x Srate eta out q h
  unfold logmmse_all at h
  split at h
  · exact absurd h (by simp)
  · rw [hup] at h
    simp only [Option.some_bind] at h
    obtain ⟨hf, _⟩ := foldlM_logmmse_frame_keeps B x _ _ _ h
    obtain ⟨a, b, c, d, e, f⟩ := floor_fields p q hf
    exact ⟨a, b, c, d, e, by rw [f]; exact hh⟩

/-- The statement of C4 on `held_session`, whose 101 frames of history would otherwise
trigger the floor update, for the input `sig_in` of three frames. -/
theorem hold_freezes_floor_witness :
    held_session.hold = true ∧ held_session.update_noise_mu2 = some held_session ∧
      ∃ out q, logmmse_all ratBackend sig_in 100 1 held_session = some (out, q) ∧
        q.noise_mu2 = held_session.noise_mu2 ∧ q.mindb = held_session.mindb
          ∧ q.maxdb = held_session.maxdb ∧ q.generation = held_session.generation
          ∧ q.stable = held_session.stable ∧ q.hold = true := by
  obtain ⟨_, out, q, _, _, hall, _⟩ :=
    logmmse_all_ok ratBackend ratBackend_lawful sig_in 100 1 held_session held_session_WF
  exact ⟨rfl, (hold_freezes_floor ratBackend held_session rfl).1, out, q, hall,
    (hold_freezes_floor ratBackend held_session rfl).2 sig_in 100 1 out q hall⟩

theorem update_audio_stable (p q : SavedParamsC α) (hs : p.stable = true)
    (h : p.update_audio = some q) :
    q.mindb + q.maxdb ≤ p.mindb + p.maxdb ∧ q.stable = true := by
  unfold SavedParamsC.update_audio at h
  simp only [Option.bind_eq_some] at h
  obtain ⟨p1, h1, p2, h2, h3⟩ := h
  have hp1 : p1.mindb + p1.maxdb ≤ p.mindb + p.maxdb ∧ p1.stable = true := by
    split at h1
    · simp only [Option.bind_eq_some] at h1
      obtain ⟨tnm, _, tn, _, tmin, _, tmax, _, hif⟩ := h1
      split at hif
      · rename_i hacc
        have e := Option.some.inj hif
        subst e
        exact ⟨le_of_lt hacc, rfl⟩
      · have e := Option.some.inj hif
        subst e
        exact ⟨le_refl _, hs⟩
    · have e := Option.some.inj h1
      subst e
      exact ⟨le_refl _, hs⟩
  have hp2 : p2 = p1 := by
    rw [if_neg (by simp [hp1.2])] at h2
    exact (Option.some.inj h2).symm
  have e := Option.some.inj h3
  subst e
  subst hp2
  exact hp1

/-- C7: in the audio regime (`nFFT < 1200`), once `stable` is true, a call of
`update_noise_mu2` never increases `mindb + maxdb`: its value after the call is at most its value
before the call, and `stable` stays true, so this holds along any sequence of calls (no other
code but `reset` writes these fields). -/
theorem stable_level_never_increases (p q : SavedParamsC α) (ha : p.nFFT < 1200)
    (hs : p.stable = true) (h : p.update_noise_mu2 = some q) :
    q.mindb + q.maxdb ≤ p.mindb + p.maxdb ∧ q.stable = true := by
  unfold SavedParamsC.update_noise_mu2 at h
  dsimp only at h
  split at h
  · rw [if_pos (by simpa using ha)] at h
    exact update_audio_stable p q hs h
  · have e := Option.some.inj h
    subst e
    exact ⟨le_refl _, hs⟩

/-- The statement of C7 on `stable_session`, where the update is due (101 frames of history,
no hold, `generation = 1`): the candidate of level `1 + 1` is accepted against the recorded
`5 + 5`. -/
theorem stable_level_never_increases_witness :
    stable_session.nFFT < 1200 ∧ stable_session.stable = true ∧
      stable_session.update_noise_mu2.map (fun q => (q.mindb, q.maxdb)) = some (1, 1) ∧
      ∃ q, stable_session.update_noise_mu2 = some q ∧
        q.mindb + q.maxdb ≤ stable_session.mindb + stable_session.maxdb ∧ q.stable = true := by
  obtain ⟨m, mn, mx, g, s, hq, _⟩ := update_noise_mu2_ok stable_session stable_session_WF
  exact ⟨by decide, rfl, by decide!, _, hq,
    stable_level_never_increases stable_session _ (by decide) rfl hq⟩

theorem out_length_cast (p : SavedParamsC α) (h : p.WF) (N : Nat) :
    (((Nframes p N).toNat * p.len2.toNat : Nat) : Int)
      = max 0 ((N : Int) / p.len2 - p.Slen / p.len2) * p.len2 := by
  rw [← Nframes_eq p h N]
  have h2 := h.len2_pos
  push_cast
  rw [Int.toNat_of_nonneg (le_of_lt h2)]
  congr 1
  omega

theorem split_calls (B : Backend α) (hB : B.Lawful) (p : SavedParamsC α) (h : p.WF)
    (a b : List (complex_t α)) (Srate : Int) (eta : α) :
    ∃ oA qA oB qB oX qX,
      logmmse_all B a Srate eta p = some (oA, qA) ∧
      logmmse_all B b Srate eta qA = some (oB, qB) ∧
      logmmse_all B (a ++ b) Srate eta p = some (oX, qX) ∧
      oA = oX.take oA.length ∧
      (oA.length : Int) = max 0 ((a.length : Int) / p.len2 - p.Slen / p.len2) * p.len2 ∧
      (oB.length : Int) = max 0 ((b.length : Int) / p.len2 - p.Slen / p.len2) * p.len2 ∧
      (oX.length : Int)
        = max 0 (((a ++ b).length : Int) / p.len2 - p.Slen / p.len2) * p.len2 ∧
      oA.length + oB.length ≤ oX.length := by
  obtain ⟨p1, oA, qA, hup, hrunA, hallA, hlenA, hWF1, hc1, hqA, hcA, _⟩ :=
    logmmse_all_ok B hB a Srate eta p h
  obtain ⟨p1x, oX, qX, hupx, hrunX, hallX, hlenX, _, _, _, _, _⟩ :=
    logmmse_all_ok B hB (a ++ b) Srate eta p h
  obtain ⟨_, oB, qB, _, _, hallB, hlenB, _, _, _, _, _⟩ :=
    logmmse_all_ok B hB b Srate eta qA hqA
  have e1 : p1x = p1 := by
    rw [hup] at hupx
    exact (Option.some.inj hupx).symm
  subst e1
  obtain ⟨cS, _, cl2, _⟩ := config_fields p qA hcA
  obtain ⟨cS1, _, cl21, _⟩ := config_fields p p1x hc1
  have hNB : Nframes qA b.length = Nframes p b.length := by
    unfold Nframes; rw [cS, cl2]
  have hmono : Nframes p a.length ≤ Nframes p (a ++ b).length :=
    Nframes_mono p h _ _ (by simp)
  have hsplit := Nframes_split p h a.length b.length
  obtain ⟨d, hd⟩ : ∃ d, (Nframes p (a ++ b).length).toNat = (Nframes p a.length).toNat + d :=
    ⟨(Nframes p (a ++ b).length).toNat - (Nframes p a.length).toNat, by omega⟩
  have hcongr : run_frames B (a ++ b) 0 (Nframes p a.length).toNat p1x
      = run_frames B a 0 (Nframes p a.length).toNat p1x :=
    run_frames_congr B a b _ 0 p1x hWF1.len2_pos
      (by have := hWF1.Slen_eq; have := hWF1.len2_pos; omega)
      (fun i _ hi => by
        rw [cl21, cS1]
        exact Nframes_fit p h a.length i (by omega))
  have hpre : oA = oX.take oA.length := by
    rw [hd, run_frames_append, hcongr, hrunA] at hrunX
    simp only [Option.some_bind, Option.bind_eq_some] at hrunX
    obtain ⟨r2, _, hr2⟩ := hrunX
    have e := congrArg Prod.fst (Option.some.inj hr2)
    dsimp only at e
    rw [← e, List.take_left']
    rfl
  refine ⟨oA, qA, oB, qB, oX, qX, hallA, hallB, hallX, hpre, ?_, ?_, ?_, ?_⟩
  · rw [hlenA]; exact out_length_cast p h _
  · rw [hlenB, hNB, cl2]; exact out_length_cast p h _
  · rw [hlenX]; exact out_length_cast p h _
  · rw [hlenA, hlenB, hlenX, hNB, cl2, ← Nat.add_mul]
    apply Nat.mul_le_mul_right
    rw [List.length_append]
    omega

/-- C2, as amended: for every input `X` and every split `X = A ++ B`, the call on `A` returns
exactly the leading `max(0, floor(|A| / len2) - 2) * len2` samples of the single call on `X`,
sample for sample; the following call on `B` reads `B` alone, no residual of `A` is carried into
it, so the two calls together return `max(0, floor(|A| / len2) - 2) * len2 +
max(0, floor(|B| / len2) - 2) * len2` samples, at most the
`max(0, floor(|X| / len2) - 2) * len2` of the single call. -/
theorem split_call_is_leading_part (B : Backend α) (hB : B.Lawful) (p : SavedParamsC α)
    (hp : Reachable B p) (a b : List (complex_t α)) (Srate : Int) (eta : α) :
    ∃ oA qA oB qB oX qX,
      logmmse_all B a Srate eta p = some (oA, qA) ∧
      logmmse_all B b Srate eta qA = some (oB, qB) ∧
      logmmse_all B (a ++ b) Srate eta p = some (oX, qX) ∧
      oA = oX.take oA.length ∧
      (oA.length : Int) = max 0 ((a.length : Int) / p.len2 - p.Slen / p.len2) * p.len2 ∧
      (oB.length : Int) = max 0 ((b.length : Int) / p.len2 - p.Slen / p.len2) * p.len2 ∧
      (oX.length : Int)
        = max 0 (((a ++ b).length : Int) / p.len2 - p.Slen / p.len2) * p.len2 ∧
      oA.length + oB.length ≤ oX.length :=
  split_calls B hB p (WF_of_Reachable B hB p hp) a b Srate eta

/-- The statement of the amended C2 on the session bootstrapped from `boot_in` at
`Srate = 100` and the split `part_a ++ part_b`. -/
theorem split_call_is_leading_part_witness :
    ∃ p, logmmse_sample ratBackend boot_in 100 1 (fresh ℚ) 1 = some p ∧
      ∃ oA qA oB qB oX qX,
        logmmse_all ratBackend part_a 100 1 p = some (oA, qA) ∧
        logmmse_all ratBackend part_b 100 1 qA = some (oB, qB) ∧
        logmmse_all ratBackend (part_a ++ part_b) 100 1 p = some (oX, qX) ∧
        oA = oX.take oA.length ∧
        (oA.length : Int)
          = max 0 ((part_a.length : Int) / p.len2 - p.Slen / p.len2) * p.len2 ∧
        (oB.length : Int)
          = max 0 ((part_b.length : Int) / p.len2 - p.Slen / p.len2) * p.len2 ∧
        (oX.length : Int)
          = max 0 (((part_a ++ part_b).length : Int) / p.len2 - p.Slen / p.len2) * p.len2 ∧
        oA.length + oB.length ≤ oX.length := by
  obtain ⟨p, hp⟩ := sample_exists ratBackend ratBackend_lawful boot_in 100 1 (fresh ℚ) 1
    (by decide) (by decide)
  exact ⟨p, hp, split_call_is_leading_part ratBackend ratBackend_lawful p
    (Reachable.sample boot_in 100 1 (fresh ℚ) 1 p hp) part_a part_b 100 1⟩

/-- C2 fails as stated: in the session bootstrapped from `noise_in` at `Srate = 48000`
(`len2 = 480`), the calls on the two halves of a 2880-sample input return 480 samples each, 960
together, and the single call on the whole input returns 1920: the residual of the first half is
not carried into the second call. -/
theorem split_calls_lose_output :
    ∃ p oA qA oB qB oX qX,
      logmmse_sample realBackend noise_in 48000 1 (fresh ℝ) 6 = some p ∧
      logmmse_all realBackend half_in 48000 1 p = some (oA, qA) ∧
      logmmse_all realBackend half_in 48000 1 qA = some (oB, qB) ∧
      logmmse_all realBackend (half_in ++ half_in) 48000 1 p = some (oX, qX) ∧
      (oA ++ oB).length = 960 ∧ oX.length = 1920 ∧ oA ++ oB ≠ oX := by
  obtain ⟨p, hp⟩ := sample_exists realBackend realBackend_lawful noise_in 48000 1 (fresh ℝ) 6
    (by decide) (by rw [noise_in, List.length_replicate]; decide)
  obtain ⟨hWF, hSl, _⟩ := logmmse_sample_spec realBackend noise_in 48000 1 (fresh ℝ) 6 p hp
  have hS : p.Slen = 960 := by rw [hSl]; decide
  have hl : p.len2 = 480 := by have := hWF.Slen_eq; omega
  obtain ⟨oA, qA, oB, qB, oX, qX, h1, h2, h3, _, lA, lB, lX, _⟩ :=
    split_calls realBackend realBackend_lawful p hWF half_in half_in 48000 1
  have eA : oA.length = 480 := by
    rw [hS, hl, half_in, List.length_replicate] at lA
    have : max 0 (((1440 : Nat) : Int) / 480 - 960 / 480) * 480 = 480 := by decide
    omega
  have eB : oB.length = 480 := by
    rw [hS, hl, half_in, List.length_replicate] at lB
    have : max 0 (((1440 : Nat) : Int) / 480 - 960 / 480) * 480 = 480 := by decide
    omega
  have eX : oX.length = 1920 := by
    rw [hS, hl, half_in, List.length_append, List.length_replicate] at lX
    have : max 0 (((1440 + 1440 : Nat) : Int) / 480 - 960 / 480) * 480 = 1920 := by decide
    omega
  have eAB : (oA ++ oB).length = 960 := by rw [List.length_append, eA, eB]
  refine ⟨p, oA, qA, oB, qB, oX, qX, hp, h1, h2, h3, eAB, eX, ?_⟩
  intro he
  rw [he, eX] at eAB
  omega

/-- C3, as amended: after `logmmse_sample` with a frame of more than two samples
(`Slen > 2`: the two-sample Hann window of `Srate = 50 .. 149` is all zeros and its
normalisation divides zero by zero) on a bootstrap input `x` with `noise_frames >= 1` and
`|x| >= noise_frames * Slen`, every entry of `noise_mu2` is non-negative, and, in exact
arithmetic, every entry is strictly positive when every bin has a non-zero magnitude in at least
one frame of the bootstrap history. -/
theorem bootstrap_floor_nonneg (B : Backend α) (hB : B.Lawful) (x : List (complex_t α))
    (Srate : Int) (eta : α) (params : SavedParamsC α) (noise_frames : Int)
    (p : SavedParamsC α) (hN : 1 ≤ noise_frames) (hS : 2 < p.Slen)
    (hx : noise_frames * p.Slen ≤ (x.length : Int))
    (h : logmmse_sample B x Srate eta params noise_frames = some p) :
    (∀ v ∈ p.noise_mu2, 0 ≤ v) ∧
      ((∀ k, k < p.nFFT.toNat → ∃ f ∈ p.noise_history, f.getD k 0 ≠ 0) →
        ∀ v ∈ p.noise_mu2, 0 < v) :=
  bootstrap_floor B hB x Srate eta params noise_frames p hN hx h

/-- The statement of the amended C3 on the session bootstrapped from `click_boot` (a unit
impulse and 959 zeros) at `Srate = 48000` with one noise frame: `Slen = 960`, a magnitude `1` in
every bin of the one bootstrap frame, and a strictly positive floor. -/
theorem bootstrap_floor_nonneg_witness :
    ∃ p, logmmse_sample realBackend click_boot 48000 1 (fresh ℝ) 1 = some p ∧
      (2 : Int) < p.Slen ∧ (1 : Int) * p.Slen ≤ (click_boot.length : Int) ∧
      (∀ k, k < p.nFFT.toNat → ∃ f ∈ p.noise_history, f.getD k 0 ≠ 0) ∧
      (∀ v ∈ p.noise_mu2, 0 ≤ v) ∧ ∀ v ∈ p.noise_mu2, 0 < v := by
  obtain ⟨p, hs, hWF, hS, _, _, hn, _, _, _, _, _, _, _, _, hhist⟩ := click_boot_session
  have hSl : (2 : Int) < p.Slen := by rw [hS]; decide
  have hx : (1 : Int) * p.Slen ≤ (click_boot.length : Int) := by
    rw [hS, click_boot, length_impulse]; decide
  have hb : ∀ k, k < p.nFFT.toNat → ∃ f ∈ p.noise_history, f.getD k 0 ≠ 0 := by
    intro k hk
    rw [hn] at hk
    have hk1 : k < 1920 := hk
    refine ⟨_, by rw [hhist]; exact List.mem_singleton_self _, ?_⟩
    rw [getD_npabsolute _ _ _ (by rw [length_dft, length_impulse]; omega),
      dft_impulse false 0 1919 k (by omega), amplitude_twiddle]
    exact one_ne_zero
  obtain ⟨h1, h2⟩ := bootstrap_floor_nonneg realBackend realBackend_lawful click_boot 48000 1
    (fresh ℝ) 1 p (le_refl _) hSl hx hs
  exact ⟨p, hs, hSl, hx, hb, h1, h2 hb⟩

/-- C3 fails as stated: the bootstrap on six blocks of silence at `Srate = 48000`
(`noise_frames = 6`, `Slen = 960`, `|x| = 5760`) returns with a floor `noise_mu2` of 1920
zeros. -/
theorem silent_bootstrap_floor_is_zero :
    ∃ p, logmmse_sample realBackend silence_in 48000 1 (fresh ℝ) 6 = some p ∧
      (6 : Int) * p.Slen ≤ (silence_in.length : Int) ∧
      p.noise_mu2 = List.replicate 1920 0 ∧ ¬ ∀ v ∈ p.noise_mu2, 0 < v := by
  obtain ⟨p0, hp0⟩ := sample_init_ok realBackend 48000 (fresh ℝ) (by decide)
  obtain ⟨_, _, _, i4, _, _, _, _, _, _, _, _, hSl0, _⟩ :=
    sample_init_spec realBackend 48000 (fresh ℝ) p0 hp0
  have hS0 : p0.Slen = 960 := by rw [hSl0]; decide
  have hn0 : p0.nFFT = 1920 := by omega
  obtain ⟨p, hp, hmu, _⟩ := logmmse_sample_zero realBackend realBackend_lawful 5760 48000 1
    (fresh ℝ) 6 p0 hp0 (by rw [hS0]; decide)
  obtain ⟨_, hSl, _⟩ := logmmse_sample_spec realBackend _ 48000 1 (fresh ℝ) 6 p hp
  have hS : p.Slen = 960 := by rw [hSl]; decide
  have hmu1 : p.noise_mu2 = List.replicate 1920 0 := by
    rw [hmu, hn0]; rfl
  refine ⟨p, hp, ?_, hmu1, ?_⟩
  · rw [hS, silence_in, List.length_replicate]; decide
  · intro hall
    have h0 : (0 : ℝ) ∈ p.noise_mu2 := by
      rw [hmu1, List.mem_replicate]
      exact ⟨by decide, rfl⟩
    exact lt_irrefl _ (hall 0 h0)

/-- C6, at the failing input: the session bootstrapped from `click_boot` at `Srate = 48000` has
a strictly positive floor and a zero overlap tail; on the one frame of the 1440 zeros
`silent_frame_in` the spectrum and the magnitudes are zero, `gammak` is zero, `ksi` is strictly
positive, and `expn` is applied to `vk = A * gammak = 0` in each of the 1920 bins, where the
exponential integral is `+inf`. -/
theorem silent_frame_takes_E1_at_zero :
    ∃ p ksi A, logmmse_sample realBackend click_boot 48000 1 (fresh ℝ) 1 = some p ∧
      (∀ v ∈ p.noise_mu2, 0 < v) ∧ (∀ z ∈ p.x_old, z = complex_t.zero) ∧
      p.update_noise_mu2 = some p ∧ Nframes p silent_frame_in.length = 1 ∧
      frame_analysis realBackend silent_frame_in p 0
        = some (List.replicate 1920 complex_t.zero, List.replicate 1920 0) ∧
      p.add_noise_history (List.replicate 1920 0) = some (p.pushed (List.replicate 1920 0)) ∧
      frame_gammak (p.pushed (List.replicate 1920 0)) (List.replicate 1920 0)
        = some (List.replicate 1920 0) ∧
      frame_ksi (p.pushed (List.replicate 1920 0)) (List.replicate 1920 0) = some ksi ∧
      (∀ x ∈ ksi, 0 < x) ∧ diveach ksi (add ksi 1) = some A ∧
      muleach A (List.replicate 1920 0) = some (List.replicate 1920 0) ∧
      scipyspecialexpn realBackend (List.replicate 1920 0)
        = List.replicate 1920 (realBackend.expn 0) := by
  obtain ⟨p, hs, hWF, hS, hl2, hl1, hn, _, _, _, haa, hk, hhold, hh, hpos, _⟩ :=
    click_boot_session
  obtain ⟨_, _, hxo, _⟩ := logmmse_sample_spec realBackend click_boot 48000 1 (fresh ℝ) 1 p hs
  have hN : Nframes p silent_frame_in.length = 1 := by
    rw [Nframes_eq p hWF, hS, hl2, silent_frame_in, List.length_replicate]
    decide
  have hnn : p.nFFT.toNat = 1920 := by rw [hn]; rfl
  have han := frame_analysis_silence realBackend realBackend_lawful 1440 p 0 hWF (le_refl _)
    (by rw [hS]; decide)
  rw [hnn] at han
  have hpush := add_noise_history_of_WF p (List.replicate 1920 0) hWF
    (by rw [List.length_replicate, hn]; rfl)
  obtain ⟨ksi, A, h1, h2, h3, h4, h5⟩ := silent_gain_argument (p.pushed (List.replicate 1920 0))
    1920
    (by
      show p.noise_mu2.length = 1920
      have := hWF.mu2_len
      omega)
    (by
      rcases hWF.Xk_ok with hh1 | hh1
      · left
        show p.Xk_prev.length = 1920
        omega
      · right; exact hh1)
    (by show 0 < p.aa; rw [haa]; norm_num) (by show p.aa ≤ 1; rw [haa]; norm_num)
    (by
      show 0 < p.ksi_min
      rw [hk]
      exact Real.rpow_pos_of_pos (by norm_num) _)
  refine ⟨p, ksi, A, hs, hpos, ?_, update_not_due p (Or.inr (by omega)), hN, han, hpush,
    h1, h2, h3, h4, h5, ?_⟩
  · intro z hz
    rw [hxo] at hz
    exact List.eq_of_mem_replicate hz
  · unfold scipyspecialexpn
    rw [List.map_replicate]

/-- C5, as amended: for every frame processed by `logmmse_all` with `aa = 0.98`, a positive
`ksi_min` (as `10^-2.5` is) and `noise_mu2[k] > 0`, every entry of the spectral gain
`hw[k] = A[k] * exp(0.5 * E1(A[k] * gamma[k]))` is strictly positive, for every magnitude
`sig[k] >= 0` and every previous-frame power `Xk_prev[k] >= 0`; the bound `hw[k] <= 1.1` is not
part of it. -/
theorem gain_is_positive (B : Backend α) (hB : B.Lawful) (p : SavedParamsC α) (sig hw : List α)
    (haa : p.aa = 98 / 100) (hk : 0 < p.ksi_min) (hmu : ∀ v ∈ p.noise_mu2, 0 < v)
    (hsig : ∀ s ∈ sig, 0 ≤ s) (hX : ∀ v ∈ p.Xk_prev, 0 ≤ v)
    (h : frame_gain B p sig = some hw) : ∀ g ∈ hw, 0 < g :=
  frame_gain_pos B hB p sig hw (by rw [haa]; norm_num) (by rw [haa]; norm_num) hk h

/-- The statement of the amended C5 on `stable_session` (floor `5` in every bin) and the
magnitudes `loud_sig`. -/
theorem gain_is_positive_witness :
    ∃ hw, frame_gain ratBackend stable_session loud_sig = some hw ∧ hw.length = 4 ∧
      ∀ g ∈ hw, 0 < g := by
  obtain ⟨hw, h, hl⟩ := frame_gain_ok ratBackend stable_session loud_sig 4 rfl rfl (Or.inr rfl)
  refine ⟨hw, h, hl, gain_is_positive ratBackend ratBackend_lawful stable_session loud_sig hw
    rfl (by norm_num [stable_session]) ?_ ?_ ?_ h⟩
  · intro v hv
    simp only [stable_session, List.mem_cons, List.mem_singleton, List.not_mem_nil,
      or_false] at hv
    rcases hv with rfl | rfl | rfl | rfl <;> norm_num
  · intro v hv
    simp only [loud_sig, List.mem_cons, List.mem_singleton, List.not_mem_nil,
      or_false] at hv
    rcases hv with rfl | rfl | rfl | rfl <;> norm_num
  · intro v hv
    simp only [stable_session, List.mem_cons, List.mem_singleton, List.not_mem_nil,
      or_false] at hv
    rw [hv]

theorem E1_faint : (3 : ℝ) ≤ math.E1 (49 / 405504) := by
  have h := E1_lower (49 / 405504) (by norm_num) (by norm_num)
  have h1 : Real.log (2 ^ 13) ≤ Real.log (1 / (49 / 405504 : ℝ)) :=
    Real.log_le_log (by norm_num) (by norm_num)
  rw [Real.log_pow] at h1
  have h2 := Real.log_two_gt_d9
  have h3 : Real.exp (-1) * Real.exp 1 = 1 := by rw [← Real.exp_add]; simp
  have h4 := Real.exp_one_lt_d9
  have h5 : (0 : ℝ) < Real.exp (-1) := Real.exp_pos _
  have h6 : (1 : ℝ) / 2.7182818286 < Real.exp (-1) := by
    rw [div_lt_iff₀ (by norm_num)]
    nlinarith
  have h7 : (9 : ℝ) ≤ Real.log (1 / (49 / 405504 : ℝ)) := by
    push_cast at h1
    linarith
  nlinarith

theorem muleach_entry_eq_mul (a b : ℝ) (ha : a ≠ 0) (hb : b ≠ 0) : muleach_entry a b = a * b := by
  unfold muleach_entry
  rw [if_neg]
  intro h
  exact mul_ne_zero ha hb h.1

theorem faint_gain (g : ℝ)
    (hg : g = muleach_entry ((98 / 100 : ℝ) / (98 / 100 + 1))
      (Real.exp (math.E1 (muleach_entry ((98 / 100 : ℝ) / (98 / 100 + 1)) (1 / 4096)) * (1 / 2)))) :
    11 / 10 < g := by
  rw [muleach_entry_eq_mul _ _ (by norm_num) (Real.exp_pos _).ne',
    muleach_entry_eq_mul _ _ (by norm_num) (by norm_num)] at hg
  have e : ((98 / 100 : ℝ) / (98 / 100 + 1)) * (1 / 4096) = 49 / 405504 := by norm_num
  rw [e] at hg
  have h1 := E1_faint
  have h2 := Real.add_one_le_exp (math.E1 (49 / 405504) * (1 / 2))
  rw [hg]
  have h3 : ((98 / 100 : ℝ) / (98 / 100 + 1)) = 49 / 99 := by norm_num
  rw [h3]
  nlinarith

/-- C5 fails as stated: on the first frame of `quiet_session` (floor `1`, `aa = 0.98`,
`ksi_min = 10^-2.5`), a bin of magnitude `1 / 64` has `gamma = 1 / 4096`, `ksi = 0.98`,
`A = 49 / 99`, and its gain `A * exp(0.5 * E1(A * gamma))` is above `1.1`. -/
theorem faint_bin_gain_exceeds_bound :
    quiet_session.aa = 98 / 100 ∧ quiet_session.ksi_min = (10 : ℝ) ^ (-25 / 10 : ℝ) ∧
      (∀ v ∈ quiet_session.noise_mu2, 0 < v) ∧ (∀ s ∈ faint_sig, 0 ≤ s) ∧
      (∀ v ∈ quiet_session.Xk_prev, 0 ≤ v) ∧
      ∃ hw, frame_gain realBackend quiet_session faint_sig = some hw ∧
        ¬ ∀ g ∈ hw, 0 ≤ g ∧ g ≤ 11 / 10 := by
  refine ⟨rfl, rfl, ?_, ?_, ?_, ?_⟩
  · intro v hv
    simp only [quiet_session, fresh, List.mem_cons, List.mem_singleton, List.not_mem_nil,
      or_false] at hv
    rcases hv with rfl | rfl | rfl | rfl <;> norm_num
  · intro v hv
    simp only [faint_sig, List.mem_cons, List.mem_singleton, List.not_mem_nil,
      or_false] at hv
    rcases hv with rfl | rfl | rfl | rfl <;> norm_num
  · intro v hv
    simp only [quiet_session, fresh, List.mem_cons, List.mem_singleton, List.not_mem_nil,
      or_false] at hv
    rw [hv]
  · have hn : npall quiet_session.Xk_prev = false := by
      simp [npall, quiet_session, fresh]
    unfold frame_gain
    rw [frame_gammak_eq quiet_session faint_sig (le_refl _)]
    simp only [Option.some_bind]
    rw [frame_ksi_eq_first _ _ hn]
    simp only [Option.some_bind]
    rw [frame_hw_eq _ _ _ (by simp [add, mul, npmaximum_, npmaximum, npminimum_, npminimum])]
    refine ⟨_, rfl, ?_⟩
    intro hall
    have e1 : muleach_entry (1 / 64 : ℝ) (1 / 64) = 1 / 4096 := by
      rw [muleach_entry_eq_mul _ _ (by norm_num) (by norm_num)]; norm_num
    have hb := (hall (muleach_entry ((98 / 100 : ℝ) / (98 / 100 + 1))
      (Real.exp (math.E1 (muleach_entry ((98 / 100 : ℝ) / (98 / 100 + 1)) (1 / 4096)) * (1 / 2))))
      (by
        simp only [quiet_session, fresh, faint_sig, List.zipWith_cons_cons, e1, npminimum_,
          npminimum, npmaximum_, npmaximum, add, mul, List.map_cons, npexp, scipyspecialexpn,
          realBackend]
        norm_num)).2
    exact absurd hb (not_le.2 (faint_gain _ rfl))

/-- C10, as amended: in every session reached from a `logmmse_sample` (with `Slen > 2`) by
`logmmse_all` calls, `update_noise_mu2` and `logmmse_all` return, and the divisors of the call
are the entries of the floor `noise_mu2` that `update_noise_mu2` leaves at the start of the
call: no frame changes the floor.  When every bin has a non-zero magnitude in at least one
bootstrap frame, these divisors are strictly positive in every call of a wide-regime session
(`nFFT >= 1200`) and, in an audio-regime session, in every call up to the first acceptance of a
candidate (`stable` still false), in exact arithmetic.  In the audio regime the update leaves the
floor as it was or replaces it by the accepted candidate, which is zero in every bin that is zero
in the last 12 history frames. -/
theorem divisors_are_call_floor (B : Backend α) (hB : B.Lawful) (x0 : List (complex_t α))
    (Srate0 : Int) (eta0 : α) (params : SavedParamsC α) (noise_frames : Int)
    (p0 p : SavedParamsC α) (hN : 1 ≤ noise_frames) (hS : 2 < p0.Slen)
    (hx0 : noise_frames * p0.Slen ≤ (x0.length : Int))
    (hs : logmmse_sample B x0 Srate0 eta0 params noise_frames = some p0)
    (hp : ReachableFrom B p0 p) (x : List (complex_t α)) (Srate : Int) (eta : α) :
    ∃ p1 out q, p.update_noise_mu2 = some p1 ∧ logmmse_all B x Srate eta p = some (out, q) ∧
      (∀ (i : Nat) (r : List (complex_t α) × SavedParamsC α),
        run_frames B x 0 i p1 = some r → r.2.noise_mu2 = p1.noise_mu2) ∧
      q.noise_mu2 = p1.noise_mu2 ∧
      ((∀ k, k < p0.nFFT.toNat → ∃ f ∈ p0.noise_history, f.getD k 0 ≠ 0) →
        (1200 ≤ p0.nFFT → ∀ v ∈ p1.noise_mu2, 0 < v) ∧
        (p0.nFFT < 1200 → p1.stable = false → ∀ v ∈ p1.noise_mu2, 0 < v)) ∧
      (p0.nFFT < 1200 →
        (p1.noise_mu2 = p.noise_mu2 ∧ p1.stable = p.stable) ∨
        (p1.stable = true ∧ ∃ tnm, p.audio_candidate = some tnm ∧ p1.noise_mu2 = tnm ∧
          ∀ k, (∀ f ∈ p.noise_history.drop (p.noise_history.length - 12), f.getD k 0 = 0) →
            tnm.getD k 0 = 0)) := by
  have h0 := logmmse_sample_WF B x0 Srate0 eta0 params noise_frames p0 hs
  obtain ⟨hWF, hn, hw, ha⟩ := reachable_floor_inv B hB p0 p h0 hp
  obtain ⟨p1, hops, q, hup, _, hall, _, _, _, _, _, hfl⟩ := logmmse_all_ok B hB x Srate eta p hWF
  refine ⟨p1, hops, q, hup, hall, ?_, (floor_fields p1 q hfl).1, ?_, ?_⟩
  · intro i r hr
    exact (floor_fields p1 r.2 (run_frames_keeps B x i 0 p1 r hr)).1
  · intro hb
    have hpos0 := (bootstrap_floor B hB x0 Srate0 eta0 params noise_frames p0 hN hx0 hs).2 hb
    refine ⟨fun hwide => update_floor_wide p p1 hWF (by rw [hn]; exact hwide)
      (hw hpos0 hwide) hup, ?_⟩
    intro haud hst
    rcases update_floor_audio p p1 hWF (by rw [hn]; exact haud) hup with ⟨e1, e2⟩ | ⟨e1, _⟩
    · rw [e1, ha haud (by rw [← e2]; exact hst)]
      exact hpos0
    · rw [e1] at hst
      exact absurd hst (by simp)
  · intro haud
    rcases update_floor_audio p p1 hWF (by rw [hn]; exact haud) hup with he | ⟨e1, tnm, h1, h2⟩
    · exact Or.inl he
    · exact Or.inr ⟨e1, tnm, h1, h2, fun k hz => audio_candidate_zero_bin p tnm h1 k hz⟩

/-- The statement of the amended C10 on the session bootstrapped from `click_boot` at
`Srate = 48000` (`Slen = 960`, wide regime, a magnitude `1` in every bin of the bootstrap frame)
after the call on `click_in`, and the input `half_in`. -/
theorem divisors_are_call_floor_witness :
    ∃ p0 out1 q1, logmmse_sample realBackend click_boot 48000 1 (fresh ℝ) 1 = some p0 ∧
      (2 : Int) < p0.Slen ∧ (1 : Int) * p0.Slen ≤ (click_boot.length : Int) ∧
      logmmse_all realBackend click_in 48000 1 p0 = some (out1, q1) ∧
      ReachableFrom realBackend p0 q1 ∧
      (∀ k, k < p0.nFFT.toNat → ∃ f ∈ p0.noise_history, f.getD k 0 ≠ 0) ∧
      (1200 : Int) ≤ p0.nFFT ∧
      ∃ p1 out q, q1.update_noise_mu2 = some p1 ∧
        logmmse_all realBackend half_in 48000 1 q1 = some (out, q) ∧
        q.noise_mu2 = p1.noise_mu2 ∧ ∀ v ∈ p1.noise_mu2, 0 < v := by
  obtain ⟨p0, hs, hWF, hS, _, _, hn, _, _, _, _, _, _, _, _, hhist⟩ := click_boot_session
  have hSl : (2 : Int) < p0.Slen := by rw [hS]; decide
  have hx : (1 : Int) * p0.Slen ≤ (click_boot.length : Int) := by
    rw [hS, click_boot, length_impulse]; decide
  have hb : ∀ k, k < p0.nFFT.toNat → ∃ f ∈ p0.noise_history, f.getD k 0 ≠ 0 := by
    intro k hk
    rw [hn] at hk
    have hk1 : k < 1920 := hk
    refine ⟨_, by rw [hhist]; exact List.mem_singleton_self _, ?_⟩
    rw [getD_npabsolute _ _ _ (by rw [length_dft, length_impulse]; omega),
      dft_impulse false 0 1919 k (by omega), amplitude_twiddle]
    exact one_ne_zero
  have hw : (1200 : Int) ≤ p0.nFFT := by rw [hn]; decide
  obtain ⟨_, out1, q1, _, _, hall1, _⟩ :=
    logmmse_all_ok realBackend realBackend_lawful click_in 48000 1 p0 hWF
  have hr : ReachableFrom realBackend p0 q1 :=
    ReachableFrom.all click_in 48000 1 p0 out1 q1 ReachableFrom.start hall1
  obtain ⟨p1, out, q, h1, h2, _, h4, h5, _⟩ :=
    divisors_are_call_floor realBackend realBackend_lawful click_boot 48000 1 (fresh ℝ) 1 p0 q1
      (le_refl _) hSl hx hs hr half_in 48000 1
  exact ⟨p0, out1, q1, hs, hSl, hx, hall1, hr, hb, hw, p1, out, q, h1, h2, h4, (h5 hb).1 hw⟩

/-- C10 fails as stated, at the bootstrap and at an audio-regime update.  The session
bootstrapped on six blocks of silence at `Srate = 48000` has a floor of 1920 zeros; the next
`logmmse_all` call, on the 1440 samples `half_in`, leaves that floor in place (six frames of
history, no update is due) and processes one frame (480 output samples), dividing by
`noise_mu2[k] = 0` in every bin.  The session bootstrapped on `muted_boot` at `Srate = 25000`
(audio regime, 101 frames of history) has a strictly positive floor; after the call on
`short_hop`, the update of the call on `half_in` accepts the candidate of the last 12 history
frames, which are silent, and the three frames of that call (750 output samples) divide by
`noise_mu2[k] = 0` in every bin. -/
theorem zero_floor_is_divided_by :
    (∃ p p1 out q, logmmse_sample realBackend silence_in 48000 1 (fresh ℝ) 6 = some p ∧
      p.update_noise_mu2 = some p1 ∧
      logmmse_all realBackend half_in 48000 1 p = some (out, q) ∧ out.length = 480 ∧
      p1.noise_mu2 = List.replicate 1920 0 ∧ q.noise_mu2 = List.replicate 1920 0 ∧
      ¬ ∀ v ∈ p1.noise_mu2, 0 < v) ∧
    ∃ p0 out1 q1 p3 out3 q3,
      logmmse_sample realBackend muted_boot 25000 1 (fresh ℝ) 101 = some p0 ∧
      (2 : Int) < p0.Slen ∧ p0.nFFT = 1000 ∧ (∀ v ∈ p0.noise_mu2, 0 < v) ∧
      logmmse_all realBackend short_hop 25000 1 p0 = some (out1, q1) ∧
      (∀ v ∈ q1.noise_mu2, 0 < v) ∧ q1.update_noise_mu2 = some p3 ∧
      logmmse_all realBackend half_in 25000 1 q1 = some (out3, q3) ∧ out3.length = 750 ∧
      p3.noise_mu2 = List.replicate 1000 0 ∧ q3.noise_mu2 = List.replicate 1000 0 ∧
      ¬ ∀ v ∈ p3.noise_mu2, 0 < v := by
  constructor
  · obtain ⟨p0, hp0⟩ := sample_init_ok realBackend 48000 (fresh ℝ) (by decide)
    obtain ⟨_, _, _, i4, _, _, _, _, _, _, _, _, hSl0, _⟩ :=
      sample_init_spec realBackend 48000 (fresh ℝ) p0 hp0
    have hS0 : p0.Slen = 960 := by rw [hSl0]; decide
    have hn0 : p0.nFFT = 1920 := by omega
    have hx0 : ((6 : Int).toNat : Int) * p0.Slen ≤ ((5760 : Nat) : Int) := by rw [hS0]; decide
    obtain ⟨p, hp, hmu, _⟩ := logmmse_sample_zero realBackend realBackend_lawful 5760 48000 1
      (fresh ℝ) 6 p0 hp0 hx0
    obtain ⟨hWF, hSl, _⟩ := logmmse_sample_spec realBackend _ 48000 1 (fresh ℝ) 6 p hp
    have hS : p.Slen = 960 := by rw [hSl]; decide
    have hl : p.len2 = 480 := by have := hWF.Slen_eq; omega
    have hmu1 : p.noise_mu2 = List.replicate 1920 0 := by rw [hmu, hn0]; rfl
    obtain ⟨hh, _⟩ := logmmse_sample_hist realBackend realBackend_lawful
      (List.replicate 5760 complex_t.zero) 48000 1 (fresh ℝ) 6 p0 p hp0
      (by rw [List.length_replicate]; exact hx0) hp
    have hup : p.update_noise_mu2 = some p :=
      update_not_due p (Or.inr (le_trans hh (by decide)))
    obtain ⟨p1, hops, q, hup1, _, hall, hlen, _, _, _, _, hfl⟩ :=
      logmmse_all_ok realBackend realBackend_lawful half_in 48000 1 p hWF
    rw [hup] at hup1
    have e := Option.some.inj hup1
    subst e
    have hN : Nframes p half_in.length = 1 := by
      rw [Nframes_eq p hWF, hS, hl, half_in, List.length_replicate]
      decide
    have hlen1 : hops.length = 480 := by
      rw [hlen, hN, hl]
      rfl
    refine ⟨p, p, hops, q, hp, hup, hall, hlen1, hmu1, ?_, ?_⟩
    · rw [(floor_fields p q hfl).1, hmu1]
    · intro hall0
      have h0 : (0 : ℝ) ∈ p.noise_mu2 := by
        rw [hmu1, List.mem_replicate]
        exact ⟨by decide, rfl⟩
      exact lt_irrefl _ (hall0 0 h0)
  · obtain ⟨p0, out1, q1, p3, hs, hSl, hn, hpos, hall1, hWF1, hl2, hS, hpos1, hup3, hz⟩ :=
      muted_session_accepts_zero
    obtain ⟨p3a, hops, q3, hup3a, _, hall3, hlen, _, _, _, _, hfl⟩ :=
      logmmse_all_ok realBackend realBackend_lawful half_in 25000 1 q1 hWF1
    rw [hup3] at hup3a
    have e := Option.some.inj hup3a
    subst e
    have hN : Nframes q1 half_in.length = 3 := by
      rw [Nframes_eq q1 hWF1, hS, hl2, half_in, List.length_replicate]
      decide
    have hlen1 : hops.length = 750 := by
      rw [hlen, hN, hl2]
      rfl
    refine ⟨p0, out1, q1, p3, hops, q3, hs, hSl, hn, hpos, hall1, hpos1, hup3, hall3, hlen1, hz,
      ?_, ?_⟩
    · rw [(floor_fields p3 q3 hfl).1, hz]
    · intro hall0
      have h0 : (0 : ℝ) ∈ p3.noise_mu2 := by
        rw [hz, List.mem_replicate]
        exact ⟨by decide, rfl⟩
      exact lt_irrefl _ (hall0 0 h0)

/-- After the call on `click_in`, the first sample of the overlap tail `x_old` of the session
bootstrapped from `click_boot` has a positive real part; the floor is as before the call. -/
theorem click_leaves_tail :
    ∃ p out1 q, logmmse_sample realBackend click_boot 48000 1 (fresh ℝ) 1 = some p ∧
      logmmse_all realBackend click_in 48000 1 p = some (out1, q) ∧ q.WF ∧
      q.len2 = 480 ∧ q.Slen = 960 ∧ (∀ v ∈ q.noise_mu2, 0 < v) ∧
      0 < (q.x_old.getD 0 complex_t.zero).re := by
  obtain ⟨p, hs, hWF, hS, hl2, hl1, hn, hwin, hfwd, hrev, haa, hk, hhold, hh, hpos⟩ :=
    click_session
  have hlen : click_in.length = 1440 := by
    rw [click_in, List.length_append, length_impulse, List.length_replicate]
  obtain ⟨p1, hops, q, hup, hrun, hall, _, _, _, hWFq, hcq, hflq⟩ :=
    logmmse_all_ok realBackend realBackend_lawful click_in 48000 1 p hWF
  have e1 : p1 = p := by
    rw [update_not_due p (Or.inr (by omega))] at hup
    exact (Option.some.inj hup).symm
  subst e1
  have hN : (Nframes p1 click_in.length).toNat = 1 := by
    rw [Nframes_eq p1 hWF, hS, hl2, hlen]
    decide
  rw [hN] at hrun
  obtain ⟨spec, sig, hw, _, hspec, _, hgain, _, _, hlhw, hstep⟩ :=
    frame_step_eq realBackend realBackend_lawful click_in p1 0 hWF (le_refl _)
      (by rw [hS, hlen]; decide)
  simp only [run_frames] at hrun
  have e0 : ((0 : Nat) : Int) * p1.len2 = 0 := by simp
  rw [e0, hstep] at hrun
  simp only [Option.some_bind] at hrun
  obtain ⟨_, e3⟩ := Prod.mk.inj (Option.some.inj hrun)
  have hspec1 : spec = dft false (impulse 480 1439) := by
    rw [hspec, hwin, hS, hfwd]
    have e2 : (960 : Int).toNat = 960 := by decide
    have e4 : (0 : Int).toNat = 0 := by decide
    rw [e2, e4, List.drop_zero, click_in,
      List.take_left' (by rw [length_impulse])]
    exact click_frame_spec 1920 480 479 (by norm_num)
  have hwpos : ∀ g ∈ hw, 0 < g := by
    refine frame_gain_pos realBackend realBackend_lawful (p1.pushed sig) sig hw ?_ ?_ ?_ hgain
    · show 0 < p1.aa
      rw [haa]; norm_num
    · show p1.aa ≤ 1
      rw [haa]; norm_num
    · show 0 < p1.ksi_min
      rw [hk]
      exact Real.rpow_pos_of_pos (by norm_num) _
  have hlhw1 : hw.length = 1920 := by
    rw [hn] at hlhw
    exact_mod_cast hlhw
  have hxi := xi_click_re 1920 480 (by norm_num) hw hlhw1 hwpos
  have hxo : q.x_old = ((frame_xi realBackend p1 spec hw).drop 480).take 480 := by
    rw [← e3]
    show ((frame_xi realBackend p1 spec hw).drop p1.len1.toNat).take (p1.Slen - p1.len1).toNat
      = _
    rw [hl1, hS]
    rfl
  obtain ⟨cS, _, cl2, _⟩ := config_fields p1 q hcq
  refine ⟨p1, hops, q, hs, hall, hWFq, by rw [cl2, hl2], by rw [cS, hS], ?_, ?_⟩
  · rw [(floor_fields p1 q hflq).1]
    exact hpos
  · rw [hxo, List.getD_eq_getElem?_getD, List.getElem?_take, if_pos (by norm_num), List.getElem?_drop,
      ← List.getD_eq_getElem?_getD]
    unfold frame_xi
    rw [hspec1, hrev]
    exact hxi

end logmmse

end dsp

/-! ## The bootstrap, the frame count, the gain rule and the audio-regime update (C11 - C20) -/

namespace dsp

namespace logmmse

open arrays

variable {α : Type} [LinearOrderedField α]

/-- C12, as amended: `reset` clears `Xk_prev`, `Xn_prev`, `x_old` and `noise_mu2` and sets
`generation = 0` and `stable = false`, for every prior state; the history (`noise_history`,
`dev_history` and their running sums `sums`, `devs`) is left as it was, and so are the frame
sizes, the window, the plans, `hold`, `mindb` and `maxdb`. -/
theorem reset_keeps_history (p : SavedParamsC α) :
    p.reset.Xk_prev = [] ∧ p.reset.Xn_prev = [] ∧ p.reset.x_old = [] ∧ p.reset.noise_mu2 = []
      ∧ p.reset.generation = 0 ∧ p.reset.stable = false
      ∧ p.reset.noise_history = p.noise_history ∧ p.reset.dev_history = p.dev_history
      ∧ p.reset.sums = p.sums ∧ p.reset.devs = p.devs ∧ p.reset.config = p.config
      ∧ p.reset.hold = p.hold ∧ p.reset.mindb = p.mindb ∧ p.reset.maxdb = p.maxdb :=
  ⟨rfl, rfl, rfl, rfl, rfl, rfl, rfl, rfl, rfl, rfl, rfl, rfl, rfl, rfl⟩

/-- C12 fails as stated: after `reset` on `stable_session`, the history still holds its 101
frames and the running sums are `101` in every bin, while `noise_mu2` is empty and
`generation = 0`. -/
theorem reset_leaves_history :
    stable_session.reset.noise_history.length = 101
      ∧ stable_session.reset.dev_history.length = 101
      ∧ stable_session.reset.sums = [101, 101, 101, 101]
      ∧ stable_session.reset.noise_mu2 = [] ∧ stable_session.reset.generation = 0
      ∧ stable_session.reset.noise_history ≠ [] := by
  refine ⟨by decide, by decide, rfl, rfl, rfl, ?_⟩
  intro h
  have := congrArg List.length h
  exact absurd this (by decide)

/-- C13: for every sample rate `Srate >= 0`, the sizes that `logmmse_sample` derives are
`Slen = floor(0.02 * Srate)` rounded up to the next even number (`floor(0.02 * Srate)` is the
integer quotient `Srate / 50`), `len1 = len2 = Slen / 2`, so `len1 + len2 = Slen`, and
`nFFT = 2 * Slen`, with `Slen` even; every session that `logmmse_sample` returns has these sizes,
and it returns one for `Srate >= 50` (where the hop `len2` is not zero) on an input of at least
`noise_frames * Slen` samples. -/
theorem frame_sizes_from_rate (B : Backend α) (hB : B.Lawful) (Srate : Int) (hS : 0 ≤ Srate) :
    (sample_sizes Srate).1 = 2 * ((Srate / 50 + 1) / 2)
      ∧ (sample_sizes Srate).1 % 2 = 0
      ∧ Srate / 50 ≤ (sample_sizes Srate).1 ∧ (sample_sizes Srate).1 ≤ Srate / 50 + 1
      ∧ (sample_sizes Srate).2.1 = (sample_sizes Srate).1 / 2
      ∧ (sample_sizes Srate).2.2.1 = (sample_sizes Srate).1 / 2
      ∧ (sample_sizes Srate).2.1 + (sample_sizes Srate).2.2.1 = (sample_sizes Srate).1
      ∧ (sample_sizes Srate).2.2.2 = 2 * (sample_sizes Srate).1
      ∧ (∀ (x : List (complex_t α)) (eta : α) (params : SavedParamsC α) (noise_frames : Int)
          (p : SavedParamsC α), logmmse_sample B x Srate eta params noise_frames = some p →
          (p.Slen, p.len1, p.len2, p.nFFT) = sample_sizes Srate)
      ∧ (50 ≤ Srate → ∀ (x : List (complex_t α)) (eta : α) (params : SavedParamsC α)
          (noise_frames : Int),
          (noise_frames.toNat : Int) * (sample_sizes Srate).1 ≤ (x.length : Int) →
          ∃ p, logmmse_sample B x Srate eta params noise_frames = some p) := by
  obtain ⟨h1, h2, h3, h4, h5, h6, h7, h8⟩ := sample_sizes_spec Srate hS
  refine ⟨h1, h2, h3, h4, h5, h6, h7, h8, ?_, ?_⟩
  · intro x eta params noise_frames p h
    obtain ⟨hWF, hSl, _⟩ := logmmse_sample_spec B x Srate eta params noise_frames p h
    have e1 : p.Slen = (sample_sizes Srate).1 := hSl
    have e2 := hWF.len1_eq
    have e3 := hWF.Slen_eq
    have e4 := hWF.nFFT_eq
    have e5 : p.len2 = (sample_sizes Srate).2.2.1 := by omega
    have e6 : p.len1 = (sample_sizes Srate).2.1 := by omega
    have e7 : p.nFFT = (sample_sizes Srate).2.2.2 := by omega
    rw [e1, e5, e6, e7]
  · intro h50 x eta params noise_frames hx
    exact sample_exists B hB x Srate eta params noise_frames h50 hx

/-- The statement of C13 at `Srate = 48000`: `Slen = 960`, `len1 = len2 = 480`, `nFFT = 1920`,
in the session bootstrapped from the six blocks `noise_in`. -/
theorem frame_sizes_from_rate_witness :
    sample_sizes 48000 = (960, 480, 480, 1920) ∧
      ∃ p, logmmse_sample realBackend noise_in 48000 1 (fresh ℝ) 6 = some p ∧
        p.Slen = 960 ∧ p.len1 = 480 ∧ p.len2 = 480 ∧ p.nFFT = 1920 := by
  have hsz : sample_sizes 48000 = (960, 480, 480, 1920) := by decide
  obtain ⟨_, _, _, _, _, _, _, _, hf, hex⟩ :=
    frame_sizes_from_rate realBackend realBackend_lawful 48000 (by decide)
  obtain ⟨p, hp⟩ := hex (by decide) noise_in 1 (fresh ℝ) 6
    (by rw [hsz, noise_in, List.length_replicate]; decide)
  have h := hf noise_in 1 (fresh ℝ) 6 p hp
  rw [hsz] at h
  obtain ⟨e1, e2⟩ := Prod.mk.inj h
  obtain ⟨e3, e4⟩ := Prod.mk.inj e2
  obtain ⟨e5, e6⟩ := Prod.mk.inj e4
  exact ⟨hsz, p, hp, e1, e3, e5, e6⟩

theorem count_below (n m : Nat) :
    ((List.range n).filter (fun i => decide (i < m))).length = min m n := by
  induction n with
  | zero => simp
  | succ n ih =>
    rw [List.range_succ, List.filter_append, List.length_append, ih]
    by_cases h : n < m
    · simp [h]
      omega
    · simp [h]
      omega

theorem fitting_hops_eq (p : SavedParamsC α) (N : Nat) (hl : 0 < p.len2)
    (hS : p.Slen = 2 * p.len2) : fitting_hops p N = N / p.len2.toNat - 1 := by
  unfold fitting_hops
  obtain ⟨L, hL⟩ : ∃ L : Nat, p.len2 = (L : Int) := ⟨p.len2.toNat, by omega⟩
  have hL0 : 0 < L := by omega
  have e1 : p.len2.toNat = L := by omega
  have e2 : p.Slen.toNat = 2 * L := by omega
  rw [e1, e2]
  have hcongr : (List.range (N + 1)).filter (fun i => decide (i * L + 2 * L ≤ N))
      = (List.range (N + 1)).filter (fun i => decide (i < N / L - 1)) := by
    apply List.filter_congr
    intro i _
    have h1 : i * L + 2 * L = (i + 2) * L := by ring
    have h2 : (i + 2) * L ≤ N ↔ i + 2 ≤ N / L := (Nat.le_div_iff_mul_le hL0).symm
    rw [h1]
    by_cases h : i + 2 ≤ N / L
    · rw [decide_eq_true (h2.2 h), decide_eq_true (by omega : i < N / L - 1)]
    · rw [decide_eq_false (fun hc => h (h2.1 hc)), decide_eq_false (by omega)]
  rw [hcongr, count_below]
  have : N / L ≤ N := Nat.div_le_self N L
  omega

/-- C16, as amended: for every input of length `N >= Slen` (`Slen` even, `len2 = Slen / 2 > 0`),
the frame count `Nframes = floor(N / len2) - floor(Slen / len2)` used by `logmmse_all` is one
less than the number of hop positions `k` in `{0, len2, 2 * len2, ...}` for which the full
analysis window `x[k .. k + Slen)` fits inside the input: the last fitting position is not
processed. -/
theorem frame_count_is_fitting_hops_less_one (p : SavedParamsC α) (N : Nat) (hl : 0 < p.len2)
    (hS : p.Slen = 2 * p.len2) (hN : p.Slen ≤ (N : Int)) :
    Nframes p N + 1 = (fitting_hops p N : Int) := by
  rw [fitting_hops_eq p N hl hS]
  unfold Nframes
  obtain ⟨L, hL⟩ : ∃ L : Nat, p.len2 = (L : Int) := ⟨p.len2.toNat, by omega⟩
  have hL0 : 0 < L := by omega
  have e1 : p.len2.toNat = L := by omega
  have e3 : p.Slen.tdiv p.len2 = 2 := by
    rw [hS, Int.tdiv_eq_ediv (by omega) (by omega), Int.mul_ediv_cancel 2 (by omega)]
  rw [e1, e3]
  have h2 : 2 ≤ N / L := by
    rw [Nat.le_div_iff_mul_le hL0]
    have : (2 * (L : Int)) ≤ (N : Int) := by rw [← hL, ← hS]; exact hN
    omega
  omega

/-- The statement of the amended C16 on `stable_session` (`len2 = 1`, `Slen = 2`) and an input
of five samples: three frames, four fitting hop positions. -/
theorem frame_count_is_fitting_hops_less_one_witness :
    Nframes stable_session 5 = 3 ∧ fitting_hops stable_session 5 = 4 ∧
      Nframes stable_session 5 + 1 = (fitting_hops stable_session 5 : Int) :=
  ⟨by decide, by decide,
    frame_count_is_fitting_hops_less_one stable_session 5 (by decide) (by decide) (by decide)⟩

/-- C16 fails as stated: on `stable_session` (`len2 = 1`, `Slen = 2`) and an input of
`N = Slen = 2` samples, the hop position `k = 0` fits (`0 + Slen <= N`), so one hop position
fits, and the frame count is `floor(2 / 1) - floor(2 / 1) = 0`. -/
theorem frame_count_misses_last_hop :
    stable_session.Slen = 2 ∧ stable_session.len2 = 1 ∧
      (0 : Int) * stable_session.len2 + stable_session.Slen ≤ 2 ∧
      fitting_hops stable_session 2 = 1 ∧ Nframes stable_session 2 = 0 ∧
      Nframes stable_session 2 ≠ (fitting_hops stable_session 2 : Int) :=
  ⟨rfl, rfl, by decide, by decide, by decide, by decide⟩

/-- C17, as amended: in `logmmse_all` the first-frame formula
`ksi[k] = (1 - aa) * max(gamma[k] - 1, 0) + aa` is used for a frame if and only if `Xk_prev` has
at least one zero entry (`npall(Xk_prev)` is false); for every `Xk_prev` without a zero entry,
the decision-directed formula
`ksi[k] = max(aa * Xk_prev[k] / noise_mu2[k] + (1 - aa) * max(gamma[k] - 1, 0), ksi_min)` is
used. -/
theorem ksi_rule_by_zero_entry (p : SavedParamsC α) (gammak : List α)
    (h1 : p.Xk_prev.length ≤ p.noise_mu2.length) (h2 : p.Xk_prev.length ≤ gammak.length) :
    ((∃ z ∈ p.Xk_prev, z = 0) → frame_ksi p gammak = some (ksi_first p.aa gammak)) ∧
      ((∀ z ∈ p.Xk_prev, z ≠ 0) →
        frame_ksi p gammak
          = some (ksi_dd p.aa p.ksi_min p.Xk_prev p.noise_mu2 gammak)) := by
  constructor
  · rintro ⟨z, hz, hz0⟩
    have hn : npall p.Xk_prev = false := by
      rw [← Bool.not_eq_true, npall_eq_true_iff]
      intro hall
      exact hall z hz hz0
    rw [frame_ksi_eq_first p gammak hn, first_rule_eq]
  · intro hall
    rw [frame_ksi_eq_dd p gammak ((npall_eq_true_iff _).2 hall) h1 h2, dd_rule_eq]

/-- The statement of the amended C17 on `mixed_session`, whose `Xk_prev = [4, 0, 4, 4]` has a
zero entry, with the a-posteriori SNR `loud_gamma`. -/
theorem ksi_rule_by_zero_entry_witness :
    (∃ z ∈ mixed_session.Xk_prev, z = 0) ∧
      frame_ksi mixed_session loud_gamma = some (ksi_first mixed_session.aa loud_gamma) ∧
      ((∀ z ∈ mixed_session.Xk_prev, z ≠ 0) →
        frame_ksi mixed_session loud_gamma
          = some (ksi_dd mixed_session.aa mixed_session.ksi_min mixed_session.Xk_prev
              mixed_session.noise_mu2 loud_gamma)) := by
  have hz : ∃ z ∈ mixed_session.Xk_prev, z = 0 :=
    ⟨0, by simp [mixed_session], rfl⟩
  have h := ksi_rule_by_zero_entry mixed_session loud_gamma (by decide) (by decide)
  exact ⟨hz, h.1 hz, h.2⟩

/-- C17 fails as stated: `mixed_session` has `Xk_prev = [4, 0, 4, 4]`, which is not entirely
zero, and the frame takes the first-frame formula, whose result `[1.02, 0.98, 0.98, 1]` is not
the `[0.824, 1/316, 0.784, 0.804]` of the decision-directed formula. -/
theorem nonzero_entry_takes_first_rule :
    (∃ z ∈ mixed_session.Xk_prev, z ≠ 0) ∧
      frame_ksi mixed_session loud_gamma = some [102 / 100, 98 / 100, 98 / 100, 1] ∧
      ksi_first mixed_session.aa loud_gamma = [102 / 100, 98 / 100, 98 / 100, 1] ∧
      ksi_dd mixed_session.aa mixed_session.ksi_min mixed_session.Xk_prev
          mixed_session.noise_mu2 loud_gamma = [824 / 1000, 1 / 316, 784 / 1000, 804 / 1000] ∧
      frame_ksi mixed_session loud_gamma
        ≠ some (ksi_dd mixed_session.aa mixed_session.ksi_min mixed_session.Xk_prev
            mixed_session.noise_mu2 loud_gamma) := by
  refine ⟨⟨4, by simp [mixed_session], by norm_num⟩, by decide!, by decide!, by decide!,
    by decide!⟩

theorem uneven_session_WF : uneven_session.WF :=
  { len2_pos := by decide, len1_eq := rfl, Slen_eq := rfl, nFFT_eq := rfl, win_len := rfl,
    fwd_size := rfl, rev_size := rfl, mu2_len := rfl, sums_len := rfl, devs_len := rfl,
    x_old_len := rfl,
    hist_len := fun f hf => by rw [List.eq_of_mem_replicate hf]; rfl,
    dev_len := fun f hf => by rw [List.eq_of_mem_replicate hf]; rfl,
    Xk_ok := Or.inr (by decide!) }

/-- C19: in a triggered audio-regime update (`nFFT < 1200`, more than 100 frames in the history,
`hold` false, `generation > 0`), with `tmin` and `tmax` the minimum and maximum of the smoothed
candidate built from the last 12 history frames, the candidate is accepted if and only if
`tmin + tmax < mindb + maxdb`; on acceptance `mindb = tmin`, `maxdb = tmax` and `stable = true`;
otherwise `noise_mu2`, `mindb`, `maxdb` and `stable` are unchanged.  Consequently any call of
`update_noise_mu2` that turns `stable` from false to true is such an acceptance. -/
theorem audio_candidate_accepted_iff_lower (p : SavedParamsC α) (h : p.WF)
    (ha : p.nFFT < 1200) (hn : 100 < p.noise_history.length) (hh : p.hold = false)
    (hg : 0 < p.generation) :
    ∃ tnm ts tmin tmax, p.audio_candidate = some tnm ∧ npmavg tnm 6 = some ts
      ∧ ts.min? = some tmin ∧ ts.max? = some tmax
      ∧ (tmin + tmax < p.mindb + p.maxdb →
          p.update_noise_mu2
            = some { p with mindb := tmin, maxdb := tmax, noise_mu2 := tnm, stable := true,
                            generation := p.generation + 1 })
      ∧ (¬ tmin + tmax < p.mindb + p.maxdb →
          p.update_noise_mu2 = some { p with generation := p.generation + 1 })
      ∧ (∀ q, p.update_noise_mu2 = some q →
          (q.stable = true ↔ p.stable = true ∨ tmin + tmax < p.mindb + p.maxdb))
      ∧ ∀ (p1 q1 : SavedParamsC α), p1.update_noise_mu2 = some q1 → p1.stable = false →
          q1.stable = true →
          p1.nFFT < 1200 ∧ 100 < p1.noise_history.length ∧ p1.hold = false
            ∧ 0 < p1.generation := by
  obtain ⟨tnm, ts, tmin, tmax, h1, _, h2, _, _, h3, h4⟩ := audio_candidate_parts p h
  obtain ⟨hacc, hrej⟩ := update_audio_gen_pos p hg tnm ts tmin tmax h1 h2 h3 h4
  rw [← update_due_audio p hn hh ha] at hacc hrej
  refine ⟨tnm, ts, tmin, tmax, h1, h2, h3, h4, hacc, hrej, ?_, ?_⟩
  · intro q hq
    by_cases hc : tmin + tmax < p.mindb + p.maxdb
    · rw [hacc hc] at hq
      rw [← Option.some.inj hq]
      exact ⟨fun _ => Or.inr hc, fun _ => rfl⟩
    · rw [hrej hc] at hq
      rw [← Option.some.inj hq]
      exact ⟨fun hs => Or.inl hs, fun hs => hs.resolve_right hc⟩
  · intro p1 q1 hq hs0 hs
    obtain ⟨a, b, c, d, _⟩ := stable_set_by_acceptance p1 q1 hq hs0 hs
    exact ⟨a, b, c, d⟩

/-- The statement of C19 on `stable_session`: 101 frames of history, `generation = 1`, recorded
levels `5 + 5`. -/
theorem audio_candidate_accepted_iff_lower_witness :
    ∃ tnm ts tmin tmax, stable_session.audio_candidate = some tnm ∧ npmavg tnm 6 = some ts
      ∧ ts.min? = some tmin ∧ ts.max? = some tmax
      ∧ (tmin + tmax < stable_session.mindb + stable_session.maxdb →
          stable_session.update_noise_mu2
            = some { stable_session with mindb := tmin, maxdb := tmax, noise_mu2 := tnm,
                                         stable := true,
                                         generation := stable_session.generation + 1 })
      ∧ (¬ tmin + tmax < stable_session.mindb + stable_session.maxdb →
          stable_session.update_noise_mu2
            = some { stable_session with generation := stable_session.generation + 1 })
      ∧ (∀ q, stable_session.update_noise_mu2 = some q →
          (q.stable = true ↔ stable_session.stable = true
            ∨ tmin + tmax < stable_session.mindb + stable_session.maxdb))
      ∧ ∀ (p1 q1 : SavedParamsC ℚ), p1.update_noise_mu2 = some q1 → p1.stable = false →
          q1.stable = true →
          p1.nFFT < 1200 ∧ 100 < p1.noise_history.length ∧ p1.hold = false
            ∧ 0 < p1.generation :=
  audio_candidate_accepted_iff_lower stable_session stable_session_WF (by decide) (by decide)
    rfl (by decide)

/-- C20, as amended: when an audio-regime candidate is accepted, the new `noise_mu2` is the
candidate itself, the squared mean of the last 12 history frames, not its 6-bin moving average;
`mindb` and `maxdb` are the minimum and maximum of the moving average `npmavg(candidate, 6)`,
which need not be the minimum and maximum of `noise_mu2`; `stable` is set. -/
theorem accepted_floor_is_unsmoothed (p q : SavedParamsC α) (h : p.WF) (ha : p.nFFT < 1200)
    (hn : 100 < p.noise_history.length) (hh : p.hold = false) (hg : 0 < p.generation)
    (hq : p.update_noise_mu2 = some q)
    (hacc : q.noise_mu2 ≠ p.noise_mu2 ∨ q.mindb ≠ p.mindb ∨ q.maxdb ≠ p.maxdb
      ∨ q.stable ≠ p.stable) :
    ∃ tnm ts, p.audio_candidate = some tnm ∧ npmavg tnm 6 = some ts
      ∧ q.noise_mu2 = tnm ∧ ts.min? = some q.mindb ∧ ts.max? = some q.maxdb
      ∧ q.stable = true := by
  obtain ⟨tnm, ts, tmin, tmax, h1, hl, h2, _, hmean, h3, h4⟩ := audio_candidate_parts p h
  obtain ⟨hyes, hno⟩ := update_audio_gen_pos p hg tnm ts tmin tmax h1 h2 h3 h4
  rw [← update_due_audio p hn hh ha] at hyes hno
  by_cases hc : tmin + tmax < p.mindb + p.maxdb
  · rw [hyes hc] at hq
    have e := Option.some.inj hq
    subst e
    exact ⟨tnm, ts, h1, h2, rfl, h3, h4, rfl⟩
  · rw [hno hc] at hq
    have e := Option.some.inj hq
    subst e
    rcases hacc with h0 | h0 | h0 | h0 <;> exact absurd rfl h0

/-- The statement of the amended C20 on `uneven_session`, whose candidate `[1, 4, 1, 4]` is
accepted against the recorded levels `5 + 5`. -/
theorem accepted_floor_is_unsmoothed_witness :
    ∃ q, uneven_session.update_noise_mu2 = some q ∧ q.noise_mu2 ≠ uneven_session.noise_mu2 ∧
      ∃ tnm ts, uneven_session.audio_candidate = some tnm ∧ npmavg tnm 6 = some ts
        ∧ q.noise_mu2 = tnm ∧ ts.min? = some q.mindb ∧ ts.max? = some q.maxdb
        ∧ q.stable = true := by
  obtain ⟨m, mn, mx, g, s, hq0, _⟩ := update_noise_mu2_ok uneven_session uneven_session_WF
  obtain ⟨q, hq⟩ : ∃ q, uneven_session.update_noise_mu2 = some q := ⟨_, hq0⟩
  have hv : uneven_session.update_noise_mu2.map (fun q => q.noise_mu2)
      = some [1, 4, 1, 4] := by decide!
  have hne : q.noise_mu2 ≠ uneven_session.noise_mu2 := by
    rw [hq] at hv
    have e : q.noise_mu2 = [1, 4, 1, 4] := Option.some.inj hv
    rw [e]
    decide!
  exact ⟨q, hq, hne, accepted_floor_is_unsmoothed uneven_session q uneven_session_WF
    (by decide) (by decide) rfl (by decide) hq (Or.inl hne)⟩

/-- C20 fails as stated: on `uneven_session` the candidate `[1, 4, 1, 4]` is accepted and becomes
`noise_mu2`, while `mindb = maxdb = 5 / 2` are taken from its moving average
`[5/2, 5/2, 5/2, 5/2]`: the minimum `1` of `noise_mu2` is not `mindb` and its maximum `4` is not
`maxdb`. -/
theorem accepted_floor_differs_from_levels :
    uneven_session.update_noise_mu2.map (fun q => (q.noise_mu2, q.mindb, q.maxdb, q.stable))
      = some ([1, 4, 1, 4], 5 / 2, 5 / 2, true) ∧
      uneven_session.audio_candidate = some [1, 4, 1, 4] ∧
      npmavg [1, 4, 1, 4] 6 = some [(5 / 2 : ℚ), 5 / 2, 5 / 2, 5 / 2] ∧
      ([1, 4, 1, 4] : List ℚ).min? = some 1 ∧ ([1, 4, 1, 4] : List ℚ).max? = some 4 ∧
      (1 : ℚ) ≠ 5 / 2 ∧ (4 : ℚ) ≠ 5 / 2 :=
  ⟨by decide!, by decide!, by decide!, by decide!, by decide!, by norm_num, by norm_num⟩

/-- C11, as amended: in `logmmse_all` the noise-floor estimator runs once per call, before the
frame loop and before any frame of the call is pushed into the history: it works on the history
as it was before the call, and the `noise_mu2` (with `mindb`, `maxdb`, `generation`, `stable`)
that it leaves is the one used for the gain of every frame of the call and the one the call
returns; the frames only push their magnitude spectra. -/
theorem floor_update_runs_once_per_call (B : Backend α) (hB : B.Lawful) (p : SavedParamsC α)
    (hp : Reachable B p) (x : List (complex_t α)) (Srate : Int) (eta : α) :
    ∃ p1 out q, p.update_noise_mu2 = some p1 ∧ p1.noise_history = p.noise_history ∧
      run_frames B x 0 (Nframes p x.length).toNat p1 = some (out, q) ∧
      logmmse_all B x Srate eta p = some (out, q) ∧
      (∀ (i : Nat) (r : List (complex_t α) × SavedParamsC α),
        run_frames B x 0 i p1 = some r → r.2.floor_part = p1.floor_part) ∧
      q.floor_part = p1.floor_part := by
  have hWF := WF_of_Reachable B hB p hp
  obtain ⟨p1, hops, q, hup, hrun, hall, _, _, _, _, _, hfl⟩ :=
    logmmse_all_ok B hB x Srate eta p hWF
  obtain ⟨m, mn, mx, g, s, hq, _⟩ := update_noise_mu2_ok p hWF
  have hh : p1.noise_history = p.noise_history := by
    rw [hq] at hup
    rw [← Option.some.inj hup]
  exact ⟨p1, hops, q, hup, hh, hrun, hall,
    fun i r hr => run_frames_keeps B x i 0 p1 r hr, hfl⟩

/-- The statement of the amended C11 on the session bootstrapped from `boot_in` at
`Srate = 100` and the input `sig_in` of three frames. -/
theorem floor_update_runs_once_per_call_witness :
    ∃ p, logmmse_sample ratBackend boot_in 100 1 (fresh ℚ) 1 = some p ∧
      ∃ p1 out q, p.update_noise_mu2 = some p1 ∧ p1.noise_history = p.noise_history ∧
        run_frames ratBackend sig_in 0 (Nframes p sig_in.length).toNat p1 = some (out, q) ∧
        logmmse_all ratBackend sig_in 100 1 p = some (out, q) ∧
        (∀ (i : Nat) (r : List (complex_t ℚ) × SavedParamsC ℚ),
          run_frames ratBackend sig_in 0 i p1 = some r → r.2.floor_part = p1.floor_part) ∧
        q.floor_part = p1.floor_part := by
  obtain ⟨p, hp⟩ := sample_exists ratBackend ratBackend_lawful boot_in 100 1 (fresh ℚ) 1
    (by decide) (by decide)
  exact ⟨p, hp, floor_update_runs_once_per_call ratBackend ratBackend_lawful p
    (Reachable.sample boot_in 100 1 (fresh ℚ) 1 p hp) sig_in 100 1⟩

/-- C11 fails as stated: on `stable_session` (101 frames of history, the update is due,
`generation = 1`) the call on `sig_in` processes three frames (three output samples) and the
estimator has run once: `generation` is `2` after the call, and the floor `[1, 1, 1, 1]` used
for all three frames is the one computed from the 101 frames of before the call.  On one frame
of silence (`short_silence`), the estimator run on the history that contains the frame would
give `[121/144, 121/144, 121/144, 121/144]`; the floor in use is `[1, 1, 1, 1]`. -/
theorem floor_update_precedes_the_frames :
    ∃ p1 out q out1 q1, stable_session.update_noise_mu2 = some p1 ∧
      p1.noise_mu2 = [1, 1, 1, 1] ∧ p1.generation = 2 ∧
      logmmse_all ratBackend sig_in 100 1 stable_session = some (out, q) ∧ out.length = 3 ∧
      q.generation = 2 ∧ q.noise_mu2 = [1, 1, 1, 1] ∧
      logmmse_all ratBackend short_silence 100 1 stable_session = some (out1, q1) ∧
      out1.length = 1 ∧ q1.noise_mu2 = [1, 1, 1, 1] ∧
      (frame_analysis ratBackend short_silence p1 0).map (fun a => a.2) = some [0, 0, 0, 0] ∧
      (p1.pushed [0, 0, 0, 0]).update_noise_mu2.map (fun (r : SavedParamsC ℚ) => r.noise_mu2)
        = some [121 / 144, 121 / 144, 121 / 144, 121 / 144] := by
  obtain ⟨p1, out, q, hup, _, hall, hlen, _, _, _, _, hfl⟩ :=
    logmmse_all_ok ratBackend ratBackend_lawful sig_in 100 1 stable_session stable_session_WF
  obtain ⟨p1b, out1, q1, hup1, _, hall1, hlen1, _, _, _, _, hfl1⟩ :=
    logmmse_all_ok ratBackend ratBackend_lawful short_silence 100 1 stable_session
      stable_session_WF
  rw [hup] at hup1
  have e := Option.some.inj hup1
  subst e
  have hv : stable_session.update_noise_mu2.map
      (fun (r : SavedParamsC ℚ) => (r.noise_mu2, r.generation))
      = some ([1, 1, 1, 1], 2) := by decide!
  rw [hup] at hv
  obtain ⟨e1, e2⟩ := Prod.mk.inj (Option.some.inj hv)
  obtain ⟨f1, _, _, f4, _⟩ := floor_fields p1 q hfl
  obtain ⟨g1, _⟩ := floor_fields p1 q1 hfl1
  refine ⟨p1, out, q, out1, q1, hup, e1, e2, hall, ?_, by rw [f4, e2], by rw [f1, e1], hall1,
    ?_, by rw [g1, e1], ?_, ?_⟩
  · rw [hlen]; decide
  · rw [hlen1]; decide
  · have hp0 : stable_session.update_noise_mu2.map
        (fun (r : SavedParamsC ℚ) =>
          (frame_analysis ratBackend short_silence r 0).map (fun a => a.2))
        = some (some [0, 0, 0, 0]) := by decide!
    rw [hup] at hp0
    exact Option.some.inj hp0
  · have hp1 : stable_session.update_noise_mu2.map
        (fun (r : SavedParamsC ℚ) =>
          (r.pushed [0, 0, 0, 0]).update_noise_mu2.map
            (fun (r : SavedParamsC ℚ) => r.noise_mu2))
        = some (some [121 / 144, 121 / 144, 121 / 144, 121 / 144]) := by decide!
    rw [hup] at hp1
    exact Option.some.inj hp1

theorem muleach_entry_self (a : α) : muleach_entry a a = a * a := by
  unfold muleach_entry
  rw [if_neg]
  rintro ⟨h1, h2, _⟩
  exact h2 (mul_self_eq_zero.1 h1)

theorem zipWith_self_square (l : List α) :
    List.zipWith muleach_entry l l = l.map (fun v => v * v) := by
  induction l with
  | nil => rfl
  | cons a rest ih =>
    rw [List.zipWith_cons_cons, ih, List.map_cons, muleach_entry_self]

/-- C14, as amended: after `logmmse_sample(x, Srate, eta, params, N0)` with `N0 >= 1` and
`|x| >= N0 * Slen`, whatever the prior contents of `params`: the history holds the last
`min(N0, H)` of the magnitude spectra of the `N0` consecutive non-overlapping windowed
`Slen`-blocks of `x`, in order (`H` the capacity of the history; all `N0` of them when
`N0 <= H`); `noise_mu2` has length `nFFT` and equals elementwise the square of the mean
`noise_mean / N0` over all `N0` spectra, where for `Srate > 24000` the mean is first smoothed by
`npmavg` with window 120; and `Xk_prev` and `x_old` are zero vectors of length `len1`. -/
theorem bootstrap_state (B : Backend α) (hB : B.Lawful) (x : List (complex_t α)) (Srate : Int)
    (eta : α) (params : SavedParamsC α) (N0 : Int) (p : SavedParamsC α) (hN : 1 ≤ N0)
    (hx : N0 * p.Slen ≤ (x.length : Int))
    (h : logmmse_sample B x Srate eta params N0 = some p) :
    ∃ p0 smooth, sample_init B Srate params = some p0 ∧
      p.win = p0.win ∧ p.Slen = p0.Slen ∧ p.forwardPlan = p0.forwardPlan ∧
      p.noise_history = ((List.range N0.toNat).map (boot_noise B x p0)).drop
        (N0.toNat - p.noise_history_len.toNat) ∧
      p.noise_history.length = min N0.toNat p.noise_history_len.toNat ∧
      (N0 ≤ p.noise_history_len →
        p.noise_history = (List.range N0.toNat).map (boot_noise B x p0)) ∧
      (if Srate ≤ 24000 then
          some (div (vsum p.nFFT.toNat ((List.range N0.toNat).map (boot_noise B x p0)))
            ((N0 : Int) : α))
        else npmavg (div (vsum p.nFFT.toNat ((List.range N0.toNat).map (boot_noise B x p0)))
            ((N0 : Int) : α)) 120) = some smooth ∧
      p.noise_mu2 = smooth.map (fun v => v * v) ∧ (p.noise_mu2.length : Int) = p.nFFT ∧
      p.Xk_prev = List.replicate p.len1.toNat 0 ∧
      p.x_old = List.replicate p.len1.toNat complex_t.zero := by
  obtain ⟨p0, hp0, _, hSl, _⟩ := logmmse_sample_win B x Srate eta params N0 p h
  have hx1 : (N0.toNat : Int) * p0.Slen ≤ (x.length : Int) := by
    rw [← hSl, Int.toNat_of_nonneg (by omega)]
    exact hx
  obtain ⟨st, smooth, hsm, hs, _, hc, _⟩ :=
    logmmse_sample_ok B hB x Srate eta params N0 p0 hp0 hx1
  obtain ⟨f1, f2, _, f4, f5, f6⟩ :=
    logmmse_sample_fields B hB x Srate eta params N0 p0 p hp0 hx1 h
  obtain ⟨hWF, _, hxo, hXk, _⟩ := logmmse_sample_spec B x Srate eta params N0 p h
  have hH : p.noise_history_len = p0.noise_history_len := by
    unfold SavedParamsC.noise_history_len
    rw [f4]
  have hmu : p.noise_mu2 = smooth.map (fun v => v * v) := by
    rw [hs] at h
    rw [← Option.some.inj h]
    exact zipWith_self_square smooth
  refine ⟨p0, smooth, hp0, f1, f5, f2, by rw [hH]; exact f6, ?_, ?_, ?_, hmu, hWF.mu2_len,
    hXk, hxo⟩
  · rw [f6, List.length_drop, List.length_map, List.length_range, hH]
    omega
  · intro hle
    rw [f6]
    have : N0.toNat - p0.noise_history_len.toNat = 0 := by
      rw [hH] at hle
      omega
    rw [this, List.drop_zero]
  · rw [f4]
    by_cases h24 : Srate ≤ 24000
    · rw [if_pos h24]
      rw [if_pos (by simpa using h24)] at hsm
      exact hsm
    · rw [if_neg h24]
      rw [if_neg (by simpa using h24)] at hsm
      exact hsm

/-- The statement of the amended C14 on the bootstrap from `boot_in` at `Srate = 100` with
one noise frame: one frame in the history, a floor of four bins. -/
theorem bootstrap_state_witness :
    ∃ p, logmmse_sample ratBackend boot_in 100 1 (fresh ℚ) 1 = some p ∧
      (1 : Int) * p.Slen ≤ (boot_in.length : Int) ∧
      ∃ p0 smooth, sample_init ratBackend 100 (fresh ℚ) = some p0 ∧
        p.win = p0.win ∧ p.Slen = p0.Slen ∧ p.forwardPlan = p0.forwardPlan ∧
        p.noise_history = ((List.range (1 : Int).toNat).map
          (boot_noise ratBackend boot_in p0)).drop ((1 : Int).toNat - p.noise_history_len.toNat) ∧
        p.noise_history.length = min (1 : Int).toNat p.noise_history_len.toNat ∧
        ((1 : Int) ≤ p.noise_history_len →
          p.noise_history = (List.range (1 : Int).toNat).map
            (boot_noise ratBackend boot_in p0)) ∧
        (if (100 : Int) ≤ 24000 then
            some (div (vsum p.nFFT.toNat
              ((List.range (1 : Int).toNat).map (boot_noise ratBackend boot_in p0)))
              (((1 : Int) : Int) : ℚ))
          else npmavg (div (vsum p.nFFT.toNat
              ((List.range (1 : Int).toNat).map (boot_noise ratBackend boot_in p0)))
              (((1 : Int) : Int) : ℚ)) 120) = some smooth ∧
        p.noise_mu2 = smooth.map (fun v => v * v) ∧ (p.noise_mu2.length : Int) = p.nFFT ∧
        p.Xk_prev = List.replicate p.len1.toNat 0 ∧
        p.x_old = List.replicate p.len1.toNat complex_t.zero := by
  obtain ⟨p, hp⟩ := sample_exists ratBackend ratBackend_lawful boot_in 100 1 (fresh ℚ) 1
    (by decide) (by decide)
  obtain ⟨_, hSl, _⟩ := logmmse_sample_spec ratBackend boot_in 100 1 (fresh ℚ) 1 p hp
  have hx : (1 : Int) * p.Slen ≤ (boot_in.length : Int) := by rw [hSl]; decide
  exact ⟨p, hp, hx, bootstrap_state ratBackend ratBackend_lawful boot_in 100 1 (fresh ℚ) 1 p
    (le_refl _) hx hp⟩

/-- C14 fails as stated: the bootstrap on 201 blocks of silence at `Srate = 48000`
(`N0 = 201`, `Slen = 960`, `|x| = 192960 = N0 * Slen`, `nFFT = 1920`, where the history keeps
200 frames) returns with 200 frames in the history, not 201. -/
theorem long_bootstrap_keeps_200_frames :
    ∃ p, logmmse_sample realBackend long_silence 48000 1 (fresh ℝ) 201 = some p ∧
      (201 : Int) * p.Slen ≤ (long_silence.length : Int) ∧
      p.noise_history.length = 200 ∧ p.noise_history.length ≠ 201 := by
  obtain ⟨p0, hp0⟩ := sample_init_ok realBackend 48000 (fresh ℝ) (by decide)
  obtain ⟨_, _, _, i4, _, _, _, _, _, _, _, _, hSl0, _⟩ :=
    sample_init_spec realBackend 48000 (fresh ℝ) p0 hp0
  have hS0 : p0.Slen = 960 := by rw [hSl0]; decide
  have hn0 : p0.nFFT = 1920 := by omega
  have hlen : long_silence.length = 192960 := by rw [long_silence, List.length_replicate]
  have hx0 : (((201 : Int).toNat : Nat) : Int) * p0.Slen ≤ ((192960 : Nat) : Int) := by
    rw [hS0]; decide
  obtain ⟨p, hp, _, _⟩ := logmmse_sample_zero realBackend realBackend_lawful 192960 48000 1
    (fresh ℝ) 201 p0 hp0 hx0
  obtain ⟨_, _, _, _, f5, f6⟩ := logmmse_sample_fields realBackend realBackend_lawful
    (List.replicate 192960 complex_t.zero) 48000 1 (fresh ℝ) 201 p0 p hp0
    (by rw [List.length_replicate]; exact hx0) hp
  have hH : p0.noise_history_len.toNat = 200 := by
    unfold SavedParamsC.noise_history_len
    rw [hn0, if_neg (by decide)]
    rfl
  have h200 : p.noise_history.length = 200 := by
    rw [f6, List.length_drop, List.length_map, List.length_range, hH]
    decide
  refine ⟨p, hp, ?_, h200, by rw [h200]; decide⟩
  rw [f5, hS0, hlen]
  decide

/-- C18: for every frame taking the decision-directed branch and every bin `k` with
`noise_mu2[k] > 0`, `logmmse_all` computes `gamma[k] = min(sig[k]^2 / noise_mu2[k], 40)`,
`ksi[k] = max(aa * Xk_prev[k] / noise_mu2[k] + (1 - aa) * max(gamma[k] - 1, 0), ksi_min)`,
`A[k] = ksi[k] / (ksi[k] + 1)`, `v[k] = A[k] * gamma[k]` and
`hw[k] = A[k] * exp(0.5 * E1(v[k]))`; hence `0 <= gamma[k] <= 40`, `ksi[k] >= ksi_min > 0`,
`0 < A[k] < 1` and `0 <= v[k] < 40`, and afterwards `Xk_prev[k] = (hw[k] * sig[k])^2`. -/
theorem decision_directed_gain (B : Backend α) (p : SavedParamsC α) (hB : B.Lawful)
    (h : p.WF) (spec : List (complex_t α)) (sig : List α)
    (hspec : (spec.length : Int) = p.nFFT) (hsig : (sig.length : Int) = p.nFFT)
    (hdd : npall p.Xk_prev = true) (hk : 0 < p.ksi_min) :
    ∃ gammak ksi hw Xk hop tail, frame_gammak p sig = some gammak ∧
      frame_ksi p gammak = some ksi ∧ frame_hw B ksi gammak = some hw ∧
      frame_gain B p sig = some hw ∧ frame_synthesis B p spec sig hw = some (Xk, hop, tail) ∧
      ∀ k, k < p.nFFT.toNat → 0 < p.noise_mu2.getD k 0 →
        gammak.getD k 0 = gamma_bin (sig.getD k 0) (p.noise_mu2.getD k 0) ∧
        ksi.getD k 0 = ksi_bin p.aa p.ksi_min (p.Xk_prev.getD k 0) (p.noise_mu2.getD k 0)
          (gammak.getD k 0) ∧
        hw.getD k 0 = gain_bin B (A_bin (ksi.getD k 0)) (gammak.getD k 0) ∧
        0 ≤ gammak.getD k 0 ∧ gammak.getD k 0 ≤ 40 ∧ p.ksi_min ≤ ksi.getD k 0 ∧
        0 < A_bin (ksi.getD k 0) ∧ A_bin (ksi.getD k 0) < 1 ∧
        0 ≤ A_bin (ksi.getD k 0) * gammak.getD k 0 ∧
        A_bin (ksi.getD k 0) * gammak.getD k 0 < 40 ∧
        Xk.getD k 0 = (hw.getD k 0 * sig.getD k 0) ^ 2 := by
  have hpos : 0 < p.nFFT := by
    have := h.len2_pos
    have := h.Slen_eq
    have := h.nFFT_eq
    omega
  obtain ⟨n, hn⟩ : ∃ n : Nat, p.nFFT = (n : Int) := ⟨p.nFFT.toNat, by omega⟩
  have hls : sig.length = n := by omega
  have hlm : p.noise_mu2.length = n := by have := h.mu2_len; omega
  have hlx : p.Xk_prev.length = n := by
    rcases h.Xk_ok with hx | hx
    · omega
    · rw [hdd] at hx
      exact absurd hx (by simp)
  obtain ⟨gammak, hgd⟩ : ∃ gammak, gammak = npminimum_ (List.zipWith (fun a b => a / b)
      (List.zipWith muleach_entry sig sig) p.noise_mu2) 40 := ⟨_, rfl⟩
  have hg : frame_gammak p sig = some gammak := by
    rw [hgd]
    exact frame_gammak_eq p sig (by omega)
  have hlg : gammak.length = n := by
    rw [hgd]
    simp [npminimum_, npminimum, hls, hlm]
  obtain ⟨ksi, hkd⟩ : ∃ ksi, ksi = ksi_dd p.aa p.ksi_min p.Xk_prev p.noise_mu2 gammak :=
    ⟨_, rfl⟩
  have hks : frame_ksi p gammak = some ksi := by
    rw [hkd, ← dd_rule_eq]
    exact frame_ksi_eq_dd p gammak hdd (by omega) (by omega)
  have hlk : ksi.length = n := by
    rw [hkd]
    unfold ksi_dd
    rw [List.length_zipWith, List.length_zip, hlx, hlm, hlg]
    simp
  obtain ⟨A, hAd⟩ : ∃ A, A = List.zipWith (fun a b => a / b) ksi (add ksi 1) := ⟨_, rfl⟩
  have hlA : A.length = n := by
    rw [hAd, List.length_zipWith]
    unfold add
    rw [List.length_map, hlk, min_self]
  obtain ⟨vk, hvd⟩ : ∃ vk, vk = List.zipWith muleach_entry A gammak := ⟨_, rfl⟩
  have hlv : vk.length = n := by
    rw [hvd, List.length_zipWith, hlA, hlg, min_self]
  obtain ⟨hw, hhd⟩ : ∃ hw, hw = List.zipWith muleach_entry A
      (npexp B (mul (scipyspecialexpn B vk) (1 / 2))) := ⟨_, rfl⟩
  have hlhw : hw.length = n := by
    rw [hhd, List.length_zipWith, hlA]
    unfold npexp mul scipyspecialexpn
    rw [List.length_map, List.length_map, List.length_map, hlv, min_self]
  have hhw : frame_hw B ksi gammak = some hw := by
    rw [hhd, hvd, hAd]
    exact frame_hw_eq B ksi gammak (by omega)
  have hgain : frame_gain B p sig = some hw := by
    unfold frame_gain
    rw [hg]
    simp only [Option.some_bind]
    rw [hks]
    simp only [Option.some_bind]
    exact hhw
  have hsyn := frame_synthesis_eq B hB p spec sig hw h hspec hsig (by rw [hlhw, hn])
  refine ⟨gammak, ksi, hw, _, _, _, hg, hks, hhw, hgain, hsyn, ?_⟩
  intro k hk1 hmu
  have hkn : k < n := by omega
  have e_g : gammak.getD k 0 = gamma_bin (sig.getD k 0) (p.noise_mu2.getD k 0) := by
    rw [hgd]
    unfold npminimum_ npminimum gamma_bin
    rw [getD_map_of_lt _ _ k (by simp [hls, hlm]; omega) 0 0,
      getD_zipWith_of_lt _ _ _ k (by simp [hls]; omega) (by omega) 0 0 0,
      getD_zipWith_of_lt _ _ _ k (by omega) (by omega) 0 0 0, muleach_entry_eq,
      ite_lt_eq_min, pow_two]
  have e_k : ksi.getD k 0
      = ksi_bin p.aa p.ksi_min (p.Xk_prev.getD k 0) (p.noise_mu2.getD k 0)
        (gammak.getD k 0) := by
    rw [hkd]
    unfold ksi_dd ksi_bin
    rw [getD_zipWith_of_lt _ _ _ k (by rw [List.length_zip, hlx, hlm]; simpa using hkn)
      (by rw [hlg]; exact hkn) (0, 0) 0 0]
    have : (List.zip p.Xk_prev p.noise_mu2).getD k (0, 0)
        = (p.Xk_prev.getD k 0, p.noise_mu2.getD k 0) := by
      unfold List.zip
      exact getD_zipWith_of_lt _ _ _ k (by omega) (by omega) 0 0 (0, 0)
    rw [this]
  have e_A : A.getD k 0 = A_bin (ksi.getD k 0) := by
    rw [hAd]
    unfold A_bin
    rw [getD_zipWith_of_lt _ _ _ k (by rw [hlk]; exact hkn)
      (by unfold add; rw [List.length_map, hlk]; exact hkn) 0 0 0]
    unfold add
    rw [getD_map_of_lt _ _ k (by rw [hlk]; exact hkn) 0 0]
  have e_v : vk.getD k 0 = A_bin (ksi.getD k 0) * gammak.getD k 0 := by
    rw [hvd, getD_zipWith_of_lt _ _ _ k (by rw [hlA]; exact hkn) (by rw [hlg]; exact hkn) 0 0 0,
      e_A, muleach_entry_eq]
  have e_h : hw.getD k 0 = gain_bin B (A_bin (ksi.getD k 0)) (gammak.getD k 0) := by
    rw [hhd]
    unfold gain_bin npexp mul scipyspecialexpn
    rw [getD_zipWith_of_lt _ _ _ k (by rw [hlA]; exact hkn)
        (by rw [List.length_map, List.length_map, List.length_map, hlv]; exact hkn) 0 0 0,
      getD_map_of_lt _ _ k (by rw [List.length_map, List.length_map, hlv]; exact hkn) 0 0,
      getD_map_of_lt _ _ k (by rw [List.length_map, hlv]; exact hkn) 0 0,
      getD_map_of_lt _ _ k (by rw [hlv]; exact hkn) 0 0,
      e_v, e_A, muleach_entry_eq, mul_comm (B.expn _) (1 / 2)]
  have e_sh : (List.zipWith muleach_entry sig hw).getD k 0 = sig.getD k 0 * hw.getD k 0 := by
    rw [getD_zipWith_of_lt muleach_entry sig hw k (by omega) (by omega) 0 0 0,
      muleach_entry_eq]
  have e_X : (List.zipWith muleach_entry (List.zipWith muleach_entry sig hw)
      (List.zipWith muleach_entry sig hw)).getD k 0
      = (hw.getD k 0 * sig.getD k 0) ^ 2 := by
    rw [getD_zipWith_of_lt muleach_entry _ _ k
      (by rw [List.length_zipWith, hls, hlhw, min_self]; exact hkn)
      (by rw [List.length_zipWith, hls, hlhw, min_self]; exact hkn) 0 0 0,
      e_sh, muleach_entry_eq]
    ring
  obtain ⟨b1, b2, b3, b4, b5, b6, b7⟩ := gain_chain_bounds (sig.getD k 0)
    (p.noise_mu2.getD k 0) (p.Xk_prev.getD k 0) p.aa p.ksi_min hmu hk
  have hgb : gammak.getD k 0
      = min (sig.getD k 0 * sig.getD k 0 / p.noise_mu2.getD k 0) 40 := by
    rw [e_g]
    unfold gamma_bin
    rw [pow_two]
  have hkb : ksi.getD k 0 = max (p.aa * p.Xk_prev.getD k 0 / p.noise_mu2.getD k 0
      + (1 - p.aa) * max (min (sig.getD k 0 * sig.getD k 0 / p.noise_mu2.getD k 0) 40 - 1) 0)
      p.ksi_min := by
    rw [e_k, hgb]
    rfl
  refine ⟨e_g, e_k, e_h, ?_, ?_, ?_, ?_, ?_, ?_, ?_, e_X⟩
  · rw [hgb]; exact b1
  · rw [hgb]; exact b2
  · rw [hkb]; exact b3
  · rw [hkb]; exact b4
  · rw [hkb]; exact b5
  · rw [hkb, hgb]; exact b6
  · rw [hkb, hgb]; exact b7



theorem warm_session_WF : warm_session.WF :=
  { len2_pos := by decide, len1_eq := rfl, Slen_eq := rfl, nFFT_eq := rfl, win_len := rfl,
    fwd_size := rfl, rev_size := rfl, mu2_len := rfl, sums_len := rfl, devs_len := rfl,
    x_old_len := rfl,
    hist_len := fun f hf => by rw [List.eq_of_mem_replicate hf]; rfl,
    dev_len := fun f hf => by rw [List.eq_of_mem_replicate hf]; rfl,
    Xk_ok := Or.inl rfl }

/-- The statement of C18 on `warm_session` (floor `5`, `Xk_prev = [4, 1, 4, 4]`) and the
magnitudes `loud_sig`, read at bin `0`: `gamma = min(3^2 / 5, 40)`. -/
theorem decision_directed_gain_witness :
    ∃ gammak ksi hw Xk hop tail, frame_gammak warm_session loud_sig = some gammak ∧
      frame_ksi warm_session gammak = some ksi ∧ frame_hw ratBackend ksi gammak = some hw ∧
      frame_gain ratBackend warm_session loud_sig = some hw ∧
      frame_synthesis ratBackend warm_session loud_spec loud_sig hw = some (Xk, hop, tail) ∧
      gammak.getD 0 0 = gamma_bin 3 5 ∧
      ksi.getD 0 0 = ksi_bin (98 / 100) (1 / 316) 4 5 (gammak.getD 0 0) ∧
      hw.getD 0 0 = gain_bin ratBackend (A_bin (ksi.getD 0 0)) (gammak.getD 0 0) ∧
      0 < A_bin (ksi.getD 0 0) ∧ A_bin (ksi.getD 0 0) < 1 ∧
      Xk.getD 0 0 = (hw.getD 0 0 * 3) ^ 2 := by
  obtain ⟨gammak, ksi, hw, Xk, hop, tail, h1, h2, h3, h4, h5, hbin⟩ :=
    decision_directed_gain ratBackend warm_session ratBackend_lawful warm_session_WF loud_spec
      loud_sig rfl rfl (by decide!) (by norm_num [warm_session, stable_session])
  obtain ⟨b1, b2, b3, _, _, _, b7, b8, _, _, b11⟩ := hbin 0 (by decide)
    (by norm_num [warm_session, stable_session])
  exact ⟨gammak, ksi, hw, Xk, hop, tail, h1, h2, h3, h4, h5, b1, b2, b3, b7, b8, b11⟩

/-- C15: the analysis window built by `logmmse_sample` has length `Slen`; for `Srate <= 24000`
(with `Slen > 2`) it is the Hann window `0.5 - 0.5 * cos(2 * pi * i / (Slen - 1))` times
`len2 / ((Slen - 1) / 2)`, rescaled so that the sum of its entries equals `len2`; for
`Srate > 24000` every entry is exactly `1`.  The first half `sample_init` of `logmmse_sample`
builds the window and returns for every `Srate >= 50`; `logmmse_sample` keeps it. -/
theorem analysis_window (Srate : Int) (params : SavedParamsC ℝ) :
    (50 ≤ Srate → ∃ p0, sample_init realBackend Srate params = some p0) ∧
    ∀ p0, sample_init realBackend Srate params = some p0 → (p0.win.length : Int) = p0.Slen ∧
      (Srate ≤ 24000 → 2 < p0.Slen →
        (∀ i, i < p0.Slen.toNat → p0.win.getD i 0 =
            (p0.len2 : ℝ) / (((p0.Slen : ℝ) - 1) / 2)
              * (1 / 2 - 1 / 2 * Real.cos (2 * Real.pi * (i : ℝ) / ((p0.Slen : ℝ) - 1))))
        ∧ npsum p0.win = (p0.len2 : ℝ)) ∧
      (24000 < Srate → ∀ w ∈ p0.win, w = 1) ∧
      ∀ (x : List (complex_t ℝ)) (eta : ℝ) (noise_frames : Int) (p : SavedParamsC ℝ),
        logmmse_sample realBackend x Srate eta params noise_frames = some p →
        p.win = p0.win ∧ p.Slen = p0.Slen ∧ p.len2 = p0.len2 := by
  refine ⟨fun hS => sample_init_ok realBackend Srate params hS, ?_⟩
  intro p0 hp0
  obtain ⟨_, _, _, _, i5, _, _, _, _, _, _, _, _, hwin, _⟩ :=
    sample_init_spec realBackend Srate params p0 hp0
  refine ⟨i5, ?_, ?_, ?_⟩
  · intro h24 h2
    rw [if_pos (by simpa using h24)] at hwin
    obtain ⟨N, hN⟩ : ∃ N : Nat, p0.Slen = (N : Int) := ⟨p0.Slen.toNat, by omega⟩
    have hN3 : 3 ≤ N := by omega
    have hS1 : ((p0.Slen : ℝ) - 1) = ((N : ℝ) - 1) := by rw [hN]; push_cast; rfl
    have hpos : (0 : ℝ) < ((N : ℝ) - 1) / 2 := by
      have : (3 : ℝ) ≤ (N : ℝ) := by exact_mod_cast hN3
      linarith
    have hhann : nphanning realBackend p0.Slen = (List.range N).map (fun (i : Nat) =>
        (1 : ℝ) / 2 - 1 / 2 * Real.cos (2 * Real.pi * (i : ℝ) / (((N : Int) - 1 : Int) : ℝ))) := by
      unfold nphanning
      rw [hN, Int.toNat_ofNat]
      rfl
    have hsum : npsum (nphanning realBackend p0.Slen) = ((N : ℝ) - 1) / 2 := by
      rw [hhann, npsum_map_range, hann_sum N hN3]
    have hc : ((((N : Int) - 1 : Int)) : ℝ) = (N : ℝ) - 1 := by push_cast; rfl
    have hne : (N : ℝ) - 1 ≠ 0 := by linarith
    have hwin2 : p0.win = (List.range N).map (fun (i : Nat) =>
        (p0.len2 : ℝ) / (((N : ℝ) - 1) / 2)
          * (1 / 2 - 1 / 2 * Real.cos (2 * Real.pi * (i : ℝ) / ((N : ℝ) - 1)))) := by
      rw [hwin, hsum, hhann]
      unfold div mul
      rw [List.map_map, List.map_map]
      apply List.map_congr_left
      intro i _
      simp only [Function.comp, hc]
      field_simp
      ring
    constructor
    · intro i hi
      have hiN : i < N := by omega
      rw [hS1, hwin2, getD_map_of_lt _ _ i (by rw [List.length_range]; exact hiN) 0 0]
      have : (List.range N).getD i 0 = i := by
        rw [List.getD_eq_getElem?_getD, List.getElem?_range hiN]
        rfl
      rw [this]
    · rw [hwin2, npsum_map_range, ← Finset.mul_sum]
      have := hann_sum N hN3
      rw [hc] at this
      rw [this]
      field_simp
  · intro h24 w hw
    rw [if_neg (by simp; omega)] at hwin
    rw [hwin] at hw
    exact List.eq_of_mem_replicate hw
  · intro x eta noise_frames p hp
    obtain ⟨p0b, hp0b, e1, e2, e3⟩ :=
      logmmse_sample_win realBackend x Srate eta params noise_frames p hp
    rw [hp0] at hp0b
    have e := Option.some.inj hp0b
    subst e
    exact ⟨e1, e2, e3⟩

/-- The statement of C15 at `Srate = 8000`: `Slen = 160`, a window of 160 entries whose sum is
`len2 = 80`. -/
theorem analysis_window_witness :
    ∃ p0, sample_init realBackend 8000 (fresh ℝ) = some p0 ∧ p0.Slen = 160 ∧ p0.len2 = 80 ∧
      (p0.win.length : Int) = 160 ∧ npsum p0.win = 80 ∧
      p0.win.getD 0 0 = 80 / ((160 - 1) / 2)
        * (1 / 2 - 1 / 2 * Real.cos (2 * Real.pi * ((0 : Nat) : ℝ) / (160 - 1))) := by
  obtain ⟨hex, hall⟩ := analysis_window 8000 (fresh ℝ)
  obtain ⟨p0, hp0⟩ := hex (by decide)
  obtain ⟨hlen, haud, _, _⟩ := hall p0 hp0
  have hsz := sample_init_sizes realBackend 8000 (fresh ℝ) p0 hp0
  have hv : sample_sizes 8000 = (160, 80, 80, 320) := by decide
  rw [hv] at hsz
  obtain ⟨e1, e2⟩ := Prod.mk.inj hsz
  obtain ⟨_, e3⟩ := Prod.mk.inj e2
  obtain ⟨e4, _⟩ := Prod.mk.inj e3
  obtain ⟨hent, hsum⟩ := haud (by decide) (by rw [e1]; decide)
  have h0 := hent 0 (by rw [e1]; decide)
  rw [e1, e4] at h0
  rw [e4] at hsum
  rw [e1] at hlen
  refine ⟨p0, hp0, e1, e4, hlen, by rw [hsum]; norm_num, ?_⟩
  rw [h0]
  norm_num

end logmmse

end dsp

/-! ## The claims on the wide-regime update, the frame loop and the moving average -/

namespace dsp

namespace logmmse

open arrays

variable {α : Type} [LinearOrderedField α]

theorem getD_zero_repair_from (prev : α) (l : List α) :
    ∀ z, z < l.length →
      (zero_repair_from prev l).getD z 0
        = if l.getD z 0 = 0 then (if z = 0 then prev else (zero_repair_from prev l).getD (z - 1) 0)
          else l.getD z 0 := by
  induction l generalizing prev with
  | nil => intro z hz; exact absurd hz (Nat.not_lt_zero _)
  | cons s rest ih =>
    intro z hz
    cases z with
    | zero =>
      simp only [zero_repair_from, List.getD_cons_zero, if_true]
    | succ z =>
      have hz1 : z < rest.length := by simpa using hz
      simp only [zero_repair_from, List.getD_cons_succ, Nat.add_sub_cancel]
      rw [ih _ z hz1]
      cases z with
      | zero => simp only [List.getD_cons_zero, if_true, Nat.succ_ne_zero, if_false]
      | succ z => simp only [List.getD_cons_succ, Nat.succ_ne_zero, if_false, Nat.add_sub_cancel]

theorem zero_repair_from_ne_zero (prev : α) (hp : prev ≠ 0) (l : List α) :
    ∀ v ∈ zero_repair_from prev l, v ≠ 0 := by
  induction l generalizing prev with
  | nil => intro v hv; exact absurd hv (List.not_mem_nil _)
  | cons s rest ih =>
    intro v hv
    simp only [zero_repair_from, List.mem_cons] at hv
    have h1 : (if s = 0 then prev else s) ≠ 0 := by
      split
      · exact hp
      · assumption
    rcases hv with rfl | hv
    · exact h1
    · exact ih _ h1 v hv

/-- C25: the zero-repair pass of `logmmse_all` (the vector `sig` of every frame is
`zero_repair` of the magnitudes of the spectrum) keeps the length, leaves bin 0 and every
non-zero bin unchanged and replaces every zero bin `z >= 1` by the already repaired value of bin
`z - 1`; consequently, for every magnitude vector whose bin 0 is non-zero, the repaired vector
contains no zero entry. -/
theorem zero_repair_fills_from_left (l : List α) :
    (∀ (B : Backend α) (x : List (complex_t α)) (p : SavedParamsC α) (k : Int)
        (a : List (complex_t α) × List α), frame_analysis B x p k = some a →
          a.2 = zero_repair (npabsolute B a.1)) ∧
      (zero_repair l).length = l.length ∧
      (zero_repair l).getD 0 0 = l.getD 0 0 ∧
      (∀ z, l.getD z 0 ≠ 0 → (zero_repair l).getD z 0 = l.getD z 0) ∧
      (∀ z, 1 ≤ z → z < l.length → l.getD z 0 = 0 →
        (zero_repair l).getD z 0 = (zero_repair l).getD (z - 1) 0) ∧
      (l.getD 0 0 ≠ 0 → ∀ v ∈ zero_repair l, v ≠ 0) := by
  refine ⟨?_, length_zero_repair l, ?_, ?_, ?_, ?_⟩
  · intro B x p k a h
    unfold frame_analysis at h
    cases h1 : nparange_c x k (k + p.Slen) with
    | none => rw [h1] at h; exact absurd h (by simp)
    | some seg =>
      rw [h1] at h
      simp only [Option.some_bind] at h
      cases h2 : muleach_c p.win seg with
      | none => rw [h2] at h; exact absurd h (by simp)
      | some insign =>
        rw [h2] at h
        simp only [Option.some_bind] at h
        rw [← Option.some.inj h]
  · cases l <;> rfl
  · intro z hz
    cases l with
    | nil => exact absurd rfl hz
    | cons s rest =>
      cases z with
      | zero => rfl
      | succ z =>
        have hz1 : z < rest.length := by
          by_contra hc
          apply hz
          rw [List.getD_cons_succ, List.getD_eq_default _ _ (not_lt.1 hc)]
        simp only [zero_repair, List.getD_cons_succ] at hz ⊢
        rw [getD_zero_repair_from s rest z hz1, if_neg hz]
  · intro z h1 hz h0
    cases l with
    | nil => exact absurd hz (Nat.not_lt_zero _)
    | cons s rest =>
      cases z with
      | zero => exact absurd h1 (by decide)
      | succ z =>
        have hz1 : z < rest.length := by simpa using hz
        simp only [zero_repair, List.getD_cons_succ, Nat.add_sub_cancel] at h0 ⊢
        rw [getD_zero_repair_from s rest z hz1, if_pos h0]
        cases z with
        | zero => simp only [if_true, List.getD_cons_zero]
        | succ z => simp only [Nat.succ_ne_zero, if_false, Nat.add_sub_cancel, List.getD_cons_succ]
  · intro h0 v hv
    cases l with
    | nil => exact absurd hv (List.not_mem_nil _)
    | cons s rest =>
      simp only [zero_repair, List.mem_cons] at hv
      rcases hv with rfl | hv
      · exact h0
      · exact zero_repair_from_ne_zero s h0 rest v hv

/-- The statement of C25 on the magnitudes `[3, 0, 0, 2, 0]`, repaired to `[3, 3, 3, 2, 2]`. -/
theorem zero_repair_fills_from_left_witness :
    zero_repair ([3, 0, 0, 2, 0] : List ℚ) = [3, 3, 3, 2, 2] ∧
      ∀ v ∈ zero_repair ([3, 0, 0, 2, 0] : List ℚ), v ≠ 0 :=
  ⟨by decide!, (zero_repair_fills_from_left ([3, 0, 0, 2, 0] : List ℚ)).2.2.2.2.2 (by decide!)⟩

theorem eq_of_all_eq (r v : List α) (c : α) (hl : r.length = v.length)
    (hr : ∀ y ∈ r, y = c) (hv : ∀ x ∈ v, x = c) : r = v := by
  rw [List.eq_replicate_of_mem hr, List.eq_replicate_of_mem hv, hl]

/-- C30, as amended: for every non-empty vector `v` and every even window size `W >= 2`,
`npmavg(v, W)` returns a vector of the length of `v`, whatever the rounding `fl` of its float
operations: no `abort()`, no index outside `v`, and every count it divides by is at least 1.
In exact arithmetic (`fl` the identity) every output entry is the mean of a non-empty set of
distinct entries of `v` and lies between `min(v)` and `max(v)`, a constant vector is returned
unchanged and a strictly positive input gives a strictly positive output. -/
theorem npmavg_returns_means (v : List α) (W : Int) (hv : v ≠ []) (hW : 2 ≤ W)
    (hE : W % 2 = 0) :
    (∀ fl : α → α, ∃ r, npmavg_fl fl v W = some r ∧ r.length = v.length) ∧
      (∀ (fl : α → α) (T : Nat) (st : α × Int × List α),
        (T : Int) ≤ (v.length : Int) + W.tdiv 2 →
        (List.range T).foldlM (npmavg_step_fl fl v W) ((0 : α), (0 : Int), ([] : List α))
          = some st →
        W.tdiv 2 < (T : Int) → 1 ≤ st.2.1) ∧
      npmavg_fl id v W = npmavg v W ∧
      ∃ r lo hi, npmavg v W = some r ∧ r.length = v.length ∧ v.min? = some lo ∧
        v.max? = some hi ∧
        (∀ y ∈ r, IsMeanOf v y) ∧ (∀ y ∈ r, lo ≤ y ∧ y ≤ hi) ∧
        ((∀ x ∈ v, x = v.getD 0 0) → r = v) ∧ ((∀ x ∈ v, 0 < x) → ∀ y ∈ r, 0 < y) := by
  obtain ⟨r, hr, hl, hm⟩ := npmavg_ok v W (by omega)
  have hpos : 0 < v.length := List.length_pos.2 hv
  obtain ⟨lo, hlo⟩ := min?_isSome_of_length_pos v hpos
  obtain ⟨hi, hhi⟩ := max?_isSome_of_length_pos v hpos
  refine ⟨fun fl => npmavg_fl_ok fl v W (by omega), ?_, npmavg_fl_id v W,
    r, lo, hi, hr, hl, hlo, hhi, hm, ?_, ?_, ?_⟩
  · intro fl T st hT hst hlt
    obtain ⟨st1, hst1, _, _, hc⟩ := npmavg_fl_fold_ok fl v W (by omega) T hT
    rw [hst] at hst1
    rw [Option.some.inj hst1]
    exact hc hlt
  · intro y hy
    exact ⟨IsMeanOf_ge v y lo (min?_spec v lo hlo).2 (hm y hy),
      IsMeanOf_le v y hi (max?_spec v hi hhi).2 (hm y hy)⟩
  · intro hc
    refine eq_of_all_eq r v (v.getD 0 0) hl ?_ hc
    intro y hy
    exact le_antisymm (IsMeanOf_le v y _ (fun x hx => le_of_eq (hc x hx)) (hm y hy))
      (IsMeanOf_ge v y _ (fun x hx => le_of_eq (hc x hx).symm) (hm y hy))
  · intro hp y hy
    exact IsMeanOf_pos v y hp (hm y hy)

/-- The statement of the amended C30 on `[1, 2, 3, 4, 5, 6, 7, 8]` with the window 6 of the
audio regime, in exact arithmetic and with the binary32 rounding `round32`. -/
theorem npmavg_returns_means_witness :
    ([1, 2, 3, 4, 5, 6, 7, 8] : List ℚ) ≠ [] ∧ (2 : Int) ≤ 6 ∧ (6 : Int) % 2 = 0 ∧
      npmavg ([1, 2, 3, 4, 5, 6, 7, 8] : List ℚ) 6 = some [5 / 2, 3, 7 / 2, 4, 5, 16 / 3, 27 / 5, 5] ∧
      (∃ r, npmavg_fl round32 ([1, 2, 3, 4, 5, 6, 7, 8] : List ℚ) 6 = some r ∧ r.length = 8) ∧
      ∃ r lo hi, npmavg ([1, 2, 3, 4, 5, 6, 7, 8] : List ℚ) 6 = some r ∧ r.length = 8 ∧
        ([1, 2, 3, 4, 5, 6, 7, 8] : List ℚ).min? = some lo ∧
        ([1, 2, 3, 4, 5, 6, 7, 8] : List ℚ).max? = some hi ∧ ∀ y ∈ r, lo ≤ y ∧ y ≤ hi := by
  obtain ⟨hfl, _, _, r, lo, hi, h1, h2, h3, h4, _, h6, _⟩ :=
    npmavg_returns_means ([1, 2, 3, 4, 5, 6, 7, 8] : List ℚ) 6 (by simp) (by decide) (by decide)
  exact ⟨by simp, by decide, by decide, by decide!, hfl round32, r, lo, hi, h1, h2, h3, h4, h6⟩

/-- C30 fails as stated: with the binary32 rounding of the running sum, `npmavg` on the
strictly positive vector `[16777216, 1, 1, 1, 1, 1]` (every entry a binary32 value) with
`W = 2` returns `[8388608, 5592405.5, 0, 0, 0, -0.5]`, since `16777216 + 1` rounds to
`16777216`: three outputs are `0` and the last is negative, below the minimum `1` of `v`; and the
constant vector of twelve entries `0.1f = 13421773 / 2^27` with `W = 6` is not returned
unchanged. -/
theorem npmavg_float_sum_leaves_range :
    ([16777216, 1, 1, 1, 1, 1] : List ℚ) ≠ [] ∧ (2 : Int) ≤ 2 ∧ (2 : Int) % 2 = 0 ∧
      (∀ x ∈ ([16777216, 1, 1, 1, 1, 1] : List ℚ), round32 x = x ∧ 0 < x) ∧
      ([16777216, 1, 1, 1, 1, 1] : List ℚ).min? = some 1 ∧
      npmavg_fl round32 [16777216, 1, 1, 1, 1, 1] 2
        = some [8388608, 11184811 / 2, 0, 0, 0, -1 / 2] ∧
      ¬ (∀ y ∈ ([8388608, 11184811 / 2, 0, 0, 0, -1 / 2] : List ℚ), 1 ≤ y) ∧
      ¬ (∀ y ∈ ([8388608, 11184811 / 2, 0, 0, 0, -1 / 2] : List ℚ), 0 < y) ∧
      round32 (13421773 / 134217728) = 13421773 / 134217728 ∧
      npmavg_fl round32 (List.replicate 12 (13421773 / 134217728)) 6
        = some [13421773 / 134217728, 13421773 / 134217728, 13421773 / 134217728,
            6710887 / 67108864, 6710887 / 67108864, 6710887 / 67108864, 6710887 / 67108864,
            6710887 / 67108864, 6710887 / 67108864, 13421773 / 134217728,
            13421773 / 134217728, 13421773 / 134217728] ∧
      (6710887 / 67108864 : ℚ) ≠ 13421773 / 134217728 := by
  refine ⟨by simp, by decide, by decide, ?_, by decide!, by decide!, ?_, ?_, by decide!,
    by decide!, by norm_num⟩
  · intro x hx
    simp only [List.mem_cons, List.mem_singleton, List.not_mem_nil, or_false] at hx
    rcases hx with rfl | rfl | rfl | rfl | rfl | rfl <;> exact ⟨by decide!, by norm_num⟩
  · intro hall
    have := hall 0 (by simp)
    norm_num at this
  · intro hall
    have := hall 0 (by simp)
    norm_num at this

/-- C28: for every session initialised by `logmmse_sample` (also after any number of
`logmmse_all` calls; its `Slen` is at least 2) and every input `x`, every frame read
`x[k .. k + Slen)` of `logmmse_all` is within bounds (`k + Slen <= |x|` for every processed hop
`k = i * len2`), every hop written into the output lies within its `Nframes * len2` entries, and
the call returns: no bounds-checked access fails. -/
theorem frame_accesses_in_bounds (B : Backend α) (hB : B.Lawful) (p : SavedParamsC α)
    (hp : Reachable B p) (x : List (complex_t α)) (Srate : Int) (eta : α) :
    2 ≤ p.Slen ∧
      (∀ i : Nat, (i : Int) < Nframes p x.length →
        0 ≤ (i : Int) * p.len2 ∧ (i : Int) * p.len2 + p.Slen ≤ (x.length : Int) ∧
        (i : Int) * p.len2 + p.len1 ≤ Nframes p x.length * p.len2) ∧
      ∃ out q, logmmse_all B x Srate eta p = some (out, q) ∧
        (out.length : Int) = max 0 (Nframes p x.length) * p.len2 := by
  have h := WF_of_Reachable B hB p hp
  have h1 := h.Slen_eq
  have h2 := h.len2_pos
  have h3 := h.len1_eq
  refine ⟨by omega, ?_, ?_⟩
  · intro i hi
    refine ⟨Int.mul_nonneg (Int.natCast_nonneg _) (le_of_lt h2), Nframes_fit p h _ i hi, ?_⟩
    rw [h3]
    have : ((i : Int) + 1) * p.len2 ≤ Nframes p x.length * p.len2 :=
      Int.mul_le_mul_of_nonneg_right (by omega) (le_of_lt h2)
    linarith
  · obtain ⟨p1, hops, q, _, _, hall, hlen, _⟩ := logmmse_all_ok B hB x Srate eta p h
    refine ⟨hops, q, hall, ?_⟩
    rw [hlen]
    push_cast
    rw [Int.toNat_of_nonneg (le_of_lt h2)]
    congr 1
    omega

/-- The statement of C28 on the session bootstrapped from `boot_in` at `Srate = 100`
(`Slen = 2`, `len2 = 1`) and the five samples `sig_in`: three frames. -/
theorem frame_accesses_in_bounds_witness :
    ∃ p, logmmse_sample ratBackend boot_in 100 1 (fresh ℚ) 1 = some p ∧ 2 ≤ p.Slen ∧
      (∀ i : Nat, (i : Int) < Nframes p sig_in.length →
        0 ≤ (i : Int) * p.len2 ∧ (i : Int) * p.len2 + p.Slen ≤ (sig_in.length : Int) ∧
        (i : Int) * p.len2 + p.len1 ≤ Nframes p sig_in.length * p.len2) ∧
      ∃ out q, logmmse_all ratBackend sig_in 100 1 p = some (out, q) ∧
        (out.length : Int) = max 0 (Nframes p sig_in.length) * p.len2 := by
  obtain ⟨p, hp⟩ := sample_exists ratBackend ratBackend_lawful boot_in 100 1 (fresh ℚ) 1
    (by decide) (by decide)
  exact ⟨p, hp, frame_accesses_in_bounds ratBackend ratBackend_lawful p
    (Reachable.sample boot_in 100 1 (fresh ℚ) 1 p hp) sig_in 100 1⟩

theorem run_frames_split_at (B : Backend α) (hB : B.Lawful) (x : List (complex_t α))
    (p1 : SavedParamsC α) (h : p1.WF) (N i : Nat) (hi : i < N)
    (hfit : ∀ j, j < N → ((j : Int) * p1.len2 + p1.Slen ≤ (x.length : Int)))
    (hops : List (complex_t α)) (q : SavedParamsC α)
    (hrun : run_frames B x 0 N p1 = some (hops, q)) :
    ∃ pre pi hop qi post, run_frames B x 0 i p1 = some (pre, pi)
      ∧ frame_step B x pi ((i : Int) * p1.len2) = some (hop, qi)
      ∧ run_frames B x (i + 1) (N - i - 1) qi = some (post, q)
      ∧ hops = pre ++ hop ++ post ∧ pre.length = i * p1.len2.toNat
      ∧ pi.WF ∧ pi.config = p1.config := by
  have h2 := h.len2_pos
  obtain ⟨L, hL⟩ : ∃ L : Nat, p1.len2 = (L : Int) := ⟨p1.len2.toNat, by omega⟩
  have hLpos : 0 < L := by omega
  obtain ⟨pre, pi, hpre, hprelen, hpiWF, _, hpicfg, _⟩ :=
    run_frames_ok B hB x L hLpos i 0 p1 (List.replicate (i * L) complex_t.zero) h hL
      (fun j _ hj => hfit j (by omega)) (by rw [List.length_replicate, Nat.zero_add])
  have hN : N = i + ((N - i - 1) + 1) := by omega
  rw [hN, run_frames_append, hpre] at hrun
  simp only [Option.some_bind, Nat.zero_add] at hrun
  rw [run_frames] at hrun
  obtain ⟨_, _, hpl, _⟩ := config_fields p1 pi hpicfg
  rw [hpl] at hrun
  cases hst : frame_step B x pi ((i : Int) * p1.len2) with
  | none => rw [hst] at hrun; exact absurd hrun (by simp)
  | some r =>
    obtain ⟨hop, qi⟩ := r
    rw [hst] at hrun
    simp only [Option.some_bind] at hrun
    cases hrest : run_frames B x (i + 1) (N - i - 1) qi with
    | none => rw [hrest] at hrun; exact absurd hrun (by simp)
    | some r2 =>
      obtain ⟨post, q2⟩ := r2
      rw [hrest] at hrun
      simp only [Option.some_bind] at hrun
      obtain ⟨e1, e2⟩ := Prod.mk.inj (Option.some.inj hrun)
      refine ⟨pre, pi, hop, qi, post, hpre, hst, ?_, ?_, ?_, hpiWF, hpicfg⟩
      · rw [hrest, e2]
      · rw [← e1, List.append_assoc]
      · rw [hprelen, hL, Int.toNat_natCast]

/-- C26: for the `i`-th frame of a `logmmse_all` call (`k = i * len2`), with `y` the normalised
inverse FFT of `hw * spec`: the hop written at `output[k .. k + len1)` is `x_old_before +
y[0 .. len1)` elementwise and `x_old_after = y[len1 .. Slen)`; `x_old` has length `len1 = len2`
before and after the frame, and the output is the hops in input order, contiguous and without
overlap (`pre` holds the hops of the frames before `i`, `post` those of the frames after). -/
theorem overlap_add_hop (B : Backend α) (hB : B.Lawful) (p : SavedParamsC α)
    (hp : Reachable B p) (x : List (complex_t α)) (Srate : Int) (eta : α) (i : Nat)
    (hi : (i : Int) < Nframes p x.length) :
    ∃ p1 pre pi hop qi post q spec sig hw,
      p.update_noise_mu2 = some p1 ∧ run_frames B x 0 i p1 = some (pre, pi) ∧
      frame_step B x pi ((i : Int) * p.len2) = some (hop, qi) ∧
      run_frames B x (i + 1) ((Nframes p x.length).toNat - i - 1) qi = some (post, q) ∧
      logmmse_all B x Srate eta p = some (pre ++ hop ++ post, q) ∧
      (pre.length : Int) = (i : Int) * p.len2 ∧ (hop.length : Int) = p.len1 ∧
      ((pre ++ hop ++ post).drop ((i : Int) * p.len2).toNat).take p.len1.toNat = hop ∧
      p.len1 = p.len2 ∧ (pi.x_old.length : Int) = p.len1 ∧ (qi.x_old.length : Int) = p.len1 ∧
      frame_analysis B x pi ((i : Int) * p.len2) = some (spec, sig) ∧
      frame_gain B (pi.pushed sig) sig = some hw ∧
      hop = List.zipWith complex_t.add pi.x_old ((frame_xi B pi spec hw).take p.len1.toNat) ∧
      qi.x_old = ((frame_xi B pi spec hw).drop p.len1.toNat).take (p.Slen - p.len1).toNat := by
  have h := WF_of_Reachable B hB p hp
  obtain ⟨p1, hops, q, hup, hrun, hall, hlen, hWF1, hcfg1, _⟩ :=
    logmmse_all_ok B hB x Srate eta p h
  obtain ⟨hS1, hl11, hl21, _⟩ := config_fields p p1 hcfg1
  obtain ⟨pre, pi, hop, qi, post, hpre, hst, hpost, hcat, hprelen, hpiWF, hpicfg⟩ :=
    run_frames_split_at B hB x p1 hWF1 (Nframes p x.length).toNat i (by omega)
      (fun j hj => by
        rw [hl21, hS1]
        exact Nframes_fit p h _ j (by omega)) hops q hrun
  obtain ⟨hS2, hl12, hl22, _⟩ := config_fields p1 pi hpicfg
  rw [hl21] at hst hprelen
  have h1 := h.Slen_eq
  have h2 := h.len2_pos
  have h3 := h.len1_eq
  have hk : (0 : Int) ≤ (i : Int) * p.len2 := Int.mul_nonneg (Int.natCast_nonneg _) (le_of_lt h2)
  have hfit : (i : Int) * p.len2 + pi.Slen ≤ (x.length : Int) := by
    rw [hS2, hS1]
    exact Nframes_fit p h _ i hi
  obtain ⟨spec, sig, hw, han, _, _, hgain, _, hsiglen, _, hstep⟩ :=
    frame_step_eq B hB x pi _ hpiWF hk hfit
  have hst0 := hst
  rw [hstep] at hst
  obtain ⟨e1, e2⟩ := Prod.mk.inj (Option.some.inj hst)
  have hl1 : pi.len1 = p.len1 := by rw [hl12, hl11]
  have hSl : pi.Slen = p.Slen := by rw [hS2, hS1]
  obtain ⟨hop1, qi1, hst1, hhoplen, hqiWF⟩ := frame_step_ok B hB x pi _ hpiWF hk hfit
  rw [hstep] at hst1
  obtain ⟨e3, e4⟩ := Prod.mk.inj (Option.some.inj hst1)
  have ehop : hop = hop1 := e1.symm.trans e3
  have eqi : qi = qi1 := e2.symm.trans e4
  have hhop : (hop.length : Int) = p.len1 := by
    rw [ehop, hhoplen, hl22, hl21, h3]
  have hqx : (qi.x_old.length : Int) = p.len1 := by
    have := hqiWF.x_old_len
    have hc : qi.len1 = pi.len1 := by rw [← e2]; rfl
    rw [eqi] at hc ⊢
    rw [this, hc, hl1]
  rw [hl1] at e1
  have hprelen2 : (pre.length : Int) = (i : Int) * p.len2 := by
    rw [hprelen]
    push_cast
    rw [Int.toNat_of_nonneg (le_of_lt h2)]
  refine ⟨p1, pre, pi, hop, qi, post, q, spec, sig, hw, hup, hpre, ?_, hpost, ?_, hprelen2,
    hhop, ?_, h3, ?_, hqx, han, hgain, e1.symm, ?_⟩
  · exact hst0
  · rw [← hcat]; exact hall
  · have ea : ((i : Int) * p.len2).toNat = pre.length := by omega
    have eb : p.len1.toNat = hop.length := by omega
    rw [ea, eb, List.append_assoc, List.drop_left, List.take_left]
  · have := hpiWF.x_old_len
    rw [this, hl1]
  · rw [← e2, hl1, hSl]

/-- The statement of C26 on the session bootstrapped from `boot_in` at `Srate = 100`
(`len1 = len2 = 1`) and the second of the three frames of `sig_in`. -/
theorem overlap_add_hop_witness :
    ∃ p, logmmse_sample ratBackend boot_in 100 1 (fresh ℚ) 1 = some p ∧
      ((1 : Nat) : Int) < Nframes p sig_in.length ∧
      ∃ p1 pre pi hop qi post q spec sig hw,
        p.update_noise_mu2 = some p1 ∧ run_frames ratBackend sig_in 0 1 p1 = some (pre, pi) ∧
        frame_step ratBackend sig_in pi (((1 : Nat) : Int) * p.len2) = some (hop, qi) ∧
        run_frames ratBackend sig_in (1 + 1) ((Nframes p sig_in.length).toNat - 1 - 1) qi
          = some (post, q) ∧
        logmmse_all ratBackend sig_in 100 1 p = some (pre ++ hop ++ post, q) ∧
        (pre.length : Int) = ((1 : Nat) : Int) * p.len2 ∧ (hop.length : Int) = p.len1 ∧
        ((pre ++ hop ++ post).drop (((1 : Nat) : Int) * p.len2).toNat).take p.len1.toNat = hop ∧
        p.len1 = p.len2 ∧ (pi.x_old.length : Int) = p.len1 ∧ (qi.x_old.length : Int) = p.len1 ∧
        frame_analysis ratBackend sig_in pi (((1 : Nat) : Int) * p.len2) = some (spec, sig) ∧
        frame_gain ratBackend (pi.pushed sig) sig = some hw ∧
        hop = List.zipWith complex_t.add pi.x_old
          ((frame_xi ratBackend pi spec hw).take p.len1.toNat) ∧
        qi.x_old = ((frame_xi ratBackend pi spec hw).drop p.len1.toNat).take
          (p.Slen - p.len1).toNat := by
  obtain ⟨p, hp⟩ := sample_exists ratBackend ratBackend_lawful boot_in 100 1 (fresh ℚ) 1
    (by decide) (by decide)
  have hN : ((1 : Nat) : Int) < Nframes p sig_in.length := by
    have hv : (logmmse_sample ratBackend boot_in 100 1 (fresh ℚ) 1).map
        (fun (r : SavedParamsC ℚ) => Nframes r sig_in.length) = some 3 := by decide!
    rw [hp] at hv
    have e : Nframes p sig_in.length = 3 := Option.some.inj hv
    rw [e]
    decide
  exact ⟨p, hp, hN, overlap_add_hop ratBackend ratBackend_lawful p
    (Reachable.sample boot_in 100 1 (fresh ℚ) 1 p hp) sig_in 100 1 1 hN⟩

/-- The final value of a bin that a triggered wide-regime update did not select, when some bin
was selected: the interpolation between the two neighbouring selected bins, or the value of the
first or of the last selected bin. -/
theorem unselected_bin_value (p q : SavedParamsC α) (h : p.WF) (ha : 1200 ≤ p.nFFT)
    (hn : 100 < p.noise_history.length) (hh : p.hold = false)
    (hq : p.update_noise_mu2 = some q) (hs : ∃ j, p.wide_selected j) (z : Nat)
    (hz : z < p.nFFT.toNat) (hnz : ¬ p.wide_selected z) :
    (∃ a1 b1 : Nat, a1 < z ∧ z < b1 ∧ p.wide_selected a1 ∧ p.wide_selected b1 ∧
        (∀ j, a1 < j → j < b1 → ¬ p.wide_selected j) ∧
        q.noise_mu2.getD z 0 = q.noise_mu2.getD a1 0
          + ((z : α) - (a1 : α)) * (q.noise_mu2.getD b1 0 - q.noise_mu2.getD a1 0)
            / ((b1 : α) - (a1 : α))) ∨
      (∃ a : Nat, z < a ∧ p.wide_selected a ∧ (∀ j, j < a → ¬ p.wide_selected j) ∧
        q.noise_mu2.getD z 0 = q.noise_mu2.getD a 0) ∨
      (∃ b : Nat, b < z ∧ p.wide_selected b ∧ (∀ j, b < j → ¬ p.wide_selected j) ∧
        q.noise_mu2.getD z 0 = q.noise_mu2.getD b 0) := by
  obtain ⟨q1, hq1, _, _, _, hyes⟩ := wide_update_spec p h ha hn hh
  rw [hq] at hq1
  have e := Option.some.inj hq1
  subst e
  obtain ⟨a, b, hab, hb, hSa, hSb, hza, hzb, _, hlow, hhigh, hgap⟩ := hyes hs
  rcases Nat.lt_or_ge z a with h1 | h1
  · exact Or.inr (Or.inl ⟨a, h1, hSa, hza, hlow z h1⟩)
  rcases Nat.lt_or_ge b z with h2 | h2
  · exact Or.inr (Or.inr ⟨b, h2, hSb, hzb, hhigh z h2 hz⟩)
  have hne1 : z ≠ a := fun e => hnz (e ▸ hSa)
  have hne2 : z ≠ b := fun e => hnz (e ▸ hSb)
  obtain ⟨a1, e1, e2, e3⟩ := nearest_below p.wide_selected z ⟨a, by omega, hSa⟩
  obtain ⟨b1, f1, f2, f3⟩ := nearest_above p.wide_selected z (b - z) b (by omega) (by omega) hSb
  have hbetween : ∀ j, a1 < j → j < b1 → ¬ p.wide_selected j := by
    intro j h5 h6
    rcases Nat.lt_trichotomy j z with h7 | h7 | h7
    · exact e3 j h5 h7
    · rw [h7]; exact hnz
    · exact f3 j h7 h6
  exact Or.inl ⟨a1, b1, e1, f1, e2, f2, hbetween, hgap a1 b1 z e1 f1 e2 f2 hbetween⟩

/-- C22: a triggered wide-regime update returns the session with `noise_mu2` replaced by the
result of the interpolation scan and the edge extension run on the selection vector, which holds
`meanMag[z]^2` in the bins with `devSq[z] < theta` and `0` elsewhere, for
`meanMag = sums / |hist|`, `devSq = (devs / |hist|)^2` after the centre masking and
`theta = 1.2 *` (the entry at index `floor(nFFT / 10)` of `devSq` sorted ascending).  Whenever at
least one bin is selected, every bin `z` with `devSq[z] < theta` and `meanMag[z] != 0` ends with
`noise_mu2[z] = meanMag[z]^2` (interpolation and extension never overwrite a selected bin), and
no bin with `devSq[z] >= theta` is assigned `meanMag[z]^2` directly: it ends with the
interpolation between its two neighbouring selected bins, or with the value of the first or of
the last selected bin. -/
theorem selected_bins_keep_square (p : SavedParamsC α) (h : p.WF) (ha : 1200 ≤ p.nFFT)
    (hn : 100 < p.noise_history.length) (hh : p.hold = false) :
    ∃ q, p.update_noise_mu2 = some q ∧
      q = { p with noise_mu2 :=
              if p.wide_scan.1 < 0 ∨ p.wide_scan.2.1 < 0 then p.noise_mu2
              else SavedParamsC.extend_edges p.wide_scan.2.2.2 p.wide_scan.1 p.wide_scan.2.1 } ∧
      p.wide_scan = (List.range p.nFFT.toNat).foldl SavedParamsC.scan_step
        ((-1 : Int), (-1 : Int), (0 : Int), p.wide_select) ∧
      (∀ z, p.wide_noiseAvg.getD z 0 = p.sums.getD z 0 / ((p.noise_history.length : Nat) : α)) ∧
      (∀ z, z < p.nFFT.toNat → p.wide_devs.getD z 0
        = if |((z : Int) - p.nFFT / 2)| < p.nFFT * 15 / 100 then (1000000 : α)
          else (p.devs.getD z 0 / ((p.noise_history.length : Nat) : α)) ^ 2) ∧
      p.acceptible_stdev
        = (hwy_sort_ascending p.wide_devs).getD (p.nFFT / 10).toNat 0 * (12 / 10) ∧
      (hwy_sort_ascending p.wide_devs).Sorted (fun a b => a ≤ b) ∧
      (hwy_sort_ascending p.wide_devs).Perm p.wide_devs ∧
      (∀ z, z < p.nFFT.toNat → p.wide_select.getD z 0
        = if p.wide_devs.getD z 0 < p.acceptible_stdev then p.wide_noiseAvg.getD z 0 ^ 2
          else 0) ∧
      ((∃ j, j < p.nFFT.toNat ∧ p.wide_devs.getD j 0 < p.acceptible_stdev
          ∧ p.wide_noiseAvg.getD j 0 ≠ 0) →
        (∀ z, z < p.nFFT.toNat → p.wide_devs.getD z 0 < p.acceptible_stdev →
          p.wide_noiseAvg.getD z 0 ≠ 0 → q.noise_mu2.getD z 0 = p.wide_noiseAvg.getD z 0 ^ 2) ∧
        ∀ z, z < p.nFFT.toNat → p.acceptible_stdev ≤ p.wide_devs.getD z 0 →
          (∃ a1 b1 : Nat, a1 < z ∧ z < b1 ∧ p.wide_selected a1 ∧ p.wide_selected b1 ∧
            (∀ j, a1 < j → j < b1 → ¬ p.wide_selected j) ∧
            q.noise_mu2.getD z 0 = q.noise_mu2.getD a1 0
              + ((z : α) - (a1 : α)) * (q.noise_mu2.getD b1 0 - q.noise_mu2.getD a1 0)
                / ((b1 : α) - (a1 : α))) ∨
          (∃ a : Nat, z < a ∧ p.wide_selected a ∧ (∀ j, j < a → ¬ p.wide_selected j) ∧
            q.noise_mu2.getD z 0 = q.noise_mu2.getD a 0) ∨
          (∃ b : Nat, b < z ∧ p.wide_selected b ∧ (∀ j, b < j → ¬ p.wide_selected j) ∧
            q.noise_mu2.getD z 0 = q.noise_mu2.getD b 0)) := by
  have h0 : 0 ≤ p.nFFT := by omega
  obtain ⟨q, hq, _, _, _, hyes⟩ := wide_update_spec p h ha hn hh
  have heq : q = { p with noise_mu2 :=
      if p.wide_scan.1 < 0 ∨ p.wide_scan.2.1 < 0 then p.noise_mu2
      else SavedParamsC.extend_edges p.wide_scan.2.2.2 p.wide_scan.1 p.wide_scan.2.1 } := by
    have h1 := hq
    rw [update_due_wide p hn hh ha, update_wide_eq p h0 (le_of_eq h.mu2_len.symm)
      (le_of_eq h.sums_len.symm) (le_of_eq h.devs_len.symm)] at h1
    exact (Option.some.inj h1).symm
  refine ⟨q, hq, heq, rfl, getD_wide_noiseAvg p, ?_, ?_, ?_, ?_, ?_, ?_⟩
  · intro z hz
    rw [getD_wide_devs p h0 (le_of_eq h.devs_len.symm) z hz]
    by_cases hc : |((z : Int) - p.nFFT / 2)| < p.nFFT * 15 / 100
    · rw [if_pos hc, if_pos ((mask_tdiv p.nFFT h0 z).2 hc)]
    · rw [if_neg hc, if_neg (fun hd => hc ((mask_tdiv p.nFFT h0 z).1 hd))]
  · unfold SavedParamsC.acceptible_stdev
    rw [Int.tdiv_eq_ediv h0 (by norm_num)]
  · exact List.sorted_insertionSort (fun a b : α => a ≤ b) _
  · exact List.perm_insertionSort (fun a b : α => a ≤ b) _
  · intro z hz
    rw [getD_wide_select p h0 h.mu2_len z, sq]
    by_cases hc : p.wide_devs.getD z 0 < p.acceptible_stdev
    · rw [if_pos ⟨hz, hc⟩, if_pos hc]
    · rw [if_neg (fun hd => hc hd.2), if_neg hc]
  · rintro ⟨j, hj1, hj2, hj3⟩
    obtain ⟨a, b, _, _, _, _, _, _, hval, _⟩ := hyes ⟨j, hj1, hj2, hj3⟩
    refine ⟨fun z hz1 hz2 hz3 => hval z ⟨hz1, hz2, hz3⟩, ?_⟩
    intro z hz hge
    exact unselected_bin_value p q h ha hn hh hq ⟨j, hj1, hj2, hj3⟩ z hz
      (fun hc => absurd hc.2.1 (not_lt.2 hge))

/-- The statement of C22 on `burst_session`: the bin 0 is selected, and the centre bin 882,
whose masked squared deviation `1000000` is not below the threshold, is not. -/
theorem selected_bins_keep_square_witness :
    burst_session.WF ∧ (1200 : Int) ≤ burst_session.nFFT ∧
      100 < burst_session.noise_history.length ∧ burst_session.hold = false ∧
      burst_session.wide_selected 0 ∧
      burst_session.acceptible_stdev ≤ burst_session.wide_devs.getD 882 0 ∧
      ∃ q, burst_session.update_noise_mu2 = some q ∧
        (∀ z, z < burst_session.nFFT.toNat →
          burst_session.wide_devs.getD z 0 < burst_session.acceptible_stdev →
          burst_session.wide_noiseAvg.getD z 0 ≠ 0 →
          q.noise_mu2.getD z 0 = burst_session.wide_noiseAvg.getD z 0 ^ 2) ∧
        ((∃ a1 b1 : Nat, a1 < 882 ∧ 882 < b1 ∧ burst_session.wide_selected a1 ∧
            burst_session.wide_selected b1 ∧
            (∀ j, a1 < j → j < b1 → ¬ burst_session.wide_selected j) ∧
            q.noise_mu2.getD 882 0 = q.noise_mu2.getD a1 0
              + (((882 : Nat) : ℚ) - (a1 : ℚ))
                * (q.noise_mu2.getD b1 0 - q.noise_mu2.getD a1 0) / ((b1 : ℚ) - (a1 : ℚ))) ∨
          (∃ a : Nat, 882 < a ∧ burst_session.wide_selected a ∧
            (∀ j, j < a → ¬ burst_session.wide_selected j) ∧
            q.noise_mu2.getD 882 0 = q.noise_mu2.getD a 0) ∨
          (∃ b : Nat, b < 882 ∧ burst_session.wide_selected b ∧
            (∀ j, b < j → ¬ burst_session.wide_selected j) ∧
            q.noise_mu2.getD 882 0 = q.noise_mu2.getD b 0)) := by
  obtain ⟨d1, d2, d3⟩ := flat_session_due 101 1
  have hsel : burst_session.wide_selected 0 :=
    (flat_selected 101 1 (by norm_num) (by norm_num) 0).2 ⟨by decide, by omega⟩
  have hz : 882 < burst_session.nFFT.toNat := by
    show 882 < (1764 : Int).toNat
    decide
  have hge : burst_session.acceptible_stdev ≤ burst_session.wide_devs.getD 882 0 := by
    have hnot : ¬ burst_session.wide_selected 882 := fun hc =>
      ((flat_selected 101 1 (by norm_num) (by norm_num) 882).1 hc).2 ⟨by omega, by omega⟩
    have havg : burst_session.wide_noiseAvg.getD 882 0 ≠ 0 := by
      rw [burst_session, flat_noiseAvg 101 1 882 (by decide)]
      norm_num
    exact not_lt.1 (fun hc => hnot ⟨hz, hc, havg⟩)
  obtain ⟨q, hq, _, _, _, _, _, _, _, _, hv⟩ :=
    selected_bins_keep_square burst_session (flat_session_WF 101 1) d1 d2 d3
  obtain ⟨hv1, hv2⟩ := hv ⟨0, hsel.1, hsel.2.1, hsel.2.2⟩
  exact ⟨flat_session_WF 101 1, d1, d2, d3, hsel, hge, q, hq, hv1, hv2 882 hz hge⟩

/-- C23: after a wide-regime update in which at least one bin was selected, with `a` and `b`
the first and the last selected bin: every unselected bin `z` strictly between two neighbouring
selected bins `a1 < z < b1` holds
`noise_mu2[a1] + (z - a1) * (noise_mu2[b1] - noise_mu2[a1]) / (b1 - a1)`, every bin below `a`
equals the value of bin `a` and every bin above `b` equals the value of bin `b`, in exact
arithmetic. -/
theorem gaps_interpolated_edges_extended (p : SavedParamsC α) (h : p.WF) (ha : 1200 ≤ p.nFFT)
    (hn : 100 < p.noise_history.length) (hh : p.hold = false)
    (hs : ∃ z, p.wide_selected z) :
    ∃ q, p.update_noise_mu2 = some q ∧
      ∃ a b : Nat, a ≤ b ∧ b < p.nFFT.toNat ∧ p.wide_selected a ∧ p.wide_selected b ∧
        (∀ j, j < a → ¬ p.wide_selected j) ∧ (∀ j, b < j → ¬ p.wide_selected j) ∧
        (∀ a1 b1 z : Nat, a1 < z → z < b1 → p.wide_selected a1 → p.wide_selected b1 →
          (∀ j, a1 < j → j < b1 → ¬ p.wide_selected j) →
          q.noise_mu2.getD z 0 = q.noise_mu2.getD a1 0
            + ((z : α) - (a1 : α)) * (q.noise_mu2.getD b1 0 - q.noise_mu2.getD a1 0)
              / ((b1 : α) - (a1 : α))) ∧
        (∀ j, j < a → q.noise_mu2.getD j 0 = q.noise_mu2.getD a 0) ∧
        (∀ j, b < j → j < p.nFFT.toNat → q.noise_mu2.getD j 0 = q.noise_mu2.getD b 0) := by
  obtain ⟨q, hq, _, _, _, hyes⟩ := wide_update_spec p h ha hn hh
  obtain ⟨a, b, h1, h2, h3, h4, h5, h6, _, h8, h9, h10⟩ := hyes hs
  exact ⟨q, hq, a, b, h1, h2, h3, h4, h5, h6, h10, h8, h9⟩

/-- The statement of C23 on `burst_session`, whose selected bins are the bins outside
`619 .. 1145`: the bin 882 lies between the neighbouring selected bins 618 and 1146. -/
theorem gaps_interpolated_edges_extended_witness :
    burst_session.WF ∧ (1200 : Int) ≤ burst_session.nFFT ∧
      100 < burst_session.noise_history.length ∧ burst_session.hold = false ∧
      (∃ z, burst_session.wide_selected z) ∧
      ∃ q, burst_session.update_noise_mu2 = some q ∧
        q.noise_mu2.getD 882 0 = q.noise_mu2.getD 618 0
          + (((882 : Nat) : ℚ) - ((618 : Nat) : ℚ))
            * (q.noise_mu2.getD 1146 0 - q.noise_mu2.getD 618 0)
            / (((1146 : Nat) : ℚ) - ((618 : Nat) : ℚ)) := by
  obtain ⟨d1, d2, d3⟩ := flat_session_due 101 1
  have hsel : ∀ z, burst_session.wide_selected z ↔ z < 1764 ∧ ¬ (619 ≤ z ∧ z ≤ 1145) :=
    flat_selected 101 1 (by norm_num) (by norm_num)
  have hs : ∃ z, burst_session.wide_selected z := ⟨0, (hsel 0).2 ⟨by decide, by omega⟩⟩
  obtain ⟨q, hq, a, b, _, _, _, _, _, _, hgap, _⟩ :=
    gaps_interpolated_edges_extended burst_session (flat_session_WF 101 1) d1 d2 d3 hs
  exact ⟨flat_session_WF 101 1, d1, d2, d3, hs, q, hq,
    hgap 618 1146 882 (by decide) (by decide) ((hsel 618).2 ⟨by decide, by omega⟩)
      ((hsel 1146).2 ⟨by decide, by omega⟩) (fun j h1 h2 hc => ((hsel j).1 hc).2 ⟨by omega, by omega⟩)⟩

/-- C24, as amended: in a wide-regime update, if no bin ends up selected (no bin has
`devSq[z] < theta` with a non-zero `meanMag[z]^2`), `noise_mu2` after the call equals `noise_mu2`
before the call entry for entry (the session is unchanged); so it is left all zeros only if it
was all zeros before the call. -/
theorem fallback_keeps_floor (p : SavedParamsC α) (h : p.WF) (ha : 1200 ≤ p.nFFT)
    (hn : 100 < p.noise_history.length) (hh : p.hold = false)
    (hs : ∀ z, ¬ p.wide_selected z) :
    ∃ q, p.update_noise_mu2 = some q ∧ q.noise_mu2 = p.noise_mu2 ∧ q = p ∧
      ((∀ v ∈ q.noise_mu2, v = 0) ↔ (∀ v ∈ p.noise_mu2, v = 0)) := by
  obtain ⟨q, hq, hqp, _, hno, _⟩ := wide_update_spec p h ha hn hh
  have e := hno hs
  refine ⟨q, hq, e, ?_, by rw [e]⟩
  rw [hqp, e]

/-- The statement of the amended C24 on `idle_session`: a silent history, so no bin is selected,
and the floor `1` in every bin stays. -/
theorem fallback_keeps_floor_witness :
    idle_session.WF ∧ (1200 : Int) ≤ idle_session.nFFT ∧
      100 < idle_session.noise_history.length ∧ idle_session.hold = false ∧
      (∀ z, ¬ idle_session.wide_selected z) ∧
      ∃ q, idle_session.update_noise_mu2 = some q ∧ q.noise_mu2 = List.replicate 1764 1 := by
  obtain ⟨d1, d2, d3⟩ := flat_session_due 0 1
  obtain ⟨q, hq, e, _⟩ := fallback_keeps_floor idle_session (flat_session_WF 0 1) d1 d2 d3
    (flat_silent_not_selected 1)
  exact ⟨flat_session_WF 0 1, d1, d2, d3, flat_silent_not_selected 1, q, hq, e⟩

/-- C24 fails as stated: the bootstrap on 101 blocks of silence at `Srate = 44100`
(`nFFT = 1764`, wide regime) leaves 101 frames in the history and an all-zero floor; the update
is then due, no bin is selected, and the update leaves `noise_mu2` all zeros in its 1764
bins. -/
theorem fallback_leaves_zero_floor :
    ∃ p q, logmmse_sample realBackend long_silence_in 44100 1 (fresh ℝ) 101 = some p ∧
      (1200 : Int) ≤ p.nFFT ∧ 100 < p.noise_history.length ∧ p.hold = false ∧
      (∀ z, ¬ p.wide_selected z) ∧ p.update_noise_mu2 = some q ∧
      q.noise_mu2 = List.replicate 1764 0 ∧ q.noise_mu2.length = 1764 ∧
      ∀ v ∈ q.noise_mu2, v = 0 := by
  obtain ⟨p0, hp0⟩ := sample_init_ok realBackend 44100 (fresh ℝ) (by decide)
  obtain ⟨_, _, _, i4, _, _, _, _, _, _, _, _, hSl0, _⟩ :=
    sample_init_spec realBackend 44100 (fresh ℝ) p0 hp0
  have hS0 : p0.Slen = 882 := by rw [hSl0]; decide
  have hn0 : p0.nFFT = 1764 := by omega
  have hcap0 : p0.noise_history_len = 200 := by
    unfold SavedParamsC.noise_history_len
    rw [hn0]
    decide
  obtain ⟨p, hp, hmu, hnf, hhl, hsums, hhold⟩ := silent_bootstrap_state realBackend
    realBackend_lawful 89082 44100 1 (fresh ℝ) 101 p0 hp0 (by rw [hS0]; decide)
    (by rw [hcap0]; decide)
  have hW := logmmse_sample_WF realBackend _ 44100 1 (fresh ℝ) 101 p hp
  have hN : p.nFFT = 1764 := by rw [hnf, hn0]
  have ha : (1200 : Int) ≤ p.nFFT := by rw [hN]; decide
  have hl : 100 < p.noise_history.length := by rw [hhl]; decide
  have hh : p.hold = false := by rw [hhold]; rfl
  have hmu1 : p.noise_mu2 = List.replicate 1764 0 := by rw [hmu, hn0]; rfl
  have hno : ∀ z, ¬ p.wide_selected z := by
    rintro z ⟨_, _, h3⟩
    apply h3
    rw [getD_wide_noiseAvg, hsums]
    have : (List.replicate p0.nFFT.toNat (0 : ℝ)).getD z 0 = 0 := by
      rw [List.getD_eq_getElem?_getD, List.getElem?_replicate]
      split <;> rfl
    rw [this, zero_div]
  obtain ⟨q, hq, _, _, hfall, _⟩ := wide_update_spec p hW ha hl hh
  have e : q.noise_mu2 = List.replicate 1764 0 := by rw [hfall hno, hmu1]
  refine ⟨p, q, hp, ha, hl, hh, hno, hq, e, ?_, ?_⟩
  · rw [e, List.length_replicate]
  · intro v hv
    rw [e] at hv
    exact List.eq_of_mem_replicate hv

/-- C29: a triggered wide-regime update preserves strict positivity of the floor: if every entry
of `noise_mu2` is strictly positive before `update_noise_mu2`, then the update returns and every
entry of `noise_mu2` is strictly positive after it, in exact arithmetic (whatever the history
magnitudes, so also for non-negative ones). -/
theorem wide_update_keeps_floor_positive (p : SavedParamsC α) (h : p.WF) (ha : 1200 ≤ p.nFFT)
    (hn : 100 < p.noise_history.length) (hh : p.hold = false)
    (hpos : ∀ v ∈ p.noise_mu2, 0 < v) :
    ∃ q, p.update_noise_mu2 = some q ∧ (q.noise_mu2.length : Int) = p.nFFT ∧
      ∀ v ∈ q.noise_mu2, 0 < v := by
  obtain ⟨q, hq, _, hl, _⟩ := wide_update_spec p h ha hn hh
  refine ⟨q, hq, by rw [hl]; omega, ?_⟩
  rw [update_due_wide p hn hh ha] at hq
  exact update_wide_pos p q (by omega) h.mu2_len hpos hq

/-- The statement of C29 on `burst_session`, whose floor is `1` in every bin before the
update. -/
theorem wide_update_keeps_floor_positive_witness :
    burst_session.WF ∧ (1200 : Int) ≤ burst_session.nFFT ∧
      100 < burst_session.noise_history.length ∧ burst_session.hold = false ∧
      (∀ v ∈ burst_session.noise_mu2, 0 < v) ∧
      ∃ q, burst_session.update_noise_mu2 = some q ∧
        (q.noise_mu2.length : Int) = burst_session.nFFT ∧ ∀ v ∈ q.noise_mu2, 0 < v := by
  obtain ⟨d1, d2, d3⟩ := flat_session_due 101 1
  have hpos : ∀ v ∈ burst_session.noise_mu2, 0 < v := by
    intro v hv
    have hv1 : v ∈ List.replicate 1764 (1 : ℚ) := hv
    rw [List.eq_of_mem_replicate hv1]
    exact one_pos
  exact ⟨flat_session_WF 101 1, d1, d2, d3, hpos,
    wide_update_keeps_floor_positive burst_session (flat_session_WF 101 1) d1 d2 d3 hpos⟩

/-- C21, as amended: in a wide-regime update, every bin `z` with
`|z - nFFT / 2| < floor(15 * nFFT / 100)` has its squared deviation replaced by `1000000`, and
whenever the threshold `theta` is at most `1000000`, bin `z` is not selected as quiet:
`noise_mu2[z]` is not assigned from `meanMag[z]^2`, every selected bin lies outside the masked
band, and the final value of bin `z` is the previous floor on fallback, and otherwise the
interpolation between the two neighbouring selected bins or the value of the first or of the
last selected bin. -/
theorem masked_bin_is_filled (p : SavedParamsC α) (h : p.WF) (ha : 1200 ≤ p.nFFT)
    (hn : 100 < p.noise_history.length) (hh : p.hold = false)
    (ht : p.acceptible_stdev ≤ 1000000) (z : Nat) (hz : z < p.nFFT.toNat)
    (hm : |((z : Int) - p.nFFT / 2)| < p.nFFT * 15 / 100) :
    p.wide_devs.getD z 0 = 1000000 ∧ ¬ p.wide_selected z ∧ p.wide_select.getD z 0 = 0 ∧
      (∀ j : Nat, p.wide_selected j → ¬ |((j : Int) - p.nFFT / 2)| < p.nFFT * 15 / 100) ∧
      ∃ q, p.update_noise_mu2 = some q ∧
        ((∀ j, ¬ p.wide_selected j) → q.noise_mu2 = p.noise_mu2) ∧
        ((∃ j, p.wide_selected j) →
          (∃ a1 b1 : Nat, a1 < z ∧ z < b1 ∧ p.wide_selected a1 ∧ p.wide_selected b1 ∧
            (∀ j, a1 < j → j < b1 → ¬ p.wide_selected j) ∧
            q.noise_mu2.getD z 0 = q.noise_mu2.getD a1 0
              + ((z : α) - (a1 : α)) * (q.noise_mu2.getD b1 0 - q.noise_mu2.getD a1 0)
                / ((b1 : α) - (a1 : α))) ∨
          (∃ a : Nat, z < a ∧ p.wide_selected a ∧ (∀ j, j < a → ¬ p.wide_selected j) ∧
            q.noise_mu2.getD z 0 = q.noise_mu2.getD a 0) ∨
          (∃ b : Nat, b < z ∧ p.wide_selected b ∧ (∀ j, b < j → ¬ p.wide_selected j) ∧
            q.noise_mu2.getD z 0 = q.noise_mu2.getD b 0)) := by
  have h0 : 0 ≤ p.nFFT := by omega
  have hd3 := le_of_eq h.devs_len.symm
  have hout : ∀ j : Nat, p.wide_selected j → ¬ |((j : Int) - p.nFFT / 2)| < p.nFFT * 15 / 100 := by
    intro j hj hc
    have := hj.2.1
    rw [wide_masked_value p h0 hd3 j hj.1 hc] at this
    exact absurd (lt_of_lt_of_le this ht) (lt_irrefl _)
  have hnz : ¬ p.wide_selected z := fun hc => hout z hc hm
  obtain ⟨q, hq, _, _, hno, hyes⟩ := wide_update_spec p h ha hn hh
  refine ⟨wide_masked_value p h0 hd3 z hz hm, hnz,
    wide_select_of_not_selected p h0 h.mu2_len z hnz, hout, q, hq, hno, ?_⟩
  intro hs
  obtain ⟨a, b, hab, hb, hSa, hSb, hza, hzb, _, hlow, hhigh, hgap⟩ := hyes hs
  rcases Nat.lt_or_ge z a with h1 | h1
  · exact Or.inr (Or.inl ⟨a, h1, hSa, hza, hlow z h1⟩)
  · rcases Nat.lt_or_ge b z with h2 | h2
    · exact Or.inr (Or.inr ⟨b, h2, hSb, hzb, hhigh z h2 hz⟩)
    · have hza1 : a < z := by
        rcases Nat.lt_or_ge a z with h3 | h3
        · exact h3
        · have : z = a := by omega
          rw [this] at hnz
          exact absurd hSa hnz
      have hzb1 : z < b := by
        rcases Nat.lt_or_ge z b with h3 | h3
        · exact h3
        · have : z = b := by omega
          rw [this] at hnz
          exact absurd hSb hnz
      obtain ⟨a1, e1, e2, e3⟩ := nearest_below p.wide_selected z ⟨a, hza1, hSa⟩
      obtain ⟨b1, f1, f2, f3⟩ := nearest_above p.wide_selected z (b - z) b (by omega) hzb1 hSb
      refine Or.inl ⟨a1, b1, e1, f1, e2, f2, ?_, hgap a1 b1 z e1 f1 e2 f2 ?_⟩
      · intro j h5 h6
        rcases Nat.lt_trichotomy j z with h7 | h7 | h7
        · exact e3 j h5 h7
        · rw [h7]; exact hnz
        · exact f3 j h7 h6
      · intro j h5 h6
        rcases Nat.lt_trichotomy j z with h7 | h7 | h7
        · exact e3 j h5 h7
        · rw [h7]; exact hnz
        · exact f3 j h7 h6

/-- The statement of the amended C21 on `burst_session` (`nFFT = 1764`, threshold
`1.2 * (10000 / 101)^2`) and the centre bin 882. -/
theorem masked_bin_is_filled_witness :
    burst_session.WF ∧ (1200 : Int) ≤ burst_session.nFFT ∧
      100 < burst_session.noise_history.length ∧ burst_session.hold = false ∧
      burst_session.acceptible_stdev ≤ 1000000 ∧ 882 < burst_session.nFFT.toNat ∧
      |(((882 : Nat) : Int) - burst_session.nFFT / 2)| < burst_session.nFFT * 15 / 100 ∧
      burst_session.wide_devs.getD 882 0 = 1000000 ∧ ¬ burst_session.wide_selected 882 ∧
      (∃ j, burst_session.wide_selected j) := by
  obtain ⟨d1, d2, d3⟩ := flat_session_due 101 1
  have ht : burst_session.acceptible_stdev ≤ 1000000 := by
    have := flat_theta 101 1 (by norm_num)
    rw [burst_session, this]
    norm_num
  have hz : 882 < burst_session.nFFT.toNat := by
    show 882 < (1764 : Int).toNat
    decide
  have hm : |(((882 : Nat) : Int) - burst_session.nFFT / 2)| < burst_session.nFFT * 15 / 100 := by
    show |(((882 : Nat) : Int) - (1764 : Int) / 2)| < (1764 : Int) * 15 / 100
    decide
  obtain ⟨r1, r2, _⟩ := masked_bin_is_filled burst_session (flat_session_WF 101 1) d1 d2 d3 ht
    882 hz hm
  exact ⟨flat_session_WF 101 1, d1, d2, d3, ht, hz, hm, r1, r2,
    ⟨0, (flat_selected 101 1 (by norm_num) (by norm_num) 0).2 ⟨by decide, by omega⟩⟩⟩

/-- C21 fails as stated: on `burst_session` (`nFFT = 1764`, as at `Srate = 44100`) the bin
`z = 1146` has `|z - nFFT / 2| = 264 < 0.15 * nFFT = 264.6`, but the code masks only the bins
with `|z - 882| < 1764 * 15 / 100 = 264`: the bin keeps its squared deviation, is selected as
quiet (the threshold is below `1000000`) and `noise_mu2[1146]` is assigned `meanMag[1146]^2 = 1`
directly. -/
theorem band_edge_bin_is_selected :
    (1200 : Int) ≤ burst_session.nFFT ∧ 100 < burst_session.noise_history.length ∧
      burst_session.hold = false ∧ burst_session.nFFT = 1764 ∧
      |((1146 : ℚ) - 1764 / 2)| < 15 / 100 * 1764 ∧
      burst_session.acceptible_stdev ≤ 1000000 ∧
      burst_session.wide_devs.getD 1146 0 < burst_session.acceptible_stdev ∧
      burst_session.wide_noiseAvg.getD 1146 0 = 1 ∧
      burst_session.wide_select.getD 1146 0 = burst_session.wide_noiseAvg.getD 1146 0 ^ 2 ∧
      ∃ q, burst_session.update_noise_mu2 = some q ∧
        q.noise_mu2.getD 1146 0 = burst_session.wide_noiseAvg.getD 1146 0 ^ 2 := by
  obtain ⟨d1, d2, d3⟩ := flat_session_due 101 1
  have hW := flat_session_WF 101 1
  have ht : burst_session.acceptible_stdev ≤ 1000000 := by
    have := flat_theta 101 1 (by norm_num)
    rw [burst_session, this]
    norm_num
  have hsel : burst_session.wide_selected 1146 :=
    (flat_selected 101 1 (by norm_num) (by norm_num) 1146).2 ⟨by decide, by omega⟩
  have havg : burst_session.wide_noiseAvg.getD 1146 0 = 1 := by
    rw [burst_session, flat_noiseAvg 101 1 1146 (by decide)]
    norm_num
  obtain ⟨q, hq, _, _, _, hyes⟩ := wide_update_spec burst_session hW d1 d2 d3
  obtain ⟨_, _, _, _, _, _, _, _, hval, _⟩ := hyes ⟨1146, hsel⟩
  have h0 : (0 : Int) ≤ burst_session.nFFT := by omega
  have hN : burst_session.nFFT = 1764 := rfl
  have hband : |((1146 : ℚ) - 1764 / 2)| < 15 / 100 * 1764 := by
    rw [abs_lt]
    constructor <;> norm_num
  have hdirect := wide_select_of_selected burst_session h0 hW.mu2_len 1146 hsel
  have hfinal := hval 1146 hsel
  have t1 : burst_session.wide_devs.getD 1146 0 < burst_session.acceptible_stdev := hsel.2.1
  have t2 : burst_session.wide_select.getD 1146 0
      = burst_session.wide_noiseAvg.getD 1146 0 ^ 2 := by
    rw [hdirect]
  have t3 : q.noise_mu2.getD 1146 0 = burst_session.wide_noiseAvg.getD 1146 0 ^ 2 := by
    rw [hfinal]
  exact ⟨d1, d2, d3, hN, hband, ht, t1, havg, t2, q, hq, t3⟩

/-- The mask value `1000000` of the wide regime is a finite number: on `loud_session`, whose
squared deviation is `(10^10 / 101)^2` in every bin outside the masked centre, the threshold is
at least `1200000`, so the masked centre bin 882 (squared deviation `1000000`) is selected as
quiet and `noise_mu2[882]` is assigned `meanMag[882]^2` directly. -/
theorem loud_history_selects_centre_bin :
    (1200 : Int) ≤ loud_session.nFFT ∧ 100 < loud_session.noise_history.length ∧
      loud_session.hold = false ∧
      |(((882 : Nat) : Int) - loud_session.nFFT / 2)| < loud_session.nFFT * 15 / 100 ∧
      loud_session.wide_devs.getD 882 0 = 1000000 ∧
      1200000 ≤ loud_session.acceptible_stdev ∧ loud_session.wide_selected 882 ∧
      ∃ q, loud_session.update_noise_mu2 = some q ∧
        q.noise_mu2.getD 882 0 = loud_session.wide_noiseAvg.getD 882 0 ^ 2 := by
  unfold loud_session
  obtain ⟨d1, d2, d3⟩ := flat_session_due 101000 1
  have hW := flat_session_WF 101000 1
  have h0 : (0 : Int) ≤ (flat_session 101000 1).nFFT := by omega
  have hm : |(((882 : Nat) : Int) - (flat_session 101000 1).nFFT / 2)|
      < (flat_session 101000 1).nFFT * 15 / 100 := by
    show |(((882 : Nat) : Int) - (1764 : Int) / 2)| < (1764 : Int) * 15 / 100
    decide
  have hdev : (flat_session 101000 1).wide_devs.getD 882 0 = 1000000 := by
    rw [flat_devs 101000 1 882 (by decide), if_pos (by omega)]
  have hth := flat_theta_loud 101000 1 (by norm_num)
  have havg : (flat_session 101000 1).wide_noiseAvg.getD 882 0 ≠ 0 := by
    rw [flat_noiseAvg 101000 1 882 (by decide)]
    norm_num
  have hsel : (flat_session 101000 1).wide_selected 882 :=
    ⟨by show 882 < (1764 : Int).toNat; decide, by rw [hdev]; linarith, havg⟩
  obtain ⟨q, hq, _, _, _, hyes⟩ := wide_update_spec (flat_session 101000 1) hW d1 d2 d3
  obtain ⟨_, _, _, _, _, _, _, _, hval, _⟩ := hyes ⟨882, hsel⟩
  have hfinal := hval 882 hsel
  have t3 : q.noise_mu2.getD 882 0 = (flat_session 101000 1).wide_noiseAvg.getD 882 0 ^ 2 := by
    rw [hfinal]
  have t1 : (flat_session 101000 1).wide_devs.getD 882 0 = 1000000 := by rw [hdev]
  exact ⟨d1, d2, d3, hm, t1, hth, hsel, q, hq, t3⟩

end logmmse

end dsp
